import Mathlib

/-! # Logit QRE homotopy tracer (`nfglogit.cc`)

A shallow embedding of `src/sources/tools/logit/nfglogit.cc`: the linear-algebra kernel, the model
equations, the path tracer and the driver.

* Scalars: the C++ `double` is embedded as an arbitrary linearly ordered field `α`, with the
  library functions `sqrt`, `exp`, `log` passed in as parameters.  Every definition is therefore
  an ordinary computable function (it can be run over `ℚ`), and every theorem is stated for
  `α = ℝ` with `Real.sqrt`, `Real.exp`, `Real.log`, that is, in exact real arithmetic.
* Indices are 1-based, exactly as in the source.  Vectors and matrices are total functions on
  `Nat` together with their dimensions; only the in-range entries are meaningful.
* `for (k = lo; k <= hi; k++)` loops are embedded with `forLoop`, mutable locals are threaded
  through the loop state, and reference parameters are returned as extra results.
* `while` loops that need not end take a bound on their number of iterations and return `none`
  when it is reached.
* Division is the total division of a field (`a / 0 = 0`), where the program would produce an
  infinity or a NaN.  Theorems whose conclusion rests on the value of a quotient computed by the
  program (the forward substitution of `NewtonStep`, the step update of `TracePath`) establish,
  or assume, that its divisor is not zero; theorems that restate a quotient as a formula leave
  it as it is.
-/

namespace Gambit

/-! ## Loops, vectors and matrices -/

/-- Auxiliary for `forLoop`: run `body k`, `body (k+1)`, ... for `n` consecutive indices. -/
def forLoopAux {σ : Type} (body : Nat → σ → σ) : Nat → Nat → σ → σ
  | 0, _, s => s
  | n + 1, k, s => forLoopAux body n (k + 1) (body k s)

/-- The C++ loop `for (int k = lo; k <= hi; k++) { s = body k s; }`. -/
def forLoop {σ : Type} (lo hi : Nat) (body : Nat → σ → σ) (s : σ) : σ :=
  forLoopAux body (hi + 1 - lo) lo s

/-- A `gbtVector<double>` / `gbtArray<T>`: its length and its entries, indexed from 1. -/
structure GVector (α : Type) where
  Length : Nat
  entry : Nat → α

/-- The assignment `v[i] = a`. -/
def GVector.set {α : Type} (v : GVector α) (i : Nat) (a : α) : GVector α :=
  { v with entry := fun i' => if i' = i then a else v.entry i' }

/-- The scalar assignment `v = a` of `gbtVector`, which overwrites every entry. -/
def GVector.fill {α : Type} (v : GVector α) (a : α) : GVector α :=
  { v with entry := fun _ => a }

/-- A `Gambit::Matrix<double>`: its dimensions and its entries `m(i, j)`, indexed from 1. -/
structure GMatrix (α : Type) where
  NumRows : Nat
  NumColumns : Nat
  entry : Nat → Nat → α

/-- The assignment `m(i, j) = a`. -/
def GMatrix.set {α : Type} (m : GMatrix α) (i j : Nat) (a : α) : GMatrix α :=
  { m with entry := fun i' j' => if i' = i ∧ j' = j then a else m.entry i' j' }

/-- The scalar assignment `m = a` of `Gambit::Matrix`, which overwrites every entry. -/
def GMatrix.fill {α : Type} (m : GMatrix α) (a : α) : GMatrix α :=
  { m with entry := fun _ _ => a }

/-- The call `q.GetRow(i, t)`: copy row `i` of `q` into the vector `t`. -/
def GMatrix.GetRow {α : Type} (q : GMatrix α) (i : Nat) (t : GVector α) : GVector α :=
  { t with entry := fun k => q.entry i k }

section Kernel

variable {α : Type} [LinearOrderedField α]

/-- Modelled from the spec: `SquareMatrix::MakeIdent` of libgambit is not part of the sources;
the spec says that Q is initialised to the identity of its order. -/
def GMatrix.MakeIdent (q : GMatrix α) : GMatrix α :=
  { q with entry := fun i j => if i = j then 1 else 0 }

/-- The helper `sqr(x) = x*x` (line 47). -/
def sqr (x : α) : α := x * x

/-- The routine `Givens(b, q, c1, c2, l1, l2, l3)` (lines 49-82).  The reference parameters `c1`
and `c2` are passed by value and their final values are returned as the third and fourth
results; the caller stores them back into the cells they refer to.  (The routine reads `c1`,
`c2` only before its loops and writes them only after, so this agrees with the reference
semantics whenever the loops do not write the referenced cells.) -/
def Givens (sqrt : α → α) (b q : GMatrix α) (c1 c2 : α) (l1 l2 l3 : Nat) :
    GMatrix α × GMatrix α × α × α :=
  if |c1| + |c2| = 0 then (b, q, c1, c2)
  else
    let sn : α :=
      if |c2| ≥ |c1| then sqrt (1 + sqr (c1 / c2)) * |c2|
      else sqrt (1 + sqr (c2 / c1)) * |c1|
    let s1 := c1 / sn
    let s2 := c2 / sn
    let q := forLoop 1 q.NumColumns (fun k q =>
      let sv1 := q.entry l1 k
      let sv2 := q.entry l2 k
      let q := q.set l1 k (s1 * sv1 + s2 * sv2)
      q.set l2 k (-s2 * sv1 + s1 * sv2)) q
    let b := forLoop l3 b.NumColumns (fun k b =>
      let sv1 := b.entry l1 k
      let sv2 := b.entry l2 k
      let b := b.set l1 k (s1 * sv1 + s2 * sv2)
      b.set l2 k (-s2 * sv1 + s1 * sv2)) b
    (b, q, sn, 0)

/-- One iteration of the inner loop of `QRDecomp` (line 89):
`Givens(b, q, b(m, m), b(k, m), m, k, m + 1)`, with the two reference arguments written back. -/
def QRDecompStep (sqrt : α → α) (m k : Nat) (st : GMatrix α × GMatrix α) :
    GMatrix α × GMatrix α :=
  let r := Givens sqrt st.1 st.2 (st.1.entry m m) (st.1.entry k m) m k (m + 1)
  ((r.1.set m m r.2.2.1).set k m r.2.2.2, r.2.1)

/-- The routine `QRDecomp(b, q)` (lines 84-92); returns the final `(b, q)`. -/
def QRDecomp (sqrt : α → α) (b q : GMatrix α) : GMatrix α × GMatrix α :=
  let q := q.MakeIdent
  forLoop 1 b.NumColumns (fun m st =>
    forLoop (m + 1) st.1.NumRows (fun k st => QRDecompStep sqrt m k st) st) (b, q)

/-- The first loop nest of `NewtonStep` (lines 98-103): the substitution that overwrites `y`. -/
def NewtonSolve (b : GMatrix α) (y : GVector α) : GVector α :=
  forLoop 1 b.NumColumns (fun k y =>
    let y := forLoop 1 (k - 1) (fun l y => y.set k (y.entry k - b.entry l k * y.entry l)) y
    y.set k (y.entry k / b.entry k k)) y

/-- The local `s` of `NewtonStep` for a given `k` (lines 107-110). -/
def NewtonCorrection (q b : GMatrix α) (y : GVector α) (k : Nat) : α :=
  forLoop 1 b.NumColumns (fun l s => s + q.entry l k * y.entry l) 0

/-- The routine `NewtonStep(q, b, u, y, d)` (lines 94-115); returns the final `(u, y, d)`. -/
def NewtonStep (sqrt : α → α) (q b : GMatrix α) (u y : GVector α) :
    GVector α × GVector α × α :=
  let y := NewtonSolve b y
  let r := forLoop 1 b.NumRows (fun k (st : GVector α × α) =>
    let s := NewtonCorrection q b y k
    (st.1.set k (st.1.entry k - s), st.2 + s * s)) (u, 0)
  (r.1, y, sqrt r.2)

end Kernel

/-! ## The game interface and the model equations -/

/-- Modelled from the spec: the game and mixed-profile classes of libgambit
(`gbtNfgSupport`, `Gambit::Game`, `Gambit::MixedStrategyProfile`) are not part of the sources.
Following the spec, a game is an opaque object exposing the number of players, the number of
strategies of each player (players and strategies indexed from 1), the expected-payoff oracle
`profile.GetPayoff(pl, pl, st)` and the second-order oracle `profile.GetPayoff(i, i, j, ell, m)`;
both oracles receive the flat profile as their first argument here. -/
structure Game (α : Type) where
  NumPlayers : Nat
  NumStrategies : Nat → Nat
  GetPayoff : (Nat → α) → Nat → Nat → Nat → α
  GetPayoffDeriv : (Nat → α) → Nat → Nat → Nat → Nat → Nat → α

/-- Modelled from the spec: the profile is stored as a flat vector in player-major order, so the
block of player `pl` starts after the strategies of players `1 .. pl - 1`. -/
def Game.offset {α : Type} (g : Game α) (pl : Nat) : Nat :=
  ∑ p ∈ Finset.Icc 1 (pl - 1), g.NumStrategies p

/-- Modelled from the spec: the flat index of `profile(pl, st)` in player-major order. -/
def Game.index {α : Type} (g : Game α) (pl st : Nat) : Nat := g.offset pl + st

/-- Modelled from the spec: `MixedProfileLength()` / `profile.Length()`, the total number `L`
of strategies. -/
def Game.MixedProfileLength {α : Type} (g : Game α) : Nat :=
  ∑ p ∈ Finset.Icc 1 g.NumPlayers, g.NumStrategies p

/-- Modelled from the spec: the constructor `MixedStrategyProfile<double> start(nfg)` of
libgambit is not part of the sources; the spec says that the initial profile is the centroid,
`sigma(i, s) = 1/m_i`.  The flat entries are filled in player-major order. -/
def Game.centroid {α : Type} [LinearOrderedField α] (g : Game α) : Nat → α :=
  (forLoop 1 g.NumPlayers (fun pl (st : Nat × (Nat → α)) =>
    forLoop 1 (g.NumStrategies pl) (fun _ (st : Nat × (Nat → α)) =>
      (st.1 + 1, Function.update st.2 (st.1 + 1) (1 / (g.NumStrategies pl : α)))) st)
    (0, fun _ => 0)).2

/-- The reconstruction of `profile` and `logprofile` from the point, shared verbatim by `QreLHS`
(lines 123-133) and `QreJacobian` (lines 165-175).  The two profile objects are represented by
their flat entries; entries outside `1 .. L` do not exist in the source and are `0` here. -/
def QreProfiles {α : Type} [LinearOrderedField α] (exp log : α → α) (g : Game α)
    (p_point : GVector α) (p_isLog : GVector Bool) :
    (Nat → α) × (Nat → α) :=
  forLoop 1 g.MixedProfileLength (fun i st =>
    if p_isLog.entry i then
      (Function.update st.1 i (exp (p_point.entry i)), Function.update st.2 i (p_point.entry i))
    else
      (Function.update st.1 i (p_point.entry i), Function.update st.2 i (log (p_point.entry i))))
    (fun _ => 0, fun _ => 0)

/-- The routine `QreLHS(p_support, p_point, p_isLog, p_lhs)` (lines 118-158); returns the final
`p_lhs`.  The loop state `acc` is `(rowno, p_lhs)`. -/
def QreLHS {α : Type} [LinearOrderedField α] (exp log : α → α) (g : Game α)
    (p_point : GVector α) (p_isLog : GVector Bool) (p_lhs : GVector α) : GVector α :=
  let pr := QreProfiles exp log g p_point p_isLog
  let profile := pr.1
  let logprofile := pr.2
  let lambda := p_point.entry p_point.Length
  let p_lhs := p_lhs.fill 0
  (forLoop 1 g.NumPlayers (fun pl acc =>
    forLoop 1 (g.NumStrategies pl) (fun st acc =>
      let rowno := acc.1 + 1
      let p_lhs := acc.2
      let p_lhs :=
        if st = 1 then
          let p_lhs := p_lhs.set rowno (-1)
          forLoop 1 (g.NumStrategies pl) (fun j p_lhs =>
            p_lhs.set rowno (p_lhs.entry rowno + profile (g.index pl j))) p_lhs
        else
          p_lhs.set rowno (logprofile (g.index pl st) - logprofile (g.index pl 1) -
            lambda * (g.GetPayoff profile pl pl st - g.GetPayoff profile pl pl 1))
      (rowno, p_lhs)) acc) (0, p_lhs)).2

/-- The routine `QreJacobian(p_support, p_point, p_isLog, p_matrix)` (lines 160-255); returns the
final `p_matrix`.  The outer loop state `acc` is `(rowno, p_matrix)`, the inner one `acc2` is
`(colno, p_matrix)`. -/
def QreJacobian {α : Type} [LinearOrderedField α] (exp log : α → α) (g : Game α)
    (p_point : GVector α) (p_isLog : GVector Bool) (p_matrix : GMatrix α) : GMatrix α :=
  let pr := QreProfiles exp log g p_point p_isLog
  let profile := pr.1
  let logprofile := pr.2
  let lambda := p_point.entry p_point.Length
  let p_matrix := p_matrix.fill 0
  (forLoop 1 g.NumPlayers (fun i acc =>
    forLoop 1 (g.NumStrategies i) (fun j acc =>
      let rowno := acc.1 + 1
      let p_matrix := acc.2
      let p_matrix :=
        if j = 1 then
          let cs := forLoop 1 g.NumPlayers (fun ell acc2 =>
            forLoop 1 (g.NumStrategies ell) (fun m acc2 =>
              let colno := acc2.1 + 1
              let p_matrix := acc2.2
              let p_matrix :=
                if i = ell then
                  p_matrix.set colno rowno
                    (if p_isLog.entry colno then profile (g.index ell m) else 1)
                else
                  p_matrix.set colno rowno 0
              (colno, p_matrix)) acc2) (0, p_matrix)
          cs.2.set cs.2.NumRows rowno 0
        else
          let cs := forLoop 1 g.NumPlayers (fun ell acc2 =>
            forLoop 1 (g.NumStrategies ell) (fun m acc2 =>
              let colno := acc2.1 + 1
              let p_matrix := acc2.2
              let p_matrix :=
                if i = ell then
                  if m = 1 then
                    p_matrix.set colno rowno
                      (if p_isLog.entry colno then -1 else -1 / profile (g.index ell m))
                  else if m = j then
                    p_matrix.set colno rowno
                      (if p_isLog.entry colno then 1 else 1 / profile (g.index ell m))
                  else
                    p_matrix.set colno rowno 0
                else
                  if p_isLog.entry colno then
                    p_matrix.set colno rowno
                      (-lambda * profile (g.index ell m) * logprofile (g.index ell m) *
                        (g.GetPayoffDeriv profile i i j ell m -
                          g.GetPayoffDeriv profile i i 1 ell m))
                  else
                    p_matrix.set colno rowno
                      (-lambda * (g.GetPayoffDeriv profile i i j ell m -
                        g.GetPayoffDeriv profile i i 1 ell m))
              (colno, p_matrix)) acc2) (0, p_matrix)
          cs.2.set cs.2.NumRows rowno
            (g.GetPayoff profile i i 1 - g.GetPayoff profile i i j)
      (rowno, p_matrix)) acc) (0, p_matrix)).2

/-! ## Likelihood and output records -/

/-- The process-wide settings of `nfglogit.cc` that `TracePath` and `PrintProfile` read:
`g_maxLike`, `g_obsProbs` (lines 260-261), `g_maxDecel`, `g_hStart`, `g_fullGraph`
(lines 361-363).  (`g_numDecimals` only affects number formatting, which is not modelled.) -/
structure Globals (α : Type) where
  g_maxLike : Bool
  g_obsProbs : GVector α
  g_maxDecel : α
  g_hStart : α
  g_fullGraph : Bool

/-- One comma-separated field of an output record: a number, or the literal `NE`. -/
inductive Field (α : Type) where
  | num : α → Field α
  | NE : Field α

/-- The function `LogLike(p_point)` (lines 263-272). -/
def LogLike {α : Type} [LinearOrderedField α] (log : α → α) (g_obsProbs : GVector α)
    (p_point : GVector α) : α :=
  forLoop 1 g_obsProbs.Length (fun i ret => ret + g_obsProbs.entry i * log (p_point.entry i)) 0

/-- The function `DiffLogLike(p_point, p_isLog, p_tangent)` (lines 274-290). -/
def DiffLogLike {α : Type} [LinearOrderedField α] (g_obsProbs : GVector α)
    (p_point : GVector α) (p_isLog : GVector Bool) (p_tangent : GVector α) : α :=
  forLoop 1 g_obsProbs.Length (fun i ret =>
    if p_isLog.entry i then
      ret + g_obsProbs.entry i * p_tangent.entry i
    else
      ret + g_obsProbs.entry i * p_tangent.entry i / p_point.entry i) 0

/-- The routine `PrintProfile(p_stream, p_support, x, p_isLog, p_terminal)` (lines 295-336);
returns the line it writes, as the list of its comma-separated fields (fixed-point formatting
is not modelled: a field holds the exact number). -/
def PrintProfile {α : Type} [LinearOrderedField α] (exp log : α → α) (cfg : Globals α)
    (g : Game α) (x : GVector α) (p_isLog : GVector Bool) (p_terminal : Bool) :
    List (Field α) :=
  let line : List (Field α) :=
    if ¬ p_terminal then [Field.num (x.entry x.Length)] else [Field.NE]
  let line := forLoop 1 (x.Length - 1) (fun i line =>
    if p_isLog.entry i then
      line ++ [Field.num (exp (x.entry i))]
    else
      line ++ [Field.num (x.entry i)]) line
  if cfg.g_maxLike then
    let profile := forLoop 1 g.MixedProfileLength (fun i (profile : GVector α) =>
      if p_isLog.entry i then
        profile.set i (exp (x.entry i))
      else
        profile.set i (x.entry i)) ⟨g.MixedProfileLength, fun _ => 0⟩
    line ++ [Field.num (LogLike log cfg.g_obsProbs profile)]
  else
    line

/-! ## The path tracer `TracePath` -/

/-- Modelled from the spec: `gmax` of libgambit is not part of the sources; the spec reads
`decel <- max(decel, ...)`. -/
def gmax {α : Type} [LinearOrderedField α] (a b : α) : α := if a > b then a else b

/-- Modelled from the spec: the dot product `t * newT` of `gbtVector` (libgambit) is not part of
the sources; the spec reads `t . t_new`. -/
def GVector.dot {α : Type} [LinearOrderedField α] (v w : GVector α) : α :=
  forLoop 1 v.Length (fun k s => s + v.entry k * w.entry k) 0

/-- The constants of `TracePath` (lines 368-374 and the cutoff `.001` of lines 380, 553, 558),
read as exact decimal fractions. -/
def c_tol {α : Type} [LinearOrderedField α] : α := 1 / 10000

/-- The constant `c_maxDist = 0.4`: maximal distance to curve. -/
def c_maxDist {α : Type} [LinearOrderedField α] : α := 4 / 10

/-- The constant `c_maxContr = 0.6`: maximal contraction rate in corrector. -/
def c_maxContr {α : Type} [LinearOrderedField α] : α := 6 / 10

/-- The constant `c_eta = 0.1`: perturbation to avoid cancellation. -/
def c_eta {α : Type} [LinearOrderedField α] : α := 1 / 10

/-- The constant `c_hmin = 1.0e-5`: minimal stepsize. -/
def c_hmin {α : Type} [LinearOrderedField α] : α := 1 / 100000

/-- The cutoff `.001` below which a probability is represented by its logarithm. -/
def c_logCutoff {α : Type} [LinearOrderedField α] : α := 1 / 1000

/-- The local variables of `TracePath` that live across iterations of its main loop, together
with the lines written to `std::cout` so far (`out`, oldest first). -/
structure TraceState (α : Type) where
  x : GVector α
  u : GVector α
  h : α
  p_omega : α
  isLog : GVector Bool
  t : GVector α
  y : GVector α
  b : GMatrix α
  q : GMatrix α
  newton : Bool
  restarting : Bool
  pushX : GVector α
  pushH : α
  pushLog : GVector Bool
  out : List (List (Field α))

/-- How an iteration of the main loop of `TracePath` ends: by falling through or `continue`
(`next`), or by `return` (`ret`). -/
inductive Flow where
  | next : Flow
  | ret : Flow

/-- What the corrector loop (lines 448-476) leaves behind: `u`, `y`, `decel`, `accept`. -/
structure CorrectorResult (α : Type) where
  u : GVector α
  y : GVector α
  decel : α
  accept : Bool

/-- The corrector loop `while (true) { ... }` of `TracePath` (lines 450-476), started with the
given `u`, `y`, `decel`, `iter`, `disto`.  The first argument bounds the number of iterations;
`none` means the bound was reached before the loop exited. -/
def Corrector {α : Type} [LinearOrderedField α] (sqrt exp log : α → α) (cfg : Globals α)
    (g : Game α) (isLog : GVector Bool) (q b : GMatrix α) :
    Nat → GVector α → GVector α → α → Nat → α → Option (CorrectorResult α)
  | 0, _, _, _, _, _ => none
  | fuel + 1, u, y, decel, iter, disto =>
    let y := QreLHS exp log g u isLog y
    let r := NewtonStep sqrt q b u y
    let u := r.1
    let y := r.2.1
    let dist := r.2.2
    if dist ≥ c_maxDist then
      some ⟨u, y, decel, false⟩
    else
      let decel := gmax decel (sqrt (dist / c_maxDist) * cfg.g_maxDecel)
      if iter ≥ 2 ∧ dist / (disto + c_tol * c_eta) > c_maxContr then
        some ⟨u, y, decel, false⟩
      else
        let decel :=
          if iter ≥ 2 then
            gmax decel (sqrt (dist / (disto + c_tol * c_eta) / c_maxContr) * cfg.g_maxDecel)
          else decel
        if dist ≤ c_tol then
          some ⟨u, y, decel, true⟩
        else
          Corrector sqrt exp log cfg g isLog q b fuel u y decel (iter + 1) dist

/-- The two branch bodies of the coordinate switch (lines 554-555): `x[i] = log(x[i])`,
`isLog[i] = true`. -/
def SwitchToLog {α : Type} (log : α → α) (x : GVector α) (isLog : GVector Bool) (i : Nat) :
    GVector α × GVector Bool :=
  (x.set i (log (x.entry i)), isLog.set i true)

/-- The second branch body of the coordinate switch (lines 559-560): `x[i] = exp(x[i])`,
`isLog[i] = false`. -/
def SwitchToLinear {α : Type} (exp : α → α) (x : GVector α) (isLog : GVector Bool) (i : Nat) :
    GVector α × GVector Bool :=
  (x.set i (exp (x.entry i)), isLog.set i false)

/-- The coordinate-switching pass of `TracePath` (lines 550-563); returns the new `x`, `isLog`
and the flag `recompute`. -/
def SwitchCoordinates {α : Type} [LinearOrderedField α] (exp log : α → α) (x : GVector α)
    (isLog : GVector Bool) : GVector α × GVector Bool × Bool :=
  forLoop 1 (x.Length - 1) (fun i (st : GVector α × GVector Bool × Bool) =>
    if ¬ st.2.1.entry i ∧ st.1.entry i < c_logCutoff then
      ((SwitchToLog log st.1 st.2.1 i).1, (SwitchToLog log st.1 st.2.1 i).2, true)
    else if st.2.1.entry i ∧ exp (st.1.entry i) > c_logCutoff then
      ((SwitchToLinear exp st.1 st.2.1 i).1, (SwitchToLinear exp st.1 st.2.1 i).2, true)
    else st) (x, isLog, false)

/-- The predictor step of `TracePath` (lines 439-442): the final value of `u`. -/
def Predictor {α : Type} [LinearOrderedField α] (s : TraceState α) : GVector α :=
  forLoop 1 s.x.Length (fun k (u : GVector α) =>
    u.set k (s.x.entry k + s.h * s.p_omega * s.t.entry k)) s.u

/-- The "pop" of the saved MLE state, written twice in `TracePath` (lines 423-430 and 485-492,
the same assignments in a different order): restore `x`, `h`, `isLog`, recompute the Jacobian,
its factorisation and the tangent, clear `newton` and set `restarting`. -/
def TracePathPop {α : Type} [LinearOrderedField α] (sqrt exp log : α → α) (g : Game α)
    (s : TraceState α) : TraceState α :=
  let x := s.pushX
  let h := s.pushH
  let isLog := s.pushLog
  let b := QreJacobian exp log g x isLog s.b
  let r := QRDecomp sqrt b s.q
  let t := r.2.GetRow r.2.NumRows s.t
  { s with x := x, h := h, isLog := isLog, b := r.1, q := r.2, t := t,
           newton := false, restarting := true }

/-- The part of an iteration of the main loop of `TracePath` after an accepted corrector run
(lines 504-580), with `u`, `y`, `b`, `q` already stored in the state and `decel` as left by the
corrector. -/
def TracePathAccept {α : Type} [LinearOrderedField α] (sqrt exp log : α → α) (cfg : Globals α)
    (g : Game α) (s : TraceState α) (decel : α) : TraceState α :=
  let decel := if decel > cfg.g_maxDecel then cfg.g_maxDecel else decel
  let s :=
    if cfg.g_maxLike then
      let newT := s.q.GetRow s.q.NumRows s.t
      if ¬ s.restarting ∧
          DiffLogLike cfg.g_obsProbs s.x s.isLog s.t *
            DiffLogLike cfg.g_obsProbs s.u s.isLog newT < 0 then
        { s with pushX := s.x, pushH := s.h, pushLog := s.isLog, newton := true }
      else s
    else s
  let h :=
    if s.newton then
      let newT := s.q.GetRow s.q.NumRows s.t
      s.h * (-DiffLogLike cfg.g_obsProbs s.u s.isLog newT /
        (DiffLogLike cfg.g_obsProbs s.u s.isLog newT -
          DiffLogLike cfg.g_obsProbs s.x s.isLog s.t))
    else
      |s.h / decel|
  let restarting := false
  let x := s.u
  let out :=
    if cfg.g_fullGraph then s.out ++ [PrintProfile exp log cfg g x s.isLog false] else s.out
  let sw := SwitchCoordinates exp log x s.isLog
  let x := sw.1
  let isLog := sw.2.1
  let recompute := sw.2.2
  let bq :=
    if recompute then
      QRDecomp sqrt (QreJacobian exp log g x isLog s.b) s.q
    else (s.b, s.q)
  let newT := bq.2.GetRow bq.2.NumRows s.t
  let p_omega := if s.t.dot newT < 0 then -s.p_omega else s.p_omega
  { s with x := x, h := h, isLog := isLog, b := bq.1, q := bq.2, t := newT,
           p_omega := p_omega, restarting := restarting, out := out }

/-- One iteration of the main loop of `TracePath` (lines 416-581), entered with the loop guard
true.  `none` means that the corrector loop did not exit within `cfuel` iterations. -/
def TracePathBody {α : Type} [LinearOrderedField α] (sqrt exp log : α → α) (cfg : Globals α)
    (g : Game α) (cfuel : Nat) (s : TraceState α) : Option (TraceState α × Flow) :=
  if |s.h| ≤ c_hmin then
    if s.newton then
      some (TracePathPop sqrt exp log g s, Flow.next)
    else
      some (s, Flow.ret)
  else
    let u := Predictor s
    let decel := 1 / cfg.g_maxDecel
    let b := QreJacobian exp log g u s.isLog s.b
    let r := QRDecomp sqrt b s.q
    match Corrector sqrt exp log cfg g s.isLog r.2 r.1 cfuel u s.y decel 1 0 with
    | none => none
    | some c =>
      let s := { s with u := c.u, y := c.y, b := r.1, q := r.2 }
      if ¬ c.accept then
        let s := { s with h := s.h / cfg.g_maxDecel }
        if |s.h| ≤ c_hmin then
          if s.newton then
            some (TracePathPop sqrt exp log g s, Flow.next)
          else
            some (s, Flow.ret)
        else
          some (s, Flow.next)
      else
        some (TracePathAccept sqrt exp log cfg g s c.decel, Flow.next)

/-- The main loop `while (x[x.Length()] >= 0.0 && x[x.Length()] < p_maxLambda)` of `TracePath`
(lines 415-582).  The first argument bounds the number of iterations; the result is the state
on leaving the loop, with `Flow.next` when the guard failed and `Flow.ret` when the body
returned; `none` means that a bound was reached first. -/
def TracePathLoop {α : Type} [LinearOrderedField α] (sqrt exp log : α → α) (cfg : Globals α)
    (g : Game α) (p_maxLambda : α) (cfuel : Nat) :
    Nat → TraceState α → Option (TraceState α × Flow)
  | 0, _ => none
  | fuel + 1, s =>
    if s.x.entry s.x.Length ≥ 0 ∧ s.x.entry s.x.Length < p_maxLambda then
      match TracePathBody sqrt exp log cfg g cfuel s with
      | none => none
      | some (s, Flow.ret) => some (s, Flow.ret)
      | some (s, Flow.next) => TracePathLoop sqrt exp log cfg g p_maxLambda cfuel fuel s
    else
      some (s, Flow.next)

/-- The state of `TracePath` on reaching its main loop (lines 373-413).  The start profile is
given by its flat entries `p_start`; fresh vectors and matrices are zero-filled. -/
def TracePathInit {α : Type} [LinearOrderedField α] (sqrt exp log : α → α) (cfg : Globals α)
    (g : Game α) (p_start : Nat → α) (p_startLambda p_omega : α) : TraceState α :=
  let L := g.MixedProfileLength
  let h := cfg.g_hStart
  let newton := false
  let restarting := false
  let isLog := forLoop 1 L (fun i (isLog : GVector Bool) =>
    isLog.set i (decide (p_start i < c_logCutoff))) ⟨L, fun _ => false⟩
  let pushX : GVector α := ⟨L + 1, fun _ => 0⟩
  let pushH := h
  let pushLog : GVector Bool := ⟨L, fun _ => false⟩
  let x := forLoop 1 L (fun i (x : GVector α) =>
    if isLog.entry i then x.set i (log (p_start i)) else x.set i (p_start i))
    ⟨L + 1, fun _ => 0⟩
  let u : GVector α := ⟨L + 1, fun _ => 0⟩
  let x := x.set x.Length p_startLambda
  let out : List (List (Field α)) :=
    if cfg.g_fullGraph then [PrintProfile exp log cfg g x isLog false] else []
  let t : GVector α := ⟨L + 1, fun _ => 0⟩
  let y : GVector α := ⟨L, fun _ => 0⟩
  let b : GMatrix α := ⟨L + 1, L, fun _ _ => 0⟩
  let q : GMatrix α := ⟨L + 1, L + 1, fun _ _ => 0⟩
  let b := QreJacobian exp log g x isLog b
  let r := QRDecomp sqrt b q
  let t := r.2.GetRow r.2.NumRows t
  { x := x, u := u, h := h, p_omega := p_omega, isLog := isLog, t := t, y := y, b := r.1,
    q := r.2, newton := newton, restarting := restarting, pushX := pushX, pushH := pushH,
    pushLog := pushLog, out := out }

/-- The routine `TracePath(p_start, p_startLambda, p_maxLambda, p_omega)` (lines 365-587);
returns the final state, whose `out` holds every line written.  `fuel` bounds the iterations of
the main loop and `cfuel` those of each corrector loop; `none` means a bound was reached. -/
def TracePath {α : Type} [LinearOrderedField α] (sqrt exp log : α → α) (cfg : Globals α)
    (g : Game α) (fuel cfuel : Nat) (p_start : Nat → α) (p_startLambda p_maxLambda p_omega : α) :
    Option (TraceState α) :=
  match TracePathLoop sqrt exp log cfg g p_maxLambda cfuel fuel
      (TracePathInit sqrt exp log cfg g p_start p_startLambda p_omega) with
  | none => none
  | some (s, Flow.ret) => some s
  | some (s, Flow.next) =>
    if ¬ cfg.g_fullGraph then
      some { s with out := s.out ++ [PrintProfile exp log cfg g s.x s.isLog true] }
    else
      some s

/-! ## The driver `main` -/

/-- Modelled from the spec: the C++ stream library is not part of the sources.  An input stream
is an abstract state `σ` with the operations `ReadProfile` uses: the tests `eof()` and `bad()`,
the extractions `p_stream >> double` (which returns the new value of the target, given its old
one) and `p_stream >> char`, and `std::getline`. -/
structure IStream (σ α : Type) where
  eof : σ → Bool
  bad : σ → Bool
  readDouble : σ → α → σ × α
  readChar : σ → σ
  getline : σ → σ

/-- The function `ReadProfile(p_stream, p_profile)` (lines 617-634); returns its result together
with the final stream and `p_profile`.  The loop state carries a flag that records the early
`return false`, after which nothing more is done. -/
def ReadProfile {σ α : Type} (io : IStream σ α) (p_stream : σ) (p_profile : GVector α) :
    Bool × σ × GVector α :=
  let r := forLoop 1 p_profile.Length (fun i (st : Bool × σ × GVector α) =>
    if st.1 then st
    else if io.eof st.2.1 ∨ io.bad st.2.1 then (true, st.2.1, st.2.2)
    else
      let rd := io.readDouble st.2.1 (st.2.2.entry i)
      let p_profile := st.2.2.set i rd.2
      let p_stream := if i < p_profile.Length then io.readChar rd.1 else rd.1
      (false, p_stream, p_profile)) (false, p_stream, p_profile)
  if r.1 then (false, r.2.1, r.2.2)
  else (true, io.getline r.2.1, r.2.2)

/-- One command-line option as `getopt` reports it to `main` (line 645), with the argument
already converted by `atoi` / `atof`; `unknown` stands for the result `'?'`. -/
inductive Opt (α : Type) where
  | q : Opt α
  | d : Int → Opt α
  | s : α → Opt α
  | a : α → Opt α
  | m : α → Opt α
  | e : Opt α
  | h : Opt α
  | L : String → Opt α
  | unknown : Opt α

/-- The variables `main` sets while reading its options: its locals `quiet`, `maxLambda`,
`mleFile`, and the process-wide settings. -/
structure MainState (α : Type) where
  quiet : Bool
  maxLambda : α
  mleFile : String
  g_numDecimals : Int
  globals : Globals α

/-- The option loop of `main` (lines 645-682): `Except.error c` means that the process ended
there with exit code `c` (`-h` calls `PrintHelp`, which exits with 1; an unknown option returns
1). -/
def mainOptions {α : Type} : List (Opt α) → MainState α → Except Nat (MainState α)
  | [], st => Except.ok st
  | Opt.q :: rest, st => mainOptions rest { st with quiet := true }
  | Opt.d n :: rest, st => mainOptions rest { st with g_numDecimals := n }
  | Opt.s v :: rest, st => mainOptions rest { st with globals := { st.globals with g_hStart := v } }
  | Opt.a v :: rest, st =>
    mainOptions rest { st with globals := { st.globals with g_maxDecel := v } }
  | Opt.m v :: rest, st => mainOptions rest { st with maxLambda := v }
  | Opt.e :: rest, st =>
    mainOptions rest { st with globals := { st.globals with g_fullGraph := false } }
  | Opt.h :: _, _ => Except.error 1
  | Opt.L f :: rest, st => mainOptions rest { st with mleFile := f }
  | Opt.unknown :: _, _ => Except.error 1

/-- What a run of `main` amounts to: its exit code, the final value of `g_maxLike`, and the
final state of `TracePath` when it was called. -/
structure MainResult (α : Type) where
  exitCode : Nat
  maxLike : Bool
  trace : Option (TraceState α)

/-- The initial values of the variables of `main` and of the process-wide settings
(lines 260-261, 293, 361-363, 640-642). -/
def mainInit {α : Type} [LinearOrderedField α] : MainState α :=
  { quiet := false, maxLambda := 1000000, mleFile := "", g_numDecimals := 6,
    globals := { g_maxLike := false, g_obsProbs := ⟨0, fun _ => 0⟩, g_maxDecel := 11 / 10,
                 g_hStart := 3 / 100, g_fullGraph := true } }

/-- The function `main` (lines 636-715).  Its environment is given by the options as `getopt`
reports them, the outcome `ReadNfg` of parsing the game on standard input (`none` when
`Gambit::ReadNfg` throws) and the stream `openFile name` that `std::ifstream` yields for a file
name.  `none` means that `TracePath` reached an iteration bound; exceptions thrown by
`TracePath` are not modelled. -/
def main {σ α : Type} [LinearOrderedField α] (sqrt exp log : α → α) (io : IStream σ α)
    (opts : List (Opt α)) (ReadNfg : Option (Game α)) (openFile : String → σ)
    (fuel cfuel : Nat) : Option (MainResult α) :=
  match mainOptions opts mainInit with
  | Except.error c => some ⟨c, false, none⟩
  | Except.ok st =>
    match ReadNfg with
    | none => some ⟨1, st.globals.g_maxLike, none⟩
    | some nfg =>
      let globals :=
        if st.mleFile ≠ "" then
          let g_obsProbs : GVector α := ⟨nfg.MixedProfileLength, fun _ => 0⟩
          let r := ReadProfile io (openFile st.mleFile) g_obsProbs
          { st.globals with g_obsProbs := r.2.2, g_maxLike := true }
        else st.globals
      match TracePath sqrt exp log globals nfg fuel cfuel nfg.centroid 0 st.maxLambda 1 with
      | none => none
      | some s => some ⟨0, globals.g_maxLike, some s⟩

/-! ## Specification vocabulary

Closed forms and invariants used to state and prove the theorems; none of them is part of the
program. -/

/-- The represented probability `rho(x, I, k)`: `exp(x_k)` if `I[k]`, else `x_k`. -/
def rho {α : Type} (exp : α → α) (x : GVector α) (I : GVector Bool) (k : Nat) : α :=
  if I.entry k then exp (x.entry k) else x.entry k

/-- The represented log-probability: `x_k` if `I[k]`, else `log(x_k)`. -/
def logRho {α : Type} (log : α → α) (x : GVector α) (I : GVector Bool) (k : Nat) : α :=
  if I.entry k then x.entry k else log (x.entry k)

/-- The flat profile `sigma` represented by `(x, I)`, as handed to the payoff oracles. -/
def profileOf {α : Type} [Zero α] (exp : α → α) (g : Game α) (x : GVector α) (I : GVector Bool) :
    Nat → α :=
  fun k => if 1 ≤ k ∧ k ≤ g.MixedProfileLength then rho exp x I k else 0

/-- The flat log-profile represented by `(x, I)`. -/
def logProfileOf {α : Type} [Zero α] (log : α → α) (g : Game α) (x : GVector α)
    (I : GVector Bool) : Nat → α :=
  fun k => if 1 ≤ k ∧ k ≤ g.MixedProfileLength then logRho log x I k else 0

/-- The value `QreLHS` stores in the row of strategy `s` of player `pl`, with `sigma` and `ell`
the profile and log-profile represented by `(x, I)` and `lambda = x[x.Length()]`. -/
def QreLHSRow (exp log : ℝ → ℝ) (g : Game ℝ) (x : GVector ℝ) (I : GVector Bool)
    (pl s : Nat) : ℝ :=
  if s = 1 then
    -1 + ∑ j ∈ Finset.Icc 1 (g.NumStrategies pl), profileOf exp g x I (g.index pl j)
  else
    logProfileOf log g x I (g.index pl s) - logProfileOf log g x I (g.index pl 1) -
      x.entry x.Length * (g.GetPayoff (profileOf exp g x I) pl pl s -
        g.GetPayoff (profileOf exp g x I) pl pl 1)

/-- The value `QreJacobian` stores at `p_matrix(colno, rowno)` for the row of strategy `j` of
player `i` and the column of strategy `m` of player `ell`. -/
def QreJacobianEntry {α : Type} [LinearOrderedField α] (exp log : α → α) (g : Game α)
    (x : GVector α) (I : GVector Bool) (i j ell m : Nat) : α :=
  if j = 1 then
    if i = ell then
      (if I.entry (g.index ell m) then profileOf exp g x I (g.index ell m) else 1)
    else 0
  else if i = ell then
    if m = 1 then
      (if I.entry (g.index ell m) then -1 else -1 / profileOf exp g x I (g.index ell m))
    else if m = j then
      (if I.entry (g.index ell m) then 1 else 1 / profileOf exp g x I (g.index ell m))
    else 0
  else if I.entry (g.index ell m) then
    -x.entry x.Length * profileOf exp g x I (g.index ell m) *
      logProfileOf log g x I (g.index ell m) *
      (g.GetPayoffDeriv (profileOf exp g x I) i i j ell m -
        g.GetPayoffDeriv (profileOf exp g x I) i i 1 ell m)
  else
    -x.entry x.Length * (g.GetPayoffDeriv (profileOf exp g x I) i i j ell m -
      g.GetPayoffDeriv (profileOf exp g x I) i i 1 ell m)

/-- The value `QreJacobian` stores at `p_matrix(p_matrix.NumRows(), rowno)` for the row of
strategy `j` of player `i`. -/
def QreJacobianLambda {α : Type} [LinearOrderedField α] (exp : α → α) (g : Game α)
    (x : GVector α) (I : GVector Bool) (i j : Nat) : α :=
  if j = 1 then 0
  else g.GetPayoff (profileOf exp g x I) i i 1 - g.GetPayoff (profileOf exp g x I) i i j

/-- The magnitude `sn` computed by `Givens`. -/
def givensSn {α : Type} [LinearOrderedField α] (sqrt : α → α) (c1 c2 : α) : α :=
  if |c2| ≥ |c1| then sqrt (1 + sqr (c1 / c2)) * |c2|
  else sqrt (1 + sqr (c2 / c1)) * |c1|

/-- The column loop shared by both loops of `Givens`. -/
def rotLoop {α : Type} [LinearOrderedField α] (s1 s2 : α) (l1 l2 lo hi : Nat)
    (M : GMatrix α) : GMatrix α :=
  forLoop lo hi (fun k b =>
      let sv1 := b.entry l1 k
      let sv2 := b.entry l2 k
      let b := b.set l1 k (s1 * sv1 + s2 * sv2)
      b.set l2 k (-s2 * sv1 + s1 * sv2)) M

/-- Entry `(i, j)` after the plane rotation `(s1, s2)` of rows `l1`, `l2` restricted to the
columns `lo .. hi` (row `l2` is written last, as in the source). -/
def rotEntry {α : Type} [LinearOrderedField α] (s1 s2 : α) (l1 l2 lo hi : Nat)
    (e : Nat → Nat → α) (i j : Nat) : α :=
  if lo ≤ j ∧ j ≤ hi then
    (if i = l2 then -s2 * e l1 j + s1 * e l2 j
     else if i = l1 then s1 * e l1 j + s2 * e l2 j else e i j)
  else e i j

/-- Loop invariant of `QRDecomp` before the rotation of rows `m` and `k`. -/
def QRInv (A : Nat → Nat → ℝ) (n L m k : Nat) (st : GMatrix ℝ × GMatrix ℝ) : Prop :=
  st.1.NumRows = n ∧ st.1.NumColumns = L ∧ st.2.NumRows = n ∧ st.2.NumColumns = n ∧
  (∀ i j, 1 ≤ i → i ≤ n → 1 ≤ j → j ≤ L →
    ∑ c ∈ Finset.Icc 1 n, st.2.entry i c * A c j = st.1.entry i j) ∧
  (∀ i i2, 1 ≤ i → i ≤ n → 1 ≤ i2 → i2 ≤ n →
    ∑ c ∈ Finset.Icc 1 n, st.2.entry i c * st.2.entry i2 c = if i = i2 then 1 else 0) ∧
  (∀ i j, 1 ≤ j → j < i → i ≤ n → (j < m ∨ (j = m ∧ i < k)) → st.1.entry i j = 0)

/-- The in-range entries of a 1-based array as a Mathlib matrix (index `i : Fin n` is row
`i + 1` of the source). -/
def toMat (n m : Nat) (e : Nat → Nat → ℝ) : Matrix (Fin n) (Fin m) ℝ :=
  Matrix.of fun i j => e (i.val + 1) (j.val + 1)

/-- The in-range entries of a 1-based vector as a function on `Fin n`. -/
def toVec (n : Nat) (w : Nat → ℝ) : Fin n → ℝ := fun i => w (i.val + 1)

/-- A record whose four probability fields are all `1/2`: any first field, then
`0.5, 0.5, 0.5, 0.5`, then possibly more fields. -/
def CentroidRecord (r : List (Field ℝ)) : Prop :=
  ∃ first rest, r = first :: Field.num (1 / 2) :: Field.num (1 / 2) :: Field.num (1 / 2) ::
    Field.num (1 / 2) :: rest

/-- Invariant of the main loop of `TracePath` on matching pennies: the point and the predictor
buffer have length 5, the four profile coordinates are linear-coded and equal to `1/2`, the
tangent has zero profile components, Newton mode is off, `b` is 5x4 and `q` is 5x5, and every
record written so far is a `CentroidRecord`. -/
def AtCentroid (s : TraceState ℝ) : Prop :=
  s.x.Length = 5 ∧ s.u.Length = 5 ∧
  (∀ k, 1 ≤ k → k ≤ 4 → s.x.entry k = 1 / 2 ∧ s.isLog.entry k = false ∧ s.t.entry k = 0) ∧
  s.newton = false ∧ s.b.NumRows = 5 ∧ s.b.NumColumns = 4 ∧ s.q.NumRows = 5 ∧
  s.q.NumColumns = 5 ∧ ∀ r ∈ s.out, CentroidRecord r

/-- The state of `TracePath` at the start of iteration `n + 1` of its main loop, when the loop
is entered in state `s`: `none` when the loop has been left before, or when a corrector loop
did not exit within `cfuel` iterations. -/
def TracePathAfter {α : Type} [LinearOrderedField α] (sqrt exp log : α → α) (cfg : Globals α)
    (g : Game α) (p_maxLambda : α) (cfuel : Nat) : Nat → TraceState α → Option (TraceState α)
  | 0, s => some s
  | n + 1, s =>
    if s.x.entry s.x.Length ≥ 0 ∧ s.x.entry s.x.Length < p_maxLambda then
      match TracePathBody sqrt exp log cfg g cfuel s with
      | some (s2, Flow.next) => TracePathAfter sqrt exp log cfg g p_maxLambda cfuel n s2
      | _ => none
    else none

/-- The Newton distances `d_1, d_2, ...` computed by the successive iterations of the corrector
loop (the values of `dist` after each call of `NewtonStep`), for the run of `Corrector` with
the same arguments. -/
def CorrectorDists {α : Type} [LinearOrderedField α] (sqrt exp log : α → α)
    (g : Game α) (isLog : GVector Bool) (q b : GMatrix α) :
    Nat → GVector α → GVector α → Nat → α → List α
  | 0, _, _, _, _ => []
  | fuel + 1, u, y, iter, disto =>
    let y := QreLHS exp log g u isLog y
    let r := NewtonStep sqrt q b u y
    let dist := r.2.2
    if dist ≥ c_maxDist then [dist]
    else if iter ≥ 2 ∧ dist / (disto + c_tol * c_eta) > c_maxContr then [dist]
    else if dist ≤ c_tol then [dist]
    else dist :: CorrectorDists sqrt exp log g isLog q b fuel r.1 r.2.1 (iter + 1) dist

/-- The points `u` at which the successive iterations of the corrector loop evaluate `QreLHS`
(line 451), for the run of `Corrector` with the same arguments. -/
def CorrectorPoints {α : Type} [LinearOrderedField α] (sqrt exp log : α → α)
    (g : Game α) (isLog : GVector Bool) (q b : GMatrix α) :
    Nat → GVector α → GVector α → Nat → α → List (GVector α)
  | 0, _, _, _, _ => []
  | fuel + 1, u, y, iter, disto =>
    let y := QreLHS exp log g u isLog y
    let r := NewtonStep sqrt q b u y
    let dist := r.2.2
    if dist ≥ c_maxDist then [u]
    else if iter ≥ 2 ∧ dist / (disto + c_tol * c_eta) > c_maxContr then [u]
    else if dist ≤ c_tol then [u]
    else u :: CorrectorPoints sqrt exp log g isLog q b fuel r.1 r.2.1 (iter + 1) dist

/-- Modelled from the spec: the contraction-based terms `sqrt(contr_j / c_maxContr) * D` with
`contr_j = d_j / (d_{j-1} + tau * c_eta)`, for the distances that follow `dprev`. -/
def specContrTerms {α : Type} [LinearOrderedField α] (sqrt : α → α) (D : α) : α → List α → List α
  | _, [] => []
  | dprev, d :: rest =>
    (sqrt (d / (dprev + c_tol * c_eta) / c_maxContr) * D) :: specContrTerms sqrt D d rest

/-- Modelled from the spec: the deceleration factor after a corrector run with distances
`d_1, ..., d_n`: initially `1/D`; at iteration 1 the distance-based term
`sqrt(d_1 / c_maxDist) * D`; from iteration 2 on only the contraction-based terms. -/
def specDecel {α : Type} [LinearOrderedField α] (sqrt : α → α) (D : α) : List α → α
  | [] => 1 / D
  | d1 :: rest =>
    (specContrTerms sqrt D d1 rest).foldl max (max (1 / D) (sqrt (d1 / c_maxDist) * D))

/-- The coordinate policy of `TracePath` for a point `x` of length `L + 1` with flags `I`:
every coordinate `1 .. L` with `I[k] = false` has `x_k >= c_logCutoff`, and every one with
`I[k] = true` has `exp(x_k) <= c_logCutoff`. -/
def PolicyOK (exp : ℝ → ℝ) (L : Nat) (x : GVector ℝ) (I : GVector Bool) : Prop :=
  x.Length = L + 1 ∧ ∀ k, 1 ≤ k → k ≤ L →
    (I.entry k = false → c_logCutoff ≤ x.entry k) ∧
    (I.entry k = true → exp (x.entry k) ≤ c_logCutoff)

/-- Invariant of the main loop of `TracePath`: the current point and flags satisfy the
coordinate policy, the predictor buffer `u` has length `L + 1`, and in Newton-on-tangent mode
the saved copy satisfies the coordinate policy too. -/
def PolicyInv (exp : ℝ → ℝ) (g : Game ℝ) (s : TraceState ℝ) : Prop :=
  PolicyOK exp g.MixedProfileLength s.x s.isLog ∧ s.u.Length = g.MixedProfileLength + 1 ∧
  (s.newton = true → PolicyOK exp g.MixedProfileLength s.pushX s.pushLog)

/-! ## Concrete inputs -/

/-- A vector of the given length with all entries equal to `a`. -/
def constVector {α : Type} (n : Nat) (a : α) : GVector α := ⟨n, fun _ => a⟩

/-- The upper-triangular 3x2 matrix with rows `(1, 1)`, `(0, 1)`, `(0, 0)`. -/
def exampleTriangular (α : Type) [LinearOrderedField α] : GMatrix α :=
  ⟨3, 2, fun i j => if i = 1 ∧ (j = 1 ∨ j = 2) then 1 else if i = 2 ∧ j = 2 then 1 else 0⟩

/-- The identity accumulator of order 3. -/
def exampleIdentity (α : Type) [LinearOrderedField α] : GMatrix α :=
  ⟨3, 3, fun i j => if i = j then 1 else 0⟩

/-- The 2x1 matrix with rows `(0)`, `(1)`. -/
def exampleColumn (α : Type) [LinearOrderedField α] : GMatrix α :=
  ⟨2, 1, fun k _ => if k = 2 then 1 else 0⟩

/-- A 2x2 game in which player 1's payoff is 1 when player 1 plays strategy 2 against
strategy 1 of player 2 and 0 otherwise, and player 2's payoff is always 0; its oracles are the
multilinear expected payoffs: `u(1,2;sigma) = sigma(2,1)`, with derivative 1 with respect to
`sigma(2,1)`, and all other payoffs and derivatives 0. -/
def exampleGame (α : Type) [LinearOrderedField α] : Game α where
  NumPlayers := 2
  NumStrategies := fun pl => if pl = 1 ∨ pl = 2 then 2 else 0
  GetPayoff := fun profile pl _ st => if pl = 1 ∧ st = 2 then profile 3 else 0
  GetPayoffDeriv := fun _ pl _ st pl2 st2 =>
    if pl = 1 ∧ st = 2 ∧ pl2 = 2 ∧ st2 = 1 then 1 else 0

/-- The point `x = (1/2, 1/2, -7, 1/2; lambda = 1)` of length 5. -/
def examplePoint (α : Type) [LinearOrderedField α] : GVector α :=
  ⟨5, fun k => if k = 3 then -7 else if k = 5 then 1 else 1 / 2⟩

/-- The policy `I = (false, false, true, false)`: only coordinate 3 is log-coded. -/
def examplePolicy : GVector Bool := ⟨4, fun k => decide (k = 3)⟩

/-- The centroid of a 2x2 game with `lambda = 0`: `x = (1/2, 1/2, 1/2, 1/2; 0)`. -/
def exampleCentroid (α : Type) [LinearOrderedField α] : GVector α :=
  ⟨5, fun k => if k = 5 then 0 else 1 / 2⟩

/-- The all-linear policy on 4 coordinates. -/
def linearPolicy : GVector Bool := ⟨4, fun _ => false⟩

/-- Matching pennies, the 2x2 zero-sum game with payoffs `+1` / `-1`
(player 1 wins on a match).  The oracles are the multilinear expected payoffs of the flat
profile `(sigma(1,1), sigma(1,2), sigma(2,1), sigma(2,2))` and their partial derivatives, the
pure payoffs. -/
def matchingPennies (α : Type) [LinearOrderedField α] : Game α where
  NumPlayers := 2
  NumStrategies := fun pl => if pl = 1 ∨ pl = 2 then 2 else 0
  GetPayoff := fun profile pl _ st =>
    if pl = 1 then (if st = 1 then profile 3 - profile 4 else profile 4 - profile 3)
    else (if st = 1 then profile 2 - profile 1 else profile 1 - profile 2)
  GetPayoffDeriv := fun _ pl _ st pl2 st2 =>
    if pl = pl2 then 0
    else if pl = 1 then (if st = st2 then 1 else -1)
    else (if st = st2 then -1 else 1)

/-- The game with one player who has one strategy. -/
def trivialGame (α : Type) [LinearOrderedField α] : Game α where
  NumPlayers := 1
  NumStrategies := fun pl => if pl = 1 then 1 else 0
  GetPayoff := fun _ _ _ _ => 0
  GetPayoffDeriv := fun _ _ _ _ _ _ => 0

/-- A stream over a list of numbers still to be read, with its end-of-file flag: an extraction
from the empty list fails, sets the flag and leaves the target alone; separators and the rest
of the line are not represented. -/
def listStream (α : Type) : IStream (List α × Bool) α where
  eof := fun s => s.2
  bad := fun _ => false
  readDouble := fun s d =>
    match s.1 with
    | [] => (([], true), d)
    | a :: rest => ((rest, s.2), a)
  readChar := fun s => s
  getline := fun s => s

/-- Settings with maximum-likelihood search switched on and one observed frequency equal
to 1; the other settings are the defaults. -/
def exampleMLEGlobals (α : Type) [LinearOrderedField α] : Globals α :=
  ⟨true, constVector 1 1, 11 / 10, 3 / 100, true⟩

/-- A state of the main loop in Newton-on-tangent mode, for the one-strategy game: current
point `x = (1; 1)`, corrected point `u = (1; 1)`, step `1/100`, tangent `(1, 0)`, a matrix `q`
whose last row is `(-1, 0)`, and the saved copy `pushX = (7; 7)`, `pushH = 3/100`,
`pushLog = (true)` of an earlier push. -/
def exampleNewtonState (α : Type) [LinearOrderedField α] : TraceState α where
  x := constVector 2 1
  u := constVector 2 1
  h := 1 / 100
  p_omega := 1
  isLog := ⟨1, fun _ => false⟩
  t := ⟨2, fun k => if k = 1 then 1 else 0⟩
  y := constVector 1 0
  b := ⟨2, 1, fun _ _ => 0⟩
  q := ⟨2, 2, fun i k => if i = 2 ∧ k = 1 then -1 else 0⟩
  newton := true
  restarting := false
  pushX := constVector 2 7
  pushH := 3 / 100
  pushLog := ⟨1, fun _ => true⟩
  out := []

/-! ## Loop lemmas -/

theorem forLoopAux_succ_last {σ : Type} (body : Nat → σ → σ) (n k : Nat) (s : σ) :
    forLoopAux body (n + 1) k s = body (k + n) (forLoopAux body n k s) := by
  induction n generalizing k s with
  | zero => simp [forLoopAux]
  | succ n ih =>
    rw [forLoopAux, ih (k + 1) (body k s)]
    have h : k + 1 + n = k + (n + 1) := by omega
    rw [h]
    rfl

theorem forLoop_empty {σ : Type} (lo hi : Nat) (body : Nat → σ → σ) (s : σ) (h : hi < lo) :
    forLoop lo hi body s = s := by
  have h0 : hi + 1 - lo = 0 := by omega
  simp [forLoop, h0, forLoopAux]

theorem forLoop_succ {σ : Type} (lo hi : Nat) (body : Nat → σ → σ) (s : σ) (h : lo ≤ hi + 1) :
    forLoop lo (hi + 1) body s = body (hi + 1) (forLoop lo hi body s) := by
  have h0 : hi + 1 + 1 - lo = (hi + 1 - lo) + 1 := by omega
  have h1 : lo + (hi + 1 - lo) = hi + 1 := by omega
  simp only [forLoop, h0, forLoopAux_succ_last, h1]

/-- Invariant rule for `forLoop`: an invariant that holds on entry with index `lo` and is
carried by every iteration holds on exit with index `hi + 1`. -/
theorem forLoop_invariant {σ : Type} (P : Nat → σ → Prop) (lo hi : Nat) (body : Nat → σ → σ)
    (s : σ) (hle : lo ≤ hi + 1) (h0 : P lo s)
    (hstep : ∀ k st, lo ≤ k → k ≤ hi → P k st → P (k + 1) (body k st)) :
    P (hi + 1) (forLoop lo hi body s) := by
  induction hi with
  | zero =>
    rcases Nat.eq_or_lt_of_le hle with h | h
    · rw [forLoop_empty lo 0 body s (by omega), ← h]; exact h0
    · have hlo : lo = 0 := by omega
      subst hlo
      have : forLoop 0 0 body s = body 0 s := by simp [forLoop, forLoopAux]
      rw [this]
      exact hstep 0 s (le_refl _) (le_refl _) h0
  | succ n ih =>
    rcases Nat.eq_or_lt_of_le hle with h | h
    · rw [forLoop_empty lo (n + 1) body s (by omega), ← h]; exact h0
    · rw [forLoop_succ lo n body s (by omega)]
      exact hstep (n + 1) _ (by omega) (le_refl _)
        (ih (by omega) (fun k st h1 h2 => hstep k st h1 (by omega)))

theorem sum_Icc_succ (n : Nat) (f : Nat → ℝ) :
    ∑ c ∈ Finset.Icc 1 (n + 1), f c = ∑ c ∈ Finset.Icc 1 n, f c + f (n + 1) := by
  rw [← Nat.Icc_insert_succ_right (by omega), Finset.sum_insert (by simp), add_comm]

/-- An accumulation loop `for (l = 1; l <= n; l++) s += f l` computes a finite sum. -/
theorem forLoop_sum (n : Nat) (f : Nat → ℝ) (a : ℝ) :
    forLoop 1 n (fun l s => s + f l) a = a + ∑ l ∈ Finset.Icc 1 n, f l := by
  have := forLoop_invariant (fun k s => s = a + ∑ l ∈ Finset.Icc 1 (k - 1), f l) 1 n
    (fun l s => s + f l) a (by omega) (by simp)
    (by
      intro k st hk1 _ hst
      have e : k - 1 + 1 = k := by omega
      have := sum_Icc_succ (k - 1) f
      rw [e] at this
      simp only [Nat.add_sub_cancel, this, hst]
      ring)
  simpa using this

theorem sum_Icc_eq_sum_fin (n : Nat) (f : Nat → ℝ) :
    ∑ c ∈ Finset.Icc 1 n, f c = ∑ i : Fin n, f (i.val + 1) := by
  rw [Fin.sum_univ_eq_sum_range (fun c => f (c + 1)) n]
  induction n with
  | zero => simp
  | succ n ih =>
    rw [Finset.sum_range_succ, ← ih, ← Nat.Icc_insert_succ_right (by omega),
      Finset.sum_insert (by simp), add_comm]

theorem GMatrix_set_entry {α : Type} (M : GMatrix α) (i j : Nat) (a : α) (i' j' : Nat) :
    (M.set i j a).entry i' j' = if i' = i ∧ j' = j then a else M.entry i' j' := rfl

theorem GVector_set_entry {α : Type} (v : GVector α) (i : Nat) (a : α) (j : Nat) :
    (v.set i a).entry j = if j = i then a else v.entry j := rfl

theorem GMatrix_ext {α : Type} (M N : GMatrix α) (h1 : M.NumRows = N.NumRows)
    (h2 : M.NumColumns = N.NumColumns) (h3 : ∀ i j, M.entry i j = N.entry i j) : M = N := by
  cases M; cases N
  simp only at h1 h2 h3
  simp only [GMatrix.mk.injEq]
  exact ⟨h1, h2, funext fun i => funext fun j => h3 i j⟩

/-! ## Givens rotations -/

theorem Givens_eq {α : Type} [LinearOrderedField α] (sqrt : α → α) (b q : GMatrix α)
    (c1 c2 : α) (l1 l2 l3 : Nat) :
    Givens sqrt b q c1 c2 l1 l2 l3 =
      if |c1| + |c2| = 0 then (b, q, c1, c2)
      else (rotLoop (c1 / givensSn sqrt c1 c2) (c2 / givensSn sqrt c1 c2) l1 l2 l3 b.NumColumns b,
            rotLoop (c1 / givensSn sqrt c1 c2) (c2 / givensSn sqrt c1 c2) l1 l2 1 q.NumColumns q,
            givensSn sqrt c1 c2, 0) := rfl

theorem rotLoop_spec {α : Type} [LinearOrderedField α] (s1 s2 : α) (l1 l2 lo hi : Nat)
    (M : GMatrix α) :
    (rotLoop s1 s2 l1 l2 lo hi M).NumRows = M.NumRows ∧
    (rotLoop s1 s2 l1 l2 lo hi M).NumColumns = M.NumColumns ∧
    ∀ i j, (rotLoop s1 s2 l1 l2 lo hi M).entry i j = rotEntry s1 s2 l1 l2 lo hi M.entry i j := by
  unfold rotLoop
  by_cases hle : lo ≤ hi + 1
  · have key := forLoop_invariant
      (fun k (st : GMatrix α) => st.NumRows = M.NumRows ∧ st.NumColumns = M.NumColumns ∧
        ∀ i j, st.entry i j = if lo ≤ j ∧ j < k then
          (if i = l2 then -s2 * M.entry l1 j + s1 * M.entry l2 j
            else if i = l1 then s1 * M.entry l1 j + s2 * M.entry l2 j else M.entry i j)
          else M.entry i j)
      lo hi (fun k b =>
        let sv1 := b.entry l1 k
        let sv2 := b.entry l2 k
        let b := b.set l1 k (s1 * sv1 + s2 * sv2)
        b.set l2 k (-s2 * sv1 + s1 * sv2)) M hle
      ⟨rfl, rfl, fun i j => by
        have : ¬ (lo ≤ j ∧ j < lo) := by omega
        simp [this]⟩
      (by
        rintro k st hk1 hk2 ⟨h1, h2, h3⟩
        refine ⟨h1, h2, fun i j => ?_⟩
        have e1 := h3 l1 k
        have e2 := h3 l2 k
        have hk : ¬ (lo ≤ k ∧ k < k) := by omega
        simp only [hk, if_false] at e1 e2
        simp only [GMatrix.set, e1, e2, h3 i j]
        by_cases hj : j = k
        · subst hj
          have hj1 : lo ≤ j ∧ j < j + 1 := by omega
          simp only [hj1, hk, and_true, if_false, and_self, if_true]
          have : ¬ (True ∧ j < j) := by omega
          simp only [this, if_false]
        · have hj1 : (lo ≤ j ∧ j < k + 1) ↔ (lo ≤ j ∧ j < k) := by omega
          simp only [hj, and_false, if_false, hj1])
    obtain ⟨h1, h2, h3⟩ := key
    refine ⟨h1, h2, fun i j => ?_⟩
    rw [h3 i j, rotEntry]
    have : (lo ≤ j ∧ j < hi + 1) ↔ (lo ≤ j ∧ j ≤ hi) := by omega
    simp only [this]
  · rw [forLoop_empty lo hi _ M (by omega)]
    refine ⟨rfl, rfl, fun i j => ?_⟩
    have : ¬ (lo ≤ j ∧ j ≤ hi) := by omega
    simp [rotEntry, this]

/-- The scale-factored magnitude of `Givens` is the Euclidean norm of the pivot pair. -/
theorem givens_sn_eq (c1 c2 : ℝ) (h : ¬ (|c1| + |c2| = 0)) :
    givensSn Real.sqrt c1 c2 = Real.sqrt (c1 * c1 + c2 * c2) := by
  unfold givensSn
  have key : ∀ a b : ℝ, b ≠ 0 → Real.sqrt (1 + sqr (a / b)) * |b| = Real.sqrt (a * a + b * b) := by
    intro a b hb
    unfold sqr
    rw [← Real.sqrt_sq_eq_abs b, ← Real.sqrt_mul (add_nonneg zero_le_one (mul_self_nonneg _))]
    congr 1
    field_simp
    ring
  split_ifs with hc
  · have hc2 : c2 ≠ 0 := by
      intro h0
      apply h
      rw [h0] at hc ⊢
      simp only [abs_zero, ge_iff_le, abs_nonpos_iff] at hc
      simp [hc]
    exact key c1 c2 hc2
  · have hc1 : c1 ≠ 0 := by
      intro h0
      apply hc
      rw [h0]
      simp
    rw [key c2 c1 hc1, add_comm]

theorem givens_sn_pos (c1 c2 : ℝ) (h : ¬ (|c1| + |c2| = 0)) :
    0 < Real.sqrt (c1 * c1 + c2 * c2) := by
  apply Real.sqrt_pos.mpr
  by_contra hn
  apply h
  have h1 : c1 * c1 = 0 := by nlinarith [mul_self_nonneg c1, mul_self_nonneg c2]
  have h2 : c2 * c2 = 0 := by nlinarith [mul_self_nonneg c1, mul_self_nonneg c2]
  have h1' : c1 = 0 := by simpa using h1
  have h2' : c2 = 0 := by simpa using h2
  simp [h1', h2']

/-- One inner iteration of `QRDecomp` is a plane rotation of rows `m` and `k`: of all columns
of `q`, and of columns `m ..` of `b`; the rotation sends the pivot pair to `(sn, 0)`. -/
theorem QRDecompStep_spec (m k : Nat) (b q : GMatrix ℝ) (hmk : m ≠ k) (hm : m ≤ b.NumColumns) :
    ∃ s1 s2 : ℝ, s1 * s1 + s2 * s2 = 1 ∧ -s2 * b.entry m m + s1 * b.entry k m = 0 ∧
      (QRDecompStep Real.sqrt m k (b, q)).1.NumRows = b.NumRows ∧
      (QRDecompStep Real.sqrt m k (b, q)).1.NumColumns = b.NumColumns ∧
      (QRDecompStep Real.sqrt m k (b, q)).2.NumRows = q.NumRows ∧
      (QRDecompStep Real.sqrt m k (b, q)).2.NumColumns = q.NumColumns ∧
      (∀ i j, (QRDecompStep Real.sqrt m k (b, q)).1.entry i j
        = rotEntry s1 s2 m k m b.NumColumns b.entry i j) ∧
      (∀ i j, (QRDecompStep Real.sqrt m k (b, q)).2.entry i j
        = rotEntry s1 s2 m k 1 q.NumColumns q.entry i j) := by
  by_cases h : |b.entry m m| + |b.entry k m| = 0
  · have h1 : b.entry m m = 0 := by
      have := abs_nonneg (b.entry m m); have := abs_nonneg (b.entry k m)
      exact abs_eq_zero.mp (by linarith)
    have h2 : b.entry k m = 0 := by
      have := abs_nonneg (b.entry m m); have := abs_nonneg (b.entry k m)
      exact abs_eq_zero.mp (by linarith)
    refine ⟨1, 0, by norm_num, by simp [h2], ?_⟩
    simp only [QRDecompStep, Givens_eq, h, if_true]
    refine ⟨rfl, rfl, trivial, trivial, fun i j => ?_, fun i j => ?_⟩
    · simp only [rotEntry, GMatrix_set_entry]
      split_ifs <;> simp_all
    · simp only [rotEntry]
      split_ifs <;> simp_all
  · have hsn := givens_sn_eq _ _ h
    have hpos := givens_sn_pos _ _ h
    have hsq := Real.mul_self_sqrt (add_nonneg (mul_self_nonneg (b.entry m m))
      (mul_self_nonneg (b.entry k m)))
    set c1 := b.entry m m with hc1
    set c2 := b.entry k m with hc2
    set sn := Real.sqrt (c1 * c1 + c2 * c2) with hsndef
    have hne : sn ≠ 0 := ne_of_gt hpos
    refine ⟨c1 / sn, c2 / sn, ?_, ?_, ?_⟩
    · field_simp
      linarith
    · field_simp
      ring
    · simp only [QRDecompStep, Givens_eq, h, if_false, hsn, ← hc1, ← hc2, ← hsndef]
      obtain ⟨hb1, hb2, hb3⟩ := rotLoop_spec (c1 / sn) (c2 / sn) m k (m + 1) b.NumColumns b
      obtain ⟨hq1, hq2, hq3⟩ := rotLoop_spec (c1 / sn) (c2 / sn) m k 1 q.NumColumns q
      refine ⟨hb1, hb2, hq1, hq2, fun i j => ?_, fun i j => hq3 i j⟩
      simp only [GMatrix_set_entry, hb3 i j, rotEntry]
      by_cases hj : j = m
      · subst hj
        have e1 : ¬ (j + 1 ≤ j ∧ j ≤ b.NumColumns) := by omega
        have e2 : (j ≤ j ∧ j ≤ b.NumColumns) := by omega
        simp only [e1, e2, if_false, if_true, and_true, ← hc1, ← hc2]
        by_cases hik : i = k
        · simp only [hik, if_true]
          field_simp
          ring
        · by_cases him : i = j
          · subst him
            simp only [hik, if_false, if_true]
            field_simp
            linarith
          · simp only [hik, him, if_false, ite_self]
      · have e1 : (m + 1 ≤ j ∧ j ≤ b.NumColumns) ↔ (m ≤ j ∧ j ≤ b.NumColumns) := by omega
        simp only [hj, and_false, if_false, e1]

/-- On a positive pivot with a zero entry below it the rotation of `QRDecomp` is the
identity. -/
theorem QRDecompStep_noop (m k : Nat) (b q : GMatrix ℝ) (hpos : 0 < b.entry m m)
    (hz : b.entry k m = 0) : QRDecompStep Real.sqrt m k (b, q) = (b, q) := by
  have hne : ¬ (|b.entry m m| + |b.entry k m| = 0) := by
    rw [hz, abs_zero, add_zero, abs_of_pos hpos]
    exact ne_of_gt hpos
  have hsn : givensSn Real.sqrt (b.entry m m) (b.entry k m) = b.entry m m := by
    rw [givens_sn_eq _ _ hne, hz, mul_zero, add_zero, Real.sqrt_mul_self (le_of_lt hpos)]
  have h1 : b.entry m m / b.entry m m = 1 := div_self (ne_of_gt hpos)
  simp only [QRDecompStep, Givens_eq, hne, if_false, hsn, h1]
  rw [hz, zero_div]
  obtain ⟨b1, b2, b3⟩ := rotLoop_spec (1 : ℝ) 0 m k (m + 1) b.NumColumns b
  obtain ⟨q1, q2, q3⟩ := rotLoop_spec (1 : ℝ) 0 m k 1 q.NumColumns q
  have hrot : ∀ (lo hi : Nat) (e : Nat → Nat → ℝ) (i j : Nat),
      rotEntry (1 : ℝ) 0 m k lo hi e i j = e i j := by
    intro lo hi e i j
    simp only [rotEntry]
    split_ifs with h1 h2 h3
    · rw [h2]; ring
    · rw [h3]; ring
    · rfl
    · rfl
  refine Prod.ext ?_ ?_
  · apply GMatrix_ext
    · exact b1
    · exact b2
    · intro i j
      simp only [GMatrix_set_entry, b3, hrot]
      split_ifs with h1 h2
      · rw [h1.1, h1.2, hz]
      · rw [h2.1, h2.2]
      · rfl
  · apply GMatrix_ext
    · exact q1
    · exact q2
    · intro i j
      simp only [q3, hrot]

theorem rotEntry_sum (s1 s2 : ℝ) (l1 l2 n : Nat) (e : Nat → Nat → ℝ) (f : Nat → ℝ) (i : Nat) :
    ∑ c ∈ Finset.Icc 1 n, rotEntry s1 s2 l1 l2 1 n e i c * f c =
      if i = l2 then -s2 * (∑ c ∈ Finset.Icc 1 n, e l1 c * f c)
          + s1 * (∑ c ∈ Finset.Icc 1 n, e l2 c * f c)
      else if i = l1 then s1 * (∑ c ∈ Finset.Icc 1 n, e l1 c * f c)
          + s2 * (∑ c ∈ Finset.Icc 1 n, e l2 c * f c)
      else ∑ c ∈ Finset.Icc 1 n, e i c * f c := by
  have h : ∀ c ∈ Finset.Icc 1 n, rotEntry s1 s2 l1 l2 1 n e i c * f c =
      if i = l2 then -s2 * (e l1 c * f c) + s1 * (e l2 c * f c)
      else if i = l1 then s1 * (e l1 c * f c) + s2 * (e l2 c * f c)
      else e i c * f c := by
    intro c hc
    have hc2 : 1 ≤ c ∧ c ≤ n := Finset.mem_Icc.mp hc
    simp only [rotEntry, hc2, and_self, if_true]
    split_ifs <;> ring
  rw [Finset.sum_congr rfl h]
  split_ifs
  · rw [Finset.sum_add_distrib, Finset.mul_sum, Finset.mul_sum]
  · rw [Finset.sum_add_distrib, Finset.mul_sum, Finset.mul_sum]
  · rfl

/-! ## QR decomposition (C1, C2, C3) -/

theorem QRInv_step (A : Nat → Nat → ℝ) (n L m k : Nat) (st : GMatrix ℝ × GMatrix ℝ)
    (hm1 : 1 ≤ m) (hmL : m ≤ L) (hmk : m < k) (hkn : k ≤ n) (h : QRInv A n L m k st) :
    QRInv A n L m (k + 1) (QRDecompStep Real.sqrt m k st) := by
  obtain ⟨b, q⟩ := st
  obtain ⟨d1, d2, d3, d4, hQA, hOrth, hZero⟩ := h
  simp only at d1 d2 d3 d4 hQA hOrth hZero
  obtain ⟨s1, s2, hs, hpiv, e1, e2, e3, e4, hb, hq⟩ :=
    QRDecompStep_spec m k b q (by omega) (by omega)
  rw [d2] at hb
  rw [d4] at hq
  refine ⟨by rw [e1, d1], by rw [e2, d2], by rw [e3, d3], by rw [e4, d4], ?_, ?_, ?_⟩
  · intro i j hi1 hi2 hj1 hj2
    simp only [hq, hb]
    rw [rotEntry_sum]
    have hbm : j < m → b.entry m j = 0 := fun hj => hZero m j hj1 hj (by omega) (Or.inl hj)
    have hbk : j < m → b.entry k j = 0 := fun hj => hZero k j hj1 (by omega) hkn (Or.inl hj)
    rw [hQA m j (by omega) (by omega) hj1 hj2, hQA k j (by omega) hkn hj1 hj2,
      hQA i j hi1 hi2 hj1 hj2]
    simp only [rotEntry]
    by_cases hjm : m ≤ j
    · have : m ≤ j ∧ j ≤ L := ⟨hjm, hj2⟩
      simp only [this, and_self, if_true]
    · have hn : ¬ (m ≤ j ∧ j ≤ L) := fun h => hjm h.1
      simp only [hn, if_false, hbm (by omega), hbk (by omega)]
      split_ifs with h1 h2
      · rw [h1, hbk (by omega)]; ring
      · rw [h2, hbm (by omega)]; ring
      · rfl
  · intro i i2 hi1 hi2 hj1 hj2
    simp only [hq]
    rw [rotEntry_sum]
    have comm : ∀ r, ∑ c ∈ Finset.Icc 1 n, q.entry r c * rotEntry s1 s2 m k 1 n q.entry i2 c
        = ∑ c ∈ Finset.Icc 1 n, rotEntry s1 s2 m k 1 n q.entry i2 c * q.entry r c :=
      fun r => Finset.sum_congr rfl (fun c _ => mul_comm _ _)
    simp only [comm, rotEntry_sum]
    have hm2 : 1 ≤ m ∧ m ≤ n := by omega
    have hk2 : 1 ≤ k ∧ k ≤ n := by omega
    simp only [hOrth m m hm2.1 hm2.2 hm2.1 hm2.2, hOrth k k hk2.1 hk2.2 hk2.1 hk2.2,
      hOrth m k hm2.1 hm2.2 hk2.1 hk2.2, hOrth k m hk2.1 hk2.2 hm2.1 hm2.2,
      hOrth i2 m hj1 hj2 hm2.1 hm2.2, hOrth i2 k hj1 hj2 hk2.1 hk2.2,
      hOrth m i hm2.1 hm2.2 hi1 hi2, hOrth k i hk2.1 hk2.2 hi1 hi2,
      hOrth i2 i hj1 hj2 hi1 hi2]
    split_ifs <;> first | omega | linarith
  · intro i j hj1 hji hin hz
    rw [hb]
    simp only [rotEntry]
    rcases hz with hz | ⟨hz1, hz2⟩
    · have hn : ¬ (m ≤ j ∧ j ≤ L) := by omega
      simp only [hn, if_false]
      exact hZero i j hj1 hji hin (Or.inl hz)
    · subst hz1
      have hy : j ≤ j ∧ j ≤ L := by omega
      simp only [hy, and_self, if_true]
      by_cases hik : i = k
      · subst hik
        simp only [if_true]
        exact hpiv
      · have him : i ≠ j := by omega
        simp only [hik, him, if_false]
        exact hZero i j hj1 hji hin (Or.inr ⟨rfl, by omega⟩)

theorem QRInv_next (A : Nat → Nat → ℝ) (n L m : Nat) (st : GMatrix ℝ × GMatrix ℝ)
    (h : QRInv A n L m (n + 1) st) : QRInv A n L (m + 1) (m + 1 + 1) st := by
  obtain ⟨d1, d2, d3, d4, hQA, hOrth, hZero⟩ := h
  refine ⟨d1, d2, d3, d4, hQA, hOrth, fun i j hj1 hji hin hz => ?_⟩
  apply hZero i j hj1 hji hin
  omega

theorem QRInv_init (b q : GMatrix ℝ) :
    QRInv b.entry b.NumRows b.NumColumns 1 (1 + 1)
      (b, { q with NumRows := b.NumRows, NumColumns := b.NumRows }.MakeIdent) := by
  refine ⟨rfl, rfl, rfl, rfl, ?_, ?_, ?_⟩
  · intro i j hi1 hi2 _ _
    simp only [GMatrix.MakeIdent, ite_mul, one_mul, zero_mul]
    rw [Finset.sum_ite_eq]
    simp [hi1, hi2]
  · intro i i2 hi1 hi2 _ _
    simp only [GMatrix.MakeIdent, ite_mul, one_mul, zero_mul]
    rw [Finset.sum_ite_eq]
    have hmem : i ∈ Finset.Icc 1 b.NumRows := Finset.mem_Icc.mpr ⟨hi1, hi2⟩
    simp only [hmem, if_true]
    by_cases h : i = i2
    · simp [h]
    · simp [h, Ne.symm h]
  · intro i j hj1 hji _ hz
    omega

/-- The loop invariant of `QRDecomp` holds on exit, for a matrix with at least as many rows as
columns and a square accumulator of matching order. -/
theorem QRDecomp_inv (b q : GMatrix ℝ) (hq1 : q.NumRows = b.NumRows)
    (hq2 : q.NumColumns = b.NumRows) (hLn : b.NumColumns ≤ b.NumRows) :
    QRInv b.entry b.NumRows b.NumColumns (b.NumColumns + 1) (b.NumColumns + 1 + 1)
      (QRDecomp Real.sqrt b q) := by
  have hq : q = { q with NumRows := b.NumRows, NumColumns := b.NumRows } := by
    cases q; simp_all
  unfold QRDecomp
  apply forLoop_invariant
    (fun m st => QRInv b.entry b.NumRows b.NumColumns m (m + 1) st)
  · omega
  · rw [hq]; exact QRInv_init b q
  · intro m st hm1 hm2 hinv
    apply QRInv_next
    have hrows : st.1.NumRows = b.NumRows := hinv.1
    rw [hrows]
    apply forLoop_invariant (fun k st => QRInv b.entry b.NumRows b.NumColumns m k st)
    · omega
    · exact hinv
    · intro k st2 hk1 hk2 hinv2
      exact QRInv_step b.entry b.NumRows b.NumColumns m k st2 hm1 hm2 (by omega) hk2 hinv2

/-- `QRDecomp` leaves an upper-triangular matrix with positive diagonal unchanged and returns
the identity accumulator: such a matrix is its own triangular factor. -/
theorem QRDecomp_upper_triangular (b q : GMatrix ℝ)
    (hdiag : ∀ m, 1 ≤ m → m ≤ b.NumColumns → 0 < b.entry m m)
    (htri : ∀ k m, 1 ≤ m → m ≤ b.NumColumns → m < k → k ≤ b.NumRows → b.entry k m = 0) :
    QRDecomp Real.sqrt b q = (b, q.MakeIdent) := by
  unfold QRDecomp
  by_cases hN : b.NumColumns = 0
  · rw [forLoop_empty _ _ _ _ (by omega)]
  have key := forLoop_invariant
    (fun _ (st : GMatrix ℝ × GMatrix ℝ) => st = (b, q.MakeIdent))
    1 b.NumColumns (fun m st =>
      forLoop (m + 1) st.1.NumRows (fun k st => QRDecompStep Real.sqrt m k st) st)
    (b, q.MakeIdent) (by omega) rfl
    (by
      intro m st hm1 hm2 hst
      subst hst
      by_cases hk : b.NumRows < m + 1
      · exact forLoop_empty _ _ _ _ hk
      · exact forLoop_invariant
          (fun _ (st : GMatrix ℝ × GMatrix ℝ) => st = (b, q.MakeIdent))
          (m + 1) b.NumRows (fun k st => QRDecompStep Real.sqrt m k st) (b, q.MakeIdent)
          (by omega) rfl
          (by
            intro k st hk1 hk2 hst
            subst hst
            exact QRDecompStep_noop m k b q.MakeIdent (hdiag m hm1 hm2)
              (htri k m hm1 hm2 (by omega) hk2)))
  exact key

/-- Row-orthonormality of a square array implies column-orthonormality. -/
theorem orth_cols_of_rows (n : Nat) (e : Nat → Nat → ℝ)
    (h : ∀ i j, 1 ≤ i → i ≤ n → 1 ≤ j → j ≤ n →
      ∑ c ∈ Finset.Icc 1 n, e i c * e j c = if i = j then 1 else 0) :
    ∀ i j, 1 ≤ i → i ≤ n → 1 ≤ j → j ≤ n →
      ∑ c ∈ Finset.Icc 1 n, e c i * e c j = if i = j then 1 else 0 := by
  have h1 : toMat n n e * (toMat n n e).transpose = 1 := by
    ext i j
    rw [Matrix.mul_apply, Matrix.one_apply]
    have := h (i.val + 1) (j.val + 1) (by omega) (by omega) (by omega) (by omega)
    rw [sum_Icc_eq_sum_fin] at this
    simp only [toMat, Matrix.of_apply, Matrix.transpose_apply]
    rw [this]
    by_cases hij : i = j
    · simp [hij]
    · have : i.val + 1 ≠ j.val + 1 := fun hh => hij (Fin.ext (by omega))
      simp [hij, this]
  have h2 := Matrix.mul_eq_one_comm.mp h1
  intro i j hi1 hi2 hj1 hj2
  have h3 := congrFun (congrFun h2 ⟨i - 1, by omega⟩) ⟨j - 1, by omega⟩
  rw [Matrix.mul_apply, Matrix.one_apply] at h3
  simp only [toMat, Matrix.of_apply, Matrix.transpose_apply] at h3
  rw [sum_Icc_eq_sum_fin]
  have ei : i - 1 + 1 = i := by omega
  have ej : j - 1 + 1 = j := by omega
  simp only [ei, ej, Fin.mk.injEq] at h3
  rw [h3]
  have : (i - 1 = j - 1) ↔ i = j := by omega
  simp only [this]

/-- C1: QR factorisation. For every real (L+1)xL matrix `A` (for every `L`, in particular
`L >= 1`) and any initial contents `Q0` of `q`, the `b` returned by `QRDecomp` has
`b(k,m) = 0` whenever row `k` is below column `m`, the returned `q` satisfies `q * A = b`, and
equivalently `q^T * b = A`. -/
theorem QRDecomp_factorisation (L : Nat) (A Q0 : Nat → Nat → ℝ) :
    (∀ k m, 1 ≤ m → m < k → k ≤ L + 1 →
      (QRDecomp Real.sqrt ⟨L + 1, L, A⟩ ⟨L + 1, L + 1, Q0⟩).1.entry k m = 0) ∧
    (∀ i j, 1 ≤ i → i ≤ L + 1 → 1 ≤ j → j ≤ L →
      ∑ c ∈ Finset.Icc 1 (L + 1),
        (QRDecomp Real.sqrt ⟨L + 1, L, A⟩ ⟨L + 1, L + 1, Q0⟩).2.entry i c * A c j
        = (QRDecomp Real.sqrt ⟨L + 1, L, A⟩ ⟨L + 1, L + 1, Q0⟩).1.entry i j) ∧
    (∀ i j, 1 ≤ i → i ≤ L + 1 → 1 ≤ j → j ≤ L →
      ∑ c ∈ Finset.Icc 1 (L + 1),
        (QRDecomp Real.sqrt ⟨L + 1, L, A⟩ ⟨L + 1, L + 1, Q0⟩).2.entry c i
          * (QRDecomp Real.sqrt ⟨L + 1, L, A⟩ ⟨L + 1, L + 1, Q0⟩).1.entry c j
        = A i j) := by
  obtain ⟨-, -, -, -, hQA, hOrth, hZero⟩ :=
    QRDecomp_inv ⟨L + 1, L, A⟩ ⟨L + 1, L + 1, Q0⟩ rfl rfl (Nat.le_succ L)
  simp only at hQA hOrth hZero
  refine ⟨fun k m hm hmk hk => hZero k m hm hmk hk (Or.inl (by omega)), hQA, ?_⟩
  intro i j hi1 hi2 hj1 hj2
  have hcols := orth_cols_of_rows (L + 1) _ hOrth
  have e1 : ∀ c ∈ Finset.Icc 1 (L + 1),
      (QRDecomp Real.sqrt ⟨L + 1, L, A⟩ ⟨L + 1, L + 1, Q0⟩).2.entry c i
        * (QRDecomp Real.sqrt ⟨L + 1, L, A⟩ ⟨L + 1, L + 1, Q0⟩).1.entry c j
      = ∑ d ∈ Finset.Icc 1 (L + 1),
        ((QRDecomp Real.sqrt ⟨L + 1, L, A⟩ ⟨L + 1, L + 1, Q0⟩).2.entry c i
          * (QRDecomp Real.sqrt ⟨L + 1, L, A⟩ ⟨L + 1, L + 1, Q0⟩).2.entry c d) * A d j := by
    intro c hc
    have hc2 := Finset.mem_Icc.mp hc
    rw [← hQA c j hc2.1 hc2.2 hj1 hj2, Finset.mul_sum]
    exact Finset.sum_congr rfl (fun d _ => by ring)
  rw [Finset.sum_congr rfl e1, Finset.sum_comm]
  have e2 : ∀ d ∈ Finset.Icc 1 (L + 1),
      ∑ c ∈ Finset.Icc 1 (L + 1),
        ((QRDecomp Real.sqrt ⟨L + 1, L, A⟩ ⟨L + 1, L + 1, Q0⟩).2.entry c i
          * (QRDecomp Real.sqrt ⟨L + 1, L, A⟩ ⟨L + 1, L + 1, Q0⟩).2.entry c d) * A d j
      = if i = d then A d j else 0 := by
    intro d hd
    have hd2 := Finset.mem_Icc.mp hd
    rw [← Finset.sum_mul, hcols i d hi1 hi2 hd2.1 hd2.2]
    split_ifs <;> simp
  rw [Finset.sum_congr rfl e2, Finset.sum_ite_eq]
  simp [hi1, hi2]

/-- C2: for every real (L+1)xL input matrix and any initial contents of `q`, the matrix `q`
returned by `QRDecomp` is orthogonal: its rows are orthonormal (`q * q^T = 1`) and its columns
are orthonormal (`q^T * q = 1`), as matrices of order `L+1`. -/
theorem QRDecomp_orthogonal (L : Nat) (A Q0 : Nat → Nat → ℝ) :
    (∀ i j, 1 ≤ i → i ≤ L + 1 → 1 ≤ j → j ≤ L + 1 →
      ∑ c ∈ Finset.Icc 1 (L + 1),
        (QRDecomp Real.sqrt ⟨L + 1, L, A⟩ ⟨L + 1, L + 1, Q0⟩).2.entry i c
          * (QRDecomp Real.sqrt ⟨L + 1, L, A⟩ ⟨L + 1, L + 1, Q0⟩).2.entry j c
        = if i = j then 1 else 0) ∧
    (∀ i j, 1 ≤ i → i ≤ L + 1 → 1 ≤ j → j ≤ L + 1 →
      ∑ c ∈ Finset.Icc 1 (L + 1),
        (QRDecomp Real.sqrt ⟨L + 1, L, A⟩ ⟨L + 1, L + 1, Q0⟩).2.entry c i
          * (QRDecomp Real.sqrt ⟨L + 1, L, A⟩ ⟨L + 1, L + 1, Q0⟩).2.entry c j
        = if i = j then 1 else 0) := by
  obtain ⟨-, -, -, -, -, hOrth, -⟩ :=
    QRDecomp_inv ⟨L + 1, L, A⟩ ⟨L + 1, L + 1, Q0⟩ rfl rfl (Nat.le_succ L)
  exact ⟨hOrth, orth_cols_of_rows (L + 1) _ hOrth⟩

theorem mulVec_injective_of_rank {L n : Nat} (A : Matrix (Fin n) (Fin L) ℝ)
    (hrank : A.rank = L) : Function.Injective A.mulVec := by
  rw [Matrix.mulVec_injective_iff, linearIndependent_iff_card_eq_finrank_span, Fintype.card_fin]
  have h := Matrix.rank_eq_finrank_span_cols A
  rw [hrank] at h
  exact h

theorem rank_eq_of_mulVec_injective {L n : Nat} (A : Matrix (Fin n) (Fin L) ℝ)
    (h : Function.Injective A.mulVec) : A.rank = L := by
  rw [Matrix.mulVec_injective_iff, linearIndependent_iff_card_eq_finrank_span,
    Fintype.card_fin] at h
  rw [Matrix.rank_eq_finrank_span_cols]
  exact h.symm

/-- If `Q` is orthogonal, `Q * A` has a zero last row and `A` has full column rank, then every
left null vector of `A` is a multiple of the last row of `Q`. -/
theorem left_null_unique {L : Nat} (Q : Matrix (Fin (L + 1)) (Fin (L + 1)) ℝ)
    (A B : Matrix (Fin (L + 1)) (Fin L) ℝ) (hQA : Q * A = B) (hQQ : Q.transpose * Q = 1)
    (hlast : ∀ j, B (Fin.last L) j = 0) (hrank : A.rank = L)
    (w : Fin (L + 1) → ℝ) (hw : Matrix.vecMul w A = 0) :
    ∃ c : ℝ, ∀ k, w k = c * Q (Fin.last L) k := by
  have hinj := mulVec_injective_of_rank A hrank
  have hA : A = Q.transpose * B := by
    rw [← hQA, ← Matrix.mul_assoc, hQQ, Matrix.one_mul]
  set v := Q.mulVec w with hv
  have hvB : Matrix.vecMul v B = 0 := by
    rw [hv, ← Matrix.vecMul_transpose, Matrix.vecMul_vecMul, ← hA, hw]
  set R : Matrix (Fin L) (Fin L) ℝ := B.submatrix Fin.castSucc id with hR
  have hRinj : Function.Injective R.mulVec := by
    intro c1 c2 h12
    apply hinj
    have hB : B.mulVec c1 = B.mulVec c2 := by
      funext i
      refine Fin.lastCases ?_ (fun i' => ?_) i
      · simp [Matrix.mulVec, Matrix.dotProduct, hlast]
      · exact congrFun h12 i'
    have h1 : Q.mulVec (A.mulVec c1) = Q.mulVec (A.mulVec c2) := by
      rw [Matrix.mulVec_mulVec, Matrix.mulVec_mulVec, hQA, hB]
    have h2 := congrArg Q.transpose.mulVec h1
    simpa only [Matrix.mulVec_mulVec, ← Matrix.mul_assoc, hQQ, Matrix.one_mul] using h2
  have hunit : IsUnit R := Matrix.mulVec_injective_iff_isUnit.mp hRinj
  have hRinj2 := Matrix.vecMul_injective_iff_isUnit.mpr hunit
  have hv0 : (fun i : Fin L => v i.castSucc) = 0 := by
    apply hRinj2
    show Matrix.vecMul (fun i : Fin L => v i.castSucc) R = Matrix.vecMul 0 R
    rw [Matrix.zero_vecMul]
    funext j
    have := congrFun hvB j
    simp only [Matrix.vecMul, Matrix.dotProduct, Fin.sum_univ_castSucc, hlast, mul_zero,
      add_zero, Pi.zero_apply] at this
    simpa [Matrix.vecMul, Matrix.dotProduct, hR] using this
  have hw2 : w = Q.transpose.mulVec v := by
    rw [hv, Matrix.mulVec_mulVec, hQQ, Matrix.one_mulVec]
  refine ⟨v (Fin.last L), fun k => ?_⟩
  rw [hw2]
  simp only [Matrix.mulVec, Matrix.dotProduct, Fin.sum_univ_castSucc, Matrix.transpose_apply]
  have : ∀ i : Fin L, v i.castSucc = 0 := fun i => congrFun hv0 i
  simp only [this, mul_zero, Finset.sum_const_zero, zero_add]
  ring

/-- C3: for every real (L+1)xL matrix `A`, the vector `t` that `q.GetRow(q.NumRows(), t)` reads
from the `q` returned by `QRDecomp` (the last row of `q`) is a unit vector, lies in the left
null space of `A`, and, when `A` has rank `L`, every `w` with `w^T A = 0` is a scalar multiple
of `t`. -/
theorem QRDecomp_tangent (L : Nat) (A Q0 : Nat → Nat → ℝ) (t0 : GVector ℝ) :
    (∑ k ∈ Finset.Icc 1 (L + 1),
      (((QRDecomp Real.sqrt ⟨L + 1, L, A⟩ ⟨L + 1, L + 1, Q0⟩).2.GetRow
          (QRDecomp Real.sqrt ⟨L + 1, L, A⟩ ⟨L + 1, L + 1, Q0⟩).2.NumRows t0).entry k) ^ 2 = 1) ∧
    (∀ m, 1 ≤ m → m ≤ L →
      ∑ k ∈ Finset.Icc 1 (L + 1),
        ((QRDecomp Real.sqrt ⟨L + 1, L, A⟩ ⟨L + 1, L + 1, Q0⟩).2.GetRow
          (QRDecomp Real.sqrt ⟨L + 1, L, A⟩ ⟨L + 1, L + 1, Q0⟩).2.NumRows t0).entry k * A k m
        = 0) ∧
    ((toMat (L + 1) L A).rank = L →
      ∀ w : Nat → ℝ, (∀ m, 1 ≤ m → m ≤ L → ∑ k ∈ Finset.Icc 1 (L + 1), w k * A k m = 0) →
        ∃ c : ℝ, ∀ k, 1 ≤ k → k ≤ L + 1 →
          w k = c * ((QRDecomp Real.sqrt ⟨L + 1, L, A⟩ ⟨L + 1, L + 1, Q0⟩).2.GetRow
            (QRDecomp Real.sqrt ⟨L + 1, L, A⟩ ⟨L + 1, L + 1, Q0⟩).2.NumRows t0).entry k) := by
  obtain ⟨-, -, hrows, -, hQA, hOrth, hZero⟩ :=
    QRDecomp_inv ⟨L + 1, L, A⟩ ⟨L + 1, L + 1, Q0⟩ rfl rfl (Nat.le_succ L)
  simp only at hQA hOrth hZero hrows
  simp only [GMatrix.GetRow, hrows]
  refine ⟨?_, ?_, ?_⟩
  · have := hOrth (L + 1) (L + 1) (by omega) (by omega) (by omega) (by omega)
    simp only [if_true] at this
    rw [← this]
    exact Finset.sum_congr rfl (fun c _ => by ring)
  · intro m hm1 hm2
    rw [hQA (L + 1) m (by omega) (by omega) hm1 hm2]
    exact hZero (L + 1) m hm1 (by omega) (by omega) (Or.inl (by omega))
  · intro hrank w hw
    have hcols := orth_cols_of_rows (L + 1) _ hOrth
    obtain ⟨c, hc⟩ := left_null_unique
      (toMat (L + 1) (L + 1) (QRDecomp Real.sqrt ⟨L + 1, L, A⟩ ⟨L + 1, L + 1, Q0⟩).2.entry)
      (toMat (L + 1) L A)
      (toMat (L + 1) L (QRDecomp Real.sqrt ⟨L + 1, L, A⟩ ⟨L + 1, L + 1, Q0⟩).1.entry)
      (by
        ext i j
        rw [Matrix.mul_apply]
        simp only [toMat, Matrix.of_apply]
        rw [← sum_Icc_eq_sum_fin (L + 1) (fun c =>
          (QRDecomp Real.sqrt ⟨L + 1, L, A⟩ ⟨L + 1, L + 1, Q0⟩).2.entry (i.val + 1) c
            * A c (j.val + 1))]
        exact hQA _ _ (by omega) (by omega) (by omega) (by omega))
      (by
        ext i j
        rw [Matrix.mul_apply, Matrix.one_apply]
        simp only [toMat, Matrix.of_apply, Matrix.transpose_apply]
        rw [← sum_Icc_eq_sum_fin (L + 1) (fun c =>
          (QRDecomp Real.sqrt ⟨L + 1, L, A⟩ ⟨L + 1, L + 1, Q0⟩).2.entry c (i.val + 1)
            * (QRDecomp Real.sqrt ⟨L + 1, L, A⟩ ⟨L + 1, L + 1, Q0⟩).2.entry c (j.val + 1))]
        rw [hcols _ _ (by omega) (by omega) (by omega) (by omega)]
        by_cases hij : i = j
        · simp [hij]
        · have : i.val + 1 ≠ j.val + 1 := fun hh => hij (Fin.ext (by omega))
          simp [hij, this])
      (by
        intro j
        simp only [toMat, Matrix.of_apply, Fin.val_last]
        exact hZero (L + 1) (j.val + 1) (by omega) (by omega) (by omega) (Or.inl (by omega)))
      hrank (toVec (L + 1) w)
      (by
        funext j
        simp only [Matrix.vecMul, Matrix.dotProduct, toVec, toMat, Matrix.of_apply,
          Pi.zero_apply]
        rw [← sum_Icc_eq_sum_fin (L + 1) (fun c => w c * A c (j.val + 1))]
        exact hw _ (by omega) (by omega))
    refine ⟨c, fun k hk1 hk2 => ?_⟩
    have := hc ⟨k - 1, by omega⟩
    simp only [toVec, toMat, Matrix.of_apply, Fin.val_last] at this
    have ek : k - 1 + 1 = k := by omega
    rw [ek] at this
    exact this

/-- Witness for the rank hypothesis of C3: the 2x1 matrix with rows `(0)`, `(1)` has rank 1, so
every left null vector of it is a multiple of the tangent returned for it. -/
theorem QRDecomp_tangent_witness :
    (toMat (1 + 1) 1 (exampleColumn ℝ).entry).rank = 1 ∧
    ∀ w : Nat → ℝ,
      (∀ m, 1 ≤ m → m ≤ 1 →
        ∑ k ∈ Finset.Icc 1 (1 + 1), w k * (exampleColumn ℝ).entry k m = 0) →
      ∃ c : ℝ, ∀ k, 1 ≤ k → k ≤ 1 + 1 →
        w k = c * ((QRDecomp Real.sqrt ⟨1 + 1, 1, (exampleColumn ℝ).entry⟩
            ⟨1 + 1, 1 + 1, fun _ _ => 0⟩).2.GetRow
          (QRDecomp Real.sqrt ⟨1 + 1, 1, (exampleColumn ℝ).entry⟩
            ⟨1 + 1, 1 + 1, fun _ _ => 0⟩).2.NumRows (constVector 2 0)).entry k :=
  have hrank : (toMat (1 + 1) 1 (exampleColumn ℝ).entry).rank = 1 := by
    apply rank_eq_of_mulVec_injective
    intro c1 c2 h
    have h1 := congrFun h 1
    simp [Matrix.mulVec, Matrix.dotProduct, toMat, exampleColumn] at h1
    funext i
    have hi : i = 0 := Subsingleton.elim _ _
    rw [hi]
    exact h1
  ⟨hrank, (QRDecomp_tangent 1 (exampleColumn ℝ).entry (fun _ _ => 0) (constVector 2 0)).2.2
    hrank⟩

/-! ## Newton step (C8, C9, C10) -/

/-- The substitution loop of `NewtonStep`: entry `k` of the result is
`(y[k] - sum_{l < k} b(l,k) * result[l]) / b(k,k)`; entries outside `1..L` are untouched. -/
theorem NewtonSolve_spec (b : GMatrix ℝ) (y : GVector ℝ) :
    (NewtonSolve b y).Length = y.Length ∧
    (∀ k, 1 ≤ k → k ≤ b.NumColumns → (NewtonSolve b y).entry k =
      (y.entry k - ∑ l ∈ Finset.Icc 1 (k - 1), b.entry l k * (NewtonSolve b y).entry l)
        / b.entry k k) ∧
    (∀ k, ¬ (1 ≤ k ∧ k ≤ b.NumColumns) → (NewtonSolve b y).entry k = y.entry k) := by
  have key := forLoop_invariant
    (fun k (st : GVector ℝ) => st.Length = y.Length ∧
      (∀ j, 1 ≤ j → j < k → st.entry j =
        (y.entry j - ∑ l ∈ Finset.Icc 1 (j - 1), b.entry l j * st.entry l) / b.entry j j) ∧
      (∀ j, ¬ (1 ≤ j ∧ j < k) → st.entry j = y.entry j))
    1 b.NumColumns (fun k y =>
      let y := forLoop 1 (k - 1) (fun l y => y.set k (y.entry k - b.entry l k * y.entry l)) y
      y.set k (y.entry k / b.entry k k)) y (by omega)
    ⟨rfl, fun j h1 h2 => by omega, fun j _ => rfl⟩
    (by
      rintro k st hk1 hk2 ⟨hlen, hdone, hrest⟩
      have inner := forLoop_invariant
        (fun l (st2 : GVector ℝ) => st2.Length = st.Length ∧
          st2.entry k = st.entry k - ∑ c ∈ Finset.Icc 1 (l - 1), b.entry c k * st.entry c ∧
          ∀ j, j ≠ k → st2.entry j = st.entry j)
        1 (k - 1) (fun l y => y.set k (y.entry k - b.entry l k * y.entry l)) st (by omega)
        ⟨rfl, by simp, fun j _ => rfl⟩
        (by
          rintro l st2 hl1 hl2 ⟨g1, g2, g3⟩
          refine ⟨g1, ?_, fun j hj => ?_⟩
          · have e : l - 1 + 1 = l := by omega
            have hs := sum_Icc_succ (l - 1) (fun c => b.entry c k * st.entry c)
            rw [e] at hs
            simp only [GVector_set_entry, if_true, Nat.add_sub_cancel, hs, g2,
              g3 l (by omega)]
            ring
          · simp only [GVector_set_entry, hj, if_false]
            exact g3 j hj)
      have ek : k - 1 + 1 = k := by omega
      rw [ek] at inner
      obtain ⟨g1, g2, g3⟩ := inner
      refine ⟨by simpa [GVector.set] using g1.trans hlen, fun j hj1 hj2 => ?_, fun j hj => ?_⟩
      · have hsum : ∀ j', j' ≤ k → ∑ l ∈ Finset.Icc 1 (j' - 1), b.entry l j' *
            ((forLoop 1 (k - 1)
              (fun l y => y.set k (y.entry k - b.entry l k * y.entry l)) st).set k
              ((forLoop 1 (k - 1)
                (fun l y => y.set k (y.entry k - b.entry l k * y.entry l)) st).entry k
                / b.entry k k)).entry l
            = ∑ l ∈ Finset.Icc 1 (j' - 1), b.entry l j' * st.entry l := by
          intro j' hj'
          apply Finset.sum_congr rfl
          intro l hl
          have hl2 := Finset.mem_Icc.mp hl
          have hlk : l ≠ k := by omega
          simp only [GVector_set_entry, hlk, if_false, g3 l hlk]
        simp only [Nat.add_sub_cancel] at hsum ⊢
        rw [hsum j (by omega)]
        by_cases hjk : j = k
        · subst hjk
          simp only [GVector_set_entry, if_true, g2]
          rw [hrest j (by omega)]
        · simp only [GVector_set_entry, hjk, if_false, g3 j hjk]
          exact hdone j hj1 (by omega)
      · have hjk : j ≠ k := by omega
        simp only [GVector_set_entry, hjk, if_false, g3 j hjk]
        exact hrest j (by omega))
  obtain ⟨h1, h2, h3⟩ := key
  exact ⟨h1, fun k hk1 hk2 => h2 k hk1 (by omega), fun k hk => h3 k (by omega)⟩

/-- The update loop of `NewtonStep`. -/
theorem NewtonStep_spec (q b : GMatrix ℝ) (u y : GVector ℝ) :
    (NewtonStep Real.sqrt q b u y).2.1 = NewtonSolve b y ∧
    (∀ k, (NewtonStep Real.sqrt q b u y).1.entry k =
      if 1 ≤ k ∧ k ≤ b.NumRows then
        u.entry k - ∑ l ∈ Finset.Icc 1 b.NumColumns, q.entry l k * (NewtonSolve b y).entry l
      else u.entry k) ∧
    (NewtonStep Real.sqrt q b u y).2.2 = Real.sqrt (∑ k ∈ Finset.Icc 1 b.NumRows,
      (∑ l ∈ Finset.Icc 1 b.NumColumns, q.entry l k * (NewtonSolve b y).entry l) ^ 2) := by
  have hs : ∀ k, NewtonCorrection q b (NewtonSolve b y) k
      = ∑ l ∈ Finset.Icc 1 b.NumColumns, q.entry l k * (NewtonSolve b y).entry l := by
    intro k
    unfold NewtonCorrection
    rw [forLoop_sum, zero_add]
  have key := forLoop_invariant
    (fun k (st : GVector ℝ × ℝ) =>
      (∀ j, st.1.entry j = if 1 ≤ j ∧ j < k then
        u.entry j - ∑ l ∈ Finset.Icc 1 b.NumColumns, q.entry l j * (NewtonSolve b y).entry l
        else u.entry j) ∧
      st.2 = ∑ j ∈ Finset.Icc 1 (k - 1),
        (∑ l ∈ Finset.Icc 1 b.NumColumns, q.entry l j * (NewtonSolve b y).entry l) ^ 2)
    1 b.NumRows (fun k (st : GVector ℝ × ℝ) =>
      let s := NewtonCorrection q b (NewtonSolve b y) k
      (st.1.set k (st.1.entry k - s), st.2 + s * s)) (u, 0) (by omega)
    ⟨fun j => by
      have : ¬ (1 ≤ j ∧ j < 1) := by omega
      simp only [this, if_false], by simp⟩
    (by
      rintro k st hk1 hk2 ⟨g1, g2⟩
      refine ⟨fun j => ?_, ?_⟩
      · simp only [GVector_set_entry, hs]
        by_cases hjk : j = k
        · subst hjk
          have h1 : ¬ (1 ≤ j ∧ j < j) := by omega
          have h2 : 1 ≤ j ∧ j < j + 1 := by omega
          have h3 : ¬ (True ∧ j < j) := by omega
          simp only [if_true, g1 j, h1, h3, if_false, h2, and_self]
        · have h1 : (1 ≤ j ∧ j < k + 1) ↔ (1 ≤ j ∧ j < k) := by omega
          simp only [hjk, if_false, g1 j, h1]
      · have e : k - 1 + 1 = k := by omega
        have hsum := sum_Icc_succ (k - 1) (fun j =>
          (∑ l ∈ Finset.Icc 1 b.NumColumns, q.entry l j * (NewtonSolve b y).entry l) ^ 2)
        rw [e] at hsum
        simp only [Nat.add_sub_cancel, hsum, g2, hs]
        ring)
  obtain ⟨g1, g2⟩ := key
  refine ⟨rfl, fun k => ?_, ?_⟩
  · have h1 : (1 ≤ k ∧ k < b.NumRows + 1) ↔ (1 ≤ k ∧ k ≤ b.NumRows) := by omega
    have := g1 k
    simp only [h1] at this
    exact this
  · simp only [Nat.add_sub_cancel] at g2
    show Real.sqrt _ = _
    rw [← g2]

/-- C8 (as stated) fails: the 3x2 matrix with rows `(1,1)`, `(0,1)`, `(0,0)` is upper triangular
with diagonal `1`, so `QRDecomp` returns it unchanged as the factor `b` (with `q` the identity).
For this factored system and the residual `y = (1, 1)`, the vector left in `y` is
`delta = (1, 0)`, and row 2 of `B * delta` is `0`, not `y[2] = 1`. -/
theorem NewtonStep_solve_counterexample :
    (∀ k, 1 ≤ k → k ≤ 2 →
      (QRDecomp Real.sqrt (exampleTriangular ℝ) (exampleIdentity ℝ)).1.entry k k ≠ 0) ∧
    (NewtonStep Real.sqrt (QRDecomp Real.sqrt (exampleTriangular ℝ) (exampleIdentity ℝ)).2
        (QRDecomp Real.sqrt (exampleTriangular ℝ) (exampleIdentity ℝ)).1
        (constVector 3 0) (constVector 2 1)).2.1.entry 1 = 1 ∧
    (NewtonStep Real.sqrt (QRDecomp Real.sqrt (exampleTriangular ℝ) (exampleIdentity ℝ)).2
        (QRDecomp Real.sqrt (exampleTriangular ℝ) (exampleIdentity ℝ)).1
        (constVector 3 0) (constVector 2 1)).2.1.entry 2 = 0 ∧
    ¬ (∀ k, 1 ≤ k → k ≤ 2 →
      ∑ l ∈ Finset.Icc 1 2,
        (QRDecomp Real.sqrt (exampleTriangular ℝ) (exampleIdentity ℝ)).1.entry k l *
        (NewtonStep Real.sqrt (QRDecomp Real.sqrt (exampleTriangular ℝ) (exampleIdentity ℝ)).2
          (QRDecomp Real.sqrt (exampleTriangular ℝ) (exampleIdentity ℝ)).1
          (constVector 3 0) (constVector 2 1)).2.1.entry l
        = (constVector 2 (1 : ℝ)).entry k) := by
  have hQR : QRDecomp Real.sqrt (exampleTriangular ℝ) (exampleIdentity ℝ)
      = (exampleTriangular ℝ, (exampleIdentity ℝ).MakeIdent) := by
    apply QRDecomp_upper_triangular
    · intro m h1 h2
      have hm : m = 1 ∨ m = 2 := by
        have : (exampleTriangular ℝ).NumColumns = 2 := rfl
        omega
      rcases hm with rfl | rfl <;> simp [exampleTriangular]
    · intro k m h1 h2 h3 h4
      have hk : k ≠ 1 := by omega
      have hk2 : ¬ (k = 2 ∧ m = 2) := by omega
      simp [exampleTriangular, hk, hk2]
  rw [hQR]
  have e1 : (NewtonStep Real.sqrt (exampleIdentity ℝ).MakeIdent (exampleTriangular ℝ)
        (constVector 3 0) (constVector 2 1)).2.1.entry 1 = 1 := by
    simp [NewtonStep, NewtonSolve, forLoop, forLoopAux, GVector.set, exampleTriangular,
      constVector]
  have e2 : (NewtonStep Real.sqrt (exampleIdentity ℝ).MakeIdent (exampleTriangular ℝ)
        (constVector 3 0) (constVector 2 1)).2.1.entry 2 = 0 := by
    simp [NewtonStep, NewtonSolve, forLoop, forLoopAux, GVector.set, exampleTriangular,
      constVector]
  refine ⟨?_, e1, e2, ?_⟩
  · intro k h1 h2
    have hk : k = 1 ∨ k = 2 := by omega
    rcases hk with rfl | rfl <;> simp [exampleTriangular]
  · intro h
    have h2 := h 2 (by norm_num) (by norm_num)
    have hI : Finset.Icc 1 2 = {1, 2} := by decide
    rw [hI, Finset.sum_pair (by norm_num), e1, e2] at h2
    simp [exampleTriangular, constVector] at h2

/-- C8 (amended): for every factored system `(q, b)` whose top block is upper triangular with
non-zero diagonal `b(k,k)`, `k = 1..L`, and every residual `y`, the vector `delta` that
`NewtonStep` leaves in `y` solves the transposed triangular system
`B_{1:L,1:L}^T * delta = y_in`, that is `sum over l of b(l,k) * delta_l = y_in[k]` for every
`k = 1..L`. -/
theorem NewtonStep_solves_transposed (q b : GMatrix ℝ) (u y : GVector ℝ)
    (hdiag : ∀ k, 1 ≤ k → k ≤ b.NumColumns → b.entry k k ≠ 0)
    (htri : ∀ l k, 1 ≤ k → k < l → l ≤ b.NumColumns → b.entry l k = 0) :
    ∀ k, 1 ≤ k → k ≤ b.NumColumns →
      ∑ l ∈ Finset.Icc 1 b.NumColumns,
        b.entry l k * (NewtonStep Real.sqrt q b u y).2.1.entry l = y.entry k := by
  intro k hk1 hk2
  show ∑ l ∈ Finset.Icc 1 b.NumColumns, b.entry l k * (NewtonSolve b y).entry l = y.entry k
  obtain ⟨-, hsol, -⟩ := NewtonSolve_spec b y
  have hsub : Finset.Icc 1 k ⊆ Finset.Icc 1 b.NumColumns :=
    Finset.Icc_subset_Icc (le_refl 1) hk2
  rw [← Finset.sum_subset hsub (by
    intro l hl hnl
    have hl2 := Finset.mem_Icc.mp hl
    have hlk : k < l := by
      by_contra hh
      exact hnl (Finset.mem_Icc.mpr ⟨hl2.1, by omega⟩)
    rw [htri l k hk1 hlk hl2.2, zero_mul])]
  have ek : k - 1 + 1 = k := by omega
  have hs := sum_Icc_succ (k - 1) (fun l => b.entry l k * (NewtonSolve b y).entry l)
  rw [ek] at hs
  rw [hs, hsol k hk1 hk2]
  field_simp [hdiag k hk1 hk2]

/-- Witness for C8 (amended): row 2 of the transposed system for the triangular factor with rows
`(1,1)`, `(0,1)`, `(0,0)` and `y = (1, 1)`. -/
theorem NewtonStep_solves_transposed_witness :
    ∑ l ∈ Finset.Icc 1 (exampleTriangular ℝ).NumColumns,
      (exampleTriangular ℝ).entry l 2 *
        (NewtonStep Real.sqrt (exampleIdentity ℝ) (exampleTriangular ℝ)
          (constVector 3 0) (constVector 2 1)).2.1.entry l
      = (constVector 2 (1 : ℝ)).entry 2 :=
  NewtonStep_solves_transposed (exampleIdentity ℝ) (exampleTriangular ℝ)
    (constVector 3 0) (constVector 2 1)
    (by
      intro k h1 h2
      have hk : k = 1 ∨ k = 2 := by
        have : (exampleTriangular ℝ).NumColumns = 2 := rfl
        omega
      rcases hk with rfl | rfl <;> simp [exampleTriangular])
    (by
      intro l k h1 h2 h3
      have : (exampleTriangular ℝ).NumColumns = 2 := rfl
      have hl : l ≠ 1 := by omega
      have hk : ¬ (l = 2 ∧ k = 2) := by omega
      simp [exampleTriangular, hl, hk])
    2 (by norm_num) (le_refl 2)

/-- C9: for every `q`, `u`, `y` and every `b` with non-zero diagonal `b(k,k)`, `k = 1..L` (so
that no division of the substitution loop is a division by zero), with `delta` the vector that
the substitution loop leaves in `y`, `NewtonStep` replaces `u[k]` by `u[k] - s_k` for
`k = 1..L+1` (the rows of `b`), where `s_k = sum over l = 1..L of q(l,k) * delta_l`, leaves the
other entries of `u` alone, and returns `d = sqrt(sum_k s_k^2) = ||u_in - u_out||_2`, so
`d >= 0`; and `delta` is the solved vector: `b(k,k) * delta_k = y_in[k] - sum over l < k of
b(l,k) * delta_l` for every `k = 1..L`. -/
theorem NewtonStep_update (q b : GMatrix ℝ) (u y : GVector ℝ)
    (hdiag : ∀ k, 1 ≤ k → k ≤ b.NumColumns → b.entry k k ≠ 0) :
    (NewtonStep Real.sqrt q b u y).2.1 = NewtonSolve b y ∧
    (∀ k, 1 ≤ k → k ≤ b.NumRows →
      (NewtonStep Real.sqrt q b u y).1.entry k = u.entry k -
        ∑ l ∈ Finset.Icc 1 b.NumColumns,
          q.entry l k * (NewtonStep Real.sqrt q b u y).2.1.entry l) ∧
    (∀ k, ¬ (1 ≤ k ∧ k ≤ b.NumRows) → (NewtonStep Real.sqrt q b u y).1.entry k = u.entry k) ∧
    (NewtonStep Real.sqrt q b u y).2.2 = Real.sqrt (∑ k ∈ Finset.Icc 1 b.NumRows,
      (∑ l ∈ Finset.Icc 1 b.NumColumns,
        q.entry l k * (NewtonStep Real.sqrt q b u y).2.1.entry l) ^ 2) ∧
    (NewtonStep Real.sqrt q b u y).2.2 = Real.sqrt (∑ k ∈ Finset.Icc 1 b.NumRows,
      (u.entry k - (NewtonStep Real.sqrt q b u y).1.entry k) ^ 2) ∧
    0 ≤ (NewtonStep Real.sqrt q b u y).2.2 ∧
    (∀ k, 1 ≤ k → k ≤ b.NumColumns →
      b.entry k k * (NewtonStep Real.sqrt q b u y).2.1.entry k =
        y.entry k - ∑ l ∈ Finset.Icc 1 (k - 1),
          b.entry l k * (NewtonStep Real.sqrt q b u y).2.1.entry l) := by
  obtain ⟨h1, h2, h3⟩ := NewtonStep_spec q b u y
  refine ⟨h1, fun k hk1 hk2 => ?_, fun k hk => ?_, ?_, ?_, ?_, fun k hk1 hk2 => ?_⟩
  · rw [h2 k, h1]
    simp only [hk1, hk2, and_self, if_true]
  · rw [h2 k]
    simp only [hk, if_false]
  · rw [h3, h1]
  · rw [h3]
    congr 1
    apply Finset.sum_congr rfl
    intro k hk
    have hk2 := Finset.mem_Icc.mp hk
    rw [h2 k]
    simp only [hk2, and_self, if_true]
    ring
  · rw [h3]
    exact Real.sqrt_nonneg _
  · rw [h1]
    have hk := (NewtonSolve_spec b y).2.1 k hk1 hk2
    rw [hk, mul_div_cancel₀ _ (hdiag k hk1 hk2)]

/-- Witness for C9: the triangular factor with rows `(1,1)`, `(0,1)`, `(0,0)`, the identity for
`q`, `u = (0, 0, 0)` and `y = (1, 1)`. -/
theorem NewtonStep_update_witness :
    (NewtonStep Real.sqrt (exampleIdentity ℝ) (exampleTriangular ℝ) (constVector 3 0)
        (constVector 2 1)).2.2 =
      Real.sqrt (∑ k ∈ Finset.Icc 1 (exampleTriangular ℝ).NumRows,
        ((constVector 3 (0 : ℝ)).entry k -
          (NewtonStep Real.sqrt (exampleIdentity ℝ) (exampleTriangular ℝ) (constVector 3 0)
            (constVector 2 1)).1.entry k) ^ 2) ∧
    0 ≤ (NewtonStep Real.sqrt (exampleIdentity ℝ) (exampleTriangular ℝ) (constVector 3 0)
        (constVector 2 1)).2.2 := by
  obtain ⟨-, -, -, -, h5, h6, -⟩ := NewtonStep_update (exampleIdentity ℝ) (exampleTriangular ℝ)
    (constVector 3 0) (constVector 2 1)
    (by
      intro k h1 h2
      have hk : k = 1 ∨ k = 2 := by
        have : (exampleTriangular ℝ).NumColumns = 2 := rfl
        omega
      rcases hk with rfl | rfl <;> simp [exampleTriangular])
  exact ⟨h5, h6⟩

/-- C10 (as stated) fails: for the 2x1 matrix with rows `(0)`, `(1)`, factored by `QRDecomp`,
and the residual `y = (1)`, `NewtonStep` changes the last entry of `u = (0, 0)` (its lambda
coordinate, index `L+1 = 2`) from `0` to `-1`. -/
theorem NewtonStep_last_entry_counterexample :
    (NewtonStep Real.sqrt
      (QRDecomp Real.sqrt (exampleColumn ℝ) ⟨2, 2, fun _ _ => 0⟩).2
      (QRDecomp Real.sqrt (exampleColumn ℝ) ⟨2, 2, fun _ _ => 0⟩).1
      (constVector 2 0) (constVector 1 1)).1.entry 2 = -1 ∧
    ¬ ((NewtonStep Real.sqrt
      (QRDecomp Real.sqrt (exampleColumn ℝ) ⟨2, 2, fun _ _ => 0⟩).2
      (QRDecomp Real.sqrt (exampleColumn ℝ) ⟨2, 2, fun _ _ => 0⟩).1
      (constVector 2 0) (constVector 1 1)).1.entry 2 = (constVector 2 (0 : ℝ)).entry 2) := by
  have e : (NewtonStep Real.sqrt
      (QRDecomp Real.sqrt (exampleColumn ℝ) ⟨2, 2, fun _ _ => 0⟩).2
      (QRDecomp Real.sqrt (exampleColumn ℝ) ⟨2, 2, fun _ _ => 0⟩).1
      (constVector 2 0) (constVector 1 1)).1.entry 2 = -1 := by
    simp [NewtonStep, NewtonSolve, NewtonCorrection, QRDecomp, QRDecompStep, Givens, forLoop,
      forLoopAux, GMatrix.set, GVector.set, GMatrix.MakeIdent, sqr, exampleColumn, constVector]
  refine ⟨e, ?_⟩
  rw [e]
  simp [constVector]

/-- C10 (amended): for every factored system `(q, b)` produced by `QRDecomp` from an (L+1)xL
matrix whose triangular factor has non-zero diagonal (so that `NewtonStep` divides by no zero
pivot) and every `u`, `y`, the correction `s = u_in - u_out` applied by `NewtonStep` has zero
component along the last row of `q` (the tangent), `sum_k q(L+1,k) * s_k = 0`; the last entry
of `u` changes by `s_{L+1} = sum over l = 1..L of q(l,L+1) * delta_l`, where `delta`, the
vector left in `y`, solves `b(k,k) * delta_k = y_in[k] - sum over l < k of b(l,k) * delta_l`. -/
theorem NewtonStep_correction_orthogonal (L : Nat) (A Q0 : Nat → Nat → ℝ) (u y : GVector ℝ)
    (hdiag : ∀ k, 1 ≤ k → k ≤ L →
      (QRDecomp Real.sqrt ⟨L + 1, L, A⟩ ⟨L + 1, L + 1, Q0⟩).1.entry k k ≠ 0) :
    (∑ k ∈ Finset.Icc 1 (L + 1),
      (QRDecomp Real.sqrt ⟨L + 1, L, A⟩ ⟨L + 1, L + 1, Q0⟩).2.entry (L + 1) k *
        (u.entry k - (NewtonStep Real.sqrt
          (QRDecomp Real.sqrt ⟨L + 1, L, A⟩ ⟨L + 1, L + 1, Q0⟩).2
          (QRDecomp Real.sqrt ⟨L + 1, L, A⟩ ⟨L + 1, L + 1, Q0⟩).1 u y).1.entry k) = 0) ∧
    (NewtonStep Real.sqrt
        (QRDecomp Real.sqrt ⟨L + 1, L, A⟩ ⟨L + 1, L + 1, Q0⟩).2
        (QRDecomp Real.sqrt ⟨L + 1, L, A⟩ ⟨L + 1, L + 1, Q0⟩).1 u y).1.entry (L + 1)
      = u.entry (L + 1) - ∑ l ∈ Finset.Icc 1 L,
          (QRDecomp Real.sqrt ⟨L + 1, L, A⟩ ⟨L + 1, L + 1, Q0⟩).2.entry l (L + 1) *
          (NewtonStep Real.sqrt
            (QRDecomp Real.sqrt ⟨L + 1, L, A⟩ ⟨L + 1, L + 1, Q0⟩).2
            (QRDecomp Real.sqrt ⟨L + 1, L, A⟩ ⟨L + 1, L + 1, Q0⟩).1 u y).2.1.entry l ∧
    (∀ k, 1 ≤ k → k ≤ L →
      (QRDecomp Real.sqrt ⟨L + 1, L, A⟩ ⟨L + 1, L + 1, Q0⟩).1.entry k k *
        (NewtonStep Real.sqrt
          (QRDecomp Real.sqrt ⟨L + 1, L, A⟩ ⟨L + 1, L + 1, Q0⟩).2
          (QRDecomp Real.sqrt ⟨L + 1, L, A⟩ ⟨L + 1, L + 1, Q0⟩).1 u y).2.1.entry k =
      y.entry k - ∑ l ∈ Finset.Icc 1 (k - 1),
        (QRDecomp Real.sqrt ⟨L + 1, L, A⟩ ⟨L + 1, L + 1, Q0⟩).1.entry l k *
          (NewtonStep Real.sqrt
            (QRDecomp Real.sqrt ⟨L + 1, L, A⟩ ⟨L + 1, L + 1, Q0⟩).2
            (QRDecomp Real.sqrt ⟨L + 1, L, A⟩ ⟨L + 1, L + 1, Q0⟩).1 u y).2.1.entry l) := by
  obtain ⟨hr, hc, -, -, -, hOrth, -⟩ :=
    QRDecomp_inv ⟨L + 1, L, A⟩ ⟨L + 1, L + 1, Q0⟩ rfl rfl (Nat.le_succ L)
  simp only at hr hc hOrth
  obtain ⟨h1, h2, -⟩ := NewtonStep_spec
    (QRDecomp Real.sqrt ⟨L + 1, L, A⟩ ⟨L + 1, L + 1, Q0⟩).2
    (QRDecomp Real.sqrt ⟨L + 1, L, A⟩ ⟨L + 1, L + 1, Q0⟩).1 u y
  have hsolved : ∀ k, 1 ≤ k → k ≤ L →
      (QRDecomp Real.sqrt ⟨L + 1, L, A⟩ ⟨L + 1, L + 1, Q0⟩).1.entry k k *
        (NewtonStep Real.sqrt
          (QRDecomp Real.sqrt ⟨L + 1, L, A⟩ ⟨L + 1, L + 1, Q0⟩).2
          (QRDecomp Real.sqrt ⟨L + 1, L, A⟩ ⟨L + 1, L + 1, Q0⟩).1 u y).2.1.entry k =
      y.entry k - ∑ l ∈ Finset.Icc 1 (k - 1),
        (QRDecomp Real.sqrt ⟨L + 1, L, A⟩ ⟨L + 1, L + 1, Q0⟩).1.entry l k *
          (NewtonStep Real.sqrt
            (QRDecomp Real.sqrt ⟨L + 1, L, A⟩ ⟨L + 1, L + 1, Q0⟩).2
            (QRDecomp Real.sqrt ⟨L + 1, L, A⟩ ⟨L + 1, L + 1, Q0⟩).1 u y).2.1.entry l := by
    intro k hk1 hk2
    rw [h1]
    have hk := (NewtonSolve_spec
      (QRDecomp Real.sqrt ⟨L + 1, L, A⟩ ⟨L + 1, L + 1, Q0⟩).1 y).2.1 k hk1 (by rw [hc]; exact hk2)
    rw [hk, mul_div_cancel₀ _ (hdiag k hk1 hk2)]
  rw [hr, hc] at h2
  refine ⟨?_, ?_, hsolved⟩
  · have e1 : ∀ k ∈ Finset.Icc 1 (L + 1),
        (QRDecomp Real.sqrt ⟨L + 1, L, A⟩ ⟨L + 1, L + 1, Q0⟩).2.entry (L + 1) k *
        (u.entry k - (NewtonStep Real.sqrt
          (QRDecomp Real.sqrt ⟨L + 1, L, A⟩ ⟨L + 1, L + 1, Q0⟩).2
          (QRDecomp Real.sqrt ⟨L + 1, L, A⟩ ⟨L + 1, L + 1, Q0⟩).1 u y).1.entry k)
        = ∑ l ∈ Finset.Icc 1 L,
          ((QRDecomp Real.sqrt ⟨L + 1, L, A⟩ ⟨L + 1, L + 1, Q0⟩).2.entry (L + 1) k *
            (QRDecomp Real.sqrt ⟨L + 1, L, A⟩ ⟨L + 1, L + 1, Q0⟩).2.entry l k) *
          (NewtonSolve (QRDecomp Real.sqrt ⟨L + 1, L, A⟩ ⟨L + 1, L + 1, Q0⟩).1 y).entry l := by
      intro k hk
      have hk2 := Finset.mem_Icc.mp hk
      rw [h2 k]
      simp only [hk2, and_self, if_true, sub_sub_cancel, Finset.mul_sum]
      exact Finset.sum_congr rfl (fun l _ => by ring)
    rw [Finset.sum_congr rfl e1, Finset.sum_comm]
    apply Finset.sum_eq_zero
    intro l hl
    have hl2 := Finset.mem_Icc.mp hl
    rw [← Finset.sum_mul, hOrth (L + 1) l (by omega) (by omega) hl2.1 (by omega)]
    have : L + 1 ≠ l := by omega
    simp [this]
  · rw [h2 (L + 1), h1]
    have : 1 ≤ L + 1 ∧ L + 1 ≤ L + 1 := by omega
    simp only [this, and_self, if_true]

/-- Witness for C10 (amended): the 2x1 matrix with rows `(0)`, `(1)`, whose factor has the
pivot 1, with `u = (0, 0)` and `y = (1)`. -/
theorem NewtonStep_correction_orthogonal_witness :
    ∑ k ∈ Finset.Icc 1 (1 + 1),
      (QRDecomp Real.sqrt ⟨1 + 1, 1, (exampleColumn ℝ).entry⟩
          ⟨1 + 1, 1 + 1, fun _ _ => 0⟩).2.entry (1 + 1) k *
        ((constVector 2 (0 : ℝ)).entry k - (NewtonStep Real.sqrt
          (QRDecomp Real.sqrt ⟨1 + 1, 1, (exampleColumn ℝ).entry⟩
            ⟨1 + 1, 1 + 1, fun _ _ => 0⟩).2
          (QRDecomp Real.sqrt ⟨1 + 1, 1, (exampleColumn ℝ).entry⟩
            ⟨1 + 1, 1 + 1, fun _ _ => 0⟩).1
          (constVector 2 0) (constVector 1 1)).1.entry k) = 0 :=
  (NewtonStep_correction_orthogonal 1 (exampleColumn ℝ).entry (fun _ _ => 0)
    (constVector 2 0) (constVector 1 1)
    (by
      intro k hk1 hk2
      obtain rfl : k = 1 := by omega
      simp [QRDecomp, QRDecompStep, Givens, forLoop, forLoopAux, GMatrix.set,
        GMatrix.MakeIdent, sqr, exampleColumn])).1

/-! ## Player-major indexing -/

theorem Game.offset_one {α : Type} (g : Game α) : g.offset 1 = 0 := by
  simp [Game.offset]

theorem Game.offset_succ {α : Type} (g : Game α) (pl : Nat) (h : 1 ≤ pl) :
    g.offset (pl + 1) = g.offset pl + g.NumStrategies pl := by
  unfold Game.offset
  have e : pl + 1 - 1 = (pl - 1) + 1 := by omega
  rw [e, ← Nat.Icc_insert_succ_right (by omega), Finset.sum_insert (by simp), add_comm]
  have e2 : pl - 1 + 1 = pl := by omega
  rw [e2]

theorem Game.offset_last {α : Type} (g : Game α) :
    g.offset (g.NumPlayers + 1) = g.MixedProfileLength := by
  simp [Game.offset, Game.MixedProfileLength]

theorem Game.offset_mono {α : Type} (g : Game α) (p q : Nat) (h1 : 1 ≤ p) (h : p ≤ q) :
    g.offset p ≤ g.offset q := by
  induction q with
  | zero => omega
  | succ n ih =>
    rcases Nat.eq_or_lt_of_le h with h2 | h2
    · rw [h2]
    · have := ih (by omega)
      rw [g.offset_succ n (by omega)]
      omega

/-- The flat index determines the player and the strategy. -/
theorem Game.index_inj {α : Type} (g : Game α) (p s p2 s2 : Nat) (hp : 1 ≤ p) (hp2 : 1 ≤ p2)
    (hs1 : 1 ≤ s) (hs2 : s ≤ g.NumStrategies p) (hs3 : 1 ≤ s2) (hs4 : s2 ≤ g.NumStrategies p2)
    (h : g.offset p + s = g.offset p2 + s2) : p = p2 ∧ s = s2 := by
  have key : ∀ a b sa sb, 1 ≤ a → a < b → 1 ≤ sb → sa ≤ g.NumStrategies a →
      g.offset a + sa < g.offset b + sb := by
    intro a b sa sb ha hab hsb hsa
    have h1 := g.offset_mono (a + 1) b (by omega) (by omega)
    rw [g.offset_succ a ha] at h1
    omega
  rcases Nat.lt_trichotomy p p2 with hlt | heq | hgt
  · have := key p p2 s s2 hp hlt hs3 hs2
    omega
  · subst heq
    exact ⟨rfl, by omega⟩
  · have := key p2 p s2 s hp2 hgt hs1 hs4
    omega

theorem Game.index_le {α : Type} (g : Game α) (p s : Nat) (hp1 : 1 ≤ p) (hp2 : p ≤ g.NumPlayers)
    (hs2 : s ≤ g.NumStrategies p) : g.offset p + s ≤ g.MixedProfileLength := by
  have h1 := g.offset_mono (p + 1) (g.NumPlayers + 1) (by omega) (by omega)
  rw [g.offset_succ p hp1, g.offset_last] at h1
  omega

/-- Every flat index `1 .. L` is the index of a strategy of a player. -/
theorem Game.index_surj {α : Type} (g : Game α) (k : Nat) (h1 : 1 ≤ k)
    (h2 : k ≤ g.MixedProfileLength) :
    ∃ p s, 1 ≤ p ∧ p ≤ g.NumPlayers ∧ 1 ≤ s ∧ s ≤ g.NumStrategies p ∧ k = g.offset p + s := by
  rw [← g.offset_last] at h2
  have key : ∀ n, n ≤ g.NumPlayers → k ≤ g.offset (n + 1) →
      ∃ p s, 1 ≤ p ∧ p ≤ g.NumPlayers ∧ 1 ≤ s ∧ s ≤ g.NumStrategies p ∧ k = g.offset p + s := by
    intro n
    induction n with
    | zero =>
      intro _ hk
      rw [g.offset_one] at hk
      omega
    | succ n ih =>
      intro hn hk
      by_cases hk2 : k ≤ g.offset (n + 1)
      · exact ih (by omega) hk2
      · rw [g.offset_succ (n + 1) (by omega)] at hk
        exact ⟨n + 1, k - g.offset (n + 1), by omega, hn, by omega, by omega, by omega⟩
  exact key g.NumPlayers (le_refl _) h2

/-- Invariant rule for the player-major double loop with a running counter (`rowno` or `colno`):
an invariant indexed by the counter that holds initially at `0` and is carried by the body at
every `(pl, st)`, where the counter is `offset pl + st`, holds on exit at counter `L`. -/
theorem playerLoop_inv {α σ : Type} (g : Game α) (step : Nat → Nat → Nat → σ → σ) (init : σ)
    (Inv : Nat → σ → Prop) (h0 : Inv 0 init)
    (hstep : ∀ pl s st, 1 ≤ pl → pl ≤ g.NumPlayers → 1 ≤ s → s ≤ g.NumStrategies pl →
      Inv (g.offset pl + s - 1) st → Inv (g.offset pl + s) (step pl s (g.offset pl + s) st)) :
    (forLoop 1 g.NumPlayers (fun pl st =>
      forLoop 1 (g.NumStrategies pl) (fun s st => (st.1 + 1, step pl s (st.1 + 1) st.2)) st)
      (0, init)).1 = g.MixedProfileLength ∧
    Inv g.MixedProfileLength (forLoop 1 g.NumPlayers (fun pl st =>
      forLoop 1 (g.NumStrategies pl) (fun s st => (st.1 + 1, step pl s (st.1 + 1) st.2)) st)
      (0, init)).2 := by
  have key := forLoop_invariant
    (fun pl (st : Nat × σ) => st.1 = g.offset pl ∧ Inv (g.offset pl) st.2)
    1 g.NumPlayers (fun pl st =>
      forLoop 1 (g.NumStrategies pl) (fun s st => (st.1 + 1, step pl s (st.1 + 1) st.2)) st)
    (0, init) (by omega) ⟨g.offset_one.symm, by rw [g.offset_one]; exact h0⟩
    (by
      rintro pl st hpl1 hpl2 ⟨hc, hinv⟩
      have inner := forLoop_invariant
        (fun s (st : Nat × σ) => st.1 = g.offset pl + (s - 1) ∧ Inv (g.offset pl + (s - 1)) st.2)
        1 (g.NumStrategies pl) (fun s st => (st.1 + 1, step pl s (st.1 + 1) st.2)) st
        (by omega) ⟨by simpa using hc, by simpa using hinv⟩
        (by
          rintro s st2 hs1 hs2 ⟨hc2, hinv2⟩
          have e : g.offset pl + (s - 1) + 1 = g.offset pl + s := by omega
          have e3 : g.offset pl + (s - 1) = g.offset pl + s - 1 := by omega
          simp only [Nat.add_sub_cancel, hc2, e]
          rw [e3] at hinv2
          exact ⟨trivial, hstep pl s st2.2 hpl1 hpl2 hs1 hs2 hinv2⟩)
      simp only [Nat.add_sub_cancel] at inner
      rw [g.offset_succ pl hpl1]
      exact inner)
  simp only [g.offset_last] at key
  exact key

theorem QreProfiles_spec {α : Type} [LinearOrderedField α] (exp log : α → α) (g : Game α)
    (x : GVector α) (I : GVector Bool) :
    (QreProfiles exp log g x I).1 = profileOf exp g x I ∧
    (QreProfiles exp log g x I).2 = logProfileOf log g x I := by
  have key := forLoop_invariant
    (fun k (st : (Nat → α) × (Nat → α)) =>
      (∀ j, st.1 j = if 1 ≤ j ∧ j < k then rho exp x I j else 0) ∧
      (∀ j, st.2 j = if 1 ≤ j ∧ j < k then logRho log x I j else 0))
    1 g.MixedProfileLength (fun i st =>
      if I.entry i then
        (Function.update st.1 i (exp (x.entry i)), Function.update st.2 i (x.entry i))
      else
        (Function.update st.1 i (x.entry i), Function.update st.2 i (log (x.entry i))))
    (fun _ => 0, fun _ => 0) (by omega)
    ⟨fun j => by
      have : ¬ (1 ≤ j ∧ j < 1) := by omega
      simp only [this, if_false], fun j => by
      have : ¬ (1 ≤ j ∧ j < 1) := by omega
      simp only [this, if_false]⟩
    (by
      rintro k st hk1 hk2 ⟨g1, g2⟩
      refine ⟨fun j => ?_, fun j => ?_⟩
      · by_cases hjk : j = k
        · subst hjk
          have h2 : 1 ≤ j ∧ j < j + 1 := by omega
          simp only [h2, and_self, if_true, rho]
          split_ifs <;> simp
        · have h1 : (1 ≤ j ∧ j < k + 1) ↔ (1 ≤ j ∧ j < k) := by omega
          simp only [h1, ← g1 j]
          split_ifs <;> simp [Function.update, hjk]
      · by_cases hjk : j = k
        · subst hjk
          have h2 : 1 ≤ j ∧ j < j + 1 := by omega
          simp only [h2, and_self, if_true, logRho]
          split_ifs <;> simp
        · have h1 : (1 ≤ j ∧ j < k + 1) ↔ (1 ≤ j ∧ j < k) := by omega
          simp only [h1, ← g2 j]
          split_ifs <;> simp [Function.update, hjk])
  obtain ⟨g1, g2⟩ := key
  refine ⟨funext fun j => ?_, funext fun j => ?_⟩
  · have h1 : (1 ≤ j ∧ j < g.MixedProfileLength + 1) ↔ (1 ≤ j ∧ j ≤ g.MixedProfileLength) := by
      omega
    have := g1 j
    simp only [h1] at this
    exact this
  · have h1 : (1 ≤ j ∧ j < g.MixedProfileLength + 1) ↔ (1 ≤ j ∧ j ≤ g.MixedProfileLength) := by
      omega
    have := g2 j
    simp only [h1] at this
    exact this

theorem profileOf_index (exp : ℝ → ℝ) (g : Game ℝ) (x : GVector ℝ) (I : GVector Bool)
    (pl s : Nat) (h1 : 1 ≤ pl) (h2 : pl ≤ g.NumPlayers) (h3 : 1 ≤ s)
    (h4 : s ≤ g.NumStrategies pl) :
    profileOf exp g x I (g.index pl s) = rho exp x I (g.index pl s) := by
  have := g.index_le pl s h1 h2 h4
  have h : 1 ≤ g.index pl s ∧ g.index pl s ≤ g.MixedProfileLength := by
    unfold Game.index
    omega
  simp only [profileOf, h, and_self, if_true]

theorem logProfileOf_index (log : ℝ → ℝ) (g : Game ℝ) (x : GVector ℝ) (I : GVector Bool)
    (pl s : Nat) (h1 : 1 ≤ pl) (h2 : pl ≤ g.NumPlayers) (h3 : 1 ≤ s)
    (h4 : s ≤ g.NumStrategies pl) :
    logProfileOf log g x I (g.index pl s) = logRho log x I (g.index pl s) := by
  have := g.index_le pl s h1 h2 h4
  have h : 1 ≤ g.index pl s ∧ g.index pl s ≤ g.MixedProfileLength := by
    unfold Game.index
    omega
  simp only [logProfileOf, h, and_self, if_true]

theorem logRho_eq_log_rho (x : GVector ℝ) (I : GVector Bool) (k : Nat) :
    logRho Real.log x I k = Real.log (rho Real.exp x I k) := by
  unfold logRho rho
  split_ifs
  · rw [Real.log_exp]
  · rfl

/-! ## The residual `QreLHS` (C4, C5) -/

/-- An accumulation into one cell of a vector. -/
theorem accum_loop_entry (n r : Nat) (f : Nat → ℝ) (p0 : GVector ℝ) :
    (forLoop 1 n (fun j p => p.set r (p.entry r + f j)) p0).Length = p0.Length ∧
    ∀ k, (forLoop 1 n (fun j p => p.set r (p.entry r + f j)) p0).entry k =
      if k = r then p0.entry r + ∑ j ∈ Finset.Icc 1 n, f j else p0.entry k := by
  have key := forLoop_invariant
    (fun c (st : GVector ℝ) => st.Length = p0.Length ∧
      ∀ k, st.entry k = if k = r then p0.entry r + ∑ j ∈ Finset.Icc 1 (c - 1), f j
        else p0.entry k)
    1 n (fun j p => p.set r (p.entry r + f j)) p0 (by omega)
    ⟨rfl, fun k => by split_ifs with h <;> simp [h]⟩
    (by
      rintro c st hc1 hc2 ⟨g1, g2⟩
      refine ⟨g1, fun k => ?_⟩
      have e : c - 1 + 1 = c := by omega
      have hs := sum_Icc_succ (c - 1) f
      rw [e] at hs
      simp only [GVector_set_entry, g2 r, if_true, Nat.add_sub_cancel, hs, g2 k]
      split_ifs
      · ring
      · rfl)
  simpa using key

theorem QreLHS_spec (exp log : ℝ → ℝ) (g : Game ℝ) (x : GVector ℝ) (I : GVector Bool)
    (lhs0 : GVector ℝ) :
    (QreLHS exp log g x I lhs0).Length = lhs0.Length ∧
    (∀ k, ¬ (1 ≤ k ∧ k ≤ g.MixedProfileLength) → (QreLHS exp log g x I lhs0).entry k = 0) ∧
    (∀ pl s, 1 ≤ pl → pl ≤ g.NumPlayers → 1 ≤ s → s ≤ g.NumStrategies pl →
      (QreLHS exp log g x I lhs0).entry (g.offset pl + s) = QreLHSRow exp log g x I pl s) := by
  have key := (playerLoop_inv g
    (fun pl s rowno (p_lhs : GVector ℝ) =>
      if s = 1 then
        forLoop 1 (g.NumStrategies pl) (fun j p_lhs =>
          p_lhs.set rowno (p_lhs.entry rowno +
            (QreProfiles exp log g x I).1 (g.index pl j))) (p_lhs.set rowno (-1))
      else
        p_lhs.set rowno ((QreProfiles exp log g x I).2 (g.index pl s) -
          (QreProfiles exp log g x I).2 (g.index pl 1) -
          x.entry x.Length * (g.GetPayoff (QreProfiles exp log g x I).1 pl pl s -
            g.GetPayoff (QreProfiles exp log g x I).1 pl pl 1)))
    (lhs0.fill 0)
    (fun c (v : GVector ℝ) => v.Length = lhs0.Length ∧
      (∀ k, ¬ (1 ≤ k ∧ k ≤ c) → v.entry k = 0) ∧
      (∀ p s, 1 ≤ p → p ≤ g.NumPlayers → 1 ≤ s → s ≤ g.NumStrategies p →
        g.offset p + s ≤ c → v.entry (g.offset p + s) = QreLHSRow exp log g x I p s))
    ⟨rfl, fun k _ => rfl, fun p s _ _ hs _ hc => by omega⟩
    (by
      rintro pl s st hpl1 hpl2 hs1 hs2 ⟨g1, g2, g3⟩
      have hnew : (if s = 1 then
            forLoop 1 (g.NumStrategies pl) (fun j p_lhs =>
              p_lhs.set (g.offset pl + s) (p_lhs.entry (g.offset pl + s) +
                (QreProfiles exp log g x I).1 (g.index pl j))) (st.set (g.offset pl + s) (-1))
          else
            st.set (g.offset pl + s) ((QreProfiles exp log g x I).2 (g.index pl s) -
              (QreProfiles exp log g x I).2 (g.index pl 1) -
              x.entry x.Length * (g.GetPayoff (QreProfiles exp log g x I).1 pl pl s -
                g.GetPayoff (QreProfiles exp log g x I).1 pl pl 1))).Length = st.Length ∧
          ∀ k, (if s = 1 then
            forLoop 1 (g.NumStrategies pl) (fun j p_lhs =>
              p_lhs.set (g.offset pl + s) (p_lhs.entry (g.offset pl + s) +
                (QreProfiles exp log g x I).1 (g.index pl j))) (st.set (g.offset pl + s) (-1))
          else
            st.set (g.offset pl + s) ((QreProfiles exp log g x I).2 (g.index pl s) -
              (QreProfiles exp log g x I).2 (g.index pl 1) -
              x.entry x.Length * (g.GetPayoff (QreProfiles exp log g x I).1 pl pl s -
                g.GetPayoff (QreProfiles exp log g x I).1 pl pl 1))).entry k =
            if k = g.offset pl + s then QreLHSRow exp log g x I pl s else st.entry k := by
        rw [(QreProfiles_spec exp log g x I).1, (QreProfiles_spec exp log g x I).2]
        by_cases h1 : s = 1
        · simp only [h1, if_true, QreLHSRow]
          obtain ⟨a1, a2⟩ := accum_loop_entry (g.NumStrategies pl) (g.offset pl + 1)
            (fun j => profileOf exp g x I (g.index pl j)) (st.set (g.offset pl + 1) (-1))
          refine ⟨a1, fun k => ?_⟩
          rw [a2 k]
          simp only [GVector_set_entry, if_true]
          split_ifs <;> rfl
        · simp only [h1, if_false, QreLHSRow]
          exact ⟨rfl, fun k => rfl⟩
      obtain ⟨n1, n2⟩ := hnew
      refine ⟨n1.trans g1, fun k hk => ?_, fun p s' hp1 hp2 hs1' hs2' hc => ?_⟩
      · rw [n2 k]
        have : k ≠ g.offset pl + s := by omega
        simp only [this, if_false]
        exact g2 k (by omega)
      · rw [n2]
        by_cases hk : g.offset p + s' = g.offset pl + s
        · obtain ⟨e1, e2⟩ := g.index_inj p s' pl s hp1 hpl1 hs1' hs2' hs1 hs2 hk
          subst e1; subst e2
          simp only [if_true]
        · simp only [hk, if_false]
          exact g3 p s' hp1 hp2 hs1' hs2' (by omega)))
  obtain ⟨-, k1, k2, k3⟩ := key
  exact ⟨k1, k2, fun pl s h1 h2 h3 h4 => k3 pl s h1 h2 h3 h4 (g.index_le pl s h1 h2 h4)⟩

/-- The rows of `QreLHS` in terms of the represented probabilities and log-probabilities. -/
theorem QreLHS_rows (g : Game ℝ) (x : GVector ℝ) (I : GVector Bool) (lhs0 : GVector ℝ) :
    (∀ i, 1 ≤ i → i ≤ g.NumPlayers → 1 ≤ g.NumStrategies i →
      (QreLHS Real.exp Real.log g x I lhs0).entry (g.index i 1) =
        (∑ s ∈ Finset.Icc 1 (g.NumStrategies i), rho Real.exp x I (g.index i s)) - 1) ∧
    (∀ i s, 1 ≤ i → i ≤ g.NumPlayers → 2 ≤ s → s ≤ g.NumStrategies i →
      (QreLHS Real.exp Real.log g x I lhs0).entry (g.index i s) =
        logRho Real.log x I (g.index i s) - logRho Real.log x I (g.index i 1) -
          x.entry x.Length * (g.GetPayoff (profileOf Real.exp g x I) i i s -
            g.GetPayoff (profileOf Real.exp g x I) i i 1)) := by
  obtain ⟨-, -, h⟩ := QreLHS_spec Real.exp Real.log g x I lhs0
  refine ⟨fun i hi1 hi2 hm => ?_, fun i s hi1 hi2 hs1 hs2 => ?_⟩
  · have := h i 1 hi1 hi2 (le_refl 1) hm
    unfold Game.index
    rw [this]
    simp only [QreLHSRow, if_true]
    rw [Finset.sum_congr rfl (fun j hj =>
      profileOf_index Real.exp g x I i j hi1 hi2 (Finset.mem_Icc.mp hj).1
        (Finset.mem_Icc.mp hj).2)]
    unfold Game.index
    ring
  · have := h i s hi1 hi2 (by omega) hs2
    have hs : s ≠ 1 := by omega
    rw [show g.index i s = g.offset i + s from rfl, this]
    simp only [QreLHSRow, hs, if_false]
    rw [logProfileOf_index Real.log g x I i s hi1 hi2 (by omega) hs2,
      logProfileOf_index Real.log g x I i 1 hi1 hi2 (by omega) (by omega)]
    rfl

/-- C5: residual formula. For every game, `x` and `I`, with `sigma_k = rho(x,I,k)` (`exp(x_k)`
when `I[k]`, `x_k` otherwise), `l_k` (`x_k` when `I[k]`, `log(x_k)` otherwise) and `lambda` the
last entry of `x`, `QreLHS` stores, at the player-major row `index i s`, the value
`(sum_s sigma(i,s)) - 1` for strategy 1 of player `i` and
`l(i,s) - l(i,1) - lambda * (u(i,s;sigma) - u(i,1;sigma))` for a strategy `s > 1`; the length
of the vector is kept and every entry outside the rows `1..L` is `0`. -/
theorem QreLHS_formula (g : Game ℝ) (x : GVector ℝ) (I : GVector Bool) (lhs0 : GVector ℝ) :
    (∀ i, 1 ≤ i → i ≤ g.NumPlayers → 1 ≤ g.NumStrategies i →
      (QreLHS Real.exp Real.log g x I lhs0).entry (g.index i 1) =
        (∑ s ∈ Finset.Icc 1 (g.NumStrategies i), rho Real.exp x I (g.index i s)) - 1) ∧
    (∀ i s, 1 ≤ i → i ≤ g.NumPlayers → 2 ≤ s → s ≤ g.NumStrategies i →
      (QreLHS Real.exp Real.log g x I lhs0).entry (g.index i s) =
        logRho Real.log x I (g.index i s) - logRho Real.log x I (g.index i 1) -
          x.entry x.Length * (g.GetPayoff (profileOf Real.exp g x I) i i s -
            g.GetPayoff (profileOf Real.exp g x I) i i 1)) ∧
    (QreLHS Real.exp Real.log g x I lhs0).Length = lhs0.Length ∧
    (∀ k, ¬ (1 ≤ k ∧ k ≤ g.MixedProfileLength) →
      (QreLHS Real.exp Real.log g x I lhs0).entry k = 0) := by
  obtain ⟨hlen, hzero, -⟩ := QreLHS_spec Real.exp Real.log g x I lhs0
  obtain ⟨hsum, hratio⟩ := QreLHS_rows g x I lhs0
  exact ⟨hsum, hratio, hlen, hzero⟩

/-- C4: zeros of the residual are exactly the logit QRE. For every game, policy `I` and state
`x` whose represented probabilities are all positive, `QreLHS(x, I)` is the zero vector (all
entries `1..L`) if and only if, for every player `i` and strategy `s`,
`sigma(i,s) = exp(lambda*u(i,s;sigma)) / sum_j exp(lambda*u(i,j;sigma))`. -/
theorem QreLHS_zero_iff_logit (g : Game ℝ) (x : GVector ℝ) (I : GVector Bool)
    (lhs0 : GVector ℝ)
    (hpos : ∀ k, 1 ≤ k → k ≤ g.MixedProfileLength → 0 < rho Real.exp x I k) :
    (∀ k, 1 ≤ k → k ≤ g.MixedProfileLength →
      (QreLHS Real.exp Real.log g x I lhs0).entry k = 0) ↔
    (∀ i s, 1 ≤ i → i ≤ g.NumPlayers → 1 ≤ s → s ≤ g.NumStrategies i →
      rho Real.exp x I (g.index i s) =
        Real.exp (x.entry x.Length * g.GetPayoff (profileOf Real.exp g x I) i i s) /
          ∑ j ∈ Finset.Icc 1 (g.NumStrategies i),
            Real.exp (x.entry x.Length * g.GetPayoff (profileOf Real.exp g x I) i i j)) := by
  obtain ⟨hf1, hf2⟩ := QreLHS_rows g x I lhs0
  have hrange : ∀ i s, 1 ≤ i → i ≤ g.NumPlayers → 1 ≤ s → s ≤ g.NumStrategies i →
      1 ≤ g.index i s ∧ g.index i s ≤ g.MixedProfileLength := by
    intro i s h1 h2 h3 h4
    have := g.index_le i s h1 h2 h4
    unfold Game.index
    omega
  constructor
  · intro hzero i s hi1 hi2 hs1 hs2
    have hm : 1 ≤ g.NumStrategies i := by omega
    set lam := x.entry x.Length with hlam
    set u := fun j => g.GetPayoff (profileOf Real.exp g x I) i i j with hu
    set sg := fun j => rho Real.exp x I (g.index i j) with hsg
    have hsum : ∑ j ∈ Finset.Icc 1 (g.NumStrategies i), sg j = 1 := by
      have h0 := hzero (g.index i 1) (hrange i 1 hi1 hi2 (le_refl 1) hm).1
        (hrange i 1 hi1 hi2 (le_refl 1) hm).2
      rw [hf1 i hi1 hi2 hm] at h0
      linarith
    have hsgpos : ∀ j, 1 ≤ j → j ≤ g.NumStrategies i → 0 < sg j := fun j h1 h2 =>
      hpos _ (hrange i j hi1 hi2 h1 h2).1 (hrange i j hi1 hi2 h1 h2).2
    have hratio : ∀ j, 1 ≤ j → j ≤ g.NumStrategies i →
        Real.log (sg j) - lam * u j = Real.log (sg 1) - lam * u 1 := by
      intro j hj1 hj2
      by_cases hj : j = 1
      · rw [hj]
      · have h0 := hzero (g.index i j) (hrange i j hi1 hi2 hj1 hj2).1
          (hrange i j hi1 hi2 hj1 hj2).2
        rw [hf2 i j hi1 hi2 (by omega) hj2, logRho_eq_log_rho, logRho_eq_log_rho] at h0
        linarith
    have hform : ∀ j, 1 ≤ j → j ≤ g.NumStrategies i →
        sg j = Real.exp (Real.log (sg 1) - lam * u 1) * Real.exp (lam * u j) := by
      intro j hj1 hj2
      rw [← Real.exp_add, ← hratio j hj1 hj2, sub_add_cancel, Real.exp_log (hsgpos j hj1 hj2)]
    have hZ : Real.exp (Real.log (sg 1) - lam * u 1) *
        ∑ j ∈ Finset.Icc 1 (g.NumStrategies i), Real.exp (lam * u j) = 1 := by
      rw [Finset.mul_sum, ← hsum]
      exact Finset.sum_congr rfl (fun j hj =>
        (hform j (Finset.mem_Icc.mp hj).1 (Finset.mem_Icc.mp hj).2).symm)
    have hZpos : 0 < ∑ j ∈ Finset.Icc 1 (g.NumStrategies i), Real.exp (lam * u j) :=
      Finset.sum_pos (fun j _ => Real.exp_pos _) ⟨1, Finset.mem_Icc.mpr ⟨le_refl 1, hm⟩⟩
    show sg s = Real.exp (lam * u s) / _
    rw [hform s hs1 hs2, eq_div_iff (ne_of_gt hZpos)]
    calc Real.exp (Real.log (sg 1) - lam * u 1) * Real.exp (lam * u s) *
          ∑ j ∈ Finset.Icc 1 (g.NumStrategies i), Real.exp (lam * u j)
        = (Real.exp (Real.log (sg 1) - lam * u 1) *
          ∑ j ∈ Finset.Icc 1 (g.NumStrategies i), Real.exp (lam * u j)) *
            Real.exp (lam * u s) := by ring
      _ = Real.exp (lam * u s) := by rw [hZ, one_mul]
  · intro hqre k hk1 hk2
    obtain ⟨i, s, hi1, hi2, hs1, hs2, hk⟩ := g.index_surj k hk1 hk2
    have hm : 1 ≤ g.NumStrategies i := by omega
    have hZpos : 0 < ∑ j ∈ Finset.Icc 1 (g.NumStrategies i),
        Real.exp (x.entry x.Length * g.GetPayoff (profileOf Real.exp g x I) i i j) :=
      Finset.sum_pos (fun j _ => Real.exp_pos _) ⟨1, Finset.mem_Icc.mpr ⟨le_refl 1, hm⟩⟩
    rw [hk, show g.offset i + s = g.index i s from rfl]
    by_cases hs : s = 1
    · subst hs
      rw [hf1 i hi1 hi2 hm]
      rw [Finset.sum_congr rfl (fun j hj =>
        hqre i j hi1 hi2 (Finset.mem_Icc.mp hj).1 (Finset.mem_Icc.mp hj).2),
        ← Finset.sum_div, div_self (ne_of_gt hZpos)]
      ring
    · rw [hf2 i s hi1 hi2 (by omega) hs2, logRho_eq_log_rho, logRho_eq_log_rho,
        hqre i s hi1 hi2 hs1 hs2, hqre i 1 hi1 hi2 (le_refl 1) hm,
        Real.log_div (ne_of_gt (Real.exp_pos _)) (ne_of_gt hZpos),
        Real.log_div (ne_of_gt (Real.exp_pos _)) (ne_of_gt hZpos), Real.log_exp, Real.log_exp]
      ring

/-- Witness for C4 at the centroid of `exampleGame` with `lambda = 0`, all coordinates linear. -/
theorem QreLHS_zero_iff_logit_witness :
    (∀ k, 1 ≤ k → k ≤ (exampleGame ℝ).MixedProfileLength →
      0 < rho Real.exp (exampleCentroid ℝ) linearPolicy k) ∧
    ((∀ k, 1 ≤ k → k ≤ (exampleGame ℝ).MixedProfileLength →
      (QreLHS Real.exp Real.log (exampleGame ℝ) (exampleCentroid ℝ) linearPolicy
        (constVector 4 0)).entry k = 0) ↔
    (∀ i s, 1 ≤ i → i ≤ (exampleGame ℝ).NumPlayers → 1 ≤ s →
      s ≤ (exampleGame ℝ).NumStrategies i →
      rho Real.exp (exampleCentroid ℝ) linearPolicy ((exampleGame ℝ).index i s) =
        Real.exp ((exampleCentroid ℝ).entry (exampleCentroid ℝ).Length *
          (exampleGame ℝ).GetPayoff
            (profileOf Real.exp (exampleGame ℝ) (exampleCentroid ℝ) linearPolicy) i i s) /
          ∑ j ∈ Finset.Icc 1 ((exampleGame ℝ).NumStrategies i),
            Real.exp ((exampleCentroid ℝ).entry (exampleCentroid ℝ).Length *
              (exampleGame ℝ).GetPayoff
                (profileOf Real.exp (exampleGame ℝ) (exampleCentroid ℝ) linearPolicy) i i j))) :=
  have hpos : ∀ k, 1 ≤ k → k ≤ (exampleGame ℝ).MixedProfileLength →
      0 < rho Real.exp (exampleCentroid ℝ) linearPolicy k := by
    intro k hk1 hk2
    have hL : (exampleGame ℝ).MixedProfileLength = 4 := by decide
    rw [hL] at hk2
    have h5 : k ≠ 5 := by omega
    simp [rho, linearPolicy, exampleCentroid, h5]
  ⟨hpos, QreLHS_zero_iff_logit (exampleGame ℝ) (exampleCentroid ℝ) linearPolicy
    (constVector 4 0) hpos⟩

/-! ## The Jacobian `QreJacobian` (C6, C7) -/

/-- The column loops of `QreJacobian`: each iteration stores one value at
`p_matrix(colno, rowno)`. -/
theorem colLoop_spec (g : Game ℝ) (rowno : Nat) (v : Nat → Nat → ℝ)
    (step : Nat → Nat → Nat → GMatrix ℝ → GMatrix ℝ)
    (hset : ∀ ell m M, step ell m (g.offset ell + m) M = M.set (g.offset ell + m) rowno (v ell m))
    (M0 : GMatrix ℝ) :
    (forLoop 1 g.NumPlayers (fun ell st2 =>
      forLoop 1 (g.NumStrategies ell) (fun m st2 => (st2.1 + 1, step ell m (st2.1 + 1) st2.2))
        st2) (0, M0)).2.NumRows = M0.NumRows ∧
    (∀ ell m, 1 ≤ ell → ell ≤ g.NumPlayers → 1 ≤ m → m ≤ g.NumStrategies ell →
      (forLoop 1 g.NumPlayers (fun ell st2 =>
        forLoop 1 (g.NumStrategies ell) (fun m st2 => (st2.1 + 1, step ell m (st2.1 + 1) st2.2))
          st2) (0, M0)).2.entry (g.offset ell + m) rowno = v ell m) ∧
    (∀ a b, ¬ (b = rowno ∧ 1 ≤ a ∧ a ≤ g.MixedProfileLength) →
      (forLoop 1 g.NumPlayers (fun ell st2 =>
        forLoop 1 (g.NumStrategies ell) (fun m st2 => (st2.1 + 1, step ell m (st2.1 + 1) st2.2))
          st2) (0, M0)).2.entry a b = M0.entry a b) := by
  have key := (playerLoop_inv g step M0
    (fun c (M : GMatrix ℝ) => M.NumRows = M0.NumRows ∧
      (∀ ell m, 1 ≤ ell → ell ≤ g.NumPlayers → 1 ≤ m → m ≤ g.NumStrategies ell →
        g.offset ell + m ≤ c → M.entry (g.offset ell + m) rowno = v ell m) ∧
      (∀ a b, ¬ (b = rowno ∧ 1 ≤ a ∧ a ≤ c) → M.entry a b = M0.entry a b))
    ⟨rfl, fun ell m _ _ hm _ hc => by omega, fun a b _ => rfl⟩
    (by
      rintro ell m M hl1 hl2 hm1 hm2 ⟨g1, g2, g3⟩
      rw [hset]
      refine ⟨g1, fun ell' m' hl1' hl2' hm1' hm2' hc => ?_, fun a b hab => ?_⟩
      · rw [GMatrix_set_entry]
        by_cases hk : g.offset ell' + m' = g.offset ell + m
        · obtain ⟨e1, e2⟩ := g.index_inj ell' m' ell m hl1' hl1 hm1' hm2' hm1 hm2 hk
          subst e1; subst e2
          simp only [and_self, if_true]
        · simp only [hk, false_and, if_false]
          exact g2 ell' m' hl1' hl2' hm1' hm2' (by omega)
      · rw [GMatrix_set_entry]
        have h1 : ¬ (a = g.offset ell + m ∧ b = rowno) := by
          rintro ⟨ha, hb⟩
          exact hab ⟨hb, by omega, by omega⟩
        simp only [h1, if_false]
        exact g3 a b (fun h => hab ⟨h.1, h.2.1, by omega⟩))).2
  obtain ⟨k1, k2, k3⟩ := key
  exact ⟨k1, fun ell m h1 h2 h3 h4 => k2 ell m h1 h2 h3 h4 (g.index_le ell m h1 h2 h4), k3⟩

theorem QreJacobian_spec (exp log : ℝ → ℝ) (g : Game ℝ) (x : GVector ℝ) (I : GVector Bool)
    (M0 : GMatrix ℝ) (hrows : M0.NumRows = g.MixedProfileLength + 1) :
    ∀ i j, 1 ≤ i → i ≤ g.NumPlayers → 1 ≤ j → j ≤ g.NumStrategies i →
      (∀ ell m, 1 ≤ ell → ell ≤ g.NumPlayers → 1 ≤ m → m ≤ g.NumStrategies ell →
        (QreJacobian exp log g x I M0).entry (g.offset ell + m) (g.offset i + j)
          = QreJacobianEntry exp log g x I i j ell m) ∧
      (QreJacobian exp log g x I M0).entry (g.MixedProfileLength + 1) (g.offset i + j)
        = QreJacobianLambda exp g x I i j := by
  have hp1 := (QreProfiles_spec exp log g x I).1
  have hp2 := (QreProfiles_spec exp log g x I).2
  have key := (playerLoop_inv g
    (fun i j rowno (p_matrix : GMatrix ℝ) =>
      if j = 1 then
        (forLoop 1 g.NumPlayers (fun ell st2 =>
          forLoop 1 (g.NumStrategies ell) (fun m st2 =>
            (st2.1 + 1,
              (fun ell m colno (p_matrix : GMatrix ℝ) =>
                if i = ell then
                  p_matrix.set colno rowno
                    (if I.entry colno then (QreProfiles exp log g x I).1 (g.index ell m) else 1)
                else
                  p_matrix.set colno rowno 0) ell m (st2.1 + 1) st2.2)) st2)
          (0, p_matrix)).2.set
          (forLoop 1 g.NumPlayers (fun ell st2 =>
          forLoop 1 (g.NumStrategies ell) (fun m st2 =>
            (st2.1 + 1,
              (fun ell m colno (p_matrix : GMatrix ℝ) =>
                if i = ell then
                  p_matrix.set colno rowno
                    (if I.entry colno then (QreProfiles exp log g x I).1 (g.index ell m) else 1)
                else
                  p_matrix.set colno rowno 0) ell m (st2.1 + 1) st2.2)) st2)
          (0, p_matrix)).2.NumRows rowno 0
      else
        (forLoop 1 g.NumPlayers (fun ell st2 =>
          forLoop 1 (g.NumStrategies ell) (fun m st2 =>
            (st2.1 + 1,
              (fun ell m colno (p_matrix : GMatrix ℝ) =>
                if i = ell then
                  if m = 1 then
                    p_matrix.set colno rowno
                      (if I.entry colno then -1
                        else -1 / (QreProfiles exp log g x I).1 (g.index ell m))
                  else if m = j then
                    p_matrix.set colno rowno
                      (if I.entry colno then 1
                        else 1 / (QreProfiles exp log g x I).1 (g.index ell m))
                  else
                    p_matrix.set colno rowno 0
                else
                  if I.entry colno then
                    p_matrix.set colno rowno
                      (-x.entry x.Length * (QreProfiles exp log g x I).1 (g.index ell m) *
                        (QreProfiles exp log g x I).2 (g.index ell m) *
                        (g.GetPayoffDeriv (QreProfiles exp log g x I).1 i i j ell m -
                          g.GetPayoffDeriv (QreProfiles exp log g x I).1 i i 1 ell m))
                  else
                    p_matrix.set colno rowno
                      (-x.entry x.Length *
                        (g.GetPayoffDeriv (QreProfiles exp log g x I).1 i i j ell m -
                          g.GetPayoffDeriv (QreProfiles exp log g x I).1 i i 1 ell m)))
                ell m (st2.1 + 1) st2.2)) st2)
          (0, p_matrix)).2.set
          (forLoop 1 g.NumPlayers (fun ell st2 =>
          forLoop 1 (g.NumStrategies ell) (fun m st2 =>
            (st2.1 + 1,
              (fun ell m colno (p_matrix : GMatrix ℝ) =>
                if i = ell then
                  if m = 1 then
                    p_matrix.set colno rowno
                      (if I.entry colno then -1
                        else -1 / (QreProfiles exp log g x I).1 (g.index ell m))
                  else if m = j then
                    p_matrix.set colno rowno
                      (if I.entry colno then 1
                        else 1 / (QreProfiles exp log g x I).1 (g.index ell m))
                  else
                    p_matrix.set colno rowno 0
                else
                  if I.entry colno then
                    p_matrix.set colno rowno
                      (-x.entry x.Length * (QreProfiles exp log g x I).1 (g.index ell m) *
                        (QreProfiles exp log g x I).2 (g.index ell m) *
                        (g.GetPayoffDeriv (QreProfiles exp log g x I).1 i i j ell m -
                          g.GetPayoffDeriv (QreProfiles exp log g x I).1 i i 1 ell m))
                  else
                    p_matrix.set colno rowno
                      (-x.entry x.Length *
                        (g.GetPayoffDeriv (QreProfiles exp log g x I).1 i i j ell m -
                          g.GetPayoffDeriv (QreProfiles exp log g x I).1 i i 1 ell m)))
                ell m (st2.1 + 1) st2.2)) st2)
          (0, p_matrix)).2.NumRows rowno
          (g.GetPayoff (QreProfiles exp log g x I).1 i i 1 -
            g.GetPayoff (QreProfiles exp log g x I).1 i i j))
    (M0.fill 0)
    (fun c (M : GMatrix ℝ) => M.NumRows = g.MixedProfileLength + 1 ∧
      ∀ i j, 1 ≤ i → i ≤ g.NumPlayers → 1 ≤ j → j ≤ g.NumStrategies i → g.offset i + j ≤ c →
        (∀ ell m, 1 ≤ ell → ell ≤ g.NumPlayers → 1 ≤ m → m ≤ g.NumStrategies ell →
          M.entry (g.offset ell + m) (g.offset i + j) = QreJacobianEntry exp log g x I i j ell m) ∧
        M.entry (g.MixedProfileLength + 1) (g.offset i + j) = QreJacobianLambda exp g x I i j)
    ⟨hrows, fun i j _ _ hj _ hc => by omega⟩
    (by
      rintro i j M hi1 hi2 hj1 hj2 ⟨g1, g2⟩
      -- the new matrix, entry by entry
      have hnew : ∀ (step : Nat → Nat → Nat → GMatrix ℝ → GMatrix ℝ) (w : ℝ),
          (∀ ell m M, step ell m (g.offset ell + m) M =
            M.set (g.offset ell + m) (g.offset i + j) (QreJacobianEntry exp log g x I i j ell m)) →
          w = QreJacobianLambda exp g x I i j →
          (fun (M2 : GMatrix ℝ) => M2.NumRows = g.MixedProfileLength + 1 ∧
            ∀ i' j', 1 ≤ i' → i' ≤ g.NumPlayers → 1 ≤ j' → j' ≤ g.NumStrategies i' →
              g.offset i' + j' ≤ g.offset i + j →
              (∀ ell m, 1 ≤ ell → ell ≤ g.NumPlayers → 1 ≤ m → m ≤ g.NumStrategies ell →
                M2.entry (g.offset ell + m) (g.offset i' + j')
                  = QreJacobianEntry exp log g x I i' j' ell m) ∧
              M2.entry (g.MixedProfileLength + 1) (g.offset i' + j')
                = QreJacobianLambda exp g x I i' j')
            ((forLoop 1 g.NumPlayers (fun ell st2 =>
              forLoop 1 (g.NumStrategies ell) (fun m st2 =>
                (st2.1 + 1, step ell m (st2.1 + 1) st2.2)) st2) (0, M)).2.set
              (forLoop 1 g.NumPlayers (fun ell st2 =>
              forLoop 1 (g.NumStrategies ell) (fun m st2 =>
                (st2.1 + 1, step ell m (st2.1 + 1) st2.2)) st2) (0, M)).2.NumRows
              (g.offset i + j) w) := by
        intro step w hstep hw
        obtain ⟨c1, c2, c3⟩ := colLoop_spec g (g.offset i + j)
          (fun ell m => QreJacobianEntry exp log g x I i j ell m) step hstep M
        rw [c1, g1]
        refine ⟨by rw [← g1, ← c1]; rfl, fun i' j' hi1' hi2' hj1' hj2' hc => ?_⟩
        by_cases hk : g.offset i' + j' = g.offset i + j
        · obtain ⟨e1, e2⟩ := g.index_inj i' j' i j hi1' hi1 hj1' hj2' hj1 hj2 hk
          subst e1; subst e2
          refine ⟨fun ell m hl1 hl2 hm1 hm2 => ?_, ?_⟩
          · rw [GMatrix_set_entry]
            have := g.index_le ell m hl1 hl2 hm2
            have h1 : g.offset ell + m ≠ g.MixedProfileLength + 1 := by omega
            simp only [h1, false_and, if_false]
            exact c2 ell m hl1 hl2 hm1 hm2
          · rw [GMatrix_set_entry]
            simp only [and_self, if_true, hw]
        · obtain ⟨o1, o2⟩ := g2 i' j' hi1' hi2' hj1' hj2' (by omega)
          refine ⟨fun ell m hl1 hl2 hm1 hm2 => ?_, ?_⟩
          · rw [GMatrix_set_entry]
            simp only [hk, and_false, if_false]
            rw [c3 _ _ (fun h => hk h.1)]
            exact o1 ell m hl1 hl2 hm1 hm2
          · rw [GMatrix_set_entry]
            simp only [hk, and_false, if_false]
            rw [c3 _ _ (fun h => hk h.1)]
            exact o2
      by_cases hj : j = 1
      · simp only [hj, if_true]
        have := hnew
          (fun ell m colno (p_matrix : GMatrix ℝ) =>
            if i = ell then
              p_matrix.set colno (g.offset i + j)
                (if I.entry colno then (QreProfiles exp log g x I).1 (g.index ell m) else 1)
            else
              p_matrix.set colno (g.offset i + j) 0) 0
          (by
            intro ell m M2
            simp only [QreJacobianEntry, hj, if_true, hp1, Game.index]
            split_ifs <;> rfl)
          (by simp only [QreJacobianLambda, hj, if_true])
        simp only [hj] at this
        exact this
      · simp only [hj, if_false]
        have := hnew
          (fun ell m colno (p_matrix : GMatrix ℝ) =>
            if i = ell then
              if m = 1 then
                p_matrix.set colno (g.offset i + j)
                  (if I.entry colno then -1
                    else -1 / (QreProfiles exp log g x I).1 (g.index ell m))
              else if m = j then
                p_matrix.set colno (g.offset i + j)
                  (if I.entry colno then 1
                    else 1 / (QreProfiles exp log g x I).1 (g.index ell m))
              else
                p_matrix.set colno (g.offset i + j) 0
            else
              if I.entry colno then
                p_matrix.set colno (g.offset i + j)
                  (-x.entry x.Length * (QreProfiles exp log g x I).1 (g.index ell m) *
                    (QreProfiles exp log g x I).2 (g.index ell m) *
                    (g.GetPayoffDeriv (QreProfiles exp log g x I).1 i i j ell m -
                      g.GetPayoffDeriv (QreProfiles exp log g x I).1 i i 1 ell m))
              else
                p_matrix.set colno (g.offset i + j)
                  (-x.entry x.Length *
                    (g.GetPayoffDeriv (QreProfiles exp log g x I).1 i i j ell m -
                      g.GetPayoffDeriv (QreProfiles exp log g x I).1 i i 1 ell m)))
          (g.GetPayoff (QreProfiles exp log g x I).1 i i 1 -
            g.GetPayoff (QreProfiles exp log g x I).1 i i j)
          (by
            intro ell m M2
            simp only [QreJacobianEntry, hj, if_false, hp1, hp2, Game.index]
            split_ifs <;> rfl)
          (by simp only [QreJacobianLambda, hj, if_false, hp1])
        exact this)).2
  obtain ⟨-, k2⟩ := key
  intro i j hi1 hi2 hj1 hj2
  exact k2 i j hi1 hi2 hj1 hj2 (g.index_le i j hi1 hi2 hj2)

/-- C6: Jacobian formula. For every game, `x` and `I`, `QreJacobian` applied to an (L+1)xL
matrix stores at position (column index, equation index) the entry the spec gives, with
`d/d lambda` in the last matrix row `L+1`.  Sum-to-one row of player `i`: `sigma(i,m)` if the
column is log-coded, else `1`, on player `i`'s columns, and `0` on the other players' columns and
for `lambda`.  Ratio row `(i, s > 1)`: `-1` (log) or `-1/sigma(i,1)` (linear) on column `(i,1)`;
`+1` or `+1/sigma(i,s)` on column `(i,s)`; `0` on player `i`'s other columns;
`-lambda*(u(i,s,j,m;sigma) - u(i,1,j,m;sigma))` on the columns of players `j != i`, multiplied
further by `sigma(j,m)*l(j,m)` when that column is log-coded; and `u(i,1;sigma) - u(i,s;sigma)`
for `lambda`. -/
theorem QreJacobian_formula (g : Game ℝ) (x : GVector ℝ) (I : GVector Bool)
    (M0 : Nat → Nat → ℝ) :
    let J := QreJacobian Real.exp Real.log g x I
      ⟨g.MixedProfileLength + 1, g.MixedProfileLength, M0⟩
    let sigma := profileOf Real.exp g x I
    let lambda := x.entry x.Length
    (∀ i, 1 ≤ i → i ≤ g.NumPlayers → 1 ≤ g.NumStrategies i →
      (∀ ell m, 1 ≤ ell → ell ≤ g.NumPlayers → 1 ≤ m → m ≤ g.NumStrategies ell →
        J.entry (g.index ell m) (g.index i 1) =
          if ell = i then (if I.entry (g.index ell m) then rho Real.exp x I (g.index ell m)
            else 1) else 0) ∧
      J.entry (g.MixedProfileLength + 1) (g.index i 1) = 0) ∧
    (∀ i s, 1 ≤ i → i ≤ g.NumPlayers → 2 ≤ s → s ≤ g.NumStrategies i →
      J.entry (g.index i 1) (g.index i s) =
        (if I.entry (g.index i 1) then -1 else -1 / rho Real.exp x I (g.index i 1)) ∧
      J.entry (g.index i s) (g.index i s) =
        (if I.entry (g.index i s) then 1 else 1 / rho Real.exp x I (g.index i s)) ∧
      (∀ m, 1 ≤ m → m ≤ g.NumStrategies i → m ≠ 1 → m ≠ s →
        J.entry (g.index i m) (g.index i s) = 0) ∧
      (∀ ell m, 1 ≤ ell → ell ≤ g.NumPlayers → ell ≠ i → 1 ≤ m → m ≤ g.NumStrategies ell →
        J.entry (g.index ell m) (g.index i s) =
          if I.entry (g.index ell m) then
            -lambda * (g.GetPayoffDeriv sigma i i s ell m - g.GetPayoffDeriv sigma i i 1 ell m) *
              (rho Real.exp x I (g.index ell m) * logRho Real.log x I (g.index ell m))
          else
            -lambda * (g.GetPayoffDeriv sigma i i s ell m -
              g.GetPayoffDeriv sigma i i 1 ell m)) ∧
      J.entry (g.MixedProfileLength + 1) (g.index i s) =
        g.GetPayoff sigma i i 1 - g.GetPayoff sigma i i s) := by
  intro J sigma lambda
  have hspec := QreJacobian_spec Real.exp Real.log g x I
    ⟨g.MixedProfileLength + 1, g.MixedProfileLength, M0⟩ rfl
  refine ⟨fun i hi1 hi2 hm => ?_, fun i s hi1 hi2 hs1 hs2 => ?_⟩
  · obtain ⟨h1, h2⟩ := hspec i 1 hi1 hi2 (le_refl 1) hm
    refine ⟨fun ell m hl1 hl2 hm1 hm2 => ?_, ?_⟩
    · show (QreJacobian Real.exp Real.log g x I _).entry (g.offset ell + m) (g.offset i + 1) = _
      rw [h1 ell m hl1 hl2 hm1 hm2]
      simp only [QreJacobianEntry, if_true, profileOf_index Real.exp g x I ell m hl1 hl2 hm1 hm2]
      by_cases hil : i = ell
      · simp only [hil, if_true]
      · have : ¬ ell = i := fun h => hil h.symm
        simp only [hil, this, if_false]
    · show (QreJacobian Real.exp Real.log g x I _).entry _ (g.offset i + 1) = _
      rw [h2]
      simp only [QreJacobianLambda, if_true]
  · obtain ⟨h1, h2⟩ := hspec i s hi1 hi2 (by omega) hs2
    have hs : s ≠ 1 := by omega
    have hm : 1 ≤ g.NumStrategies i := by omega
    refine ⟨?_, ?_, fun m hm1 hm2 hmne1 hmnes => ?_, fun ell m hl1 hl2 hne hm1 hm2 => ?_, ?_⟩
    · show (QreJacobian Real.exp Real.log g x I _).entry (g.offset i + 1) (g.offset i + s) = _
      rw [h1 i 1 hi1 hi2 (le_refl 1) hm]
      simp only [QreJacobianEntry, hs, if_false, if_true,
        profileOf_index Real.exp g x I i 1 hi1 hi2 (le_refl 1) hm]
    · show (QreJacobian Real.exp Real.log g x I _).entry (g.offset i + s) (g.offset i + s) = _
      rw [h1 i s hi1 hi2 (by omega) hs2]
      simp only [QreJacobianEntry, hs, if_false, if_true,
        profileOf_index Real.exp g x I i s hi1 hi2 (by omega) hs2]
    · show (QreJacobian Real.exp Real.log g x I _).entry (g.offset i + m) (g.offset i + s) = _
      rw [h1 i m hi1 hi2 hm1 hm2]
      simp only [QreJacobianEntry, hs, hmne1, hmnes, if_false, if_true]
    · show (QreJacobian Real.exp Real.log g x I _).entry (g.offset ell + m) (g.offset i + s) = _
      rw [h1 ell m hl1 hl2 hm1 hm2]
      have hne2 : ¬ i = ell := fun h => hne h.symm
      simp only [QreJacobianEntry, hs, hne2, if_false,
        profileOf_index Real.exp g x I ell m hl1 hl2 hm1 hm2,
        logProfileOf_index Real.log g x I ell m hl1 hl2 hm1 hm2]
      split_ifs <;> ring
    · show (QreJacobian Real.exp Real.log g x I _).entry _ (g.offset i + s) = _
      rw [h2]
      simp only [QreJacobianLambda, hs, if_false]

/-- C7 fails on the code (cross-player column in log coordinates).  In the 2x2 game
`exampleGame`, whose second-order oracle is the partial derivative of its payoff oracle, at
`x = (1/2, 1/2, -7, 1/2; lambda = 1)` with only coordinate 3 (strategy 1 of player 2) log-coded,
all represented probabilities are positive; the entry `QreJacobian` stores for the ratio
equation of player 1, strategy 2 (equation index 2) and coordinate 3 is `7 * exp(-7)`, whereas
the partial derivative of that row of `QreLHS` with respect to `x_3` is `-exp(-7)`. -/
theorem QreJacobian_cross_log_column (lhs0 : GVector ℝ) (M0 : Nat → Nat → ℝ) :
    (∀ (sigma : Nat → ℝ) (i s j m : Nat), 1 ≤ j → j ≤ (exampleGame ℝ).NumPlayers →
      1 ≤ m → m ≤ (exampleGame ℝ).NumStrategies j →
      HasDerivAt (fun t => (exampleGame ℝ).GetPayoff
          (Function.update sigma ((exampleGame ℝ).index j m) t) i i s)
        ((exampleGame ℝ).GetPayoffDeriv sigma i i s j m) (sigma ((exampleGame ℝ).index j m))) ∧
    (∀ k, 1 ≤ k → k ≤ (exampleGame ℝ).MixedProfileLength →
      0 < rho Real.exp (examplePoint ℝ) examplePolicy k) ∧
    (QreJacobian Real.exp Real.log (exampleGame ℝ) (examplePoint ℝ) examplePolicy
      ⟨(exampleGame ℝ).MixedProfileLength + 1, (exampleGame ℝ).MixedProfileLength, M0⟩).entry 3 2
      = 7 * Real.exp (-7) ∧
    HasDerivAt (fun t => (QreLHS Real.exp Real.log (exampleGame ℝ)
        ((examplePoint ℝ).set 3 t) examplePolicy lhs0).entry 2) (-Real.exp (-7)) (-7) ∧
    (QreJacobian Real.exp Real.log (exampleGame ℝ) (examplePoint ℝ) examplePolicy
      ⟨(exampleGame ℝ).MixedProfileLength + 1, (exampleGame ℝ).MixedProfileLength, M0⟩).entry 3 2
      ≠ -Real.exp (-7) := by
  have hL : (exampleGame ℝ).MixedProfileLength = 4 := by decide
  have ho1 : (exampleGame ℝ).offset 1 = 0 := by decide
  have ho2 : (exampleGame ℝ).offset 2 = 2 := by decide
  have hN : (exampleGame ℝ).NumPlayers = 2 := rfl
  have hJ : (QreJacobian Real.exp Real.log (exampleGame ℝ) (examplePoint ℝ) examplePolicy
      ⟨(exampleGame ℝ).MixedProfileLength + 1, (exampleGame ℝ).MixedProfileLength, M0⟩).entry 3 2
      = 7 * Real.exp (-7) := by
    have h := (QreJacobian_spec Real.exp Real.log (exampleGame ℝ) (examplePoint ℝ) examplePolicy
      ⟨(exampleGame ℝ).MixedProfileLength + 1, (exampleGame ℝ).MixedProfileLength, M0⟩ rfl
      1 2 (by norm_num) (by rw [hN]; norm_num) (by norm_num) (by simp [exampleGame])).1
      2 1 (by norm_num) (by rw [hN]) (by norm_num) (by simp [exampleGame])
    rw [ho1, ho2] at h
    rw [h]
    simp only [QreJacobianEntry, profileOf, logProfileOf, rho, logRho, Game.index, ho2, hL]
    simp [examplePoint, examplePolicy, exampleGame]
    ring
  refine ⟨?_, ?_, hJ, ?_, ?_⟩
  · intro sigma i s j m hj1 hj2 hm1 hm2
    have hj : j = 1 ∨ j = 2 := by rw [hN] at hj2; omega
    have hm : m = 1 ∨ m = 2 := by
      rcases hj with rfl | rfl <;> simp [exampleGame] at hm2 <;> omega
    by_cases his : i = 1 ∧ s = 2
    · rcases hj with rfl | rfl <;> rcases hm with rfl | rfl
      · simp only [Game.index, ho1, exampleGame, his, and_self, if_true]
        simp only [Function.update, show ¬ (3 = 0 + 1) by norm_num, dite_false]
        simpa using hasDerivAt_const _ _
      · simp only [Game.index, ho1, exampleGame, his, and_self, if_true]
        simp only [Function.update, show ¬ (3 = 0 + 2) by norm_num, dite_false]
        simpa using hasDerivAt_const _ _
      · simp only [Game.index, ho2, exampleGame, his, and_self, if_true]
        simp only [Function.update, show (3 = 2 + 1) by norm_num, dite_true]
        simpa using hasDerivAt_id _
      · simp only [Game.index, ho2, exampleGame, his, and_self, if_true]
        simp only [Function.update, show ¬ (3 = 2 + 2) by norm_num, dite_false]
        simpa using hasDerivAt_const _ _
    · have h1 : ¬ (i = 1 ∧ s = 2 ∧ j = 2 ∧ m = 1) := fun h => his ⟨h.1, h.2.1⟩
      simp only [exampleGame, his, h1, if_false]
      exact hasDerivAt_const _ _
  · intro k hk1 hk2
    rw [hL] at hk2
    by_cases h3 : k = 3
    · simp [rho, examplePolicy, h3, Real.exp_pos]
    · have h5 : k ≠ 5 := by omega
      simp [rho, examplePolicy, examplePoint, h3, h5]
  · have hF : (fun t => (QreLHS Real.exp Real.log (exampleGame ℝ)
        ((examplePoint ℝ).set 3 t) examplePolicy lhs0).entry 2) = fun t => -Real.exp t := by
      funext t
      have h := (QreLHS_rows (exampleGame ℝ) ((examplePoint ℝ).set 3 t) examplePolicy
        lhs0).2 1 2 (by norm_num) (by rw [hN]; norm_num) (by norm_num) (by simp [exampleGame])
      simp only [Game.index, ho1] at h
      rw [show (0 : ℕ) + 2 = 2 by norm_num] at h
      have e1 : ∀ p : Nat → ℝ, (exampleGame ℝ).GetPayoff p 1 1 2 = p 3 := fun p => by
        simp [exampleGame]
      have e2 : ∀ p : Nat → ℝ, (exampleGame ℝ).GetPayoff p 1 1 1 = 0 := fun p => by
        simp [exampleGame]
      rw [h, e1, e2]
      simp only [profileOf, rho, logRho, hL]
      simp [examplePoint, examplePolicy, GVector.set]
    rw [hF]
    exact (Real.hasDerivAt_exp (-7)).neg
  · rw [hJ]
    have := Real.exp_pos (-7 : ℝ)
    intro h
    linarith



/-! ## Givens pivot update (C20) -/

/-- C20: Givens pivot update. For all reals `c1`, `c2` (and any matrices and indices), the pivot
pair that `Givens` hands back is `(sqrt(c1^2 + c2^2), 0)`; the scale-factored magnitude the code
computes equals `sqrt(c1^2 + c2^2)`; and when `c1 = c2 = 0` neither the pivots nor any entry of
`b` or `q` is modified. -/
theorem Givens_pivot_update (b q : GMatrix ℝ) (c1 c2 : ℝ) (l1 l2 l3 : Nat) :
    (Givens Real.sqrt b q c1 c2 l1 l2 l3).2.2.1 = Real.sqrt (c1 ^ 2 + c2 ^ 2) ∧
    (Givens Real.sqrt b q c1 c2 l1 l2 l3).2.2.2 = 0 ∧
    (if |c2| ≥ |c1| then Real.sqrt (1 + sqr (c1 / c2)) * |c2|
      else Real.sqrt (1 + sqr (c2 / c1)) * |c1|) = Real.sqrt (c1 ^ 2 + c2 ^ 2) ∧
    (c1 = 0 ∧ c2 = 0 → Givens Real.sqrt b q c1 c2 l1 l2 l3 = (b, q, c1, c2)) := by
  have hsq : c1 ^ 2 + c2 ^ 2 = c1 * c1 + c2 * c2 := by ring
  by_cases h : |c1| + |c2| = 0
  · have h1 : c1 = 0 := by
      have := abs_nonneg c1; have := abs_nonneg c2
      exact abs_eq_zero.mp (by linarith)
    have h2 : c2 = 0 := by
      have := abs_nonneg c1; have := abs_nonneg c2
      exact abs_eq_zero.mp (by linarith)
    subst h1; subst h2
    simp [Givens_eq, sqr]
  · have hsn := givens_sn_eq c1 c2 h
    unfold givensSn at hsn
    refine ⟨?_, ?_, ?_, ?_⟩
    · simp only [Givens_eq, h, if_false]
      rw [hsq]
      exact givens_sn_eq c1 c2 h
    · simp only [Givens_eq, h, if_false]
    · rw [hsq]; exact hsn
    · rintro ⟨h1, h2⟩
      exact absurd (by simp [h1, h2]) h

/-! ## Coordinate switch (C14) -/

/-- C14: coordinate-switch round trip. For a linear-coded coordinate with `x_k > 0`, switching
to log (`x_k <- log x_k`, `I[k] <- true`) and back to linear (`x_k <- exp x_k`,
`I[k] <- false`) returns `x_k` and the flag; for a log-coded coordinate, switching to linear and
back to log returns `x_k` and the flag; no other coordinate or flag changes. -/
theorem switch_round_trip (x : GVector ℝ) (isLog : GVector Bool) (k : Nat) :
    (isLog.entry k = false → 0 < x.entry k →
      (∀ j, (SwitchToLinear Real.exp (SwitchToLog Real.log x isLog k).1
        (SwitchToLog Real.log x isLog k).2 k).1.entry j = x.entry j) ∧
      (∀ j, (SwitchToLinear Real.exp (SwitchToLog Real.log x isLog k).1
        (SwitchToLog Real.log x isLog k).2 k).2.entry j = isLog.entry j)) ∧
    (isLog.entry k = true →
      (∀ j, (SwitchToLog Real.log (SwitchToLinear Real.exp x isLog k).1
        (SwitchToLinear Real.exp x isLog k).2 k).1.entry j = x.entry j) ∧
      (∀ j, (SwitchToLog Real.log (SwitchToLinear Real.exp x isLog k).1
        (SwitchToLinear Real.exp x isLog k).2 k).2.entry j = isLog.entry j)) := by
  refine ⟨fun hI hpos => ⟨fun j => ?_, fun j => ?_⟩, fun hI => ⟨fun j => ?_, fun j => ?_⟩⟩
  · simp only [SwitchToLinear, SwitchToLog, GVector_set_entry, if_true]
    by_cases hj : j = k
    · simp only [hj, if_true, Real.exp_log hpos]
    · simp only [hj, if_false]
  · simp only [SwitchToLinear, SwitchToLog, GVector_set_entry]
    by_cases hj : j = k
    · simp only [hj, if_true, hI]
    · simp only [hj, if_false]
  · simp only [SwitchToLinear, SwitchToLog, GVector_set_entry, if_true]
    by_cases hj : j = k
    · simp only [hj, if_true, Real.log_exp]
    · simp only [hj, if_false]
  · simp only [SwitchToLinear, SwitchToLog, GVector_set_entry]
    by_cases hj : j = k
    · simp only [hj, if_true, hI]
    · simp only [hj, if_false]

/-- Witness for C14: coordinate 1 of the centroid `(1/2, 1/2, 1/2, 1/2; 0)`, linear-coded. -/
theorem switch_round_trip_witness :
    (∀ j, (SwitchToLinear Real.exp (SwitchToLog Real.log (exampleCentroid ℝ) linearPolicy 1).1
      (SwitchToLog Real.log (exampleCentroid ℝ) linearPolicy 1).2 1).1.entry j
        = (exampleCentroid ℝ).entry j) ∧
    (∀ j, (SwitchToLinear Real.exp (SwitchToLog Real.log (exampleCentroid ℝ) linearPolicy 1).1
      (SwitchToLog Real.log (exampleCentroid ℝ) linearPolicy 1).2 1).2.entry j
        = linearPolicy.entry j) :=
  (switch_round_trip (exampleCentroid ℝ) linearPolicy 1).1 rfl (by norm_num [exampleCentroid])

/-! ## Likelihood and its derivative (C13) -/

/-- The sum that `LogLike` accumulates. -/
theorem LogLike_eq_sum (o p : GVector ℝ) :
    LogLike Real.log o p = ∑ k ∈ Finset.Icc 1 o.Length, o.entry k * Real.log (p.entry k) := by
  unfold LogLike
  rw [forLoop_sum o.Length (fun k => o.entry k * Real.log (p.entry k)) 0]
  simp

/-- The sum that `DiffLogLike` accumulates. -/
theorem DiffLogLike_eq_sum (o x : GVector ℝ) (I : GVector Bool) (t : GVector ℝ) :
    DiffLogLike o x I t = ∑ k ∈ Finset.Icc 1 o.Length,
      (if I.entry k then o.entry k * t.entry k else o.entry k * t.entry k / x.entry k) := by
  unfold DiffLogLike
  have h : (fun i (ret : ℝ) => if I.entry i = true then ret + o.entry i * t.entry i
        else ret + o.entry i * t.entry i / x.entry i) =
      (fun i ret => ret + (if I.entry i then o.entry i * t.entry i
        else o.entry i * t.entry i / x.entry i)) := by
    funext i ret
    split_ifs <;> rfl
  rw [h, forLoop_sum]
  simp

/-- C13: `DiffLogLike` is the directional derivative of `LogLike`. For every observation vector
`o`, policy `I`, direction `t` and state `x` whose linear-coded coordinates are positive,
`DiffLogLike(x, I, t) = sum_k (o_k*t_k if I[k] else o_k*t_k/x_k)`, and this is the derivative at
`eps = 0` of `eps -> LogLike(rho(x + eps*t, I))`. -/
theorem DiffLogLike_is_derivative (o x : GVector ℝ) (I : GVector Bool) (t : GVector ℝ)
    (hpos : ∀ k, 1 ≤ k → k ≤ o.Length → I.entry k = false → 0 < x.entry k) :
    DiffLogLike o x I t = ∑ k ∈ Finset.Icc 1 o.Length,
      (if I.entry k then o.entry k * t.entry k else o.entry k * t.entry k / x.entry k) ∧
    HasDerivAt (fun eps : ℝ => LogLike Real.log o
        ⟨x.Length, fun k => rho Real.exp ⟨x.Length, fun j => x.entry j + eps * t.entry j⟩ I k⟩)
      (DiffLogLike o x I t) 0 := by
  refine ⟨DiffLogLike_eq_sum o x I t, ?_⟩
  rw [DiffLogLike_eq_sum]
  have hfun : (fun eps : ℝ => LogLike Real.log o
        ⟨x.Length, fun k => rho Real.exp ⟨x.Length, fun j => x.entry j + eps * t.entry j⟩ I k⟩) =
      fun eps => ∑ k ∈ Finset.Icc 1 o.Length, o.entry k *
        Real.log (if I.entry k then Real.exp (x.entry k + eps * t.entry k)
          else x.entry k + eps * t.entry k) := by
    funext eps
    rw [LogLike_eq_sum]
    rfl
  rw [hfun]
  apply HasDerivAt.sum
  intro k hk
  obtain ⟨hk1, hk2⟩ := Finset.mem_Icc.mp hk
  have hlin : HasDerivAt (fun eps : ℝ => x.entry k + eps * t.entry k) (t.entry k) 0 := by
    simpa using ((hasDerivAt_id (0 : ℝ)).mul_const (t.entry k)).const_add (x.entry k)
  by_cases hI : I.entry k = true
  · simp only [hI, if_true, Real.log_exp]
    exact hlin.const_mul (o.entry k)
  · have hI2 : I.entry k = false := by simpa using hI
    have hx := hpos k hk1 hk2 hI2
    simp only [hI2, Bool.false_eq_true, if_false]
    have hlog := hlin.log (by simpa using ne_of_gt hx)
    have := hlog.const_mul (o.entry k)
    simp only [zero_mul, add_zero] at this
    rw [mul_div_assoc]
    exact this

/-- Witness for C13: four observations equal to 1, the centroid `(1/2, 1/2, 1/2, 1/2; 0)` with
all coordinates linear, and the direction made of ones. -/
theorem DiffLogLike_is_derivative_witness :
    DiffLogLike (constVector 4 1) (exampleCentroid ℝ) linearPolicy (constVector 5 1) =
      ∑ k ∈ Finset.Icc 1 (constVector 4 (1 : ℝ)).Length,
        (if linearPolicy.entry k then (constVector 4 (1 : ℝ)).entry k * (constVector 5 1).entry k
          else (constVector 4 (1 : ℝ)).entry k * (constVector 5 1).entry k /
            (exampleCentroid ℝ).entry k) ∧
    HasDerivAt (fun eps : ℝ => LogLike Real.log (constVector 4 1)
        ⟨(exampleCentroid ℝ).Length, fun k => rho Real.exp ⟨(exampleCentroid ℝ).Length,
          fun j => (exampleCentroid ℝ).entry j + eps * (constVector 5 (1 : ℝ)).entry j⟩
          linearPolicy k⟩)
      (DiffLogLike (constVector 4 1) (exampleCentroid ℝ) linearPolicy (constVector 5 1)) 0 :=
  DiffLogLike_is_derivative (constVector 4 1) (exampleCentroid ℝ) linearPolicy (constVector 5 1)
    (by
      intro k _ hk _
      have hk4 : k ≤ 4 := hk
      have h5 : k ≠ 5 := by omega
      simp [exampleCentroid, h5])

/-! ## Output records (C17) -/

/-- A loop that appends one field per index writes the fields in index order. -/
theorem forLoop_append {β : Type} (n : Nat) (f : Nat → β) (l0 : List β) :
    forLoop 1 n (fun i line => line ++ [f i]) l0 = l0 ++ (List.range' 1 n).map f := by
  induction n with
  | zero => simp [forLoop_empty]
  | succ n ih =>
    rw [forLoop_succ 1 n _ l0 (by omega), ih, List.range'_concat]
    simp [Nat.add_comm]

/-- The local `profile` that `PrintProfile` fills in MLE mode holds the represented
probabilities. -/
theorem PrintProfile_profile (L : Nat) (x : GVector ℝ) (I : GVector Bool) :
    ∀ k, 1 ≤ k → k ≤ L →
      (forLoop 1 L (fun i (profile : GVector ℝ) =>
        if I.entry i then profile.set i (Real.exp (x.entry i)) else profile.set i (x.entry i))
        ⟨L, fun _ => 0⟩).entry k = rho Real.exp x I k := by
  have key := forLoop_invariant
    (fun c (st : GVector ℝ) => ∀ k, 1 ≤ k → k < c → st.entry k = rho Real.exp x I k)
    1 L (fun i (profile : GVector ℝ) =>
        if I.entry i then profile.set i (Real.exp (x.entry i)) else profile.set i (x.entry i))
    ⟨L, fun _ => 0⟩ (by omega) (fun k h1 h2 => by omega)
    (by
      intro c st _ _ hst k hk1 hk2
      by_cases hkc : k = c
      · subst hkc
        by_cases hI : I.entry k = true <;> simp [hI, GVector_set_entry, rho]
      · have := hst k hk1 (by omega)
        by_cases hI : I.entry c = true <;> simp [hI, GVector_set_entry, hkc, this])
  intro k hk1 hk2
  exact key k hk1 (by omega)

/-- C17: record contents. For every state `x` of length `L + 1` and policy `I` (with `L`
observations when MLE mode is enabled), the record `PrintProfile` emits consists of a first
field that is `lambda = x_{L+1}` (or the literal `NE`, with `lambda` omitted, when terminal),
followed by exactly `L` probability fields in coordinate order where field `k` is `exp(x_k)` if
`I[k]` and `x_k` otherwise, followed by one further field `sum_k o_k * log(rho_k)` if and only
if MLE mode is enabled. -/
theorem PrintProfile_record (cfg : Globals ℝ) (g : Game ℝ) (x : GVector ℝ) (I : GVector Bool)
    (terminal : Bool) (hx : x.Length = g.MixedProfileLength + 1)
    (ho : cfg.g_maxLike = true → cfg.g_obsProbs.Length = g.MixedProfileLength) :
    PrintProfile Real.exp Real.log cfg g x I terminal =
      (if terminal then [Field.NE] else [Field.num (x.entry (g.MixedProfileLength + 1))]) ++
      (List.range' 1 g.MixedProfileLength).map
        (fun k => Field.num (if I.entry k then Real.exp (x.entry k) else x.entry k)) ++
      (if cfg.g_maxLike then
        [Field.num (∑ k ∈ Finset.Icc 1 g.MixedProfileLength,
          cfg.g_obsProbs.entry k * Real.log (rho Real.exp x I k))]
       else []) := by
  unfold PrintProfile
  have hbody : (fun i (line : List (Field ℝ)) =>
        if I.entry i = true then line ++ [Field.num (Real.exp (x.entry i))]
        else line ++ [Field.num (x.entry i)]) =
      (fun i line => line ++
        [Field.num (if I.entry i then Real.exp (x.entry i) else x.entry i)]) := by
    funext i line
    split_ifs <;> rfl
  have hL : x.Length - 1 = g.MixedProfileLength := by omega
  simp only [hbody, hL, forLoop_append, hx]
  have hfirst : (if ¬ terminal = true then [Field.num (x.entry (g.MixedProfileLength + 1))]
      else [Field.NE]) =
      (if terminal = true then [Field.NE]
        else [Field.num (x.entry (g.MixedProfileLength + 1))]) := by
    cases terminal <;> simp
  rw [hfirst]
  by_cases hm : cfg.g_maxLike = true
  · simp only [hm, if_true]
    congr 3
    unfold LogLike
    rw [forLoop_sum, ho hm, zero_add]
    apply Finset.sum_congr rfl
    intro k hk
    obtain ⟨hk1, hk2⟩ := Finset.mem_Icc.mp hk
    rw [PrintProfile_profile g.MixedProfileLength x I k hk1 hk2]
  · simp only [hm, if_false]
    simp

/-- Witness for C17: the centroid `(1/2, 1/2, 1/2, 1/2; 0)` of a 2x2 game, all coordinates
linear, MLE mode on with four observations equal to 1, non-terminal. -/
theorem PrintProfile_record_witness :
    PrintProfile Real.exp Real.log ⟨true, constVector 4 1, 11 / 10, 3 / 100, true⟩
        (exampleGame ℝ) (exampleCentroid ℝ) linearPolicy false =
      (if false then [Field.NE]
        else [Field.num ((exampleCentroid ℝ).entry ((exampleGame ℝ).MixedProfileLength + 1))]) ++
      (List.range' 1 (exampleGame ℝ).MixedProfileLength).map
        (fun k => Field.num (if linearPolicy.entry k then Real.exp ((exampleCentroid ℝ).entry k)
          else (exampleCentroid ℝ).entry k)) ++
      (if (⟨true, constVector 4 1, 11 / 10, 3 / 100, true⟩ : Globals ℝ).g_maxLike then
        [Field.num (∑ k ∈ Finset.Icc 1 (exampleGame ℝ).MixedProfileLength,
          (⟨true, constVector 4 1, 11 / 10, 3 / 100, true⟩ : Globals ℝ).g_obsProbs.entry k *
            Real.log (rho Real.exp (exampleCentroid ℝ) linearPolicy k))]
       else []) :=
  PrintProfile_record ⟨true, constVector 4 1, 11 / 10, 3 / 100, true⟩ (exampleGame ℝ)
    (exampleCentroid ℝ) linearPolicy false (by decide) (fun _ => by decide)

/-! ## The start point (C11) -/

/-- C11: the start point lies on the curve. For every game and every policy `I`, at a point
that represents the centroid profile (`rho(x, I, k) = 1/m_i` for every strategy `k` of every
player `i`) with `lambda = 0`, every entry `1 .. L` of the residual `QreLHS` is zero. -/
theorem QreLHS_centroid_zero (g : Game ℝ) (x : GVector ℝ) (I : GVector Bool) (lhs0 : GVector ℝ)
    (hlam : x.entry x.Length = 0)
    (hc : ∀ i s, 1 ≤ i → i ≤ g.NumPlayers → 1 ≤ s → s ≤ g.NumStrategies i →
      rho Real.exp x I (g.index i s) = 1 / (g.NumStrategies i : ℝ)) :
    ∀ k, 1 ≤ k → k ≤ g.MixedProfileLength →
      (QreLHS Real.exp Real.log g x I lhs0).entry k = 0 := by
  intro k hk1 hk2
  obtain ⟨i, s, hi1, hi2, hs1, hs2, rfl⟩ := g.index_surj k hk1 hk2
  obtain ⟨r1, r2⟩ := QreLHS_rows g x I lhs0
  by_cases h1 : s = 1
  · subst h1
    show (QreLHS Real.exp Real.log g x I lhs0).entry (g.index i 1) = 0
    rw [r1 i hi1 hi2 hs2]
    rw [Finset.sum_congr rfl (fun j hj =>
      hc i j hi1 hi2 (Finset.mem_Icc.mp hj).1 (Finset.mem_Icc.mp hj).2)]
    have hm : (g.NumStrategies i : ℝ) ≠ 0 := by
      have : 0 < g.NumStrategies i := by omega
      exact_mod_cast this.ne'
    simp [Finset.sum_const, hm]
  · have := r2 i s hi1 hi2 (by omega) hs2
    unfold Game.index at this
    rw [this, hlam, logRho_eq_log_rho, logRho_eq_log_rho]
    have e1 := hc i s hi1 hi2 hs1 hs2
    have e2 := hc i 1 hi1 hi2 (le_refl 1) (by omega)
    unfold Game.index at e1 e2
    rw [e1, e2]
    ring

/-- Witness for C11: the 2x2 example game at `x = (1/2, 1/2, 1/2, 1/2; 0)`, all coordinates
linear. -/
theorem QreLHS_centroid_zero_witness :
    (QreLHS Real.exp Real.log (exampleGame ℝ) (exampleCentroid ℝ) linearPolicy
      (constVector 4 0)).entry 1 = 0 ∧
    (QreLHS Real.exp Real.log (exampleGame ℝ) (exampleCentroid ℝ) linearPolicy
      (constVector 4 0)).entry 2 = 0 ∧
    (QreLHS Real.exp Real.log (exampleGame ℝ) (exampleCentroid ℝ) linearPolicy
      (constVector 4 0)).entry 3 = 0 ∧
    (QreLHS Real.exp Real.log (exampleGame ℝ) (exampleCentroid ℝ) linearPolicy
      (constVector 4 0)).entry 4 = 0 := by
  have h := QreLHS_centroid_zero (exampleGame ℝ) (exampleCentroid ℝ) linearPolicy
    (constVector 4 0) (by simp [exampleCentroid])
    (by
      intro i s hi1 hi2 hs1 hs2
      have hi : i = 1 ∨ i = 2 := by
        have : i ≤ 2 := hi2
        omega
      have hm : (exampleGame ℝ).NumStrategies i = 2 := by
        rcases hi with h | h <;> simp [exampleGame, h]
      have hidx : (exampleGame ℝ).index i s ≠ 5 := by
        have := (exampleGame ℝ).index_le i s hi1 hi2 hs2
        have hL : (exampleGame ℝ).MixedProfileLength = 4 := by decide
        unfold Game.index
        omega
      rw [hm]
      simp [rho, linearPolicy, exampleCentroid, hidx])
  have hL : (exampleGame ℝ).MixedProfileLength = 4 := by decide
  exact ⟨h 1 (by omega) (by omega), h 2 (by omega) (by omega), h 3 (by omega) (by omega),
    h 4 (by omega) (by omega)⟩

/-! ## Output of the path tracer -/

theorem TracePathPop_out {α : Type} [LinearOrderedField α] (sqrt exp log : α → α) (g : Game α)
    (s : TraceState α) : (TracePathPop sqrt exp log g s).out = s.out := rfl

theorem TracePathAccept_out {α : Type} [LinearOrderedField α] (sqrt exp log : α → α)
    (cfg : Globals α) (g : Game α) (s : TraceState α) (decel : α) :
    (TracePathAccept sqrt exp log cfg g s decel).out =
      if cfg.g_fullGraph then s.out ++ [PrintProfile exp log cfg g s.u s.isLog false]
      else s.out := by
  unfold TracePathAccept
  dsimp only
  split_ifs <;> rfl

/-- An iteration of the main loop only appends to the output, and appends nothing when
full-graph output is off. -/
theorem TracePathBody_out {α : Type} [LinearOrderedField α] (sqrt exp log : α → α)
    (cfg : Globals α) (g : Game α) (cfuel : Nat) (s s' : TraceState α) (f : Flow)
    (h : TracePathBody sqrt exp log cfg g cfuel s = some (s', f)) :
    ∃ l, s'.out = s.out ++ l ∧ (cfg.g_fullGraph = false → l = []) := by
  unfold TracePathBody at h
  dsimp only at h
  by_cases h1 : |s.h| ≤ c_hmin
  · rw [if_pos h1] at h
    by_cases h2 : s.newton = true
    · rw [if_pos h2] at h
      cases h
      exact ⟨[], by simp [TracePathPop_out], fun _ => rfl⟩
    · rw [if_neg h2] at h
      cases h
      exact ⟨[], by simp, fun _ => rfl⟩
  · rw [if_neg h1] at h
    split at h
    · cases h
    · rename_i c hc
      by_cases h3 : c.accept = true
      · rw [if_neg (by simp [h3])] at h
        cases h
        rw [TracePathAccept_out]
        by_cases hf : cfg.g_fullGraph = true
        · exact ⟨[PrintProfile exp log cfg g c.u s.isLog false],
            by simp only [hf, if_true], fun h => by simp [hf] at h⟩
        · exact ⟨[], by simp [hf], fun _ => rfl⟩
      · rw [if_pos h3] at h
        by_cases h4 : |s.h / cfg.g_maxDecel| ≤ c_hmin
        · rw [if_pos h4] at h
          by_cases h2 : s.newton = true
          · rw [if_pos h2] at h
            cases h
            exact ⟨[], by simp [TracePathPop_out], fun _ => rfl⟩
          · rw [if_neg h2] at h
            cases h
            exact ⟨[], by simp, fun _ => rfl⟩
        · rw [if_neg h4] at h
          cases h
          exact ⟨[], by simp, fun _ => rfl⟩

/-- The main loop only appends to the output, and appends nothing when full-graph output is
off. -/
theorem TracePathLoop_out {α : Type} [LinearOrderedField α] (sqrt exp log : α → α)
    (cfg : Globals α) (g : Game α) (p_maxLambda : α) (cfuel fuel : Nat) (s s' : TraceState α)
    (f : Flow)
    (h : TracePathLoop sqrt exp log cfg g p_maxLambda cfuel fuel s = some (s', f)) :
    ∃ l, s'.out = s.out ++ l ∧ (cfg.g_fullGraph = false → l = []) := by
  induction fuel generalizing s with
  | zero => simp [TracePathLoop] at h
  | succ n ih =>
    unfold TracePathLoop at h
    split_ifs at h with hg
    · split at h
      · cases h
      · rename_i s1 hb
        cases h
        exact TracePathBody_out sqrt exp log cfg g cfuel s s' Flow.ret hb
      · rename_i s1 hb
        obtain ⟨l1, e1, n1⟩ := TracePathBody_out sqrt exp log cfg g cfuel s s1 Flow.next hb
        obtain ⟨l2, e2, n2⟩ := ih s1 h
        exact ⟨l1 ++ l2, by rw [e2, e1, List.append_assoc], fun hf => by
          rw [n1 hf, n2 hf]; rfl⟩
    · cases h
      exact ⟨[], by simp, fun _ => rfl⟩

/-- The shape of every record: the first field, one field per coordinate `1 .. Length - 1` in
order, and a rest that is empty unless MLE mode is on, when it is one field. -/
theorem PrintProfile_fields {α : Type} [LinearOrderedField α] (exp log : α → α)
    (cfg : Globals α) (g : Game α) (x : GVector α) (I : GVector Bool) (terminal : Bool) :
    ∃ rest, PrintProfile exp log cfg g x I terminal =
      (if terminal then [Field.NE] else [Field.num (x.entry x.Length)]) ++
        (List.range' 1 (x.Length - 1)).map (fun k => Field.num (rho exp x I k)) ++ rest ∧
      (cfg.g_maxLike = false → rest = []) ∧ (cfg.g_maxLike = true → rest.length = 1) := by
  unfold PrintProfile
  have hbody : (fun i (line : List (Field α)) =>
        if I.entry i = true then line ++ [Field.num (exp (x.entry i))]
        else line ++ [Field.num (x.entry i)]) =
      (fun i line => line ++ [Field.num (rho exp x I i)]) := by
    funext i line
    unfold rho
    split_ifs <;> rfl
  have hfirst : (if ¬ terminal = true then [Field.num (x.entry x.Length)]
      else [Field.NE]) =
      (if terminal = true then [Field.NE] else [Field.num (x.entry x.Length)]) := by
    cases terminal <;> simp
  simp only [hbody, forLoop_append, hfirst]
  by_cases hm : cfg.g_maxLike = true
  · simp only [hm, if_true]
    exact ⟨_, rfl, fun h => by simp at h, fun _ => rfl⟩
  · refine ⟨[], ?_, fun _ => rfl, fun h => absurd h hm⟩
    simp only [hm, if_false]
    simp

/-- The loop of `TracePath` that fills `isLog` (lines 379-381). -/
theorem TracePathInit_isLog_loop {α : Type} [LinearOrderedField α] (L : Nat) (p : Nat → α) :
    (forLoop 1 L (fun i (isLog : GVector Bool) =>
      isLog.set i (decide (p i < c_logCutoff))) ⟨L, fun _ => false⟩).Length = L ∧
    ∀ k, 1 ≤ k → k ≤ L → (forLoop 1 L (fun i (isLog : GVector Bool) =>
      isLog.set i (decide (p i < c_logCutoff))) ⟨L, fun _ => false⟩).entry k =
        decide (p k < c_logCutoff) := by
  have key := forLoop_invariant
    (fun c (st : GVector Bool) => st.Length = L ∧
      ∀ k, 1 ≤ k → k < c → st.entry k = decide (p k < c_logCutoff))
    1 L (fun i (isLog : GVector Bool) => isLog.set i (decide (p i < c_logCutoff)))
    ⟨L, fun _ => false⟩ (by omega) ⟨rfl, fun k h1 h2 => by omega⟩
    (by
      rintro c st _ _ ⟨g1, g2⟩
      refine ⟨g1, fun k hk1 hk2 => ?_⟩
      by_cases hkc : k = c
      · subst hkc
        simp [GVector_set_entry]
      · have := g2 k hk1 (by omega)
        simp only [GVector_set_entry, hkc, if_false, this])
  exact ⟨key.1, fun k hk1 hk2 => key.2 k hk1 (by omega)⟩

/-- The loop of `TracePath` that fills `x` (lines 390-397). -/
theorem TracePathInit_x_loop {α : Type} [LinearOrderedField α] (log : α → α) (L : Nat)
    (p : Nat → α) (I : GVector Bool) :
    (forLoop 1 L (fun i (x : GVector α) =>
      if I.entry i then x.set i (log (p i)) else x.set i (p i)) ⟨L + 1, fun _ => 0⟩).Length
        = L + 1 ∧
    ∀ k, 1 ≤ k → k ≤ L → (forLoop 1 L (fun i (x : GVector α) =>
      if I.entry i then x.set i (log (p i)) else x.set i (p i)) ⟨L + 1, fun _ => 0⟩).entry k =
        if I.entry k then log (p k) else p k := by
  have key := forLoop_invariant
    (fun c (st : GVector α) => st.Length = L + 1 ∧
      ∀ k, 1 ≤ k → k < c → st.entry k = if I.entry k then log (p k) else p k)
    1 L (fun i (x : GVector α) =>
      if I.entry i then x.set i (log (p i)) else x.set i (p i))
    ⟨L + 1, fun _ => 0⟩ (by omega) ⟨rfl, fun k h1 h2 => by omega⟩
    (by
      rintro c st _ _ ⟨g1, g2⟩
      refine ⟨?_, fun k hk1 hk2 => ?_⟩
      · by_cases hI : I.entry c = true <;> simp only [hI, if_true, if_false] <;> exact g1
      · by_cases hkc : k = c
        · subst hkc
          by_cases hI : I.entry k = true <;> simp [hI, GVector_set_entry]
        · have := g2 k hk1 (by omega)
          by_cases hI : I.entry c = true <;> simp [hI, GVector_set_entry, hkc, this])
  exact ⟨key.1, fun k hk1 hk2 => key.2 k hk1 (by omega)⟩

/-- The point and the policy that `TracePath` starts from. -/
theorem TracePathInit_point {α : Type} [LinearOrderedField α] (sqrt exp log : α → α)
    (cfg : Globals α) (g : Game α) (p : Nat → α) (lam0 omega : α) :
    (TracePathInit sqrt exp log cfg g p lam0 omega).x.Length = g.MixedProfileLength + 1 ∧
    (TracePathInit sqrt exp log cfg g p lam0 omega).isLog.Length = g.MixedProfileLength ∧
    (TracePathInit sqrt exp log cfg g p lam0 omega).x.entry (g.MixedProfileLength + 1) = lam0 ∧
    (∀ k, 1 ≤ k → k ≤ g.MixedProfileLength →
      (TracePathInit sqrt exp log cfg g p lam0 omega).isLog.entry k =
        decide (p k < c_logCutoff)) ∧
    (∀ k, 1 ≤ k → k ≤ g.MixedProfileLength →
      (TracePathInit sqrt exp log cfg g p lam0 omega).x.entry k =
        if p k < c_logCutoff then log (p k) else p k) ∧
    (TracePathInit sqrt exp log cfg g p lam0 omega).out =
      if cfg.g_fullGraph then
        [PrintProfile exp log cfg g (TracePathInit sqrt exp log cfg g p lam0 omega).x
          (TracePathInit sqrt exp log cfg g p lam0 omega).isLog false]
      else [] := by
  obtain ⟨i1, i2⟩ := TracePathInit_isLog_loop g.MixedProfileLength p
  obtain ⟨x1, x2⟩ := TracePathInit_x_loop log g.MixedProfileLength p
    (forLoop 1 g.MixedProfileLength (fun i (isLog : GVector Bool) =>
      isLog.set i (decide (p i < c_logCutoff))) ⟨g.MixedProfileLength, fun _ => false⟩)
  refine ⟨x1, i1, ?_, i2, ?_, rfl⟩
  · show (GVector.set _ _ lam0).entry _ = lam0
    rw [GVector_set_entry, x1]
    simp
  · intro k hk1 hk2
    show (GVector.set _ _ lam0).entry _ = _
    rw [GVector_set_entry, x1, if_neg (by omega), x2 k hk1 hk2, i2 k hk1 hk2]
    simp

/-- In full-graph mode the output of a run of `TracePath` begins with the record written before
the main loop. -/
theorem TracePath_first_record {α : Type} [LinearOrderedField α] (sqrt exp log : α → α)
    (cfg : Globals α) (g : Game α) (fuel cfuel : Nat) (p : Nat → α) (lam0 maxLam omega : α)
    (s : TraceState α) (hf : cfg.g_fullGraph = true)
    (h : TracePath sqrt exp log cfg g fuel cfuel p lam0 maxLam omega = some s) :
    ∃ more, s.out = PrintProfile exp log cfg g
      (TracePathInit sqrt exp log cfg g p lam0 omega).x
      (TracePathInit sqrt exp log cfg g p lam0 omega).isLog false :: more := by
  have hinit := (TracePathInit_point sqrt exp log cfg g p lam0 omega).2.2.2.2.2
  rw [if_pos hf] at hinit
  unfold TracePath at h
  split at h
  · cases h
  · rename_i s1 hl
    cases h
    obtain ⟨l, e, -⟩ := TracePathLoop_out sqrt exp log cfg g maxLam cfuel fuel _ _ _ hl
    exact ⟨l, by rw [e, hinit]; rfl⟩
  · rename_i s1 hl
    rw [if_neg (by simp [hf])] at h
    cases h
    obtain ⟨l, e, -⟩ := TracePathLoop_out sqrt exp log cfg g maxLam cfuel fuel _ _ _ hl
    exact ⟨l, by rw [e, hinit]; rfl⟩

/-! ## Initialisation of `TracePath` (C12) -/

/-- C12: initialisation. For every positive start profile `p` and start value `lambda0`,
`TracePath` reaches its main loop with `I[k] = (p_k < 0.001)`, `x_k = log(p_k)` when `I[k]` and
`x_k = p_k` otherwise, and `x_{L+1} = lambda0`, so `rho(x, I, k) = p_k` for every `k`; and in
full-graph mode the record written there, which is the first record of every run, is
`(lambda0, p_1, ..., p_L)`, followed by a likelihood field only in MLE mode. -/
theorem TracePathInit_represents_start (cfg : Globals ℝ) (g : Game ℝ) (p : Nat → ℝ)
    (lam0 omega : ℝ) (hp : ∀ k, 1 ≤ k → k ≤ g.MixedProfileLength → 0 < p k) :
    (∀ k, 1 ≤ k → k ≤ g.MixedProfileLength →
      (TracePathInit Real.sqrt Real.exp Real.log cfg g p lam0 omega).isLog.entry k =
        decide (p k < 1 / 1000) ∧
      (TracePathInit Real.sqrt Real.exp Real.log cfg g p lam0 omega).x.entry k =
        (if (TracePathInit Real.sqrt Real.exp Real.log cfg g p lam0 omega).isLog.entry k
          then Real.log (p k) else p k) ∧
      rho Real.exp (TracePathInit Real.sqrt Real.exp Real.log cfg g p lam0 omega).x
        (TracePathInit Real.sqrt Real.exp Real.log cfg g p lam0 omega).isLog k = p k) ∧
    (TracePathInit Real.sqrt Real.exp Real.log cfg g p lam0 omega).x.entry
      (g.MixedProfileLength + 1) = lam0 ∧
    (cfg.g_fullGraph = true → ∃ rest,
      (TracePathInit Real.sqrt Real.exp Real.log cfg g p lam0 omega).out =
        [(Field.num lam0 :: (List.range' 1 g.MixedProfileLength).map (fun k => Field.num (p k)))
          ++ rest] ∧
      (cfg.g_maxLike = false → rest = []) ∧
      ∀ fuel cfuel maxLam s,
        TracePath Real.sqrt Real.exp Real.log cfg g fuel cfuel p lam0 maxLam omega = some s →
        ∃ more, s.out =
          ((Field.num lam0 :: (List.range' 1 g.MixedProfileLength).map (fun k => Field.num (p k)))
            ++ rest) :: more) := by
  obtain ⟨hxL, -, hlam, hI, hx, hout⟩ :=
    TracePathInit_point Real.sqrt Real.exp Real.log cfg g p lam0 omega
  have hrho : ∀ k, 1 ≤ k → k ≤ g.MixedProfileLength →
      rho Real.exp (TracePathInit Real.sqrt Real.exp Real.log cfg g p lam0 omega).x
        (TracePathInit Real.sqrt Real.exp Real.log cfg g p lam0 omega).isLog k = p k := by
    intro k hk1 hk2
    unfold rho
    rw [hI k hk1 hk2, hx k hk1 hk2]
    by_cases hc : p k < c_logCutoff
    · simp only [hc, decide_True, if_true]
      exact Real.exp_log (hp k hk1 hk2)
    · simp [hc]
  refine ⟨fun k hk1 hk2 => ⟨?_, ?_, hrho k hk1 hk2⟩, hlam, fun hf => ?_⟩
  · rw [hI k hk1 hk2]
    simp [c_logCutoff]
  · rw [hx k hk1 hk2, hI k hk1 hk2]
    by_cases hc : p k < c_logCutoff <;> simp [hc]
  · obtain ⟨rest, hrec, hr1, -⟩ := PrintProfile_fields Real.exp Real.log cfg g
      (TracePathInit Real.sqrt Real.exp Real.log cfg g p lam0 omega).x
      (TracePathInit Real.sqrt Real.exp Real.log cfg g p lam0 omega).isLog false
    have hmap : (List.range' 1 g.MixedProfileLength).map (fun k => Field.num
        (rho Real.exp (TracePathInit Real.sqrt Real.exp Real.log cfg g p lam0 omega).x
          (TracePathInit Real.sqrt Real.exp Real.log cfg g p lam0 omega).isLog k)) =
        (List.range' 1 g.MixedProfileLength).map (fun k => Field.num (p k)) := by
      apply List.map_congr_left
      intro k hk
      rw [List.mem_range'_1] at hk
      rw [hrho k hk.1 (by omega)]
    rw [hxL, Nat.add_sub_cancel, hlam, hmap] at hrec
    simp only [Bool.false_eq_true, if_false, List.singleton_append] at hrec
    refine ⟨rest, ?_, hr1, fun fuel cfuel maxLam s hs => ?_⟩
    · rw [hout, if_pos hf, hrec]
    · obtain ⟨more, hm⟩ := TracePath_first_record Real.sqrt Real.exp Real.log cfg g fuel cfuel
        p lam0 maxLam omega s hf hs
      exact ⟨more, by rw [hm, hrec]⟩

/-- Witness for C12: the 2x2 example game started at `p = (1/2, 1/2, 1/2, 1/2)` with
`lambda0 = 0` and the default settings. -/
theorem TracePathInit_represents_start_witness :
    rho Real.exp
      (TracePathInit Real.sqrt Real.exp Real.log ⟨false, constVector 0 0, 11 / 10, 3 / 100, true⟩
        (exampleGame ℝ) (fun _ => 1 / 2) 0 1).x
      (TracePathInit Real.sqrt Real.exp Real.log ⟨false, constVector 0 0, 11 / 10, 3 / 100, true⟩
        (exampleGame ℝ) (fun _ => 1 / 2) 0 1).isLog 1 = 1 / 2 ∧
    (TracePathInit Real.sqrt Real.exp Real.log ⟨false, constVector 0 0, 11 / 10, 3 / 100, true⟩
      (exampleGame ℝ) (fun _ => 1 / 2) 0 1).x.entry ((exampleGame ℝ).MixedProfileLength + 1)
        = 0 :=
  ⟨((TracePathInit_represents_start ⟨false, constVector 0 0, 11 / 10, 3 / 100, true⟩
      (exampleGame ℝ) (fun _ => 1 / 2) 0 1 (fun _ _ _ => by norm_num)).1 1 (le_refl 1)
      (by decide)).2.2,
   (TracePathInit_represents_start ⟨false, constVector 0 0, 11 / 10, 3 / 100, true⟩
      (exampleGame ℝ) (fun _ => 1 / 2) 0 1 (fun _ _ _ => by norm_num)).2.1⟩

/-- A run that starts inside the loop guard with an initial step of at most `c_hmin` returns
at once from the first iteration (line 435), in the state reached before the loop. -/
theorem TracePath_hmin_return {α : Type} [LinearOrderedField α] (sqrt exp log : α → α)
    (cfg : Globals α) (g : Game α) (fuel cfuel : Nat) (p : Nat → α) (lam0 maxLam omega : α)
    (hh : |cfg.g_hStart| ≤ c_hmin) (h0 : 0 ≤ lam0) (h1 : lam0 < maxLam) :
    TracePath sqrt exp log cfg g (fuel + 1) cfuel p lam0 maxLam omega =
      some (TracePathInit sqrt exp log cfg g p lam0 omega) := by
  obtain ⟨hxL, -, hlam, -⟩ := TracePathInit_point sqrt exp log cfg g p lam0 omega
  have hbody : TracePathBody sqrt exp log cfg g cfuel
      (TracePathInit sqrt exp log cfg g p lam0 omega) =
      some (TracePathInit sqrt exp log cfg g p lam0 omega, Flow.ret) := by
    unfold TracePathBody
    have e1 : (TracePathInit sqrt exp log cfg g p lam0 omega).h = cfg.g_hStart := rfl
    have e2 : (TracePathInit sqrt exp log cfg g p lam0 omega).newton = false := rfl
    rw [e1, if_pos hh, e2]
    simp
  unfold TracePath TracePathLoop
  rw [hxL, hlam, if_pos ⟨h0, h1⟩, hbody]

/-- With full-graph output off, a run that returns has written nothing or only the terminal
record. -/
theorem TracePath_terminal_only {α : Type} [LinearOrderedField α] (sqrt exp log : α → α)
    (cfg : Globals α) (g : Game α) (fuel cfuel : Nat) (p : Nat → α) (lam0 maxLam omega : α)
    (s : TraceState α) (hf : cfg.g_fullGraph = false)
    (h : TracePath sqrt exp log cfg g fuel cfuel p lam0 maxLam omega = some s) :
    s.out = [] ∨ ∃ fields, s.out = [Field.NE :: fields] := by
  have hinit := (TracePathInit_point sqrt exp log cfg g p lam0 omega).2.2.2.2.2
  rw [if_neg (by simp [hf])] at hinit
  unfold TracePath at h
  split at h
  · cases h
  · rename_i s1 hl
    cases h
    obtain ⟨l, e, hl2⟩ := TracePathLoop_out sqrt exp log cfg g maxLam cfuel fuel _ _ _ hl
    left
    rw [e, hinit, hl2 hf]
    rfl
  · rename_i s1 hl
    rw [if_pos (by simp [hf])] at h
    cases h
    obtain ⟨l, e, hl2⟩ := TracePathLoop_out sqrt exp log cfg g maxLam cfuel fuel _ _ _ hl
    obtain ⟨rest, hr, -⟩ := PrintProfile_fields exp log cfg g s1.x s1.isLog true
    right
    refine ⟨List.map (fun k => Field.num (rho exp s1.x s1.isLog k))
      (List.range' 1 (s1.x.Length - 1)) ++ rest, ?_⟩
    show s1.out ++ [PrintProfile exp log cfg g s1.x s1.isLog true] = _
    rw [e, hinit, hl2 hf, hr]
    simp only [if_true, List.nil_append, List.singleton_append, List.cons_append]

/-! ## Terminal-only output (C16) -/

/-- C16 (counterexample): terminal-only mode can end without any record. The run `-e -s 0` of
`main` on the one-strategy game exits with code 0 and `TracePath` has written no line at all;
the same holds for every game and every setting whenever the initial step is at most
`c_hmin = 1e-5` and `0 <= lambda0 < maxLambda`, because the `return` of line 435 comes before
the terminal `PrintProfile` of lines 584-586.  In general a returning run with `-e` has written
either nothing or exactly one record, which begins with `NE`. -/
theorem TracePath_terminal_record_skipped :
    (∃ s, main Real.sqrt Real.exp Real.log (listStream ℝ) [Opt.e, Opt.s 0]
        (some (trivialGame ℝ)) (fun _ => ([], false)) 1 1 = some ⟨0, false, some s⟩ ∧
      s.out = []) ∧
    (∀ (cfg : Globals ℝ) (g : Game ℝ) (fuel cfuel : Nat) (p : Nat → ℝ) (lam0 maxLam omega : ℝ),
      cfg.g_fullGraph = false → |cfg.g_hStart| ≤ 1 / 100000 → 0 ≤ lam0 → lam0 < maxLam →
      ∃ s, TracePath Real.sqrt Real.exp Real.log cfg g (fuel + 1) cfuel p lam0 maxLam omega
        = some s ∧ s.out = []) ∧
    (∀ (cfg : Globals ℝ) (g : Game ℝ) (fuel cfuel : Nat) (p : Nat → ℝ) (lam0 maxLam omega : ℝ)
      (s : TraceState ℝ), cfg.g_fullGraph = false →
      TracePath Real.sqrt Real.exp Real.log cfg g fuel cfuel p lam0 maxLam omega = some s →
      s.out = [] ∨ ∃ fields, s.out = [Field.NE :: fields]) := by
  have gen : ∀ (cfg : Globals ℝ) (g : Game ℝ) (fuel cfuel : Nat) (p : Nat → ℝ)
      (lam0 maxLam omega : ℝ),
      cfg.g_fullGraph = false → |cfg.g_hStart| ≤ 1 / 100000 → 0 ≤ lam0 → lam0 < maxLam →
      ∃ s, TracePath Real.sqrt Real.exp Real.log cfg g (fuel + 1) cfuel p lam0 maxLam omega
        = some s ∧ s.out = [] := by
    intro cfg g fuel cfuel p lam0 maxLam omega hf hh h0 h1
    refine ⟨_, TracePath_hmin_return Real.sqrt Real.exp Real.log cfg g fuel cfuel p lam0 maxLam
      omega hh h0 h1, ?_⟩
    rw [(TracePathInit_point Real.sqrt Real.exp Real.log cfg g p lam0 omega).2.2.2.2.2,
      if_neg (by simp [hf])]
  refine ⟨?_, gen, fun cfg g fuel cfuel p lam0 maxLam omega s hf h =>
    TracePath_terminal_only Real.sqrt Real.exp Real.log cfg g fuel cfuel p lam0 maxLam omega s
      hf h⟩
  obtain ⟨s, hs, ho⟩ := gen ⟨false, ⟨0, fun _ => 0⟩, 11 / 10, 0, false⟩ (trivialGame ℝ) 0 1
    (trivialGame ℝ).centroid 0 1000000 1 rfl (by norm_num) (le_refl 0) (by norm_num)
  refine ⟨s, ?_, ho⟩
  simp only [main, mainOptions, mainInit] 
  simp only [show (("" : String) ≠ "") = False from by simp, if_false]
  rw [hs]

/-! ## Observation input (C18) -/

/-- What `main` returns once the options and the game have been read and `-L` was given: the
result of `ReadProfile` is not looked at. -/
theorem main_with_mleFile {σ : Type} (io : IStream σ ℝ) (opts : List (Opt ℝ)) (st : MainState ℝ)
    (nfg : Game ℝ) (openFile : String → σ) (fuel cfuel : Nat)
    (hopts : mainOptions opts mainInit = Except.ok st) (hL : st.mleFile ≠ "") :
    main Real.sqrt Real.exp Real.log io opts (some nfg) openFile fuel cfuel =
      (TracePath Real.sqrt Real.exp Real.log
        { st.globals with
          g_obsProbs := (ReadProfile io (openFile st.mleFile)
            ⟨nfg.MixedProfileLength, fun _ => 0⟩).2.2,
          g_maxLike := true }
        nfg fuel cfuel nfg.centroid 0 st.maxLambda 1).map (fun s => ⟨0, true, some s⟩) := by
  unfold main
  rw [hopts]
  simp only [hL, if_true, ne_eq, not_false_eq_true]
  cases TracePath Real.sqrt Real.exp Real.log
        { st.globals with
          g_obsProbs := (ReadProfile io (openFile st.mleFile)
            ⟨nfg.MixedProfileLength, fun _ => 0⟩).2.2,
          g_maxLike := true }
        nfg fuel cfuel nfg.centroid 0 st.maxLambda 1 <;> rfl

/-- C18 (code bug): a malformed observation file is not treated as an input error. On an empty
observation stream `ReadProfile` returns `false` for the 4 numbers of a 2x2 game, yet the run
`-L obs.csv -s 0` of `main` calls `TracePath` with MLE mode enabled and exits with code 0; and
whenever `-L` is given and the game is read, every result of `main` has exit code 0, MLE mode
enabled and `TracePath` called, whatever `ReadProfile` returned (line 701 drops its result). -/
theorem main_ignores_ReadProfile_result :
    (ReadProfile (listStream ℝ) ([], false)
      ⟨(exampleGame ℝ).MixedProfileLength, fun _ => 0⟩).1 = false ∧
    (∃ s, main Real.sqrt Real.exp Real.log (listStream ℝ) [Opt.L "obs.csv", Opt.s 0]
      (some (exampleGame ℝ)) (fun _ => ([], false)) 1 1 = some ⟨0, true, some s⟩) ∧
    (∀ (σ : Type) (io : IStream σ ℝ) (opts : List (Opt ℝ)) (st : MainState ℝ) (nfg : Game ℝ)
      (openFile : String → σ) (fuel cfuel : Nat) (r : MainResult ℝ),
      mainOptions opts mainInit = Except.ok st → st.mleFile ≠ "" →
      main Real.sqrt Real.exp Real.log io opts (some nfg) openFile fuel cfuel = some r →
      r.exitCode = 0 ∧ r.maxLike = true ∧ r.trace.isSome = true) := by
  refine ⟨?_, ?_, ?_⟩
  · have hL : (exampleGame ℝ).MixedProfileLength = 4 := by decide
    rw [hL]
    simp [ReadProfile, forLoop, forLoopAux, listStream]
  · rw [main_with_mleFile (listStream ℝ) [Opt.L "obs.csv", Opt.s 0]
      { (mainInit : MainState ℝ) with
        mleFile := "obs.csv",
        globals := { (mainInit : MainState ℝ).globals with g_hStart := 0 } }
      (exampleGame ℝ) (fun _ => ([], false)) 1 1 rfl (by decide)]
    rw [TracePath_hmin_return Real.sqrt Real.exp Real.log _ (exampleGame ℝ) 0 1 _ 0 _ 1
      (by simp [mainInit, c_hmin]) (le_refl 0) (by simp [mainInit])]
    exact ⟨_, rfl⟩
  · intro σ io opts st nfg openFile fuel cfuel r hopts hL hr
    rw [main_with_mleFile io opts st nfg openFile fuel cfuel hopts hL] at hr
    cases ht : TracePath Real.sqrt Real.exp Real.log
        { st.globals with
          g_obsProbs := (ReadProfile io (openFile st.mleFile)
            ⟨nfg.MixedProfileLength, fun _ => 0⟩).2.2,
          g_maxLike := true }
        nfg fuel cfuel nfg.centroid 0 st.maxLambda 1 with
    | none => rw [ht] at hr; cases hr
    | some s =>
      rw [ht] at hr
      cases hr
      exact ⟨rfl, rfl, rfl⟩

/-! ## Steps from a point on the curve -/

theorem GVector_ext {α : Type} (v w : GVector α) (h1 : v.Length = w.Length)
    (h2 : ∀ k, v.entry k = w.entry k) : v = w := by
  cases v; cases w
  simp only at h1 h2
  simp only [GVector.mk.injEq]
  exact ⟨h1, funext h2⟩

/-- The predictor point: `u[k] = x[k] + h * omega * t[k]` for `k = 1 .. x.Length()`. -/
theorem Predictor_spec {α : Type} [LinearOrderedField α] (s : TraceState α) :
    (Predictor s).Length = s.u.Length ∧
    ∀ k, (Predictor s).entry k =
      if 1 ≤ k ∧ k ≤ s.x.Length then s.x.entry k + s.h * s.p_omega * s.t.entry k
      else s.u.entry k := by
  have key := forLoop_invariant
    (fun c (u : GVector α) => u.Length = s.u.Length ∧
      ∀ k, u.entry k = if 1 ≤ k ∧ k < c then s.x.entry k + s.h * s.p_omega * s.t.entry k
        else s.u.entry k)
    1 s.x.Length (fun k (u : GVector α) =>
      u.set k (s.x.entry k + s.h * s.p_omega * s.t.entry k)) s.u (by omega)
    ⟨rfl, fun k => by
      have : ¬ (1 ≤ k ∧ k < 1) := by omega
      simp only [this, if_false]⟩
    (by
      rintro c u hc1 hc2 ⟨g1, g2⟩
      refine ⟨g1, fun k => ?_⟩
      rw [GVector_set_entry]
      by_cases hkc : k = c
      · subst hkc
        have : 1 ≤ k ∧ k < k + 1 := by omega
        simp only [this, and_self, if_true]
      · have h1 : (1 ≤ k ∧ k < c + 1) ↔ (1 ≤ k ∧ k < c) := by omega
        simp only [hkc, if_false, g2 k, h1])
  refine ⟨key.1, fun k => ?_⟩
  have h1 : (1 ≤ k ∧ k < s.x.Length + 1) ↔ (1 ≤ k ∧ k ≤ s.x.Length) := by omega
  have := key.2 k
  simp only [h1] at this
  exact this

theorem NewtonStep_Length (q b : GMatrix ℝ) (u y : GVector ℝ) :
    (NewtonStep Real.sqrt q b u y).1.Length = u.Length := by
  unfold NewtonStep
  exact forLoop_invariant (fun _ (st : GVector ℝ × ℝ) => st.1.Length = u.Length)
    1 b.NumRows _ (u, 0) (by omega) rfl (fun k st _ _ h => h)

/-- A zero residual gives a zero Newton step: `u` is unchanged and the distance is 0. -/
theorem NewtonStep_zero (q b : GMatrix ℝ) (u y : GVector ℝ)
    (hy : ∀ k, 1 ≤ k → k ≤ b.NumColumns → y.entry k = 0) :
    (NewtonStep Real.sqrt q b u y).1 = u ∧ (NewtonStep Real.sqrt q b u y).2.2 = 0 ∧
    ∀ k, 1 ≤ k → k ≤ b.NumColumns → (NewtonSolve b y).entry k = 0 := by
  obtain ⟨-, hs, -⟩ := NewtonSolve_spec b y
  have hd : ∀ n k, k ≤ n → 1 ≤ k → k ≤ b.NumColumns → (NewtonSolve b y).entry k = 0 := by
    intro n
    induction n with
    | zero => intro k h0 h1; omega
    | succ n ih =>
      intro k hk hk1 hk2
      rw [hs k hk1 hk2, hy k hk1 hk2]
      rw [Finset.sum_eq_zero (fun l hl => by
        obtain ⟨hl1, hl2⟩ := Finset.mem_Icc.mp hl
        rw [ih l (by omega) hl1 (by omega), mul_zero])]
      simp
  have hd2 : ∀ k, 1 ≤ k → k ≤ b.NumColumns → (NewtonSolve b y).entry k = 0 :=
    fun k h1 h2 => hd k k (le_refl k) h1 h2
  have hsum : ∀ k, ∑ l ∈ Finset.Icc 1 b.NumColumns, q.entry l k * (NewtonSolve b y).entry l
      = 0 := by
    intro k
    exact Finset.sum_eq_zero (fun l hl => by
      obtain ⟨hl1, hl2⟩ := Finset.mem_Icc.mp hl
      rw [hd2 l hl1 hl2, mul_zero])
  obtain ⟨-, hu, hdist⟩ := NewtonStep_spec q b u y
  refine ⟨GVector_ext _ _ (NewtonStep_Length q b u y) (fun k => ?_), ?_, hd2⟩
  · rw [hu k, hsum k]
    simp
  · rw [hdist]
    simp [hsum]

/-- At a predictor point with zero residual the corrector loop exits in its first iteration,
accepting the point as it is. -/
theorem Corrector_on_curve (cfg : Globals ℝ) (g : Game ℝ) (I : GVector Bool) (q b : GMatrix ℝ)
    (n : Nat) (u y : GVector ℝ) (decel : ℝ)
    (hres : ∀ k, 1 ≤ k → k ≤ b.NumColumns →
      (QreLHS Real.exp Real.log g u I y).entry k = 0) :
    Corrector Real.sqrt Real.exp Real.log cfg g I q b (n + 1) u y decel 1 0 =
      some ⟨u, NewtonSolve b (QreLHS Real.exp Real.log g u I y), gmax decel 0, true⟩ := by
  obtain ⟨h1, h2, -⟩ := NewtonStep_zero q b u (QreLHS Real.exp Real.log g u I y) hres
  obtain ⟨h3, -, -⟩ := NewtonStep_spec q b u (QreLHS Real.exp Real.log g u I y)
  unfold Corrector
  simp only [h1, h2, h3]
  have e1 : ¬ ((0 : ℝ) ≥ c_maxDist) := by unfold c_maxDist; norm_num
  have e2 : ¬ (1 ≥ 2 ∧ (0 : ℝ) / (0 + c_tol * c_eta) > c_maxContr) := by omega
  have e3 : ¬ (1 ≥ 2) := by omega
  have e4 : (0 : ℝ) ≤ c_tol := by unfold c_tol; norm_num
  simp only [e1, e2, e3, e4, if_true, if_false, zero_div, Real.sqrt_zero, zero_mul, false_and]

/-- An iteration of the main loop whose step is above `c_hmin` and whose predictor point has
zero residual accepts the predictor point after one corrector iteration. -/
theorem TracePathBody_on_curve (cfg : Globals ℝ) (g : Game ℝ) (n : Nat) (s : TraceState ℝ)
    (hh : ¬ |s.h| ≤ c_hmin)
    (hres : ∀ k, 1 ≤ k →
      k ≤ (QRDecomp Real.sqrt (QreJacobian Real.exp Real.log g (Predictor s) s.isLog s.b)
        s.q).1.NumColumns →
      (QreLHS Real.exp Real.log g (Predictor s) s.isLog s.y).entry k = 0) :
    TracePathBody Real.sqrt Real.exp Real.log cfg g (n + 1) s =
      some (TracePathAccept Real.sqrt Real.exp Real.log cfg g
        { s with
          u := Predictor s,
          y := NewtonSolve
            (QRDecomp Real.sqrt (QreJacobian Real.exp Real.log g (Predictor s) s.isLog s.b)
              s.q).1
            (QreLHS Real.exp Real.log g (Predictor s) s.isLog s.y),
          b := (QRDecomp Real.sqrt (QreJacobian Real.exp Real.log g (Predictor s) s.isLog s.b)
            s.q).1,
          q := (QRDecomp Real.sqrt (QreJacobian Real.exp Real.log g (Predictor s) s.isLog s.b)
            s.q).2 }
        (gmax (1 / cfg.g_maxDecel) 0), Flow.next) := by
  unfold TracePathBody
  rw [if_neg hh]
  simp only [Corrector_on_curve cfg g s.isLog _ _ n (Predictor s) s.y _ hres]
  simp

/-- The coordinate-switching pass touches only the coordinates `1 .. Length - 1`. -/
theorem SwitchCoordinates_frame {α : Type} [LinearOrderedField α] (exp log : α → α)
    (x : GVector α) (I : GVector Bool) :
    (SwitchCoordinates exp log x I).1.Length = x.Length ∧
    ∀ k, ¬ (1 ≤ k ∧ k ≤ x.Length - 1) → (SwitchCoordinates exp log x I).1.entry k = x.entry k := by
  unfold SwitchCoordinates
  have key := forLoop_invariant
    (fun _ (st : GVector α × GVector Bool × Bool) => st.1.Length = x.Length ∧
      ∀ k, ¬ (1 ≤ k ∧ k ≤ x.Length - 1) → st.1.entry k = x.entry k)
    1 (x.Length - 1) (fun i (st : GVector α × GVector Bool × Bool) =>
    if ¬ st.2.1.entry i ∧ st.1.entry i < c_logCutoff then
      ((SwitchToLog log st.1 st.2.1 i).1, (SwitchToLog log st.1 st.2.1 i).2, true)
    else if st.2.1.entry i ∧ exp (st.1.entry i) > c_logCutoff then
      ((SwitchToLinear exp st.1 st.2.1 i).1, (SwitchToLinear exp st.1 st.2.1 i).2, true)
    else st) (x, I, false) (by omega) ⟨rfl, fun _ _ => rfl⟩
    (by
      rintro c st hc1 hc2 ⟨g1, g2⟩
      dsimp only
      split_ifs
      · refine ⟨g1, fun k hk => ?_⟩
        have hkc : k ≠ c := fun h => hk (h ▸ ⟨hc1, hc2⟩)
        simp only [SwitchToLog, GVector_set_entry, hkc, if_false]
        exact g2 k hk
      · refine ⟨g1, fun k hk => ?_⟩
        have hkc : k ≠ c := fun h => hk (h ▸ ⟨hc1, hc2⟩)
        simp only [SwitchToLinear, GVector_set_entry, hkc, if_false]
        exact g2 k hk
      · exact ⟨g1, g2⟩)
  exact key

/-- The coordinate-switching pass does nothing when no coordinate is on the wrong side of the
cutoff. -/
theorem SwitchCoordinates_none {α : Type} [LinearOrderedField α] (exp log : α → α)
    (x : GVector α) (I : GVector Bool)
    (h : ∀ i, 1 ≤ i → i ≤ x.Length - 1 →
      ¬ (¬ I.entry i ∧ x.entry i < c_logCutoff) ∧
      ¬ (I.entry i ∧ exp (x.entry i) > c_logCutoff)) :
    SwitchCoordinates exp log x I = (x, I, false) := by
  unfold SwitchCoordinates
  exact forLoop_invariant
    (fun _ (st : GVector α × GVector Bool × Bool) => st = (x, I, false))
    1 (x.Length - 1) _ (x, I, false) (by omega) rfl
    (by
      intro c st hc1 hc2 hst
      subst hst
      obtain ⟨h1, h2⟩ := h c hc1 hc2
      simp only [h1, h2, if_false])

/-- The point that an accepted step commits is the corrected point `u`, passed through the
coordinate switch. -/
theorem TracePathAccept_x {α : Type} [LinearOrderedField α] (sqrt exp log : α → α)
    (cfg : Globals α) (g : Game α) (s : TraceState α) (decel : α) :
    (TracePathAccept sqrt exp log cfg g s decel).x = (SwitchCoordinates exp log s.u s.isLog).1 ∧
    (TracePathAccept sqrt exp log cfg g s decel).isLog =
      (SwitchCoordinates exp log s.u s.isLog).2.1 := by
  unfold TracePathAccept
  dsimp only
  split_ifs <;> exact ⟨rfl, rfl⟩

/-- The state after an accepted step in which MLE mode does not start a Newton phase and no
coordinate switches its representation. -/
theorem TracePathAccept_plain {α : Type} [LinearOrderedField α] (sqrt exp log : α → α)
    (cfg : Globals α) (g : Game α) (s : TraceState α) (decel : α)
    (hn : s.newton = false)
    (hml : cfg.g_maxLike = true → ¬ (¬ s.restarting ∧
      DiffLogLike cfg.g_obsProbs s.x s.isLog s.t *
        DiffLogLike cfg.g_obsProbs s.u s.isLog (s.q.GetRow s.q.NumRows s.t) < 0))
    (hsw : SwitchCoordinates exp log s.u s.isLog = (s.u, s.isLog, false)) :
    TracePathAccept sqrt exp log cfg g s decel =
      { s with
        x := s.u,
        h := |s.h / (if decel > cfg.g_maxDecel then cfg.g_maxDecel else decel)|,
        t := s.q.GetRow s.q.NumRows s.t,
        p_omega := if s.t.dot (s.q.GetRow s.q.NumRows s.t) < 0 then -s.p_omega else s.p_omega,
        restarting := false,
        out := if cfg.g_fullGraph then s.out ++ [PrintProfile exp log cfg g s.u s.isLog false]
          else s.out } := by
  unfold TracePathAccept
  by_cases hm : cfg.g_maxLike = true
  · have := hml hm
    simp only [hm, if_true, this, if_false, hn, hsw, Bool.false_eq_true]
  · simp only [hm, if_false, hn, hsw, Bool.false_eq_true]

/-- The assignments of `QreJacobian` keep the dimensions of `p_matrix`. -/
theorem QreJacobian_dims (exp log : ℝ → ℝ) (g : Game ℝ) (x : GVector ℝ) (I : GVector Bool)
    (M0 : GMatrix ℝ) :
    (QreJacobian exp log g x I M0).NumRows = M0.NumRows ∧
    (QreJacobian exp log g x I M0).NumColumns = M0.NumColumns := by
  unfold QreJacobian
  dsimp only
  have inner : ∀ (f : Nat → Nat → Nat × GMatrix ℝ → Nat × GMatrix ℝ) (M : Nat × GMatrix ℝ),
      (∀ a b st, (f a b st).2.NumRows = st.2.NumRows ∧
        (f a b st).2.NumColumns = st.2.NumColumns) →
      (forLoop 1 g.NumPlayers (fun a st => forLoop 1 (g.NumStrategies a)
        (fun b st => f a b st) st) M).2.NumRows = M.2.NumRows ∧
      (forLoop 1 g.NumPlayers (fun a st => forLoop 1 (g.NumStrategies a)
        (fun b st => f a b st) st) M).2.NumColumns = M.2.NumColumns := by
    intro f M hf
    exact forLoop_invariant
      (fun _ (st : Nat × GMatrix ℝ) => st.2.NumRows = M.2.NumRows ∧
        st.2.NumColumns = M.2.NumColumns)
      1 g.NumPlayers _ M (by omega) ⟨rfl, rfl⟩
      (fun a st _ _ hst => forLoop_invariant
        (fun _ (st2 : Nat × GMatrix ℝ) => st2.2.NumRows = M.2.NumRows ∧
          st2.2.NumColumns = M.2.NumColumns)
        1 (g.NumStrategies a) _ st (by omega) hst
        (fun b st2 _ _ hst2 => by
          obtain ⟨e1, e2⟩ := hf a b st2
          exact ⟨e1.trans hst2.1, e2.trans hst2.2⟩))
  apply inner (fun i j acc => _) (0, M0.fill 0)
  intro i j st
  dsimp only
  split_ifs
  · have := inner (fun ell m acc2 => (acc2.1 + 1,
        if i = ell then acc2.2.set (acc2.1 + 1) (st.1 + 1)
          (if I.entry (acc2.1 + 1) = true then
            (QreProfiles exp log g x I).1 (g.index ell m) else 1)
        else acc2.2.set (acc2.1 + 1) (st.1 + 1) 0)) (0, st.2)
      (fun a b st => by dsimp only; split_ifs <;> exact ⟨rfl, rfl⟩)
    exact this
  · have := inner (fun ell m acc2 => (acc2.1 + 1,
        if i = ell then
          if m = 1 then acc2.2.set (acc2.1 + 1) (st.1 + 1)
            (if I.entry (acc2.1 + 1) = true then -1
              else -1 / (QreProfiles exp log g x I).1 (g.index ell m))
          else if m = j then acc2.2.set (acc2.1 + 1) (st.1 + 1)
            (if I.entry (acc2.1 + 1) = true then 1
              else 1 / (QreProfiles exp log g x I).1 (g.index ell m))
          else acc2.2.set (acc2.1 + 1) (st.1 + 1) 0
        else if I.entry (acc2.1 + 1) = true then
          acc2.2.set (acc2.1 + 1) (st.1 + 1)
            (-x.entry x.Length * (QreProfiles exp log g x I).1 (g.index ell m) *
              (QreProfiles exp log g x I).2 (g.index ell m) *
              (g.GetPayoffDeriv (QreProfiles exp log g x I).1 i i j ell m -
                g.GetPayoffDeriv (QreProfiles exp log g x I).1 i i 1 ell m))
        else acc2.2.set (acc2.1 + 1) (st.1 + 1)
          (-x.entry x.Length * (g.GetPayoffDeriv (QreProfiles exp log g x I).1 i i j ell m -
            g.GetPayoffDeriv (QreProfiles exp log g x I).1 i i 1 ell m)))) (0, st.2)
      (fun a b st => by dsimp only; split_ifs <;> exact ⟨rfl, rfl⟩)
    exact this

/-- The rotations of `QRDecomp` keep the dimensions of `b`. -/
theorem QRDecomp_dims (b q : GMatrix ℝ) :
    (QRDecomp Real.sqrt b q).1.NumRows = b.NumRows ∧
    (QRDecomp Real.sqrt b q).1.NumColumns = b.NumColumns := by
  unfold QRDecomp
  exact forLoop_invariant
    (fun _ (st : GMatrix ℝ × GMatrix ℝ) => st.1.NumRows = b.NumRows ∧
      st.1.NumColumns = b.NumColumns)
    1 b.NumColumns _ (b, q.MakeIdent) (by omega) ⟨rfl, rfl⟩
    (fun m st _ hm2 hst => by
      by_cases hk : st.1.NumRows < m + 1
      · rw [forLoop_empty _ _ _ _ hk]
        exact hst
      · exact forLoop_invariant
          (fun _ (st2 : GMatrix ℝ × GMatrix ℝ) => st2.1.NumRows = b.NumRows ∧
            st2.1.NumColumns = b.NumColumns)
          (m + 1) st.1.NumRows _ st (by omega) hst
          (fun k st2 hk1 _ hst2 => by
            obtain ⟨b2, q2⟩ := st2
            obtain ⟨-, -, -, -, e1, e2, -⟩ := QRDecompStep_spec m k b2 q2 (by omega)
              (by rw [hst2.2]; exact hm2)
            exact ⟨e1.trans hst2.1, e2.trans hst2.2⟩))

/-- The factorisation, the tangent and the scalars that `TracePath` starts from. -/
theorem TracePathInit_factor {α : Type} [LinearOrderedField α] (sqrt exp log : α → α)
    (cfg : Globals α) (g : Game α) (p : Nat → α) (lam0 omega : α) :
    (TracePathInit sqrt exp log cfg g p lam0 omega).b =
      (QRDecomp sqrt (QreJacobian exp log g (TracePathInit sqrt exp log cfg g p lam0 omega).x
        (TracePathInit sqrt exp log cfg g p lam0 omega).isLog
        ⟨g.MixedProfileLength + 1, g.MixedProfileLength, fun _ _ => 0⟩)
        ⟨g.MixedProfileLength + 1, g.MixedProfileLength + 1, fun _ _ => 0⟩).1 ∧
    (TracePathInit sqrt exp log cfg g p lam0 omega).q =
      (QRDecomp sqrt (QreJacobian exp log g (TracePathInit sqrt exp log cfg g p lam0 omega).x
        (TracePathInit sqrt exp log cfg g p lam0 omega).isLog
        ⟨g.MixedProfileLength + 1, g.MixedProfileLength, fun _ _ => 0⟩)
        ⟨g.MixedProfileLength + 1, g.MixedProfileLength + 1, fun _ _ => 0⟩).2 ∧
    (TracePathInit sqrt exp log cfg g p lam0 omega).t =
      (TracePathInit sqrt exp log cfg g p lam0 omega).q.GetRow
        (TracePathInit sqrt exp log cfg g p lam0 omega).q.NumRows
        ⟨g.MixedProfileLength + 1, fun _ => 0⟩ ∧
    (TracePathInit sqrt exp log cfg g p lam0 omega).u = ⟨g.MixedProfileLength + 1, fun _ => 0⟩ ∧
    (TracePathInit sqrt exp log cfg g p lam0 omega).h = cfg.g_hStart ∧
    (TracePathInit sqrt exp log cfg g p lam0 omega).p_omega = omega ∧
    (TracePathInit sqrt exp log cfg g p lam0 omega).newton = false ∧
    (TracePathInit sqrt exp log cfg g p lam0 omega).restarting = false :=
  ⟨rfl, rfl, rfl, rfl, rfl, rfl, rfl, rfl⟩

/-- Without MLE mode a record is `lambda` followed by the represented probabilities. -/
theorem PrintProfile_plain {α : Type} [LinearOrderedField α] (exp log : α → α)
    (cfg : Globals α) (g : Game α) (x : GVector α) (I : GVector Bool)
    (hm : cfg.g_maxLike = false) :
    PrintProfile exp log cfg g x I false =
      Field.num (x.entry x.Length) ::
        (List.range' 1 (x.Length - 1)).map (fun k => Field.num (rho exp x I k)) := by
  obtain ⟨rest, hr, h0, -⟩ := PrintProfile_fields exp log cfg g x I false
  rw [hr, h0 hm]
  simp

/-- An iteration whose step is above `c_hmin` and whose predictor point has zero residual
commits `lambda + h * omega * t[L+1]`. -/
theorem TracePathBody_on_curve_lambda (cfg : Globals ℝ) (g : Game ℝ) (s : TraceState ℝ)
    (hx : s.x.Length = g.MixedProfileLength + 1) (hu : s.u.Length = g.MixedProfileLength + 1)
    (hb : s.b.NumColumns = g.MixedProfileLength) (hh : ¬ |s.h| ≤ c_hmin)
    (hres : ∀ k, 1 ≤ k → k ≤ g.MixedProfileLength →
      (QreLHS Real.exp Real.log g (Predictor s) s.isLog s.y).entry k = 0) :
    ∃ s2, TracePathBody Real.sqrt Real.exp Real.log cfg g 1 s = some (s2, Flow.next) ∧
      s2.x.Length = g.MixedProfileLength + 1 ∧
      s2.x.entry (g.MixedProfileLength + 1) =
        s.x.entry (g.MixedProfileLength + 1) +
          s.h * s.p_omega * s.t.entry (g.MixedProfileLength + 1) := by
  have hcols : (QRDecomp Real.sqrt (QreJacobian Real.exp Real.log g (Predictor s) s.isLog s.b)
      s.q).1.NumColumns = g.MixedProfileLength := by
    rw [(QRDecomp_dims _ _).2, (QreJacobian_dims _ _ _ _ _ _).2, hb]
  refine ⟨_, TracePathBody_on_curve cfg g 0 s hh (fun k hk1 hk2 => hres k hk1 (hcols ▸ hk2)),
    ?_, ?_⟩
  · rw [(TracePathAccept_x _ _ _ _ _ _ _).1]
    show (SwitchCoordinates Real.exp Real.log (Predictor s) s.isLog).1.Length = _
    rw [(SwitchCoordinates_frame _ _ _ _).1, (Predictor_spec s).1, hu]
  · rw [(TracePathAccept_x _ _ _ _ _ _ _).1]
    show (SwitchCoordinates Real.exp Real.log (Predictor s) s.isLog).1.entry _ = _
    rw [(SwitchCoordinates_frame _ _ _ _).2 _ (by
      rw [(Predictor_spec s).1, hu]; omega), (Predictor_spec s).2, if_pos (by omega)]

/-- An iteration whose step is above `c_hmin` and whose predictor point has zero residual, when
MLE mode does not start a Newton phase and no coordinate switches its representation: the state
after the iteration. -/
theorem TracePathBody_on_curve_plain (cfg : Globals ℝ) (g : Game ℝ) (n : Nat)
    (s : TraceState ℝ) (hh : ¬ |s.h| ≤ c_hmin)
    (hres : ∀ k, 1 ≤ k → k ≤ (QRDecomp Real.sqrt (QreJacobian Real.exp Real.log g (Predictor s) s.isLog s.b) s.q).1.NumColumns →
      (QreLHS Real.exp Real.log g (Predictor s) s.isLog s.y).entry k = 0)
    (hn : s.newton = false)
    (hml : cfg.g_maxLike = true → ¬ (¬ s.restarting ∧
      DiffLogLike cfg.g_obsProbs s.x s.isLog s.t *
        DiffLogLike cfg.g_obsProbs (Predictor s) s.isLog
          ((QRDecomp Real.sqrt (QreJacobian Real.exp Real.log g (Predictor s) s.isLog s.b) s.q).2.GetRow (QRDecomp Real.sqrt (QreJacobian Real.exp Real.log g (Predictor s) s.isLog s.b) s.q).2.NumRows s.t) < 0))
    (hsw : SwitchCoordinates Real.exp Real.log (Predictor s) s.isLog =
      (Predictor s, s.isLog, false)) :
    TracePathBody Real.sqrt Real.exp Real.log cfg g (n + 1) s =
      some ({ s with
        x := Predictor s,
        u := Predictor s,
        y := NewtonSolve (QRDecomp Real.sqrt (QreJacobian Real.exp Real.log g (Predictor s) s.isLog s.b) s.q).1 (QreLHS Real.exp Real.log g (Predictor s) s.isLog s.y),
        b := (QRDecomp Real.sqrt (QreJacobian Real.exp Real.log g (Predictor s) s.isLog s.b) s.q).1,
        q := (QRDecomp Real.sqrt (QreJacobian Real.exp Real.log g (Predictor s) s.isLog s.b) s.q).2,
        h := |s.h / (if gmax (1 / cfg.g_maxDecel) 0 > cfg.g_maxDecel then cfg.g_maxDecel
          else gmax (1 / cfg.g_maxDecel) 0)|,
        t := (QRDecomp Real.sqrt (QreJacobian Real.exp Real.log g (Predictor s) s.isLog s.b) s.q).2.GetRow (QRDecomp Real.sqrt (QreJacobian Real.exp Real.log g (Predictor s) s.isLog s.b) s.q).2.NumRows s.t,
        p_omega := if s.t.dot ((QRDecomp Real.sqrt (QreJacobian Real.exp Real.log g (Predictor s) s.isLog s.b) s.q).2.GetRow (QRDecomp Real.sqrt (QreJacobian Real.exp Real.log g (Predictor s) s.isLog s.b) s.q).2.NumRows s.t) < 0 then -s.p_omega
          else s.p_omega,
        restarting := false,
        out := if cfg.g_fullGraph then
            s.out ++ [PrintProfile Real.exp Real.log cfg g (Predictor s) s.isLog false]
          else s.out }, Flow.next) := by
  rw [TracePathBody_on_curve cfg g n s hh hres]
  rw [TracePathAccept_plain Real.sqrt Real.exp Real.log cfg g
    { s with
      u := Predictor s,
      y := NewtonSolve (QRDecomp Real.sqrt (QreJacobian Real.exp Real.log g (Predictor s) s.isLog s.b) s.q).1 (QreLHS Real.exp Real.log g (Predictor s) s.isLog s.y),
      b := (QRDecomp Real.sqrt (QreJacobian Real.exp Real.log g (Predictor s) s.isLog s.b) s.q).1,
      q := (QRDecomp Real.sqrt (QreJacobian Real.exp Real.log g (Predictor s) s.isLog s.b) s.q).2 } (gmax (1 / cfg.g_maxDecel) 0) hn hml hsw]

/-! ## The one-strategy game -/

theorem trivialGame_centroid : (trivialGame ℝ).centroid 1 = 1 := by
  simp [Game.centroid, trivialGame, forLoop, forLoopAux]

/-- On the one-strategy game with its coordinate linear-coded, the Jacobian is the column
`(1; 0)`, which `QRDecomp` leaves as it is, with the identity as accumulator. -/
theorem trivialGame_QRDecomp (x : GVector ℝ) (I : GVector Bool) (M0 q : GMatrix ℝ)
    (hI : I.entry 1 = false) (hr : M0.NumRows = 2) (hc : M0.NumColumns = 1) :
    QRDecomp Real.sqrt (QreJacobian Real.exp Real.log (trivialGame ℝ) x I M0) q =
      (QreJacobian Real.exp Real.log (trivialGame ℝ) x I M0, q.MakeIdent) := by
  have hL : (trivialGame ℝ).MixedProfileLength = 1 := by decide
  obtain ⟨d1, d2⟩ := QreJacobian_dims Real.exp Real.log (trivialGame ℝ) x I M0
  obtain ⟨e1, e2⟩ := QreJacobian_spec Real.exp Real.log (trivialGame ℝ) x I M0
    (by rw [hr, hL]) 1 1 (le_refl 1) (le_refl 1) (le_refl 1) (le_refl 1)
  have e1' := e1 1 1 (le_refl 1) (le_refl 1) (le_refl 1) (le_refl 1)
  rw [(trivialGame ℝ).offset_one] at e1' e2
  rw [hL] at e2
  simp only [QreJacobianEntry, QreJacobianLambda, Game.index, (trivialGame ℝ).offset_one,
    if_true, hI, Bool.false_eq_true, if_false] at e1' e2
  apply QRDecomp_upper_triangular
  · intro m hm1 hm2
    rw [d2, hc] at hm2
    have hm : m = 1 := by omega
    subst hm
    rw [e1']
    norm_num
  · intro k m hm1 hm2 hmk hk
    rw [d2, hc] at hm2
    rw [d1, hr] at hk
    have hm : m = 1 := by omega
    have hk2 : k = 2 := by omega
    subst hm; subst hk2
    exact e2

/-- The residual of the one-strategy game is `x_1 - 1` when the coordinate is linear-coded. -/
theorem trivialGame_QreLHS (x : GVector ℝ) (I : GVector Bool) (y : GVector ℝ)
    (hI : I.entry 1 = false) :
    (QreLHS Real.exp Real.log (trivialGame ℝ) x I y).entry 1 = x.entry 1 - 1 := by
  have h := (QreLHS_rows (trivialGame ℝ) x I y).1 1 (le_refl 1) (le_refl 1) (le_refl 1)
  simp only [Game.index, (trivialGame ℝ).offset_one, zero_add] at h
  rw [h]
  have hN : (trivialGame ℝ).NumStrategies 1 = 1 := rfl
  rw [hN]
  simp [rho, hI]

/-- The start of `TracePath` on the one-strategy game from its centroid: `x = (1; lambda0)`,
linear-coded, with tangent `(0; 1)`. -/
theorem trivialGame_init (cfg : Globals ℝ) (lam0 omega : ℝ) :
    (TracePathInit Real.sqrt Real.exp Real.log cfg (trivialGame ℝ) (trivialGame ℝ).centroid
      lam0 omega).x.Length = 2 ∧
    (TracePathInit Real.sqrt Real.exp Real.log cfg (trivialGame ℝ) (trivialGame ℝ).centroid
      lam0 omega).x.entry 1 = 1 ∧
    (TracePathInit Real.sqrt Real.exp Real.log cfg (trivialGame ℝ) (trivialGame ℝ).centroid
      lam0 omega).x.entry 2 = lam0 ∧
    (TracePathInit Real.sqrt Real.exp Real.log cfg (trivialGame ℝ) (trivialGame ℝ).centroid
      lam0 omega).isLog.entry 1 = false ∧
    (TracePathInit Real.sqrt Real.exp Real.log cfg (trivialGame ℝ) (trivialGame ℝ).centroid
      lam0 omega).t.entry 1 = 0 ∧
    (TracePathInit Real.sqrt Real.exp Real.log cfg (trivialGame ℝ) (trivialGame ℝ).centroid
      lam0 omega).t.entry 2 = 1 ∧
    (TracePathInit Real.sqrt Real.exp Real.log cfg (trivialGame ℝ) (trivialGame ℝ).centroid
      lam0 omega).b.NumColumns = 1 := by
  have hL : (trivialGame ℝ).MixedProfileLength = 1 := by decide
  obtain ⟨hxL, -, hlam, hI, hx, -⟩ := TracePathInit_point Real.sqrt Real.exp Real.log cfg
    (trivialGame ℝ) (trivialGame ℝ).centroid lam0 omega
  obtain ⟨hb, hq, ht, -⟩ := TracePathInit_factor Real.sqrt Real.exp Real.log cfg
    (trivialGame ℝ) (trivialGame ℝ).centroid lam0 omega
  have hI1 := hI 1 (le_refl 1) (by rw [hL])
  have hx1 := hx 1 (le_refl 1) (by rw [hL])
  rw [trivialGame_centroid] at hI1 hx1
  have hc : ¬ ((1 : ℝ) < c_logCutoff) := by unfold c_logCutoff; norm_num
  simp only [hc, decide_False, if_false] at hI1 hx1
  have hqr := trivialGame_QRDecomp
    (TracePathInit Real.sqrt Real.exp Real.log cfg (trivialGame ℝ) (trivialGame ℝ).centroid
      lam0 omega).x
    (TracePathInit Real.sqrt Real.exp Real.log cfg (trivialGame ℝ) (trivialGame ℝ).centroid
      lam0 omega).isLog
    ⟨(trivialGame ℝ).MixedProfileLength + 1, (trivialGame ℝ).MixedProfileLength, fun _ _ => 0⟩
    ⟨(trivialGame ℝ).MixedProfileLength + 1, (trivialGame ℝ).MixedProfileLength + 1,
      fun _ _ => 0⟩ hI1 (by rw [hL]) hL
  rw [hqr] at hb hq
  rw [hq] at ht
  rw [hL] at hxL hlam
  refine ⟨hxL, hx1, hlam, hI1, ?_, ?_, ?_⟩
  · rw [ht]
    simp [GMatrix.GetRow, GMatrix.MakeIdent, hL]
  · rw [ht]
    simp [GMatrix.GetRow, GMatrix.MakeIdent, hL]
  · rw [hb, (QreJacobian_dims _ _ _ _ _ _).2]
    exact hL

/-- The first iteration on the one-strategy game with the default settings, started at
`lambda0 = 1/100` with orientation `omega = -1`: the step is accepted and commits
`lambda = -1/50`. -/
theorem trivialGame_first_step :
    ∃ s2, TracePathBody Real.sqrt Real.exp Real.log (mainInit : MainState ℝ).globals
        (trivialGame ℝ) 1
        (TracePathInit Real.sqrt Real.exp Real.log (mainInit : MainState ℝ).globals
          (trivialGame ℝ) (trivialGame ℝ).centroid (1 / 100) (-1)) = some (s2, Flow.next) ∧
      s2.x.Length = 2 ∧ s2.x.entry 2 = -1 / 50 ∧
      s2.out = [[Field.num (1 / 100), Field.num 1], [Field.num (-1 / 50), Field.num 1]] := by
  obtain ⟨hxL, hx1, hx2, hI1, ht1, ht2, hbc⟩ :=
    trivialGame_init (mainInit : MainState ℝ).globals (1 / 100) (-1)
  obtain ⟨-, -, -, hu, hh, hom, hnew, -⟩ := TracePathInit_factor Real.sqrt Real.exp Real.log
    (mainInit : MainState ℝ).globals (trivialGame ℝ) (trivialGame ℝ).centroid (1 / 100) (-1)
  have hout := (TracePathInit_point Real.sqrt Real.exp Real.log (mainInit : MainState ℝ).globals
    (trivialGame ℝ) (trivialGame ℝ).centroid (1 / 100) (-1)).2.2.2.2.2
  have hL : (trivialGame ℝ).MixedProfileLength = 1 := by decide
  have hhm : ¬ |(TracePathInit Real.sqrt Real.exp Real.log (mainInit : MainState ℝ).globals
      (trivialGame ℝ) (trivialGame ℝ).centroid (1 / 100) (-1)).h| ≤ c_hmin := by
    rw [hh]
    simp only [mainInit, c_hmin]
    rw [abs_of_pos (by norm_num)]
    norm_num
  obtain ⟨pL, pE⟩ := Predictor_spec
    (TracePathInit Real.sqrt Real.exp Real.log (mainInit : MainState ℝ).globals
      (trivialGame ℝ) (trivialGame ℝ).centroid (1 / 100) (-1))
  have pu1 : (Predictor (TracePathInit Real.sqrt Real.exp Real.log
      (mainInit : MainState ℝ).globals (trivialGame ℝ) (trivialGame ℝ).centroid
      (1 / 100) (-1))).entry 1 = 1 := by
    rw [pE 1, hxL, if_pos (by omega), hx1, ht1]
    ring
  have pu2 : (Predictor (TracePathInit Real.sqrt Real.exp Real.log
      (mainInit : MainState ℝ).globals (trivialGame ℝ) (trivialGame ℝ).centroid
      (1 / 100) (-1))).entry 2 = -1 / 50 := by
    rw [pE 2, hxL, if_pos (by omega), hx2, ht2, hh, hom]
    simp only [mainInit]
    norm_num
  have puL : (Predictor (TracePathInit Real.sqrt Real.exp Real.log
      (mainInit : MainState ℝ).globals (trivialGame ℝ) (trivialGame ℝ).centroid
      (1 / 100) (-1))).Length = 2 := by
    rw [pL, hu, hL]
  have hres : ∀ k, 1 ≤ k → k ≤ (QRDecomp Real.sqrt (QreJacobian Real.exp Real.log
      (trivialGame ℝ) (Predictor (TracePathInit Real.sqrt Real.exp Real.log
        (mainInit : MainState ℝ).globals (trivialGame ℝ) (trivialGame ℝ).centroid
        (1 / 100) (-1)))
      (TracePathInit Real.sqrt Real.exp Real.log (mainInit : MainState ℝ).globals
        (trivialGame ℝ) (trivialGame ℝ).centroid (1 / 100) (-1)).isLog
      (TracePathInit Real.sqrt Real.exp Real.log (mainInit : MainState ℝ).globals
        (trivialGame ℝ) (trivialGame ℝ).centroid (1 / 100) (-1)).b)
      (TracePathInit Real.sqrt Real.exp Real.log (mainInit : MainState ℝ).globals
        (trivialGame ℝ) (trivialGame ℝ).centroid (1 / 100) (-1)).q).1.NumColumns →
      (QreLHS Real.exp Real.log (trivialGame ℝ)
        (Predictor (TracePathInit Real.sqrt Real.exp Real.log
          (mainInit : MainState ℝ).globals (trivialGame ℝ) (trivialGame ℝ).centroid
          (1 / 100) (-1)))
        (TracePathInit Real.sqrt Real.exp Real.log (mainInit : MainState ℝ).globals
          (trivialGame ℝ) (trivialGame ℝ).centroid (1 / 100) (-1)).isLog
        (TracePathInit Real.sqrt Real.exp Real.log (mainInit : MainState ℝ).globals
          (trivialGame ℝ) (trivialGame ℝ).centroid (1 / 100) (-1)).y).entry k = 0 := by
    intro k hk1 hk2
    rw [(QRDecomp_dims _ _).2, (QreJacobian_dims _ _ _ _ _ _).2, hbc] at hk2
    have hk : k = 1 := by omega
    subst hk
    rw [trivialGame_QreLHS _ _ _ hI1, pu1]
    ring
  have hsw : SwitchCoordinates Real.exp Real.log
      (Predictor (TracePathInit Real.sqrt Real.exp Real.log
        (mainInit : MainState ℝ).globals (trivialGame ℝ) (trivialGame ℝ).centroid
        (1 / 100) (-1)))
      (TracePathInit Real.sqrt Real.exp Real.log (mainInit : MainState ℝ).globals
        (trivialGame ℝ) (trivialGame ℝ).centroid (1 / 100) (-1)).isLog =
      (Predictor (TracePathInit Real.sqrt Real.exp Real.log
        (mainInit : MainState ℝ).globals (trivialGame ℝ) (trivialGame ℝ).centroid
        (1 / 100) (-1)),
       (TracePathInit Real.sqrt Real.exp Real.log (mainInit : MainState ℝ).globals
        (trivialGame ℝ) (trivialGame ℝ).centroid (1 / 100) (-1)).isLog, false) := by
    apply SwitchCoordinates_none
    intro i hi1 hi2
    rw [puL] at hi2
    have hi : i = 1 := by omega
    subst hi
    rw [hI1, pu1]
    have hc : ¬ ((1 : ℝ) < c_logCutoff) := by unfold c_logCutoff; norm_num
    simp [hc]
  have hml0 : (mainInit : MainState ℝ).globals.g_maxLike = false := rfl
  have hbody := TracePathBody_on_curve_plain (mainInit : MainState ℝ).globals (trivialGame ℝ) 0
    _ hhm hres hnew (fun h => Bool.noConfusion (hml0.symm.trans h)) hsw
  refine ⟨_, hbody, puL, pu2, ?_⟩
  have hfg : (mainInit : MainState ℝ).globals.g_fullGraph = true := rfl
  have hml : (mainInit : MainState ℝ).globals.g_maxLike = false := rfl
  dsimp only
  rw [if_pos hfg, hout, if_pos hfg, PrintProfile_plain _ _ _ _ _ _ hml,
    PrintProfile_plain _ _ _ _ _ _ hml, hxL, puL, hx2, pu2]
  have hr : List.range' 1 (2 - 1) = [1] := rfl
  rw [hr]
  simp only [List.map, rho, hI1, hx1, pu1, Bool.false_eq_true, if_false, List.singleton_append]

/-- On the one-strategy game the predictor point of the first iteration has zero residual,
whatever the step and the orientation. -/
theorem trivialGame_residual (cfg : Globals ℝ) (lam0 omega : ℝ) (k : Nat) (hk1 : 1 ≤ k)
    (hk2 : k ≤ (trivialGame ℝ).MixedProfileLength) :
    (QreLHS Real.exp Real.log (trivialGame ℝ)
      (Predictor (TracePathInit Real.sqrt Real.exp Real.log cfg (trivialGame ℝ)
        (trivialGame ℝ).centroid lam0 omega))
      (TracePathInit Real.sqrt Real.exp Real.log cfg (trivialGame ℝ)
        (trivialGame ℝ).centroid lam0 omega).isLog
      (TracePathInit Real.sqrt Real.exp Real.log cfg (trivialGame ℝ)
        (trivialGame ℝ).centroid lam0 omega).y).entry k = 0 := by
  obtain ⟨hxL, hx1, -, hI1, ht1, -, -⟩ := trivialGame_init cfg lam0 omega
  have hL : (trivialGame ℝ).MixedProfileLength = 1 := by decide
  have hk : k = 1 := by omega
  subst hk
  rw [trivialGame_QreLHS _ _ _ hI1, (Predictor_spec _).2 1, hxL, if_pos (by omega), hx1, ht1]
  ring

/-- On the one-strategy game the factorisation at the predictor point of the first iteration
has the pivot 1. -/
theorem trivialGame_pivot (cfg : Globals ℝ) (lam0 omega : ℝ) (k : Nat) (hk1 : 1 ≤ k)
    (hk2 : k ≤ (trivialGame ℝ).MixedProfileLength) :
    (QRDecomp Real.sqrt (QreJacobian Real.exp Real.log (trivialGame ℝ)
      (Predictor (TracePathInit Real.sqrt Real.exp Real.log cfg (trivialGame ℝ)
        (trivialGame ℝ).centroid lam0 omega))
      (TracePathInit Real.sqrt Real.exp Real.log cfg (trivialGame ℝ)
        (trivialGame ℝ).centroid lam0 omega).isLog
      (TracePathInit Real.sqrt Real.exp Real.log cfg (trivialGame ℝ)
        (trivialGame ℝ).centroid lam0 omega).b)
      (TracePathInit Real.sqrt Real.exp Real.log cfg (trivialGame ℝ)
        (trivialGame ℝ).centroid lam0 omega).q).1.entry k k ≠ 0 := by
  obtain ⟨-, -, -, hI1, -, -, hbc⟩ := trivialGame_init cfg lam0 omega
  have hL : (trivialGame ℝ).MixedProfileLength = 1 := by decide
  have hbr : (TracePathInit Real.sqrt Real.exp Real.log cfg (trivialGame ℝ)
      (trivialGame ℝ).centroid lam0 omega).b.NumRows = 2 := by
    rw [(TracePathInit_factor Real.sqrt Real.exp Real.log cfg (trivialGame ℝ)
      (trivialGame ℝ).centroid lam0 omega).1, (QRDecomp_dims _ _).1,
      (QreJacobian_dims _ _ _ _ _ _).1, hL]
  have hk : k = 1 := by omega
  subst hk
  rw [trivialGame_QRDecomp _ _ _ _ hI1 hbr hbc]
  obtain ⟨e1, -⟩ := QreJacobian_spec Real.exp Real.log (trivialGame ℝ)
    (Predictor (TracePathInit Real.sqrt Real.exp Real.log cfg (trivialGame ℝ)
      (trivialGame ℝ).centroid lam0 omega))
    (TracePathInit Real.sqrt Real.exp Real.log cfg (trivialGame ℝ)
      (trivialGame ℝ).centroid lam0 omega).isLog
    (TracePathInit Real.sqrt Real.exp Real.log cfg (trivialGame ℝ)
      (trivialGame ℝ).centroid lam0 omega).b
    (by rw [hbr, hL]) 1 1 (le_refl 1) (le_refl 1) (le_refl 1) (le_refl 1)
  have e1' := e1 1 1 (le_refl 1) (le_refl 1) (le_refl 1) (le_refl 1)
  rw [(trivialGame ℝ).offset_one] at e1'
  simp only [QreJacobianEntry, Game.index, (trivialGame ℝ).offset_one,
    if_true, hI1, Bool.false_eq_true, if_false] at e1'
  show (QreJacobian Real.exp Real.log (trivialGame ℝ) _ _ _).entry 1 1 ≠ 0
  rw [e1']
  norm_num

/-! ## Matching pennies -/

theorem matchingPennies_length : (matchingPennies ℝ).MixedProfileLength = 4 := by decide

theorem matchingPennies_offset :
    (matchingPennies ℝ).offset 1 = 0 ∧ (matchingPennies ℝ).offset 2 = 2 := by
  refine ⟨(matchingPennies ℝ).offset_one, ?_⟩
  rw [(matchingPennies ℝ).offset_succ 1 (le_refl 1), (matchingPennies ℝ).offset_one]
  rfl

theorem matchingPennies_centroid (k : Nat) (h1 : 1 ≤ k) (h2 : k ≤ 4) :
    (matchingPennies ℝ).centroid k = 1 / 2 := by
  have hk : k = 1 ∨ k = 2 ∨ k = 3 ∨ k = 4 := by omega
  rcases hk with h | h | h | h <;> subst h <;>
    simp [Game.centroid, matchingPennies, forLoop, forLoopAux, Function.update]

theorem matchingPennies_GetPayoff (p : Nat → ℝ) (pl st : Nat) :
    (matchingPennies ℝ).GetPayoff p pl pl st =
      if pl = 1 then (if st = 1 then p 3 - p 4 else p 4 - p 3)
      else (if st = 1 then p 2 - p 1 else p 1 - p 2) := rfl

theorem matchingPennies_GetPayoffDeriv (p : Nat → ℝ) (pl st pl2 st2 : Nat) :
    (matchingPennies ℝ).GetPayoffDeriv p pl pl st pl2 st2 =
      if pl = pl2 then 0
      else if pl = 1 then (if st = st2 then 1 else -1)
      else (if st = st2 then -1 else 1) := rfl

/-- At a point whose four profile coordinates are linear-coded and equal to `1/2`, the profile
handed to the payoff oracles is the centroid. -/
theorem matchingPennies_profile (x : GVector ℝ) (I : GVector Bool)
    (hx : ∀ k, 1 ≤ k → k ≤ 4 → x.entry k = 1 / 2)
    (hI : ∀ k, 1 ≤ k → k ≤ 4 → I.entry k = false) (k : Nat) (h1 : 1 ≤ k) (h2 : k ≤ 4) :
    profileOf Real.exp (matchingPennies ℝ) x I k = 1 / 2 ∧
    rho Real.exp x I k = 1 / 2 ∧ logRho Real.log x I k = Real.log (1 / 2) := by
  have hr : rho Real.exp x I k = 1 / 2 := by
    simp only [rho, hI k h1 h2, Bool.false_eq_true, if_false, hx k h1 h2]
  refine ⟨?_, hr, ?_⟩
  · simp only [profileOf, matchingPennies_length, h1, h2, and_self, if_true, hr]
  · rw [logRho_eq_log_rho, hr]

/-- The residual of matching pennies vanishes at the centroid, for every `lambda`. -/
theorem matchingPennies_residual (x : GVector ℝ) (I : GVector Bool) (y : GVector ℝ)
    (hx : ∀ k, 1 ≤ k → k ≤ 4 → x.entry k = 1 / 2)
    (hI : ∀ k, 1 ≤ k → k ≤ 4 → I.entry k = false) (k : Nat) (h1 : 1 ≤ k) (h2 : k ≤ 4) :
    (QreLHS Real.exp Real.log (matchingPennies ℝ) x I y).entry k = 0 := by
  obtain ⟨r1, r2⟩ := QreLHS_rows (matchingPennies ℝ) x I y
  obtain ⟨o1, o2⟩ := matchingPennies_offset
  have hp := matchingPennies_profile x I hx hI
  have hN : ∀ i, i = 1 ∨ i = 2 → (matchingPennies ℝ).NumStrategies i = 2 := by
    intro i hi
    rcases hi with h | h <;> subst h <;> rfl
  have hsum : ∀ f : Nat → ℝ, ∑ s ∈ Finset.Icc 1 2, f s = f 1 + f 2 := by
    intro f
    rw [show (2 : Nat) = 1 + 1 from rfl, sum_Icc_succ 1 f]
    simp
  have hk : k = 1 ∨ k = 2 ∨ k = 3 ∨ k = 4 := by omega
  rcases hk with h | h | h | h <;> subst h
  · have := r1 1 (by norm_num) (by decide) (by decide)
    simp only [Game.index, o1, zero_add, hN 1 (Or.inl rfl), hsum] at this
    rw [this, (hp 1 (by norm_num) (by norm_num)).2.1, (hp 2 (by norm_num) (by norm_num)).2.1]
    norm_num
  · have := r2 1 2 (by norm_num) (by decide) (le_refl 2) (by decide)
    simp only [Game.index, o1, zero_add, matchingPennies_GetPayoff] at this
    rw [this, (hp 1 (by norm_num) (by norm_num)).2.2, (hp 2 (by norm_num) (by norm_num)).2.2,
      (hp 3 (by norm_num) (by norm_num)).1, (hp 4 (by norm_num) (by norm_num)).1]
    norm_num
  · have := r1 2 (by norm_num) (by decide) (by decide)
    simp only [Game.index, o2, hN 2 (Or.inr rfl), hsum] at this
    rw [this, (hp 3 (by norm_num) (by norm_num)).2.1, (hp 4 (by norm_num) (by norm_num)).2.1]
    norm_num
  · have := r2 2 2 (by norm_num) (by decide) (le_refl 2) (by decide)
    simp only [Game.index, o2, matchingPennies_GetPayoff] at this
    rw [this, (hp 3 (by norm_num) (by norm_num)).2.2, (hp 4 (by norm_num) (by norm_num)).2.2,
      (hp 1 (by norm_num) (by norm_num)).1, (hp 2 (by norm_num) (by norm_num)).1]
    norm_num

theorem sum_Icc_five (f : Nat → ℝ) :
    ∑ c ∈ Finset.Icc 1 5, f c = f 1 + f 2 + f 3 + f 4 + f 5 := by
  rw [show (5 : Nat) = 4 + 1 from rfl, sum_Icc_succ 4 f, show (4 : Nat) = 3 + 1 from rfl,
    sum_Icc_succ 3 f, show (3 : Nat) = 2 + 1 from rfl, sum_Icc_succ 2 f,
    show (2 : Nat) = 1 + 1 from rfl, sum_Icc_succ 1 f]
  simp

theorem sum_Icc_four (f : Nat → ℝ) :
    ∑ c ∈ Finset.Icc 1 4, f c = f 1 + f 2 + f 3 + f 4 := by
  rw [show (4 : Nat) = 3 + 1 from rfl,
    sum_Icc_succ 3 f, show (3 : Nat) = 2 + 1 from rfl, sum_Icc_succ 2 f,
    show (2 : Nat) = 1 + 1 from rfl, sum_Icc_succ 1 f]
  simp

/-- The Jacobian of matching pennies at the centroid with all coordinates linear-coded: the
entry in the row of variable `(ell, m)` and the column of equation `(i, j)`. -/
theorem matchingPennies_jacobian (x : GVector ℝ) (I : GVector Bool) (M0 : GMatrix ℝ)
    (hx : ∀ k, 1 ≤ k → k ≤ 4 → x.entry k = 1 / 2)
    (hI : ∀ k, 1 ≤ k → k ≤ 4 → I.entry k = false) (hr : M0.NumRows = 5)
    (i j ell m : Nat) (hi : i = 1 ∨ i = 2) (hj : j = 1 ∨ j = 2) (hell : ell = 1 ∨ ell = 2)
    (hm : m = 1 ∨ m = 2) :
    (QreJacobian Real.exp Real.log (matchingPennies ℝ) x I M0).entry
        (2 * (ell - 1) + m) (2 * (i - 1) + j) =
      (if j = 1 then (if i = ell then 1 else 0)
       else if i = ell then (if m = 1 then -2 else 2)
       else if i = 1 then (if m = 1 then 2 * x.entry x.Length else -2 * x.entry x.Length)
       else (if m = 1 then -2 * x.entry x.Length else 2 * x.entry x.Length)) ∧
    (QreJacobian Real.exp Real.log (matchingPennies ℝ) x I M0).entry 5 (2 * (i - 1) + j) = 0 := by
  obtain ⟨o1, o2⟩ := matchingPennies_offset
  have hp := matchingPennies_profile x I hx hI
  have hoff : ∀ p, p = 1 ∨ p = 2 → (matchingPennies ℝ).offset p = 2 * (p - 1) := by
    intro p hp
    rcases hp with h | h <;> subst h
    · exact o1
    · exact o2
  have hN : ∀ p, p = 1 ∨ p = 2 → (matchingPennies ℝ).NumStrategies p = 2 := by
    intro p hp
    rcases hp with h | h <;> subst h <;> rfl
  have hNP : (matchingPennies ℝ).NumPlayers = 2 := rfl
  obtain ⟨e, el⟩ := QreJacobian_spec Real.exp Real.log (matchingPennies ℝ) x I M0
    (by rw [hr, matchingPennies_length]) i j (by omega) (by rw [hNP]; omega) (by omega)
    (by rw [hN i hi]; omega)
  have e1 := e ell m (by omega) (by rw [hNP]; omega) (by omega) (by rw [hN ell hell]; omega)
  rw [hoff ell hell, hoff i hi] at e1
  rw [hoff i hi, matchingPennies_length] at el
  have hk1 : 1 ≤ 2 * (ell - 1) + m := by omega
  have hk2 : 2 * (ell - 1) + m ≤ 4 := by omega
  refine ⟨?_, ?_⟩
  · rw [e1]
    simp only [QreJacobianEntry, Game.index, hoff ell hell, hI _ hk1 hk2, (hp _ hk1 hk2).1,
      matchingPennies_GetPayoffDeriv, Bool.false_eq_true, if_false]
    rcases hi with h | h <;> rcases hj with h2 | h2 <;> rcases hell with h3 | h3 <;>
      rcases hm with h4 | h4 <;> subst h <;> subst h2 <;> subst h3 <;> subst h4 <;> norm_num <;>
      ring
  · rw [el]
    simp only [QreJacobianLambda, matchingPennies_GetPayoff,
      (hp 1 (by norm_num) (by norm_num)).1, (hp 2 (by norm_num) (by norm_num)).1,
      (hp 3 (by norm_num) (by norm_num)).1, (hp 4 (by norm_num) (by norm_num)).1]
    rcases hi with h | h <;> rcases hj with h2 | h2 <;> subst h <;> subst h2 <;> norm_num

/-- Every vector orthogonal to the four columns of the matching-pennies Jacobian at the
centroid has zero profile components, for every `lambda`. -/
theorem matchingPennies_tangent (x : GVector ℝ) (I : GVector Bool) (M0 : GMatrix ℝ)
    (hx : ∀ k, 1 ≤ k → k ≤ 4 → x.entry k = 1 / 2)
    (hI : ∀ k, 1 ≤ k → k ≤ 4 → I.entry k = false) (hr : M0.NumRows = 5) (w : Nat → ℝ)
    (hw : ∀ j, 1 ≤ j → j ≤ 4 → ∑ c ∈ Finset.Icc 1 5,
      w c * (QreJacobian Real.exp Real.log (matchingPennies ℝ) x I M0).entry c j = 0) :
    ∀ k, 1 ≤ k → k ≤ 4 → w k = 0 := by
  have J := matchingPennies_jacobian x I M0 hx hI hr
  have c1 := hw 1 (by norm_num) (by norm_num)
  have c2 := hw 2 (by norm_num) (by norm_num)
  have c3 := hw 3 (by norm_num) (by norm_num)
  have c4 := hw 4 (by norm_num) (by norm_num)
  rw [sum_Icc_five] at c1 c2 c3 c4
  have a11 := J 1 1 1 1 (by norm_num) (by norm_num) (by norm_num) (by norm_num)
  have a12 := J 1 1 1 2 (by norm_num) (by norm_num) (by norm_num) (by norm_num)
  have a13 := J 1 1 2 1 (by norm_num) (by norm_num) (by norm_num) (by norm_num)
  have a14 := J 1 1 2 2 (by norm_num) (by norm_num) (by norm_num) (by norm_num)
  have a21 := J 1 2 1 1 (by norm_num) (by norm_num) (by norm_num) (by norm_num)
  have a22 := J 1 2 1 2 (by norm_num) (by norm_num) (by norm_num) (by norm_num)
  have a23 := J 1 2 2 1 (by norm_num) (by norm_num) (by norm_num) (by norm_num)
  have a24 := J 1 2 2 2 (by norm_num) (by norm_num) (by norm_num) (by norm_num)
  have a31 := J 2 1 1 1 (by norm_num) (by norm_num) (by norm_num) (by norm_num)
  have a32 := J 2 1 1 2 (by norm_num) (by norm_num) (by norm_num) (by norm_num)
  have a33 := J 2 1 2 1 (by norm_num) (by norm_num) (by norm_num) (by norm_num)
  have a34 := J 2 1 2 2 (by norm_num) (by norm_num) (by norm_num) (by norm_num)
  have a41 := J 2 2 1 1 (by norm_num) (by norm_num) (by norm_num) (by norm_num)
  have a42 := J 2 2 1 2 (by norm_num) (by norm_num) (by norm_num) (by norm_num)
  have a43 := J 2 2 2 1 (by norm_num) (by norm_num) (by norm_num) (by norm_num)
  have a44 := J 2 2 2 2 (by norm_num) (by norm_num) (by norm_num) (by norm_num)
  norm_num at a11 a12 a13 a14 a21 a22 a23 a24 a31 a32 a33 a34 a41 a42 a43 a44
  rw [a11.1, a12.1, a13.1, a14.1, a11.2] at c1
  rw [a21.1, a22.1, a23.1, a24.1, a21.2] at c2
  rw [a31.1, a32.1, a33.1, a34.1, a31.2] at c3
  rw [a41.1, a42.1, a43.1, a44.1, a41.2] at c4
  have h2 : w 2 = -w 1 := by linarith
  have h4 : w 4 = -w 3 := by linarith
  rw [h2, h4] at c2 c4
  have e1 : w 1 = x.entry x.Length * w 3 := by linarith
  have e3 : (1 + x.entry x.Length ^ 2) * w 3 = 0 := by
    have : x.entry x.Length * w 1 + w 3 = 0 := by linarith
    rw [e1] at this
    linarith [this]
  have hpos : (1 + x.entry x.Length ^ 2) ≠ 0 := by positivity
  have w3 : w 3 = 0 := by
    rcases mul_eq_zero.mp e3 with h | h
    · exact absurd h hpos
    · exact h
  have w1 : w 1 = 0 := by rw [e1, w3, mul_zero]
  intro k hk1 hk2
  have hk : k = 1 ∨ k = 2 ∨ k = 3 ∨ k = 4 := by omega
  rcases hk with h | h | h | h <;> subst h
  · exact w1
  · rw [h2, w1, neg_zero]
  · exact w3
  · rw [h4, w3, neg_zero]

/-- The factorisation of the matching-pennies Jacobian at the centroid: the dimensions are
kept and the last row of `q`, the tangent, has zero profile components. -/
theorem matchingPennies_factor (x : GVector ℝ) (I : GVector Bool) (M0 q0 : GMatrix ℝ)
    (hx : ∀ k, 1 ≤ k → k ≤ 4 → x.entry k = 1 / 2)
    (hI : ∀ k, 1 ≤ k → k ≤ 4 → I.entry k = false) (hr : M0.NumRows = 5)
    (hc : M0.NumColumns = 4) (hq1 : q0.NumRows = 5) (hq2 : q0.NumColumns = 5) :
    (QRDecomp Real.sqrt (QreJacobian Real.exp Real.log (matchingPennies ℝ) x I M0) q0).1.NumRows
      = 5 ∧
    (QRDecomp Real.sqrt (QreJacobian Real.exp Real.log (matchingPennies ℝ) x I M0)
      q0).1.NumColumns = 4 ∧
    (QRDecomp Real.sqrt (QreJacobian Real.exp Real.log (matchingPennies ℝ) x I M0) q0).2.NumRows
      = 5 ∧
    (QRDecomp Real.sqrt (QreJacobian Real.exp Real.log (matchingPennies ℝ) x I M0)
      q0).2.NumColumns = 5 ∧
    ∀ k, 1 ≤ k → k ≤ 4 →
      (QRDecomp Real.sqrt (QreJacobian Real.exp Real.log (matchingPennies ℝ) x I M0)
        q0).2.entry 5 k = 0 := by
  obtain ⟨d1, d2⟩ := QreJacobian_dims Real.exp Real.log (matchingPennies ℝ) x I M0
  rw [hr] at d1
  rw [hc] at d2
  have inv := QRDecomp_inv (QreJacobian Real.exp Real.log (matchingPennies ℝ) x I M0) q0
    (by rw [hq1, d1]) (by rw [hq2, d1]) (by rw [d1, d2]; norm_num)
  rw [d1, d2] at inv
  obtain ⟨e1, e2, e3, e4, hQA, -, hZ⟩ := inv
  refine ⟨e1, e2, e3, e4, ?_⟩
  apply matchingPennies_tangent x I M0 hx hI hr
  intro j hj1 hj2
  rw [hQA 5 j (by norm_num) (by norm_num) hj1 hj2]
  exact hZ 5 j hj1 (by omega) (by norm_num) (Or.inl (by omega))

/-- The likelihood derivative along a direction with zero profile components vanishes when
there are at most four observations. -/
theorem DiffLogLike_zero (o x : GVector ℝ) (I : GVector Bool) (t : GVector ℝ)
    (ho : o.Length ≤ 4) (ht : ∀ k, 1 ≤ k → k ≤ 4 → t.entry k = 0) :
    DiffLogLike o x I t = 0 := by
  rw [DiffLogLike_eq_sum]
  apply Finset.sum_eq_zero
  intro k hk
  obtain ⟨hk1, hk2⟩ := Finset.mem_Icc.mp hk
  rw [ht k hk1 (by omega)]
  split_ifs <;> simp

/-- A record written at a point whose four profile coordinates represent `1/2`. -/
theorem PrintProfile_centroid (cfg : Globals ℝ) (x : GVector ℝ) (I : GVector Bool)
    (terminal : Bool) (hL : x.Length = 5)
    (hx : ∀ k, 1 ≤ k → k ≤ 4 → x.entry k = 1 / 2)
    (hI : ∀ k, 1 ≤ k → k ≤ 4 → I.entry k = false) :
    CentroidRecord (PrintProfile Real.exp Real.log cfg (matchingPennies ℝ) x I terminal) := by
  obtain ⟨rest, hr, -⟩ := PrintProfile_fields Real.exp Real.log cfg (matchingPennies ℝ) x I
    terminal
  have hp := matchingPennies_profile x I hx hI
  have h4 : List.range' 1 (5 - 1) = [1, 2, 3, 4] := rfl
  rw [hL, h4] at hr
  simp only [List.map, (hp 1 (by norm_num) (by norm_num)).2.1,
    (hp 2 (by norm_num) (by norm_num)).2.1, (hp 3 (by norm_num) (by norm_num)).2.1,
    (hp 4 (by norm_num) (by norm_num)).2.1] at hr
  rw [hr]
  cases terminal
  · exact ⟨Field.num (x.entry 5), rest, by simp⟩
  · exact ⟨Field.NE, rest, by simp⟩

/-- The state in which `TracePath` reaches its main loop on matching pennies, started at the
centroid, satisfies the invariant. -/
theorem matchingPennies_init (cfg : Globals ℝ) (lam0 omega : ℝ) :
    AtCentroid (TracePathInit Real.sqrt Real.exp Real.log cfg (matchingPennies ℝ)
      (matchingPennies ℝ).centroid lam0 omega) := by
  obtain ⟨hxL, -, -, hI, hx, hout⟩ := TracePathInit_point Real.sqrt Real.exp Real.log cfg
    (matchingPennies ℝ) (matchingPennies ℝ).centroid lam0 omega
  obtain ⟨hb, hq, ht, hu, -, -, hnew, -⟩ := TracePathInit_factor Real.sqrt Real.exp Real.log
    cfg (matchingPennies ℝ) (matchingPennies ℝ).centroid lam0 omega
  have hL := matchingPennies_length
  rw [hL] at hxL hI hx hb hq hu
  have hc : ¬ ((1 / 2 : ℝ) < c_logCutoff) := by unfold c_logCutoff; norm_num
  have hI2 : ∀ k, 1 ≤ k → k ≤ 4 → (TracePathInit Real.sqrt Real.exp Real.log cfg
      (matchingPennies ℝ) (matchingPennies ℝ).centroid lam0 omega).isLog.entry k = false := by
    intro k h1 h2
    rw [hI k h1 h2, matchingPennies_centroid k h1 h2]
    exact decide_eq_false hc
  have hx2 : ∀ k, 1 ≤ k → k ≤ 4 → (TracePathInit Real.sqrt Real.exp Real.log cfg
      (matchingPennies ℝ) (matchingPennies ℝ).centroid lam0 omega).x.entry k = 1 / 2 := by
    intro k h1 h2
    rw [hx k h1 h2, matchingPennies_centroid k h1 h2, if_neg hc]
  obtain ⟨f1, f2, f3, f4, f5⟩ := matchingPennies_factor _ _
    ⟨4 + 1, 4, fun _ _ => 0⟩ ⟨4 + 1, 4 + 1, fun _ _ => 0⟩ hx2 hI2 rfl rfl rfl rfl
  rw [← hb] at f1 f2
  rw [← hq] at f3 f4 f5
  refine ⟨hxL, by rw [hu], fun k h1 h2 => ⟨hx2 k h1 h2, hI2 k h1 h2, ?_⟩, hnew, f1, f2, f3, f4,
    ?_⟩
  · rw [ht]
    show (TracePathInit Real.sqrt Real.exp Real.log cfg (matchingPennies ℝ)
      (matchingPennies ℝ).centroid lam0 omega).q.entry _ k = 0
    rw [f3]
    exact f5 k h1 h2
  · intro r hr
    rw [hout] at hr
    split_ifs at hr
    · rw [List.mem_singleton] at hr
      rw [hr]
      exact PrintProfile_centroid cfg _ _ false hxL hx2 hI2
    · cases hr

/-- A square array with orthonormal rows has trivial kernel. -/
theorem orth_kernel (n : Nat) (e : Nat → Nat → ℝ) (z : Nat → ℝ)
    (h : ∀ i j, 1 ≤ i → i ≤ n → 1 ≤ j → j ≤ n →
      ∑ c ∈ Finset.Icc 1 n, e i c * e j c = if i = j then 1 else 0)
    (hz : ∀ i, 1 ≤ i → i ≤ n → ∑ c ∈ Finset.Icc 1 n, e i c * z c = 0) :
    ∀ c, 1 ≤ c → c ≤ n → z c = 0 := by
  have cols := orth_cols_of_rows n e h
  intro c hc1 hc2
  have h1 : z c = ∑ c2 ∈ Finset.Icc 1 n, (if c = c2 then 1 else 0) * z c2 := by
    simp only [ite_mul, one_mul, zero_mul]
    rw [Finset.sum_ite_eq]
    simp [hc1, hc2]
  rw [h1]
  rw [Finset.sum_congr rfl (fun c2 hc => by
    rw [← cols c c2 hc1 hc2 (Finset.mem_Icc.mp hc).1 (Finset.mem_Icc.mp hc).2])]
  simp only [Finset.sum_mul]
  rw [Finset.sum_comm]
  apply Finset.sum_eq_zero
  intro i hi
  have := hz i (Finset.mem_Icc.mp hi).1 (Finset.mem_Icc.mp hi).2
  rw [Finset.sum_congr rfl (fun c2 _ => mul_assoc (e i c) (e i c2) (z c2)), ← Finset.mul_sum,
    this, mul_zero]

/-- The triangular factor of the matching-pennies Jacobian at the centroid has non-zero
pivots, for every `lambda`: the forward substitution of `NewtonStep` never divides by zero
there. -/
theorem matchingPennies_pivots (x : GVector ℝ) (I : GVector Bool) (M0 q0 : GMatrix ℝ)
    (hx : ∀ k, 1 ≤ k → k ≤ 4 → x.entry k = 1 / 2)
    (hI : ∀ k, 1 ≤ k → k ≤ 4 → I.entry k = false) (hr : M0.NumRows = 5)
    (hc : M0.NumColumns = 4) (hq1 : q0.NumRows = 5) (hq2 : q0.NumColumns = 5) :
    ∀ k, 1 ≤ k → k ≤ 4 →
      (QRDecomp Real.sqrt (QreJacobian Real.exp Real.log (matchingPennies ℝ) x I M0)
        q0).1.entry k k ≠ 0 := by
  obtain ⟨d1, d2⟩ := QreJacobian_dims Real.exp Real.log (matchingPennies ℝ) x I M0
  rw [hr] at d1
  rw [hc] at d2
  have inv := QRDecomp_inv (QreJacobian Real.exp Real.log (matchingPennies ℝ) x I M0) q0
    (by rw [hq1, d1]) (by rw [hq2, d1]) (by rw [d1, d2]; norm_num)
  rw [d1, d2] at inv
  obtain ⟨-, -, -, -, hQA, hOrth, hZ⟩ := inv
  have J := matchingPennies_jacobian x I M0 hx hI hr
  intro k hk1 hk2 hzero
  -- the top block is singular, so it has a non-zero kernel vector
  have hdet : (toMat 4 4 (QRDecomp Real.sqrt (QreJacobian Real.exp Real.log (matchingPennies ℝ)
      x I M0) q0).1.entry).det = 0 := by
    rw [Matrix.det_of_upperTriangular (fun i j hij => by
      simp only [toMat, Matrix.of_apply]
      exact hZ (i.val + 1) (j.val + 1) (by omega) (by simpa using hij) (by omega)
        (Or.inl (by omega)))]
    exact Finset.prod_eq_zero (Finset.mem_univ (⟨k - 1, by omega⟩ : Fin 4)) (by
      simp only [toMat, Matrix.of_apply]
      have e : k - 1 + 1 = k := by omega
      rw [e]
      exact hzero)
  obtain ⟨v, hv, hMv⟩ := Matrix.exists_mulVec_eq_zero_iff.mpr hdet
  have hrow : ∀ i : Fin 4,
      (QRDecomp Real.sqrt (QreJacobian Real.exp Real.log (matchingPennies ℝ) x I M0)
        q0).1.entry (i.val + 1) 1 * v 0 +
      (QRDecomp Real.sqrt (QreJacobian Real.exp Real.log (matchingPennies ℝ) x I M0)
        q0).1.entry (i.val + 1) 2 * v 1 +
      (QRDecomp Real.sqrt (QreJacobian Real.exp Real.log (matchingPennies ℝ) x I M0)
        q0).1.entry (i.val + 1) 3 * v 2 +
      (QRDecomp Real.sqrt (QreJacobian Real.exp Real.log (matchingPennies ℝ) x I M0)
        q0).1.entry (i.val + 1) 4 * v 3 = 0 := by
    intro i
    have := congrFun hMv i
    simpa [Matrix.mulVec, Matrix.dotProduct, Fin.sum_univ_four, toMat] using this
  -- the image of the kernel vector under the Jacobian
  have hz := orth_kernel 5
    (QRDecomp Real.sqrt (QreJacobian Real.exp Real.log (matchingPennies ℝ) x I M0) q0).2.entry
    (fun c => (QreJacobian Real.exp Real.log (matchingPennies ℝ) x I M0).entry c 1 * v 0 +
      (QreJacobian Real.exp Real.log (matchingPennies ℝ) x I M0).entry c 2 * v 1 +
      (QreJacobian Real.exp Real.log (matchingPennies ℝ) x I M0).entry c 3 * v 2 +
      (QreJacobian Real.exp Real.log (matchingPennies ℝ) x I M0).entry c 4 * v 3)
    hOrth
    (by
      intro i hi1 hi2
      have q1 := hQA i 1 hi1 hi2 (by norm_num) (by norm_num)
      have q2 := hQA i 2 hi1 hi2 (by norm_num) (by norm_num)
      have q3 := hQA i 3 hi1 hi2 (by norm_num) (by norm_num)
      have q4 := hQA i 4 hi1 hi2 (by norm_num) (by norm_num)
      have hB : (QRDecomp Real.sqrt (QreJacobian Real.exp Real.log (matchingPennies ℝ) x I M0)
            q0).1.entry i 1 * v 0 +
          (QRDecomp Real.sqrt (QreJacobian Real.exp Real.log (matchingPennies ℝ) x I M0)
            q0).1.entry i 2 * v 1 +
          (QRDecomp Real.sqrt (QreJacobian Real.exp Real.log (matchingPennies ℝ) x I M0)
            q0).1.entry i 3 * v 2 +
          (QRDecomp Real.sqrt (QreJacobian Real.exp Real.log (matchingPennies ℝ) x I M0)
            q0).1.entry i 4 * v 3 = 0 := by
        by_cases h5 : i = 5
        · subst h5
          rw [hZ 5 1 (by norm_num) (by norm_num) (by norm_num) (Or.inl (by norm_num)),
            hZ 5 2 (by norm_num) (by norm_num) (by norm_num) (Or.inl (by norm_num)),
            hZ 5 3 (by norm_num) (by norm_num) (by norm_num) (Or.inl (by norm_num)),
            hZ 5 4 (by norm_num) (by norm_num) (by norm_num) (Or.inl (by norm_num))]
          ring
        · have := hrow ⟨i - 1, by omega⟩
          have e : i - 1 + 1 = i := by omega
          simp only [e] at this
          exact this
      rw [← hB, ← q1, ← q2, ← q3, ← q4]
      simp only [Finset.sum_mul, ← Finset.sum_add_distrib]
      apply Finset.sum_congr rfl
      intro c _
      ring)
  have z1 := hz 1 (by norm_num) (by norm_num)
  have z2 := hz 2 (by norm_num) (by norm_num)
  have z3 := hz 3 (by norm_num) (by norm_num)
  have z4 := hz 4 (by norm_num) (by norm_num)
  have a11 := (J 1 1 1 1 (by norm_num) (by norm_num) (by norm_num) (by norm_num)).1
  have a12 := (J 1 1 1 2 (by norm_num) (by norm_num) (by norm_num) (by norm_num)).1
  have a13 := (J 1 1 2 1 (by norm_num) (by norm_num) (by norm_num) (by norm_num)).1
  have a14 := (J 1 1 2 2 (by norm_num) (by norm_num) (by norm_num) (by norm_num)).1
  have a21 := (J 1 2 1 1 (by norm_num) (by norm_num) (by norm_num) (by norm_num)).1
  have a22 := (J 1 2 1 2 (by norm_num) (by norm_num) (by norm_num) (by norm_num)).1
  have a23 := (J 1 2 2 1 (by norm_num) (by norm_num) (by norm_num) (by norm_num)).1
  have a24 := (J 1 2 2 2 (by norm_num) (by norm_num) (by norm_num) (by norm_num)).1
  have a31 := (J 2 1 1 1 (by norm_num) (by norm_num) (by norm_num) (by norm_num)).1
  have a32 := (J 2 1 1 2 (by norm_num) (by norm_num) (by norm_num) (by norm_num)).1
  have a33 := (J 2 1 2 1 (by norm_num) (by norm_num) (by norm_num) (by norm_num)).1
  have a34 := (J 2 1 2 2 (by norm_num) (by norm_num) (by norm_num) (by norm_num)).1
  have a41 := (J 2 2 1 1 (by norm_num) (by norm_num) (by norm_num) (by norm_num)).1
  have a42 := (J 2 2 1 2 (by norm_num) (by norm_num) (by norm_num) (by norm_num)).1
  have a43 := (J 2 2 2 1 (by norm_num) (by norm_num) (by norm_num) (by norm_num)).1
  have a44 := (J 2 2 2 2 (by norm_num) (by norm_num) (by norm_num) (by norm_num)).1
  norm_num at a11 a12 a13 a14 a21 a22 a23 a24 a31 a32 a33 a34 a41 a42 a43 a44
  dsimp only at z1 z2 z3 z4
  rw [a11, a21, a31, a41] at z1
  rw [a12, a22, a32, a42] at z2
  rw [a13, a23, a33, a43] at z3
  rw [a14, a24, a34, a44] at z4
  have v0 : v 0 = 0 := by linarith
  have v2 : v 2 = 0 := by linarith
  have e1 : v 1 = -(x.entry x.Length * v 3) := by linarith
  have e3 : (1 + x.entry x.Length ^ 2) * v 3 = 0 := by
    have : -(x.entry x.Length * v 1) + v 3 = 0 := by linarith
    rw [e1] at this
    linarith [this]
  have hpos : (1 + x.entry x.Length ^ 2) ≠ 0 := by positivity
  have v3 : v 3 = 0 := by
    rcases mul_eq_zero.mp e3 with h | h
    · exact absurd h hpos
    · exact h
  have v1 : v 1 = 0 := by rw [e1, v3, mul_zero, neg_zero]
  apply hv
  funext i
  fin_cases i
  · exact v0
  · exact v1
  · exact v2
  · exact v3

/-- The step that follows an accepted step whose corrector did nothing: `|h|` times the larger
of `g_maxDecel` and `1 / g_maxDecel`. -/
theorem stepsize_on_curve (h D : ℝ) (hD : 0 < D) :
    |h / (if gmax (1 / D) 0 > D then D else gmax (1 / D) 0)| =
      |h| * (if D < 1 then 1 / D else D) := by
  have h1 : gmax (1 / D) 0 = 1 / D := by
    unfold gmax
    rw [if_pos (by positivity)]
  rw [h1]
  by_cases hlt : D < 1
  · have : 1 / D > D := by
      rw [gt_iff_lt, lt_div_iff₀ hD]
      nlinarith
    rw [if_pos this, if_pos hlt, abs_div, abs_of_pos hD]
    ring
  · have : ¬ (1 / D > D) := by
      rw [gt_iff_lt, lt_div_iff₀ hD]
      nlinarith
    rw [if_neg this, if_neg hlt, abs_div, abs_of_pos (by positivity : 0 < 1 / D)]
    field_simp

/-- One iteration of the main loop on matching pennies from a state at the centroid whose step
is above `c_hmin`: the corrector exits in its first iteration, the step is accepted, the new
state is at the centroid again, and only `lambda` has moved, by `h * omega * t[5]`. -/
theorem matchingPennies_step (cfg : Globals ℝ) (hD : 0 < cfg.g_maxDecel)
    (hobs : cfg.g_maxLike = true → cfg.g_obsProbs.Length ≤ 4) (n : Nat) (s : TraceState ℝ)
    (hs : AtCentroid s) (hh : ¬ |s.h| ≤ c_hmin) :
    ∃ s2, TracePathBody Real.sqrt Real.exp Real.log cfg (matchingPennies ℝ) (n + 1) s =
        some (s2, Flow.next) ∧ AtCentroid s2 ∧
      s2.x.entry 5 = s.x.entry 5 + s.h * s.p_omega * s.t.entry 5 ∧
      s2.h = |s.h| * (if cfg.g_maxDecel < 1 then 1 / cfg.g_maxDecel else cfg.g_maxDecel) ∧
      ∀ k, 1 ≤ k → k ≤ 4 → s2.b.entry k k ≠ 0 := by
  obtain ⟨hxL, huL, hk, hnew, hb1, hb2, hq1, hq2, hrec⟩ := hs
  obtain ⟨pL, pE⟩ := Predictor_spec s
  have hP : ∀ k, 1 ≤ k → k ≤ 4 → (Predictor s).entry k = 1 / 2 := by
    intro k h1 h2
    rw [pE k, hxL, if_pos (by omega), (hk k h1 h2).1, (hk k h1 h2).2.2]
    ring
  have hP5 : (Predictor s).entry 5 = s.x.entry 5 + s.h * s.p_omega * s.t.entry 5 := by
    rw [pE 5, hxL, if_pos (by omega)]
  have hPL : (Predictor s).Length = 5 := by rw [pL, huL]
  have hI : ∀ k, 1 ≤ k → k ≤ 4 → s.isLog.entry k = false := fun k h1 h2 => (hk k h1 h2).2.1
  obtain ⟨f1, f2, f3, f4, f5⟩ := matchingPennies_factor (Predictor s) s.isLog s.b s.q hP hI
    hb1 hb2 hq1 hq2
  have hc : ¬ ((1 / 2 : ℝ) < c_logCutoff) := by unfold c_logCutoff; norm_num
  have hbody := TracePathBody_on_curve_plain cfg (matchingPennies ℝ) n s hh
    (fun k h1 h2 => matchingPennies_residual (Predictor s) s.isLog s.y hP hI k h1
      (by rw [f2] at h2; exact h2))
    hnew
    (fun hm => by
      rw [DiffLogLike_zero cfg.g_obsProbs s.x s.isLog s.t (hobs hm)
        (fun k h1 h2 => (hk k h1 h2).2.2), zero_mul]
      simp)
    (SwitchCoordinates_none Real.exp Real.log (Predictor s) s.isLog (fun i h1 h2 => by
      rw [hPL] at h2
      rw [hI i h1 (by omega), hP i h1 (by omega)]
      exact ⟨fun h => hc h.2, fun h => Bool.noConfusion h.1⟩))
  refine ⟨_, hbody, ⟨hPL, hPL, fun k h1 h2 => ⟨hP k h1 h2, hI k h1 h2, ?_⟩, hnew, f1, f2, f3,
    f4, ?_⟩, hP5, stepsize_on_curve s.h cfg.g_maxDecel hD,
    matchingPennies_pivots (Predictor s) s.isLog s.b s.q hP hI hb1 hb2 hq1 hq2⟩
  · show (QRDecomp Real.sqrt (QreJacobian Real.exp Real.log (matchingPennies ℝ) (Predictor s)
      s.isLog s.b) s.q).2.entry _ k = 0
    rw [f3]
    exact f5 k h1 h2
  · intro r hr
    dsimp only at hr
    split_ifs at hr
    · rcases List.mem_append.mp hr with h | h
      · exact hrec r h
      · rw [List.mem_singleton] at h
        rw [h]
        exact PrintProfile_centroid cfg _ _ false hPL hP hI
    · exact hrec r hr

/-- Every iteration of the main loop on matching pennies keeps the state at the centroid,
however it ends. -/
theorem matchingPennies_body (cfg : Globals ℝ) (hD : 0 < cfg.g_maxDecel)
    (hobs : cfg.g_maxLike = true → cfg.g_obsProbs.Length ≤ 4) (cfuel : Nat)
    (s s2 : TraceState ℝ) (f : Flow) (hs : AtCentroid s)
    (h : TracePathBody Real.sqrt Real.exp Real.log cfg (matchingPennies ℝ) cfuel s =
      some (s2, f)) : AtCentroid s2 := by
  by_cases hh : |s.h| ≤ c_hmin
  · unfold TracePathBody at h
    rw [if_pos hh, hs.2.2.2.1] at h
    simp only [Bool.false_eq_true, if_false, Option.some.injEq, Prod.mk.injEq] at h
    rw [← h.1]
    exact hs
  · cases cfuel with
    | zero =>
      unfold TracePathBody at h
      rw [if_neg hh] at h
      simp [Corrector] at h
    | succ n =>
      obtain ⟨s3, h3, hs3, -⟩ := matchingPennies_step cfg hD hobs n s hs hh
      rw [h3] at h
      simp only [Option.some.injEq, Prod.mk.injEq] at h
      rw [← h.1]
      exact hs3

/-- Every state at the start of an iteration of the main loop on matching pennies is at the
centroid. -/
theorem matchingPennies_after (cfg : Globals ℝ) (hD : 0 < cfg.g_maxDecel)
    (hobs : cfg.g_maxLike = true → cfg.g_obsProbs.Length ≤ 4) (maxLam : ℝ) (cfuel n : Nat)
    (s s2 : TraceState ℝ) (hs : AtCentroid s)
    (h : TracePathAfter Real.sqrt Real.exp Real.log cfg (matchingPennies ℝ) maxLam cfuel n s =
      some s2) : AtCentroid s2 := by
  induction n generalizing s with
  | zero =>
    simp only [TracePathAfter, Option.some.injEq] at h
    rw [← h]
    exact hs
  | succ n ih =>
    unfold TracePathAfter at h
    split_ifs at h
    split at h
    · rename_i s3 hb
      exact ih s3 (matchingPennies_body cfg hD hobs cfuel s s3 Flow.next hs hb) h
    · cases h

/-- The state in which the main loop on matching pennies is left is at the centroid. -/
theorem matchingPennies_loop (cfg : Globals ℝ) (hD : 0 < cfg.g_maxDecel)
    (hobs : cfg.g_maxLike = true → cfg.g_obsProbs.Length ≤ 4) (maxLam : ℝ) (cfuel fuel : Nat)
    (s s2 : TraceState ℝ) (f : Flow) (hs : AtCentroid s)
    (h : TracePathLoop Real.sqrt Real.exp Real.log cfg (matchingPennies ℝ) maxLam cfuel fuel s =
      some (s2, f)) : AtCentroid s2 := by
  induction fuel generalizing s with
  | zero => simp [TracePathLoop] at h
  | succ n ih =>
    unfold TracePathLoop at h
    split_ifs at h
    · split at h
      · cases h
      · rename_i s3 hb
        simp only [Option.some.injEq, Prod.mk.injEq] at h
        rw [← h.1]
        exact matchingPennies_body cfg hD hobs cfuel s s3 Flow.ret hs hb
      · rename_i s3 hb
        exact ih s3 (matchingPennies_body cfg hD hobs cfuel s s3 Flow.next hs hb) h
    · simp only [Option.some.injEq, Prod.mk.injEq] at h
      rw [← h.1]
      exact hs

/-! ## Matching pennies stays at the centroid (C15) -/

/-- C15: matching pennies stays at the centroid. For the 2x2 zero-sum matching-pennies game
with payoffs `+1` / `-1`, started at the centroid (from any `lambda0`, with any orientation),
with positive maximum deceleration (and at most four observations in MLE mode): every state at
the start of an iteration of the main loop of `TracePath` has profile coordinates
`(1/2, 1/2, 1/2, 1/2)`, all linear-coded, a tangent with zero profile components and zero
residual; every record emitted so far has the four probability fields `1/2`; whenever the step
is above `c_hmin = 1e-5` the next iteration accepts after one corrector iteration, with
non-zero pivots, leaves the profile at `1/2` and moves only `lambda`, by `h * omega * t[5]`;
and every run that returns ends at the centroid with all its records at the centroid. -/
theorem matchingPennies_stays_at_centroid (cfg : Globals ℝ) (lam0 omega : ℝ)
    (hD : 0 < cfg.g_maxDecel) (hobs : cfg.g_maxLike = true → cfg.g_obsProbs.Length ≤ 4) :
    (∀ (maxLam : ℝ) (cfuel n : Nat) (s : TraceState ℝ),
      TracePathAfter Real.sqrt Real.exp Real.log cfg (matchingPennies ℝ) maxLam cfuel n
        (TracePathInit Real.sqrt Real.exp Real.log cfg (matchingPennies ℝ)
          (matchingPennies ℝ).centroid lam0 omega) = some s →
      (∀ k, 1 ≤ k → k ≤ 4 →
        s.x.entry k = 1 / 2 ∧ s.isLog.entry k = false ∧ s.t.entry k = 0 ∧
        (QreLHS Real.exp Real.log (matchingPennies ℝ) s.x s.isLog s.y).entry k = 0) ∧
      (∀ r ∈ s.out, CentroidRecord r) ∧
      (1 / 100000 < |s.h| →
        ∃ s2, TracePathBody Real.sqrt Real.exp Real.log cfg (matchingPennies ℝ) 1 s =
            some (s2, Flow.next) ∧
          (∀ k, 1 ≤ k → k ≤ 4 → s2.x.entry k = 1 / 2 ∧ s2.b.entry k k ≠ 0) ∧
          s2.x.entry 5 = s.x.entry 5 + s.h * s.p_omega * s.t.entry 5)) ∧
    (∀ (fuel cfuel : Nat) (maxLam : ℝ) (s : TraceState ℝ),
      TracePath Real.sqrt Real.exp Real.log cfg (matchingPennies ℝ) fuel cfuel
        (matchingPennies ℝ).centroid lam0 maxLam omega = some s →
      (∀ k, 1 ≤ k → k ≤ 4 → s.x.entry k = 1 / 2) ∧ ∀ r ∈ s.out, CentroidRecord r) := by
  have hinit := matchingPennies_init cfg lam0 omega
  refine ⟨fun maxLam cfuel n s h => ?_, fun fuel cfuel maxLam s h => ?_⟩
  · have hs := matchingPennies_after cfg hD hobs maxLam cfuel n _ s hinit h
    refine ⟨fun k h1 h2 => ⟨(hs.2.2.1 k h1 h2).1, (hs.2.2.1 k h1 h2).2.1,
      (hs.2.2.1 k h1 h2).2.2, ?_⟩, hs.2.2.2.2.2.2.2.2, fun hh => ?_⟩
    · exact matchingPennies_residual s.x s.isLog s.y (fun k h1 h2 => (hs.2.2.1 k h1 h2).1)
        (fun k h1 h2 => (hs.2.2.1 k h1 h2).2.1) k h1 h2
    · obtain ⟨s2, e1, e2, e3, -, e5⟩ := matchingPennies_step cfg hD hobs 0 s hs
        (not_le.mpr (by unfold c_hmin; exact hh))
      exact ⟨s2, e1, fun k h1 h2 => ⟨(e2.2.2.1 k h1 h2).1, e5 k h1 h2⟩, e3⟩
  · unfold TracePath at h
    split at h
    · cases h
    · rename_i s1 hl
      have hs := matchingPennies_loop cfg hD hobs maxLam cfuel fuel _ s1 Flow.ret hinit hl
      simp only [Option.some.injEq] at h
      rw [← h]
      exact ⟨fun k h1 h2 => (hs.2.2.1 k h1 h2).1, hs.2.2.2.2.2.2.2.2⟩
    · rename_i s1 hl
      have hs := matchingPennies_loop cfg hD hobs maxLam cfuel fuel _ s1 Flow.next hinit hl
      by_cases hf : cfg.g_fullGraph = true
      · rw [if_neg (by simp [hf])] at h
        simp only [Option.some.injEq] at h
        rw [← h]
        exact ⟨fun k h1 h2 => (hs.2.2.1 k h1 h2).1, hs.2.2.2.2.2.2.2.2⟩
      · rw [if_pos hf] at h
        simp only [Option.some.injEq] at h
        rw [← h]
        refine ⟨fun k h1 h2 => (hs.2.2.1 k h1 h2).1, fun r hr => ?_⟩
        rcases List.mem_append.mp hr with h3 | h3
        · exact hs.2.2.2.2.2.2.2.2 r h3
        · rw [List.mem_singleton] at h3
          rw [h3]
          exact PrintProfile_centroid cfg _ _ true hs.1 (fun k h1 h2 => (hs.2.2.1 k h1 h2).1)
            (fun k h1 h2 => (hs.2.2.1 k h1 h2).2.1)

/-- Witness for C15: the default settings, `lambda0 = 0`, `omega = 1`; the start state and the
first iteration. -/
theorem matchingPennies_stays_at_centroid_witness :
    (TracePathInit Real.sqrt Real.exp Real.log (mainInit : MainState ℝ).globals
      (matchingPennies ℝ) (matchingPennies ℝ).centroid 0 1).x.entry 1 = 1 / 2 ∧
    ∃ s2, TracePathBody Real.sqrt Real.exp Real.log (mainInit : MainState ℝ).globals
        (matchingPennies ℝ) 1
        (TracePathInit Real.sqrt Real.exp Real.log (mainInit : MainState ℝ).globals
          (matchingPennies ℝ) (matchingPennies ℝ).centroid 0 1) = some (s2, Flow.next) ∧
      s2.x.entry 1 = 1 / 2 := by
  have W := (matchingPennies_stays_at_centroid (mainInit : MainState ℝ).globals 0 1
    (by simp only [mainInit]; norm_num) (fun h => by simp [mainInit] at h)).1 1000000 1 0 _ rfl
  refine ⟨(W.1 1 (le_refl 1) (by norm_num)).1, ?_⟩
  obtain ⟨s2, e1, e2, -⟩ := W.2.2 (by
    show 1 / 100000 < |(mainInit : MainState ℝ).globals.g_hStart|
    simp only [mainInit]
    rw [abs_of_pos (by norm_num)]
    norm_num)
  exact ⟨s2, e1, (e2 1 (le_refl 1) (by norm_num)).1⟩

/-! ## The Newton correction and the unfactored matrix (C21) -/

/-- The forward substitution of `NewtonStep` solves the transposed triangular system when the
pivots are non-zero and `b` vanishes below its diagonal. -/
theorem NewtonSolve_transposed (b : GMatrix ℝ) (y : GVector ℝ)
    (hdiag : ∀ k, 1 ≤ k → k ≤ b.NumColumns → b.entry k k ≠ 0)
    (htri : ∀ l k, 1 ≤ k → k < l → l ≤ b.NumColumns → b.entry l k = 0) :
    ∀ k, 1 ≤ k → k ≤ b.NumColumns →
      ∑ l ∈ Finset.Icc 1 b.NumColumns, b.entry l k * (NewtonSolve b y).entry l = y.entry k := by
  intro k hk1 hk2
  obtain ⟨-, hsol, -⟩ := NewtonSolve_spec b y
  have hsub : Finset.Icc 1 k ⊆ Finset.Icc 1 b.NumColumns :=
    Finset.Icc_subset_Icc (le_refl 1) hk2
  rw [← Finset.sum_subset hsub (by
    intro l hl hnl
    have hl2 := Finset.mem_Icc.mp hl
    have hlk : k < l := by
      by_contra hh
      exact hnl (Finset.mem_Icc.mpr ⟨hl2.1, by omega⟩)
    rw [htri l k hk1 hlk hl2.2, zero_mul])]
  have ek : k - 1 + 1 = k := by omega
  have hs := sum_Icc_succ (k - 1) (fun l => b.entry l k * (NewtonSolve b y).entry l)
  rw [ek] at hs
  rw [hs, hsol k hk1 hk2]
  field_simp [hdiag k hk1 hk2]

/-- A triangular system with non-zero pivots and zero right-hand side has only the zero
solution. -/
theorem triangular_kernel (L : Nat) (B : Nat → Nat → ℝ) (w : Nat → ℝ)
    (hdiag : ∀ k, 1 ≤ k → k ≤ L → B k k ≠ 0)
    (hw : ∀ m, 1 ≤ m → m ≤ L → ∑ i ∈ Finset.Icc 1 m, B i m * w i = 0) :
    ∀ i, 1 ≤ i → i ≤ L → w i = 0 := by
  have key : ∀ n i, i ≤ n → 1 ≤ i → i ≤ L → w i = 0 := by
    intro n
    induction n with
    | zero => intro i h0 h1; omega
    | succ n ih =>
      intro i hi hi1 hi2
      have h := hw i hi1 hi2
      have ei : i - 1 + 1 = i := by omega
      have hs := sum_Icc_succ (i - 1) (fun l => B l i * w l)
      rw [ei] at hs
      rw [hs, Finset.sum_eq_zero (fun l hl => by
        obtain ⟨hl1, hl2⟩ := Finset.mem_Icc.mp hl
        rw [ih l (by omega) hl1 (by omega), mul_zero]), zero_add] at h
      rcases mul_eq_zero.mp h with h0 | h0
      · exact absurd h0 (hdiag i hi1 hi2)
      · exact h0
  exact fun i h1 h2 => key i i (le_refl i) h1 h2

/-- The correction applied by `NewtonStep` after `QRDecomp`, related to the unfactored matrix:
`s = u_in - u_out` is the combination `sum_l q(l, .) * delta_l` of the first `L` rows of `q`,
it solves `A^T s = y`, and the first `L` rows of `q` annihilate every `d` with `A^T d = 0`. -/
theorem NewtonStep_unfactored (b0 q0 : GMatrix ℝ) (u y : GVector ℝ)
    (hq1 : q0.NumRows = b0.NumRows) (hq2 : q0.NumColumns = b0.NumRows)
    (hLn : b0.NumColumns ≤ b0.NumRows)
    (hdiag : ∀ k, 1 ≤ k → k ≤ b0.NumColumns → (QRDecomp Real.sqrt b0 q0).1.entry k k ≠ 0) :
    (∀ k, 1 ≤ k → k ≤ b0.NumRows →
      u.entry k - (NewtonStep Real.sqrt (QRDecomp Real.sqrt b0 q0).2
          (QRDecomp Real.sqrt b0 q0).1 u y).1.entry k
        = ∑ l ∈ Finset.Icc 1 b0.NumColumns, (QRDecomp Real.sqrt b0 q0).2.entry l k *
            (NewtonSolve (QRDecomp Real.sqrt b0 q0).1 y).entry l) ∧
    (∀ m, 1 ≤ m → m ≤ b0.NumColumns →
      ∑ k ∈ Finset.Icc 1 b0.NumRows, b0.entry k m *
        (u.entry k - (NewtonStep Real.sqrt (QRDecomp Real.sqrt b0 q0).2
          (QRDecomp Real.sqrt b0 q0).1 u y).1.entry k) = y.entry m) ∧
    (∀ d : Nat → ℝ,
      (∀ m, 1 ≤ m → m ≤ b0.NumColumns →
        ∑ k ∈ Finset.Icc 1 b0.NumRows, b0.entry k m * d k = 0) →
      ∀ l, 1 ≤ l → l ≤ b0.NumColumns →
        ∑ k ∈ Finset.Icc 1 b0.NumRows, (QRDecomp Real.sqrt b0 q0).2.entry l k * d k = 0) := by
  obtain ⟨hr, hc, -, -, hQA, hOrth, hZero⟩ := QRDecomp_inv b0 q0 hq1 hq2 hLn
  have hcols := orth_cols_of_rows b0.NumRows _ hOrth
  obtain ⟨-, h2, -⟩ := NewtonStep_spec (QRDecomp Real.sqrt b0 q0).2
    (QRDecomp Real.sqrt b0 q0).1 u y
  rw [hr, hc] at h2
  have htri : ∀ l k, 1 ≤ k → k ≤ b0.NumColumns → k < l → l ≤ b0.NumRows →
      (QRDecomp Real.sqrt b0 q0).1.entry l k = 0 :=
    fun l k hk hk2 hkl hl => hZero l k hk hkl hl (Or.inl (by omega))
  have hsolve := NewtonSolve_transposed (QRDecomp Real.sqrt b0 q0).1 y
    (by rw [hc]; exact hdiag)
    (by rw [hc]; exact fun l k hk hkl hl => htri l k hk (by omega) hkl (by omega))
  rw [hc] at hsolve
  have hs : ∀ k, 1 ≤ k → k ≤ b0.NumRows →
      u.entry k - (NewtonStep Real.sqrt (QRDecomp Real.sqrt b0 q0).2
          (QRDecomp Real.sqrt b0 q0).1 u y).1.entry k
        = ∑ l ∈ Finset.Icc 1 b0.NumColumns, (QRDecomp Real.sqrt b0 q0).2.entry l k *
            (NewtonSolve (QRDecomp Real.sqrt b0 q0).1 y).entry l := by
    intro k hk1 hk2
    rw [h2 k, if_pos ⟨hk1, hk2⟩, sub_sub_cancel]
  -- `A = q^T b`
  have hA : ∀ k m, 1 ≤ k → k ≤ b0.NumRows → 1 ≤ m → m ≤ b0.NumColumns →
      b0.entry k m = ∑ i ∈ Finset.Icc 1 b0.NumRows,
        (QRDecomp Real.sqrt b0 q0).2.entry i k * (QRDecomp Real.sqrt b0 q0).1.entry i m := by
    intro k m hk1 hk2 hm1 hm2
    have e1 : ∀ i ∈ Finset.Icc 1 b0.NumRows,
        (QRDecomp Real.sqrt b0 q0).2.entry i k * (QRDecomp Real.sqrt b0 q0).1.entry i m
        = ∑ c ∈ Finset.Icc 1 b0.NumRows,
          ((QRDecomp Real.sqrt b0 q0).2.entry i k * (QRDecomp Real.sqrt b0 q0).2.entry i c) *
            b0.entry c m := by
      intro i hi
      have hi2 := Finset.mem_Icc.mp hi
      rw [← hQA i m hi2.1 hi2.2 hm1 hm2, Finset.mul_sum]
      exact Finset.sum_congr rfl (fun c _ => by ring)
    rw [Finset.sum_congr rfl e1, Finset.sum_comm]
    have e2 : ∀ c ∈ Finset.Icc 1 b0.NumRows,
        ∑ i ∈ Finset.Icc 1 b0.NumRows,
          ((QRDecomp Real.sqrt b0 q0).2.entry i k * (QRDecomp Real.sqrt b0 q0).2.entry i c) *
            b0.entry c m
        = if k = c then b0.entry c m else 0 := by
      intro c hc
      have hc2 := Finset.mem_Icc.mp hc
      rw [← Finset.sum_mul, hcols k c hk1 hk2 hc2.1 hc2.2]
      split_ifs <;> simp
    rw [Finset.sum_congr rfl e2, Finset.sum_ite_eq]
    simp [hk1, hk2]
  refine ⟨hs, ?_, ?_⟩
  · intro m hm1 hm2
    rw [← hsolve m hm1 hm2]
    rw [Finset.sum_congr rfl (fun k hk => by
      rw [hs k (Finset.mem_Icc.mp hk).1 (Finset.mem_Icc.mp hk).2, Finset.mul_sum])]
    rw [Finset.sum_comm]
    apply Finset.sum_congr rfl
    intro l hl
    have hl2 := Finset.mem_Icc.mp hl
    rw [← hQA l m hl2.1 (by omega) hm1 hm2, Finset.sum_mul]
    exact Finset.sum_congr rfl (fun k _ => by ring)
  · intro d hd
    apply triangular_kernel b0.NumColumns (QRDecomp Real.sqrt b0 q0).1.entry
      (fun i => ∑ k ∈ Finset.Icc 1 b0.NumRows, (QRDecomp Real.sqrt b0 q0).2.entry i k * d k)
      hdiag
    intro m hm1 hm2
    have h0 := hd m hm1 hm2
    rw [Finset.sum_congr rfl (fun k hk => by
      rw [hA k m (Finset.mem_Icc.mp hk).1 (Finset.mem_Icc.mp hk).2 hm1 hm2,
        Finset.sum_mul])] at h0
    rw [Finset.sum_comm] at h0
    have hsub : Finset.Icc 1 m ⊆ Finset.Icc 1 b0.NumRows :=
      Finset.Icc_subset_Icc (le_refl 1) (by omega)
    rw [Finset.sum_subset hsub (by
      intro i hi hni
      have hi2 := Finset.mem_Icc.mp hi
      have him : m < i := by
        by_contra hh
        exact hni (Finset.mem_Icc.mpr ⟨hi2.1, by omega⟩)
      rw [htri i m hm1 hm2 him hi2.2, zero_mul])]
    rw [← h0]
    apply Finset.sum_congr rfl
    intro i _
    rw [Finset.mul_sum]
    exact Finset.sum_congr rfl (fun k _ => by ring)

/-- C21: the Newton correction solves the linearised system with the unfactored matrix. For
every real (L+1)xL matrix `A` whose triangular factor has non-zero diagonal, if `(q, b)` is the
result of `QRDecomp` on `A` and `NewtonStep(q, b, u, y)` is then applied, the correction
`s = u_in - u_out` satisfies `sum_k A(k,m) * s_k = y_in[m]` for every `m = 1..L`
(`A^T s = y`), `s` is orthogonal to the last row of `q` (the tangent), and `s` has the least
Euclidean norm among all solutions of `A^T s = y`. -/
theorem NewtonStep_solves_linearised (L : Nat) (A Q0 : Nat → Nat → ℝ) (u y : GVector ℝ)
    (hdiag : ∀ k, 1 ≤ k → k ≤ L → (QRDecomp Real.sqrt ⟨L + 1, L, A⟩ ⟨L + 1, L + 1, Q0⟩).1.entry k k ≠ 0) :
    (∀ m, 1 ≤ m → m ≤ L →
      ∑ k ∈ Finset.Icc 1 (L + 1), A k m *
        (u.entry k - (NewtonStep Real.sqrt (QRDecomp Real.sqrt ⟨L + 1, L, A⟩ ⟨L + 1, L + 1, Q0⟩).2 (QRDecomp Real.sqrt ⟨L + 1, L, A⟩ ⟨L + 1, L + 1, Q0⟩).1 u y).1.entry k) = y.entry m) ∧
    (∑ k ∈ Finset.Icc 1 (L + 1), (QRDecomp Real.sqrt ⟨L + 1, L, A⟩ ⟨L + 1, L + 1, Q0⟩).2.entry (L + 1) k *
        (u.entry k - (NewtonStep Real.sqrt (QRDecomp Real.sqrt ⟨L + 1, L, A⟩ ⟨L + 1, L + 1, Q0⟩).2 (QRDecomp Real.sqrt ⟨L + 1, L, A⟩ ⟨L + 1, L + 1, Q0⟩).1 u y).1.entry k) = 0) ∧
    (∀ s2 : Nat → ℝ,
      (∀ m, 1 ≤ m → m ≤ L → ∑ k ∈ Finset.Icc 1 (L + 1), A k m * s2 k = y.entry m) →
      ∑ k ∈ Finset.Icc 1 (L + 1),
        (u.entry k - (NewtonStep Real.sqrt (QRDecomp Real.sqrt ⟨L + 1, L, A⟩ ⟨L + 1, L + 1, Q0⟩).2 (QRDecomp Real.sqrt ⟨L + 1, L, A⟩ ⟨L + 1, L + 1, Q0⟩).1 u y).1.entry k) ^ 2
        ≤ ∑ k ∈ Finset.Icc 1 (L + 1), s2 k ^ 2) := by
  obtain ⟨hs, hsol, hker⟩ := NewtonStep_unfactored ⟨L + 1, L, A⟩ ⟨L + 1, L + 1, Q0⟩ u y rfl rfl
    (Nat.le_succ L) hdiag
  obtain ⟨-, -, -, -, -, hOrth, -⟩ :=
    QRDecomp_inv ⟨L + 1, L, A⟩ ⟨L + 1, L + 1, Q0⟩ rfl rfl (Nat.le_succ L)
  simp only at hs hsol hker hOrth
  -- `s` is orthogonal to every `d` that the first `L` rows of `q` annihilate
  have horth : ∀ d : Nat → ℝ,
      (∀ l, 1 ≤ l → l ≤ L → ∑ k ∈ Finset.Icc 1 (L + 1), (QRDecomp Real.sqrt ⟨L + 1, L, A⟩ ⟨L + 1, L + 1, Q0⟩).2.entry l k * d k = 0) →
      ∑ k ∈ Finset.Icc 1 (L + 1),
        (u.entry k - (NewtonStep Real.sqrt (QRDecomp Real.sqrt ⟨L + 1, L, A⟩ ⟨L + 1, L + 1, Q0⟩).2 (QRDecomp Real.sqrt ⟨L + 1, L, A⟩ ⟨L + 1, L + 1, Q0⟩).1 u y).1.entry k) * d k = 0 := by
    intro d hd
    rw [Finset.sum_congr rfl (fun k hk => by
      rw [hs k (Finset.mem_Icc.mp hk).1 (Finset.mem_Icc.mp hk).2, Finset.sum_mul])]
    rw [Finset.sum_comm]
    apply Finset.sum_eq_zero
    intro l hl
    have hl2 := Finset.mem_Icc.mp hl
    rw [Finset.sum_congr rfl (fun k _ => by
      rw [mul_comm ((QRDecomp Real.sqrt ⟨L + 1, L, A⟩ ⟨L + 1, L + 1, Q0⟩).2.entry l k) _, mul_assoc])]
    rw [← Finset.mul_sum, hd l hl2.1 hl2.2, mul_zero]
  refine ⟨hsol, ?_, ?_⟩
  · have := horth (fun k => (QRDecomp Real.sqrt ⟨L + 1, L, A⟩ ⟨L + 1, L + 1, Q0⟩).2.entry (L + 1) k) (fun l hl1 hl2 => by
      rw [hOrth l (L + 1) hl1 (by omega) (by omega) (le_refl _)]
      have : l ≠ L + 1 := by omega
      simp [this])
    rw [← this]
    exact Finset.sum_congr rfl (fun k _ => by ring)
  · intro s2 hs2
    have hd := hker (fun k => s2 k -
        (u.entry k - (NewtonStep Real.sqrt (QRDecomp Real.sqrt ⟨L + 1, L, A⟩ ⟨L + 1, L + 1, Q0⟩).2 (QRDecomp Real.sqrt ⟨L + 1, L, A⟩ ⟨L + 1, L + 1, Q0⟩).1 u y).1.entry k)) (fun m hm1 hm2 => by
      simp only [mul_sub, Finset.sum_sub_distrib]
      rw [hs2 m hm1 hm2]
      have := hsol m hm1 hm2
      simp only [mul_sub, Finset.sum_sub_distrib] at this
      rw [this, sub_self])
    have h0 := horth _ hd
    have key : ∑ k ∈ Finset.Icc 1 (L + 1), s2 k ^ 2 =
        ∑ k ∈ Finset.Icc 1 (L + 1),
          (u.entry k - (NewtonStep Real.sqrt (QRDecomp Real.sqrt ⟨L + 1, L, A⟩ ⟨L + 1, L + 1, Q0⟩).2 (QRDecomp Real.sqrt ⟨L + 1, L, A⟩ ⟨L + 1, L + 1, Q0⟩).1 u y).1.entry k) ^ 2 +
        2 * ∑ k ∈ Finset.Icc 1 (L + 1),
          (u.entry k - (NewtonStep Real.sqrt (QRDecomp Real.sqrt ⟨L + 1, L, A⟩ ⟨L + 1, L + 1, Q0⟩).2 (QRDecomp Real.sqrt ⟨L + 1, L, A⟩ ⟨L + 1, L + 1, Q0⟩).1 u y).1.entry k) *
            (s2 k - (u.entry k - (NewtonStep Real.sqrt (QRDecomp Real.sqrt ⟨L + 1, L, A⟩ ⟨L + 1, L + 1, Q0⟩).2 (QRDecomp Real.sqrt ⟨L + 1, L, A⟩ ⟨L + 1, L + 1, Q0⟩).1 u y).1.entry k)) +
        ∑ k ∈ Finset.Icc 1 (L + 1),
          (s2 k - (u.entry k - (NewtonStep Real.sqrt (QRDecomp Real.sqrt ⟨L + 1, L, A⟩ ⟨L + 1, L + 1, Q0⟩).2 (QRDecomp Real.sqrt ⟨L + 1, L, A⟩ ⟨L + 1, L + 1, Q0⟩).1 u y).1.entry k)) ^ 2 := by
      rw [Finset.mul_sum, ← Finset.sum_add_distrib, ← Finset.sum_add_distrib]
      exact Finset.sum_congr rfl (fun k _ => by ring)
    rw [key, h0]
    have : 0 ≤ ∑ k ∈ Finset.Icc 1 (L + 1),
        (s2 k - (u.entry k - (NewtonStep Real.sqrt (QRDecomp Real.sqrt ⟨L + 1, L, A⟩ ⟨L + 1, L + 1, Q0⟩).2 (QRDecomp Real.sqrt ⟨L + 1, L, A⟩ ⟨L + 1, L + 1, Q0⟩).1 u y).1.entry k)) ^ 2 :=
      Finset.sum_nonneg (fun k _ => sq_nonneg _)
    linarith

/-- Witness for C21: the 3x2 matrix with rows `(1, 1)`, `(0, 1)`, `(0, 0)`, which is its own
triangular factor with pivots 1, `u = (0, 0, 0)` and `y = (1, 1)`. -/
theorem NewtonStep_solves_linearised_witness :
    ∑ k ∈ Finset.Icc 1 (2 + 1), (exampleTriangular ℝ).entry k 1 *
      ((constVector 3 (0 : ℝ)).entry k - (NewtonStep Real.sqrt
        (QRDecomp Real.sqrt ⟨2 + 1, 2, (exampleTriangular ℝ).entry⟩
          ⟨2 + 1, 2 + 1, fun _ _ => 0⟩).2
        (QRDecomp Real.sqrt ⟨2 + 1, 2, (exampleTriangular ℝ).entry⟩
          ⟨2 + 1, 2 + 1, fun _ _ => 0⟩).1
        (constVector 3 0) (constVector 2 1)).1.entry k) = (constVector 2 (1 : ℝ)).entry 1 :=
  (NewtonStep_solves_linearised 2 (exampleTriangular ℝ).entry (fun _ _ => 0) (constVector 3 0)
    (constVector 2 1) (by
      intro k hk1 hk2
      have hq : QRDecomp Real.sqrt ⟨2 + 1, 2, (exampleTriangular ℝ).entry⟩
          ⟨2 + 1, 2 + 1, fun _ _ => 0⟩ =
          (⟨2 + 1, 2, (exampleTriangular ℝ).entry⟩,
            GMatrix.MakeIdent ⟨2 + 1, 2 + 1, fun _ _ => 0⟩) := by
        apply QRDecomp_upper_triangular
        · intro m hm1 hm2
          have hm : m = 1 ∨ m = 2 := by
            have : m ≤ 2 := hm2
            omega
          rcases hm with h | h <;> subst h <;> simp [exampleTriangular]
        · intro k m hm1 hm2 hmk hk
          have hm : m ≤ 2 := hm2
          have hk3 : k ≤ 3 := hk
          have : (m = 1 ∧ k = 2) ∨ (m = 1 ∧ k = 3) ∨ (m = 2 ∧ k = 3) := by omega
          rcases this with ⟨h1, h2⟩ | ⟨h1, h2⟩ | ⟨h1, h2⟩ <;> subst h1 <;> subst h2 <;>
            simp [exampleTriangular]
      rw [hq]
      have hk : k = 1 ∨ k = 2 := by omega
      rcases hk with h | h <;> subst h <;> simp [exampleTriangular])).1 1 (le_refl 1)
    (by norm_num)

/-! ## The simplex constraint under Newton steps (C30) -/

theorem gmax_eq_max {α : Type} [LinearOrderedField α] (a b : α) : gmax a b = max a b := by
  unfold gmax
  split_ifs with h
  · exact (max_eq_left (le_of_lt h)).symm
  · exact (max_eq_right (not_lt.mp h)).symm

/-- One iteration of the corrector loop, with `d` the distance returned by `NewtonStep`. -/
theorem Corrector_succ {α : Type} [LinearOrderedField α] (sqrt exp log : α → α)
    (cfg : Globals α) (g : Game α) (I : GVector Bool) (q b : GMatrix α) (n : Nat)
    (u y : GVector α) (decel : α) (iter : Nat) (disto : α) :
    Corrector sqrt exp log cfg g I q b (n + 1) u y decel iter disto =
      if (NewtonStep sqrt q b u (QreLHS exp log g u I y)).2.2 ≥ c_maxDist then
        some ⟨(NewtonStep sqrt q b u (QreLHS exp log g u I y)).1,
          (NewtonStep sqrt q b u (QreLHS exp log g u I y)).2.1, decel, false⟩
      else if iter ≥ 2 ∧ (NewtonStep sqrt q b u (QreLHS exp log g u I y)).2.2 /
          (disto + c_tol * c_eta) > c_maxContr then
        some ⟨(NewtonStep sqrt q b u (QreLHS exp log g u I y)).1,
          (NewtonStep sqrt q b u (QreLHS exp log g u I y)).2.1,
          gmax decel (sqrt ((NewtonStep sqrt q b u (QreLHS exp log g u I y)).2.2 / c_maxDist) *
            cfg.g_maxDecel), false⟩
      else if (NewtonStep sqrt q b u (QreLHS exp log g u I y)).2.2 ≤ c_tol then
        some ⟨(NewtonStep sqrt q b u (QreLHS exp log g u I y)).1,
          (NewtonStep sqrt q b u (QreLHS exp log g u I y)).2.1,
          (if iter ≥ 2 then
            gmax (gmax decel
                (sqrt ((NewtonStep sqrt q b u (QreLHS exp log g u I y)).2.2 / c_maxDist) *
                  cfg.g_maxDecel))
              (sqrt ((NewtonStep sqrt q b u (QreLHS exp log g u I y)).2.2 /
                (disto + c_tol * c_eta) / c_maxContr) * cfg.g_maxDecel)
           else gmax decel
              (sqrt ((NewtonStep sqrt q b u (QreLHS exp log g u I y)).2.2 / c_maxDist) *
                cfg.g_maxDecel)), true⟩
      else
        Corrector sqrt exp log cfg g I q b n
          (NewtonStep sqrt q b u (QreLHS exp log g u I y)).1
          (NewtonStep sqrt q b u (QreLHS exp log g u I y)).2.1
          (if iter ≥ 2 then
            gmax (gmax decel
                (sqrt ((NewtonStep sqrt q b u (QreLHS exp log g u I y)).2.2 / c_maxDist) *
                  cfg.g_maxDecel))
              (sqrt ((NewtonStep sqrt q b u (QreLHS exp log g u I y)).2.2 /
                (disto + c_tol * c_eta) / c_maxContr) * cfg.g_maxDecel)
           else gmax decel
              (sqrt ((NewtonStep sqrt q b u (QreLHS exp log g u I y)).2.2 / c_maxDist) *
                cfg.g_maxDecel))
          (iter + 1) (NewtonStep sqrt q b u (QreLHS exp log g u I y)).2.2 := rfl

/-- One iteration of the corrector loop, for the list of distances. -/
theorem CorrectorDists_succ {α : Type} [LinearOrderedField α] (sqrt exp log : α → α)
    (g : Game α) (I : GVector Bool) (q b : GMatrix α) (n : Nat)
    (u y : GVector α) (iter : Nat) (disto : α) :
    CorrectorDists sqrt exp log g I q b (n + 1) u y iter disto =
      if (NewtonStep sqrt q b u (QreLHS exp log g u I y)).2.2 ≥ c_maxDist then
        [(NewtonStep sqrt q b u (QreLHS exp log g u I y)).2.2]
      else if iter ≥ 2 ∧ (NewtonStep sqrt q b u (QreLHS exp log g u I y)).2.2 /
          (disto + c_tol * c_eta) > c_maxContr then
        [(NewtonStep sqrt q b u (QreLHS exp log g u I y)).2.2]
      else if (NewtonStep sqrt q b u (QreLHS exp log g u I y)).2.2 ≤ c_tol then
        [(NewtonStep sqrt q b u (QreLHS exp log g u I y)).2.2]
      else
        (NewtonStep sqrt q b u (QreLHS exp log g u I y)).2.2 ::
          CorrectorDists sqrt exp log g I q b n
            (NewtonStep sqrt q b u (QreLHS exp log g u I y)).1
            (NewtonStep sqrt q b u (QreLHS exp log g u I y)).2.1
            (iter + 1) (NewtonStep sqrt q b u (QreLHS exp log g u I y)).2.2 := rfl

/-- A distance that passes the contraction test after a distance above the tolerance is not
larger than that distance. -/
theorem contraction_decreases (d disto : ℝ) (hprev : c_tol < disto)
    (hc : ¬ (d / (disto + c_tol * c_eta) > c_maxContr)) : d ≤ disto := by
  unfold c_tol at hprev
  unfold c_tol c_eta c_maxContr at hc
  have hpos : 0 < disto + 1 / 10000 * (1 / 10) := by linarith
  have h1 : d / (disto + 1 / 10000 * (1 / 10)) ≤ 6 / 10 := not_lt.mp hc
  rw [div_le_iff₀ hpos] at h1
  linarith

/-- From the second iteration on, with the previous distance above the tolerance and already
accounted for in `decel`, an accepted corrector run ends with `decel` raised by the
contraction-based terms only. -/
theorem Corrector_decel_tail (cfg : Globals ℝ) (g : Game ℝ) (I : GVector Bool)
    (q b : GMatrix ℝ) (hD : 0 < cfg.g_maxDecel) (fuel : Nat) :
    ∀ (u y : GVector ℝ) (decel : ℝ) (iter : Nat) (disto : ℝ) (c : CorrectorResult ℝ),
      2 ≤ iter → c_tol < disto → Real.sqrt (disto / c_maxDist) * cfg.g_maxDecel ≤ decel →
      Corrector Real.sqrt Real.exp Real.log cfg g I q b fuel u y decel iter disto = some c →
      c.accept = true →
      c.decel = (specContrTerms Real.sqrt cfg.g_maxDecel disto
        (CorrectorDists Real.sqrt Real.exp Real.log g I q b fuel u y iter disto)).foldl max
          decel := by
  induction fuel with
  | zero =>
    intro u y decel iter disto c _ _ _ h
    simp [Corrector] at h
  | succ n ih =>
    intro u y decel iter disto c hiter hprev hdec h hacc
    rw [Corrector_succ] at h
    rw [CorrectorDists_succ]
    generalize (NewtonStep Real.sqrt q b u (QreLHS Real.exp Real.log g u I y)).2.2 = d at h ⊢
    generalize (NewtonStep Real.sqrt q b u (QreLHS Real.exp Real.log g u I y)).1 = u2 at h ⊢
    generalize (NewtonStep Real.sqrt q b u (QreLHS Real.exp Real.log g u I y)).2.1 = y2 at h ⊢
    by_cases h1 : d ≥ c_maxDist
    · rw [if_pos h1] at h
      cases h
      cases hacc
    rw [if_neg h1] at h ⊢
    by_cases h2 : iter ≥ 2 ∧ d / (disto + c_tol * c_eta) > c_maxContr
    · rw [if_pos h2] at h
      cases h
      cases hacc
    rw [if_neg h2] at h ⊢
    have hcontr : ¬ (d / (disto + c_tol * c_eta) > c_maxContr) := fun hh => h2 ⟨hiter, hh⟩
    have hle : d ≤ disto := contraction_decreases d disto hprev hcontr
    have hterm : Real.sqrt (d / c_maxDist) * cfg.g_maxDecel ≤ decel := by
      refine le_trans ?_ hdec
      apply mul_le_mul_of_nonneg_right _ (le_of_lt hD)
      apply Real.sqrt_le_sqrt
      unfold c_maxDist
      apply div_le_div_of_nonneg_right hle (by norm_num)
    have hg1 : gmax decel (Real.sqrt (d / c_maxDist) * cfg.g_maxDecel) = decel := by
      rw [gmax_eq_max, max_eq_left hterm]
    rw [if_pos hiter, hg1, gmax_eq_max] at h
    by_cases h3 : d ≤ c_tol
    · rw [if_pos h3] at h ⊢
      cases h
      rfl
    · rw [if_neg h3] at h ⊢
      have := ih u2 y2 _ (iter + 1) d c (by omega) (not_le.mp h3)
        (le_trans hterm (le_max_left _ _)) h hacc
      rw [this]
      rfl

/-- C22: deceleration factor. For every maximum deceleration `D > 0` and every accepted
corrector run, started as `TracePath` starts it (`decel = 1/D`, `iter = 1`, `disto = 0`), with
Newton distances `d_1, ..., d_n`, the value of `decel` when the loop exits is
`max(1/D, sqrt(d_1/c_maxDist)*D, max over 2 <= j <= n of sqrt(contr_j/c_maxContr)*D)` with
`contr_j = d_j/(d_{j-1} + c_tol*c_eta)`, the value `specDecel` that takes the distance-based
term at iteration 1 only: the re-application of the distance-based term by the code at every
later iteration never changes the result. -/
theorem Corrector_decel_spec (cfg : Globals ℝ) (g : Game ℝ) (I : GVector Bool)
    (q b : GMatrix ℝ) (hD : 0 < cfg.g_maxDecel) (fuel : Nat) (u y : GVector ℝ)
    (c : CorrectorResult ℝ)
    (h : Corrector Real.sqrt Real.exp Real.log cfg g I q b fuel u y (1 / cfg.g_maxDecel) 1 0
      = some c)
    (hacc : c.accept = true) :
    c.decel = specDecel Real.sqrt cfg.g_maxDecel
      (CorrectorDists Real.sqrt Real.exp Real.log g I q b fuel u y 1 0) := by
  cases fuel with
  | zero => simp [Corrector] at h
  | succ n =>
    rw [Corrector_succ] at h
    rw [CorrectorDists_succ]
    generalize (NewtonStep Real.sqrt q b u (QreLHS Real.exp Real.log g u I y)).2.2 = d at h ⊢
    generalize (NewtonStep Real.sqrt q b u (QreLHS Real.exp Real.log g u I y)).1 = u2 at h ⊢
    generalize (NewtonStep Real.sqrt q b u (QreLHS Real.exp Real.log g u I y)).2.1 = y2 at h ⊢
    have h12 : ¬ (1 ≥ 2) := by omega
    have h2 : ¬ (1 ≥ 2 ∧ d / (0 + c_tol * c_eta) > c_maxContr) := fun hh => h12 hh.1
    by_cases h1 : d ≥ c_maxDist
    · rw [if_pos h1] at h
      cases h
      cases hacc
    rw [if_neg h1, if_neg h2, if_neg h12, gmax_eq_max] at h
    rw [if_neg h1, if_neg h2]
    by_cases h3 : d ≤ c_tol
    · rw [if_pos h3] at h ⊢
      cases h
      rfl
    · rw [if_neg h3] at h ⊢
      have := Corrector_decel_tail cfg g I q b hD n u2 y2 _ (1 + 1) d c (le_refl 2)
        (not_le.mp h3) (le_max_right _ _) h hacc
      rw [this]
      rfl

/-- Witness for C22: a corrector run on the one-strategy game with the default settings,
started at `u = (1; 1)`, where the residual is 0: it accepts at once with distance 0. -/
theorem Corrector_decel_spec_witness :
    ∃ c, Corrector Real.sqrt Real.exp Real.log (mainInit : MainState ℝ).globals (trivialGame ℝ)
        linearPolicy ⟨2, 2, fun _ _ => 0⟩ ⟨2, 1, fun _ _ => 1⟩ 1 (constVector 2 1)
        (constVector 1 0) (1 / (mainInit : MainState ℝ).globals.g_maxDecel) 1 0 = some c ∧
      c.accept = true ∧
      c.decel = specDecel Real.sqrt (mainInit : MainState ℝ).globals.g_maxDecel
        (CorrectorDists Real.sqrt Real.exp Real.log (trivialGame ℝ) linearPolicy
          ⟨2, 2, fun _ _ => 0⟩ ⟨2, 1, fun _ _ => 1⟩ 1 (constVector 2 1) (constVector 1 0) 1 0) :=
  ⟨_, Corrector_on_curve (mainInit : MainState ℝ).globals (trivialGame ℝ) linearPolicy
      ⟨2, 2, fun _ _ => 0⟩ ⟨2, 1, fun _ _ => 1⟩ 0 (constVector 2 1) (constVector 1 0) _
      (fun k hk1 hk2 => by
        have hk : k = 1 := by
          have : k ≤ 1 := hk2
          omega
        subst hk
        rw [trivialGame_QreLHS _ _ _ rfl]
        simp [constVector]),
    rfl,
    Corrector_decel_spec (mainInit : MainState ℝ).globals (trivialGame ℝ) linearPolicy
      ⟨2, 2, fun _ _ => 0⟩ ⟨2, 1, fun _ _ => 1⟩ (by simp only [mainInit]; norm_num) 1
      (constVector 2 1) (constVector 1 0) _
      (Corrector_on_curve (mainInit : MainState ℝ).globals (trivialGame ℝ) linearPolicy
        ⟨2, 2, fun _ _ => 0⟩ ⟨2, 1, fun _ _ => 1⟩ 0 (constVector 2 1) (constVector 1 0) _
        (fun k hk1 hk2 => by
          have hk : k = 1 := by
            have : k ≤ 1 := hk2
            omega
          subst hk
          rw [trivialGame_QreLHS _ _ _ rfl]
          simp [constVector]))
      rfl⟩

/-- The corrector loop cannot reach its 19th iteration: the bound on the previous distance that
holds on entering iteration `iter >= 19` contradicts its being above the tolerance. -/
theorem corrector_bound_contra (iter : Nat) (disto : ℝ) (hiter : 19 ≤ iter)
    (hprev : c_tol < disto)
    (hb : disto ≤ (6 / 10 : ℝ) ^ (iter - 2) * (4 / 10) + 15 / 1000000) : False := by
  unfold c_tol at hprev
  have h1 : (6 / 10 : ℝ) ^ (iter - 2) ≤ (6 / 10 : ℝ) ^ 17 :=
    pow_le_pow_of_le_one (by norm_num) (by norm_num) (by omega)
  have h2 : (6 / 10 : ℝ) ^ 17 * (4 / 10) + 15 / 1000000 < 1 / 10000 := by norm_num
  nlinarith

/-- The bound on the distance carried from one iteration of the corrector loop to the next. -/
theorem corrector_bound_step (iter : Nat) (d disto : ℝ) (hiter : 2 ≤ iter)
    (hprev : c_tol < disto)
    (hb : disto ≤ (6 / 10 : ℝ) ^ (iter - 2) * (4 / 10) + 15 / 1000000)
    (hc : ¬ (iter ≥ 2 ∧ d / (disto + c_tol * c_eta) > c_maxContr)) :
    d ≤ (6 / 10 : ℝ) ^ (iter + 1 - 2) * (4 / 10) + 15 / 1000000 := by
  have e : iter + 1 - 2 = (iter - 2) + 1 := by omega
  rw [e, pow_succ]
  have hc2 : ¬ (d / (disto + c_tol * c_eta) > c_maxContr) := fun hh => hc ⟨hiter, hh⟩
  unfold c_tol at hprev
  unfold c_tol c_eta c_maxContr at hc2
  have hpos : 0 < disto + 1 / 10000 * (1 / 10) := by linarith
  have h1 : d / (disto + 1 / 10000 * (1 / 10)) ≤ 6 / 10 := not_lt.mp hc2
  rw [div_le_iff₀ hpos] at h1
  nlinarith

/-- From the second iteration on the corrector loop exits before its 19th iteration. -/
theorem Corrector_terminates_tail (cfg : Globals ℝ) (g : Game ℝ) (I : GVector Bool)
    (q b : GMatrix ℝ) (fuel : Nat) :
    ∀ (u y : GVector ℝ) (decel : ℝ) (iter : Nat) (disto : ℝ),
      2 ≤ iter → 19 ≤ fuel + iter → c_tol < disto →
      disto ≤ (6 / 10 : ℝ) ^ (iter - 2) * (4 / 10) + 15 / 1000000 →
      (∃ c, Corrector Real.sqrt Real.exp Real.log cfg g I q b fuel u y decel iter disto
        = some c) := by
  induction fuel with
  | zero =>
    intro u y decel iter disto _ hf hprev hb
    exact absurd (corrector_bound_contra iter disto (by omega) hprev hb) id
  | succ n ih =>
    intro u y decel iter disto hiter hf hprev hb
    rw [Corrector_succ]
    by_cases h1 : (NewtonStep Real.sqrt q b u (QreLHS Real.exp Real.log g u I y)).2.2
        ≥ c_maxDist
    · rw [if_pos h1]; exact ⟨_, rfl⟩
    rw [if_neg h1]
    by_cases h2 : iter ≥ 2 ∧ (NewtonStep Real.sqrt q b u
        (QreLHS Real.exp Real.log g u I y)).2.2 / (disto + c_tol * c_eta) > c_maxContr
    · rw [if_pos h2]; exact ⟨_, rfl⟩
    rw [if_neg h2]
    by_cases h3 : (NewtonStep Real.sqrt q b u (QreLHS Real.exp Real.log g u I y)).2.2 ≤ c_tol
    · rw [if_pos h3]; exact ⟨_, rfl⟩
    rw [if_neg h3]
    exact ih _ _ _ (iter + 1) _ (by omega) (by omega) (not_le.mp h3)
      (corrector_bound_step iter _ disto hiter hprev hb h2)

/-- The corrector loop, started at iteration 1, exits within 18 iterations. -/
theorem Corrector_terminates_first (cfg : Globals ℝ) (g : Game ℝ) (I : GVector Bool)
    (q b : GMatrix ℝ) (fuel : Nat) (hf : 18 ≤ fuel) (u y : GVector ℝ) (decel disto : ℝ) :
    ∃ c, Corrector Real.sqrt Real.exp Real.log cfg g I q b fuel u y decel 1 disto = some c := by
  obtain ⟨n, rfl⟩ : ∃ n, fuel = n + 1 := ⟨fuel - 1, by omega⟩
  rw [Corrector_succ]
  by_cases h1 : (NewtonStep Real.sqrt q b u (QreLHS Real.exp Real.log g u I y)).2.2
      ≥ c_maxDist
  · rw [if_pos h1]; exact ⟨_, rfl⟩
  rw [if_neg h1]
  have h2 : ¬ (1 ≥ 2 ∧ (NewtonStep Real.sqrt q b u
      (QreLHS Real.exp Real.log g u I y)).2.2 / (disto + c_tol * c_eta) > c_maxContr) :=
    fun hh => absurd hh.1 (by omega)
  rw [if_neg h2]
  by_cases h3 : (NewtonStep Real.sqrt q b u (QreLHS Real.exp Real.log g u I y)).2.2 ≤ c_tol
  · rw [if_pos h3]; exact ⟨_, rfl⟩
  rw [if_neg h3]
  apply Corrector_terminates_tail cfg g I q b n _ _ _ (1 + 1) _ (le_refl 2) (by omega)
    (not_le.mp h3)
  have : (NewtonStep Real.sqrt q b u (QreLHS Real.exp Real.log g u I y)).2.2 < c_maxDist :=
    not_le.mp h1
  unfold c_maxDist at this
  norm_num
  linarith

/-- More iterations allowed do not change the result of a corrector run that has exited. -/
theorem Corrector_mono {α : Type} [LinearOrderedField α] (sqrt exp log : α → α)
    (cfg : Globals α) (g : Game α) (I : GVector Bool) (q b : GMatrix α) (n : Nat) :
    ∀ (u y : GVector α) (decel : α) (iter : Nat) (disto : α) (c : CorrectorResult α) (m : Nat),
      Corrector sqrt exp log cfg g I q b n u y decel iter disto = some c → n ≤ m →
      Corrector sqrt exp log cfg g I q b m u y decel iter disto = some c := by
  induction n with
  | zero =>
    intro u y decel iter disto c m h
    simp [Corrector] at h
  | succ n ih =>
    intro u y decel iter disto c m h hm
    obtain ⟨k, rfl⟩ : ∃ k, m = k + 1 := ⟨m - 1, by omega⟩
    rw [Corrector_succ] at h ⊢
    split_ifs at h ⊢ <;> first | exact h | exact ih _ _ _ _ _ _ k h (by omega)

/-! ## The step after the corrector -/

/-- An iteration of the main loop whose step is above `c_hmin` and whose corrector run accepts
continues with the accepted-step part `TracePathAccept`. -/
theorem TracePathBody_accept {α : Type} [LinearOrderedField α] (sqrt exp log : α → α)
    (cfg : Globals α) (g : Game α) (cfuel : Nat) (s : TraceState α) (c : CorrectorResult α)
    (hh : ¬ |s.h| ≤ c_hmin)
    (hc : Corrector sqrt exp log cfg g s.isLog
      (QRDecomp sqrt (QreJacobian exp log g (Predictor s) s.isLog s.b) s.q).2
      (QRDecomp sqrt (QreJacobian exp log g (Predictor s) s.isLog s.b) s.q).1
      cfuel (Predictor s) s.y (1 / cfg.g_maxDecel) 1 0 = some c)
    (hacc : c.accept = true) :
    TracePathBody sqrt exp log cfg g cfuel s =
      some (TracePathAccept sqrt exp log cfg g
        { s with
          u := c.u, y := c.y,
          b := (QRDecomp sqrt (QreJacobian exp log g (Predictor s) s.isLog s.b) s.q).1,
          q := (QRDecomp sqrt (QreJacobian exp log g (Predictor s) s.isLog s.b) s.q).2 }
        c.decel, Flow.next) := by
  unfold TracePathBody
  rw [if_neg hh]
  simp only [hc, hacc, not_true_eq_false, if_false]

/-- An iteration of the main loop whose step is above `c_hmin` and whose corrector run rejects
divides the step by `g_maxDecel` (line 479) and then stops, pops or continues. -/
theorem TracePathBody_reject {α : Type} [LinearOrderedField α] (sqrt exp log : α → α)
    (cfg : Globals α) (g : Game α) (cfuel : Nat) (s : TraceState α) (c : CorrectorResult α)
    (hh : ¬ |s.h| ≤ c_hmin)
    (hc : Corrector sqrt exp log cfg g s.isLog
      (QRDecomp sqrt (QreJacobian exp log g (Predictor s) s.isLog s.b) s.q).2
      (QRDecomp sqrt (QreJacobian exp log g (Predictor s) s.isLog s.b) s.q).1
      cfuel (Predictor s) s.y (1 / cfg.g_maxDecel) 1 0 = some c)
    (hacc : c.accept = false) :
    TracePathBody sqrt exp log cfg g cfuel s =
      if |s.h / cfg.g_maxDecel| ≤ c_hmin then
        if s.newton then
          some (TracePathPop sqrt exp log g
            { s with
              u := c.u, y := c.y,
              b := (QRDecomp sqrt (QreJacobian exp log g (Predictor s) s.isLog s.b) s.q).1,
              q := (QRDecomp sqrt (QreJacobian exp log g (Predictor s) s.isLog s.b) s.q).2,
              h := s.h / cfg.g_maxDecel }, Flow.next)
        else
          some ({ s with
              u := c.u, y := c.y,
              b := (QRDecomp sqrt (QreJacobian exp log g (Predictor s) s.isLog s.b) s.q).1,
              q := (QRDecomp sqrt (QreJacobian exp log g (Predictor s) s.isLog s.b) s.q).2,
              h := s.h / cfg.g_maxDecel }, Flow.ret)
      else
        some ({ s with
            u := c.u, y := c.y,
            b := (QRDecomp sqrt (QreJacobian exp log g (Predictor s) s.isLog s.b) s.q).1,
            q := (QRDecomp sqrt (QreJacobian exp log g (Predictor s) s.isLog s.b) s.q).2,
            h := s.h / cfg.g_maxDecel }, Flow.next) := by
  unfold TracePathBody
  rw [if_neg hh]
  simp only [hc, hacc, Bool.false_eq_true, not_false_eq_true, if_true]

/-- The corrector loop never lowers `decel`. -/
theorem Corrector_decel_ge {α : Type} [LinearOrderedField α] (sqrt exp log : α → α)
    (cfg : Globals α) (g : Game α) (I : GVector Bool) (q b : GMatrix α) (n : Nat) :
    ∀ (u y : GVector α) (decel : α) (iter : Nat) (disto : α) (c : CorrectorResult α),
      Corrector sqrt exp log cfg g I q b n u y decel iter disto = some c → decel ≤ c.decel := by
  have hg : ∀ a b : α, a ≤ gmax a b := fun a b => by
    rw [gmax_eq_max]; exact le_max_left a b
  induction n with
  | zero =>
    intro u y decel iter disto c h
    simp [Corrector] at h
  | succ n ih =>
    intro u y decel iter disto c h
    rw [Corrector_succ] at h
    split_ifs at h <;>
      first
      | (cases h; exact le_refl _)
      | (cases h; exact hg _ _)
      | (cases h; exact le_trans (hg _ _) (hg _ _))
      | exact le_trans (hg _ _) (ih _ _ _ _ _ _ h)
      | exact le_trans (le_trans (hg _ _) (hg _ _)) (ih _ _ _ _ _ _ h)

/-- The step, the tangent, the orientation and the mode flag after the accepted-step part of
an iteration, with `a = DiffLogLike(x, isLog, t)` and `b = DiffLogLike(u, isLog, newT)`. -/
theorem TracePathAccept_fields {α : Type} [LinearOrderedField α] (sqrt exp log : α → α)
    (cfg : Globals α) (g : Game α) (s : TraceState α) (decel : α) :
    (TracePathAccept sqrt exp log cfg g s decel).newton =
      (if cfg.g_maxLike = true ∧ ¬ s.restarting = true ∧
          DiffLogLike cfg.g_obsProbs s.x s.isLog s.t *
            DiffLogLike cfg.g_obsProbs s.u s.isLog (s.q.GetRow s.q.NumRows s.t) < 0
        then true else s.newton) ∧
    (TracePathAccept sqrt exp log cfg g s decel).h =
      (if (TracePathAccept sqrt exp log cfg g s decel).newton = true then
        s.h * (-DiffLogLike cfg.g_obsProbs s.u s.isLog (s.q.GetRow s.q.NumRows s.t) /
          (DiffLogLike cfg.g_obsProbs s.u s.isLog (s.q.GetRow s.q.NumRows s.t) -
            DiffLogLike cfg.g_obsProbs s.x s.isLog s.t))
       else |s.h / (if decel > cfg.g_maxDecel then cfg.g_maxDecel else decel)|) ∧
    (TracePathAccept sqrt exp log cfg g s decel).p_omega =
      (if s.t.dot (TracePathAccept sqrt exp log cfg g s decel).t < 0 then -s.p_omega
        else s.p_omega) ∧
    (TracePathAccept sqrt exp log cfg g s decel).t.Length = s.t.Length ∧
    (TracePathAccept sqrt exp log cfg g s decel).restarting = false := by
  have hcond : (cfg.g_maxLike = true ∧ ¬ s.restarting = true ∧
          DiffLogLike cfg.g_obsProbs s.x s.isLog s.t *
            DiffLogLike cfg.g_obsProbs s.u s.isLog (s.q.GetRow s.q.NumRows s.t) < 0) ∨
      ¬ (cfg.g_maxLike = true ∧ ¬ s.restarting = true ∧
          DiffLogLike cfg.g_obsProbs s.x s.isLog s.t *
            DiffLogLike cfg.g_obsProbs s.u s.isLog (s.q.GetRow s.q.NumRows s.t) < 0) :=
    Classical.em _
  unfold TracePathAccept
  dsimp only
  rcases hcond with hp | hp
  · rw [if_pos hp, if_pos hp.1, if_pos hp.2]
    refine ⟨rfl, ?_, rfl, rfl, rfl⟩
    simp only [if_true]
  · rw [if_neg hp]
    by_cases hm : cfg.g_maxLike = true
    · have hp2 : ¬ (¬ s.restarting = true ∧
          DiffLogLike cfg.g_obsProbs s.x s.isLog s.t *
            DiffLogLike cfg.g_obsProbs s.u s.isLog (s.q.GetRow s.q.NumRows s.t) < 0) :=
        fun h => hp ⟨hm, h⟩
      rw [if_pos hm, if_neg hp2]
      exact ⟨rfl, rfl, rfl, rfl, rfl⟩
    · rw [if_neg hm]
      exact ⟨rfl, rfl, rfl, rfl, rfl⟩

/-- The clamped deceleration of an accepted step lies in `[1/D, D]` and the step `|h/decel|`
in `[|h|/D, |h|*D]`, when `D >= 1` and the corrector's `decel` is at least `1/D`. -/
theorem clamp_bounds (h D decel : ℝ) (hD : 1 ≤ D) (hd : 1 / D ≤ decel) :
    1 / D ≤ (if decel > D then D else decel) ∧ (if decel > D then D else decel) ≤ D ∧
    |h| / D ≤ |h / (if decel > D then D else decel)| ∧
    |h / (if decel > D then D else decel)| ≤ |h| * D ∧
    0 ≤ |h / (if decel > D then D else decel)| := by
  have hD0 : 0 < D := by linarith
  have h1 : 1 / D ≤ D := by
    rw [div_le_iff₀ hD0]
    nlinarith
  have hlo : 1 / D ≤ (if decel > D then D else decel) := by
    split_ifs
    · exact h1
    · exact hd
  have hhi : (if decel > D then D else decel) ≤ D := by
    split_ifs with hc
    · exact le_refl _
    · exact not_lt.mp hc
  have hpos : 0 < (if decel > D then D else decel) := lt_of_lt_of_le (by positivity) hlo
  refine ⟨hlo, hhi, ?_, ?_, abs_nonneg _⟩
  · rw [abs_div, abs_of_pos hpos]
    exact div_le_div_of_nonneg_left (abs_nonneg h) hpos hhi
  · rw [abs_div, abs_of_pos hpos, div_le_iff₀ hpos]
    have : 1 ≤ D * (if decel > D then D else decel) := by
      have := (div_le_iff₀ hD0).mp hlo
      linarith
    have h0 := abs_nonneg h
    nlinarith

/-- The bifurcation test `t * newT` is the inner product of the two tangents over the length
of the first. -/
theorem dot_eq_sum (v w : GVector ℝ) :
    v.dot w = ∑ k ∈ Finset.Icc 1 v.Length, v.entry k * w.entry k := by
  unfold GVector.dot
  rw [forLoop_sum]
  simp

/-- An orientation in `{-1, +1}` that is negated exactly when the inner product `d` of the old
and new tangents is negative keeps the oriented inner product non-negative. -/
theorem orientation_sum (n : Nat) (t t2 : Nat → ℝ) (w : ℝ) (hw : w = 1 ∨ w = -1) :
    0 ≤ ∑ k ∈ Finset.Icc 1 n,
      ((if ∑ k ∈ Finset.Icc 1 n, t k * t2 k < 0 then -w else w) * t2 k) * (w * t k) := by
  have e : ∀ w2 : ℝ, ∑ k ∈ Finset.Icc 1 n, (w2 * t2 k) * (w * t k) =
      w2 * w * ∑ k ∈ Finset.Icc 1 n, t k * t2 k := by
    intro w2
    rw [Finset.mul_sum]
    exact Finset.sum_congr rfl (fun k _ => by ring)
  rw [e]
  have hw2 : w * w = 1 := by rcases hw with h | h <;> rw [h] <;> norm_num
  split_ifs with hd
  · have : -w * w * ∑ k ∈ Finset.Icc 1 n, t k * t2 k =
        -(∑ k ∈ Finset.Icc 1 n, t k * t2 k) := by
      rw [neg_mul, hw2]; ring
    rw [this]
    linarith
  · rw [hw2, one_mul]
    exact not_lt.mp hd

/-- The secant step: for `a * b < 0` and `h ≠ 0` the value `h * (-b / (b - a))` is smaller in
magnitude than `h`, has the opposite sign, and is the root of the line through `(-h, a)` and
`(0, b)`. -/
theorem secant_arith (h a b : ℝ) (hh : h ≠ 0) (hab : a * b < 0) :
    |h * (-b / (b - a))| < |h| ∧ h * (-b / (b - a)) * h < 0 ∧
    b + h * (-b / (b - a)) * ((b - a) / h) = 0 ∧ b + -h * ((b - a) / h) = a := by
  have hba : b - a ≠ 0 := by
    intro e
    have : a = b := by linarith
    rw [this] at hab
    nlinarith [mul_self_nonneg b]
  have hneg : -b / (b - a) < 0 := by
    rcases lt_or_gt_of_ne hba with hlt | hgt
    · have hb : b < 0 := by
        by_contra hb
        have hb' : 0 ≤ b := not_lt.mp hb
        have ha : 0 < a := by linarith
        nlinarith
      exact div_neg_of_pos_of_neg (by linarith) hlt
    · have hb : 0 < b := by
        by_contra hb
        have hb' : b ≤ 0 := not_lt.mp hb
        have ha : a < 0 := by linarith
        nlinarith
      exact div_neg_of_neg_of_pos (by linarith) hgt
  have hlt1 : |-b / (b - a)| < 1 := by
    rw [abs_div, div_lt_one (abs_pos.mpr hba), abs_neg]
    rcases lt_or_gt_of_ne hba with hlt | hgt
    · have hb : b < 0 := by
        by_contra hb
        have hb' : 0 ≤ b := not_lt.mp hb
        have ha : 0 < a := by linarith
        nlinarith
      have ha : 0 < a := by
        by_contra ha
        have ha' : a ≤ 0 := not_lt.mp ha
        nlinarith
      rw [abs_of_neg hb, abs_of_neg hlt]
      linarith
    · have hb : 0 < b := by
        by_contra hb
        have hb' : b ≤ 0 := not_lt.mp hb
        have ha : a < 0 := by linarith
        nlinarith
      have ha : a < 0 := by
        by_contra ha
        have ha' : 0 ≤ a := not_lt.mp ha
        nlinarith
      rw [abs_of_pos hb, abs_of_pos hgt]
      linarith
  refine ⟨?_, ?_, ?_, ?_⟩
  · rw [abs_mul]
    have := abs_pos.mpr hh
    nlinarith
  · have : h * (-b / (b - a)) * h = (-b / (b - a)) * (h * h) := by ring
    rw [this]
    exact mul_neg_of_neg_of_pos hneg (mul_self_pos.mpr hh)
  · field_simp
    ring
  · field_simp
    ring

/-- On the one-strategy game the corrector run of the first iteration accepts the predictor
point after one iteration. -/
theorem trivialGame_corrector (cfg : Globals ℝ) (lam0 omega : ℝ) :
    Corrector Real.sqrt Real.exp Real.log cfg (trivialGame ℝ)
      (TracePathInit Real.sqrt Real.exp Real.log cfg (trivialGame ℝ)
        (trivialGame ℝ).centroid lam0 omega).isLog
      (QRDecomp Real.sqrt (QreJacobian Real.exp Real.log (trivialGame ℝ)
        (Predictor (TracePathInit Real.sqrt Real.exp Real.log cfg (trivialGame ℝ)
          (trivialGame ℝ).centroid lam0 omega))
        (TracePathInit Real.sqrt Real.exp Real.log cfg (trivialGame ℝ)
          (trivialGame ℝ).centroid lam0 omega).isLog
        (TracePathInit Real.sqrt Real.exp Real.log cfg (trivialGame ℝ)
          (trivialGame ℝ).centroid lam0 omega).b)
        (TracePathInit Real.sqrt Real.exp Real.log cfg (trivialGame ℝ)
          (trivialGame ℝ).centroid lam0 omega).q).2
      (QRDecomp Real.sqrt (QreJacobian Real.exp Real.log (trivialGame ℝ)
        (Predictor (TracePathInit Real.sqrt Real.exp Real.log cfg (trivialGame ℝ)
          (trivialGame ℝ).centroid lam0 omega))
        (TracePathInit Real.sqrt Real.exp Real.log cfg (trivialGame ℝ)
          (trivialGame ℝ).centroid lam0 omega).isLog
        (TracePathInit Real.sqrt Real.exp Real.log cfg (trivialGame ℝ)
          (trivialGame ℝ).centroid lam0 omega).b)
        (TracePathInit Real.sqrt Real.exp Real.log cfg (trivialGame ℝ)
          (trivialGame ℝ).centroid lam0 omega).q).1
      1
      (Predictor (TracePathInit Real.sqrt Real.exp Real.log cfg (trivialGame ℝ)
        (trivialGame ℝ).centroid lam0 omega))
      (TracePathInit Real.sqrt Real.exp Real.log cfg (trivialGame ℝ)
        (trivialGame ℝ).centroid lam0 omega).y
      (1 / cfg.g_maxDecel) 1 0 =
    some ⟨Predictor (TracePathInit Real.sqrt Real.exp Real.log cfg (trivialGame ℝ)
        (trivialGame ℝ).centroid lam0 omega),
      NewtonSolve
        (QRDecomp Real.sqrt (QreJacobian Real.exp Real.log (trivialGame ℝ)
          (Predictor (TracePathInit Real.sqrt Real.exp Real.log cfg (trivialGame ℝ)
            (trivialGame ℝ).centroid lam0 omega))
          (TracePathInit Real.sqrt Real.exp Real.log cfg (trivialGame ℝ)
            (trivialGame ℝ).centroid lam0 omega).isLog
          (TracePathInit Real.sqrt Real.exp Real.log cfg (trivialGame ℝ)
            (trivialGame ℝ).centroid lam0 omega).b)
          (TracePathInit Real.sqrt Real.exp Real.log cfg (trivialGame ℝ)
            (trivialGame ℝ).centroid lam0 omega).q).1
        (QreLHS Real.exp Real.log (trivialGame ℝ)
          (Predictor (TracePathInit Real.sqrt Real.exp Real.log cfg (trivialGame ℝ)
            (trivialGame ℝ).centroid lam0 omega))
          (TracePathInit Real.sqrt Real.exp Real.log cfg (trivialGame ℝ)
            (trivialGame ℝ).centroid lam0 omega).isLog
          (TracePathInit Real.sqrt Real.exp Real.log cfg (trivialGame ℝ)
            (trivialGame ℝ).centroid lam0 omega).y),
      gmax (1 / cfg.g_maxDecel) 0, true⟩ := by
  apply Corrector_on_curve
  intro k hk1 hk2
  rw [(QRDecomp_dims _ _).2, (QreJacobian_dims _ _ _ _ _ _).2,
    (trivialGame_init cfg lam0 omega).2.2.2.2.2.2] at hk2
  exact trivialGame_residual cfg lam0 omega k hk1 hk2

/-- The first step of the default run is above `c_hmin`. -/
theorem trivialGame_hmin (lam0 omega : ℝ) :
    ¬ |(TracePathInit Real.sqrt Real.exp Real.log (mainInit : MainState ℝ).globals
      (trivialGame ℝ) (trivialGame ℝ).centroid lam0 omega).h| ≤ c_hmin := by
  show ¬ |(mainInit : MainState ℝ).globals.g_hStart| ≤ c_hmin
  simp only [mainInit, c_hmin]
  rw [abs_of_pos (by norm_num)]
  norm_num

/-! ## Step-size bounds (C24) -/

/-- C24: step-size bounds. For every maximum deceleration `D = g_maxDecel >= 1` and every
iteration of the main loop whose step is above `c_hmin` and whose corrector run returns `c`:
on an accepted step the clamped deceleration `decel = min(c.decel, D)` satisfies
`1/D <= decel <= D`, the iteration continues, and when Newton-on-tangent mode is off after the
step the new step is `h_new = |h / decel|` with `|h|/D <= h_new <= |h|*D` and `h_new >= 0`;
on a rejected step the step becomes exactly `h / D` (line 479), which is the step of the
resulting state unless that state is popped (Newton mode with `|h/D| <= c_hmin`), where the
saved step `pushH` is restored instead. -/
theorem stepsize_bounds (cfg : Globals ℝ) (g : Game ℝ) (cfuel : Nat) (s : TraceState ℝ)
    (c : CorrectorResult ℝ) (hD : 1 ≤ cfg.g_maxDecel) (hh : ¬ |s.h| ≤ c_hmin)
    (hc : Corrector Real.sqrt Real.exp Real.log cfg g s.isLog
      (QRDecomp Real.sqrt (QreJacobian Real.exp Real.log g (Predictor s) s.isLog s.b) s.q).2
      (QRDecomp Real.sqrt (QreJacobian Real.exp Real.log g (Predictor s) s.isLog s.b) s.q).1
      cfuel (Predictor s) s.y (1 / cfg.g_maxDecel) 1 0 = some c) :
    (c.accept = true →
      1 / cfg.g_maxDecel ≤ (if c.decel > cfg.g_maxDecel then cfg.g_maxDecel else c.decel) ∧
      (if c.decel > cfg.g_maxDecel then cfg.g_maxDecel else c.decel) ≤ cfg.g_maxDecel ∧
      ∃ s2, TracePathBody Real.sqrt Real.exp Real.log cfg g cfuel s = some (s2, Flow.next) ∧
        (s2.newton = false →
          s2.h = |s.h / (if c.decel > cfg.g_maxDecel then cfg.g_maxDecel else c.decel)| ∧
          |s.h| / cfg.g_maxDecel ≤ s2.h ∧ s2.h ≤ |s.h| * cfg.g_maxDecel ∧ 0 ≤ s2.h)) ∧
    (c.accept = false →
      ∃ s2 f, TracePathBody Real.sqrt Real.exp Real.log cfg g cfuel s = some (s2, f) ∧
        (¬ (|s.h / cfg.g_maxDecel| ≤ c_hmin ∧ s.newton = true) →
          s2.h = s.h / cfg.g_maxDecel) ∧
        (|s.h / cfg.g_maxDecel| ≤ c_hmin ∧ s.newton = true → s2.h = s.pushH)) := by
  have hge := Corrector_decel_ge Real.sqrt Real.exp Real.log cfg g _ _ _ _ _ _ _ _ _ c hc
  obtain ⟨b1, b2, b3, b4, b5⟩ := clamp_bounds s.h cfg.g_maxDecel c.decel hD hge
  constructor
  · intro hacc
    refine ⟨b1, b2, _, TracePathBody_accept Real.sqrt Real.exp Real.log cfg g cfuel s c hh hc
      hacc, ?_⟩
    intro hn
    have hf := (TracePathAccept_fields Real.sqrt Real.exp Real.log cfg g
      { s with
        u := c.u, y := c.y,
        b := (QRDecomp Real.sqrt (QreJacobian Real.exp Real.log g (Predictor s) s.isLog s.b)
          s.q).1,
        q := (QRDecomp Real.sqrt (QreJacobian Real.exp Real.log g (Predictor s) s.isLog s.b)
          s.q).2 } c.decel).2.1
    rw [if_neg (by rw [hn]; exact Bool.false_ne_true)] at hf
    rw [hf]
    exact ⟨rfl, b3, b4, b5⟩
  · intro hacc
    rw [TracePathBody_reject Real.sqrt Real.exp Real.log cfg g cfuel s c hh hc hacc]
    by_cases h1 : |s.h / cfg.g_maxDecel| ≤ c_hmin
    · by_cases h2 : s.newton = true
      · rw [if_pos h1, if_pos h2]
        exact ⟨_, _, rfl, fun hne => absurd ⟨h1, h2⟩ hne, fun _ => rfl⟩
      · rw [if_pos h1, if_neg h2]
        exact ⟨_, _, rfl, fun _ => rfl, fun hp => absurd hp.2 h2⟩
    · rw [if_neg h1]
      exact ⟨_, _, rfl, fun _ => rfl, fun hp => absurd hp.1 h1⟩

/-- Witness for C24: the first iteration of the default run (`D = 1.1`, `h = 0.03`) on the
one-strategy game from `lambda0 = 0`. -/
theorem stepsize_bounds_witness :
    ∃ s2, TracePathBody Real.sqrt Real.exp Real.log (mainInit : MainState ℝ).globals
        (trivialGame ℝ) 1
        (TracePathInit Real.sqrt Real.exp Real.log (mainInit : MainState ℝ).globals
          (trivialGame ℝ) (trivialGame ℝ).centroid 0 1) = some (s2, Flow.next) ∧
      (s2.newton = false →
        |(TracePathInit Real.sqrt Real.exp Real.log (mainInit : MainState ℝ).globals
          (trivialGame ℝ) (trivialGame ℝ).centroid 0 1).h| / (11 / 10) ≤ s2.h ∧
        s2.h ≤ |(TracePathInit Real.sqrt Real.exp Real.log (mainInit : MainState ℝ).globals
          (trivialGame ℝ) (trivialGame ℝ).centroid 0 1).h| * (11 / 10) ∧ 0 ≤ s2.h) := by
  obtain ⟨-, -, s2, hb, hs⟩ := (stepsize_bounds (mainInit : MainState ℝ).globals
    (trivialGame ℝ) 1
    (TracePathInit Real.sqrt Real.exp Real.log (mainInit : MainState ℝ).globals
      (trivialGame ℝ) (trivialGame ℝ).centroid 0 1) _
    (by simp only [mainInit]; norm_num)
    (trivialGame_hmin 0 1)
    (trivialGame_corrector (mainInit : MainState ℝ).globals 0 1)).1 rfl
  exact ⟨s2, hb, fun hn => (hs hn).2⟩

/-! ## Orientation of traversal (C25) -/

/-- C25: orientation of traversal. For every orientation `omega` in `{-1, +1}` and every
iteration of the main loop whose step is above `c_hmin` and whose corrector run accepts, the
iteration continues in a state `s2` in which `omega` has been negated exactly when the inner
product `t_old . t_new` computed by the bifurcation check is negative and is otherwise
unchanged, and the new oriented tangent `omega_new * t_new` has a non-negative inner product
with the previous oriented tangent `omega_old * t_old`. -/
theorem orientation_preserved (cfg : Globals ℝ) (g : Game ℝ) (cfuel : Nat) (s : TraceState ℝ)
    (c : CorrectorResult ℝ) (hw : s.p_omega = 1 ∨ s.p_omega = -1) (hh : ¬ |s.h| ≤ c_hmin)
    (hc : Corrector Real.sqrt Real.exp Real.log cfg g s.isLog
      (QRDecomp Real.sqrt (QreJacobian Real.exp Real.log g (Predictor s) s.isLog s.b) s.q).2
      (QRDecomp Real.sqrt (QreJacobian Real.exp Real.log g (Predictor s) s.isLog s.b) s.q).1
      cfuel (Predictor s) s.y (1 / cfg.g_maxDecel) 1 0 = some c)
    (hacc : c.accept = true) :
    ∃ s2, TracePathBody Real.sqrt Real.exp Real.log cfg g cfuel s = some (s2, Flow.next) ∧
      s.t.dot s2.t = ∑ k ∈ Finset.Icc 1 s.t.Length, s.t.entry k * s2.t.entry k ∧
      s2.p_omega = (if s.t.dot s2.t < 0 then -s.p_omega else s.p_omega) ∧
      (s2.p_omega = 1 ∨ s2.p_omega = -1) ∧
      0 ≤ ∑ k ∈ Finset.Icc 1 s.t.Length,
        (s2.p_omega * s2.t.entry k) * (s.p_omega * s.t.entry k) := by
  refine ⟨_, TracePathBody_accept Real.sqrt Real.exp Real.log cfg g cfuel s c hh hc hacc,
    dot_eq_sum _ _, ?_, ?_, ?_⟩
  · exact (TracePathAccept_fields Real.sqrt Real.exp Real.log cfg g _ c.decel).2.2.1
  · rw [(TracePathAccept_fields Real.sqrt Real.exp Real.log cfg g _ c.decel).2.2.1]
    split_ifs
    · rcases hw with h | h
      · right; show -s.p_omega = -1; rw [h]
      · left; show -s.p_omega = 1; rw [h]; norm_num
    · exact hw
  · rw [(TracePathAccept_fields Real.sqrt Real.exp Real.log cfg g _ c.decel).2.2.1, dot_eq_sum]
    exact orientation_sum s.t.Length s.t.entry _ s.p_omega hw

/-- Witness for C25: the first iteration of the default run on the one-strategy game from
`lambda0 = 0` with `omega = 1`. -/
theorem orientation_preserved_witness :
    ∃ s2, TracePathBody Real.sqrt Real.exp Real.log (mainInit : MainState ℝ).globals
        (trivialGame ℝ) 1
        (TracePathInit Real.sqrt Real.exp Real.log (mainInit : MainState ℝ).globals
          (trivialGame ℝ) (trivialGame ℝ).centroid 0 1) = some (s2, Flow.next) ∧
      0 ≤ ∑ k ∈ Finset.Icc 1
          (TracePathInit Real.sqrt Real.exp Real.log (mainInit : MainState ℝ).globals
            (trivialGame ℝ) (trivialGame ℝ).centroid 0 1).t.Length,
        (s2.p_omega * s2.t.entry k) *
          ((TracePathInit Real.sqrt Real.exp Real.log (mainInit : MainState ℝ).globals
            (trivialGame ℝ) (trivialGame ℝ).centroid 0 1).p_omega *
           (TracePathInit Real.sqrt Real.exp Real.log (mainInit : MainState ℝ).globals
            (trivialGame ℝ) (trivialGame ℝ).centroid 0 1).t.entry k) := by
  obtain ⟨s2, hb, -, -, -, hs⟩ := orientation_preserved (mainInit : MainState ℝ).globals
    (trivialGame ℝ) 1
    (TracePathInit Real.sqrt Real.exp Real.log (mainInit : MainState ℝ).globals
      (trivialGame ℝ) (trivialGame ℝ).centroid 0 1) _
    (Or.inl rfl)
    (trivialGame_hmin 0 1)
    (trivialGame_corrector (mainInit : MainState ℝ).globals 0 1) rfl
  exact ⟨s2, hb, hs⟩

/-! ## Newton-on-tangent mode: the secant step and the saved state (C28, C29) -/

/-- The saved copy after the accepted-step part of an iteration: it is overwritten with the
current `x`, `h`, `isLog` exactly when maximum-likelihood search is on, `restarting` is off and
the sign test `DiffLogLike(x, t) * DiffLogLike(u, newT) < 0` holds (lines 515-522); the mode
flag is not consulted. -/
theorem TracePathAccept_push {α : Type} [LinearOrderedField α] (sqrt exp log : α → α)
    (cfg : Globals α) (g : Game α) (s : TraceState α) (decel : α) :
    (TracePathAccept sqrt exp log cfg g s decel).pushX =
      (if cfg.g_maxLike = true ∧ ¬ s.restarting = true ∧
          DiffLogLike cfg.g_obsProbs s.x s.isLog s.t *
            DiffLogLike cfg.g_obsProbs s.u s.isLog (s.q.GetRow s.q.NumRows s.t) < 0
        then s.x else s.pushX) ∧
    (TracePathAccept sqrt exp log cfg g s decel).pushH =
      (if cfg.g_maxLike = true ∧ ¬ s.restarting = true ∧
          DiffLogLike cfg.g_obsProbs s.x s.isLog s.t *
            DiffLogLike cfg.g_obsProbs s.u s.isLog (s.q.GetRow s.q.NumRows s.t) < 0
        then s.h else s.pushH) ∧
    (TracePathAccept sqrt exp log cfg g s decel).pushLog =
      (if cfg.g_maxLike = true ∧ ¬ s.restarting = true ∧
          DiffLogLike cfg.g_obsProbs s.x s.isLog s.t *
            DiffLogLike cfg.g_obsProbs s.u s.isLog (s.q.GetRow s.q.NumRows s.t) < 0
        then s.isLog else s.pushLog) := by
  have hcond : (cfg.g_maxLike = true ∧ ¬ s.restarting = true ∧
          DiffLogLike cfg.g_obsProbs s.x s.isLog s.t *
            DiffLogLike cfg.g_obsProbs s.u s.isLog (s.q.GetRow s.q.NumRows s.t) < 0) ∨
      ¬ (cfg.g_maxLike = true ∧ ¬ s.restarting = true ∧
          DiffLogLike cfg.g_obsProbs s.x s.isLog s.t *
            DiffLogLike cfg.g_obsProbs s.u s.isLog (s.q.GetRow s.q.NumRows s.t) < 0) :=
    Classical.em _
  unfold TracePathAccept
  dsimp only
  rcases hcond with hp | hp
  · rw [if_pos hp, if_pos hp, if_pos hp, if_pos hp.1, if_pos hp.2]
    exact ⟨rfl, rfl, rfl⟩
  · rw [if_neg hp, if_neg hp, if_neg hp]
    by_cases hm : cfg.g_maxLike = true
    · have hp2 : ¬ (¬ s.restarting = true ∧
          DiffLogLike cfg.g_obsProbs s.x s.isLog s.t *
            DiffLogLike cfg.g_obsProbs s.u s.isLog (s.q.GetRow s.q.NumRows s.t) < 0) :=
        fun h => hp ⟨hm, h⟩
      rw [if_pos hm, if_neg hp2]
      exact ⟨rfl, rfl, rfl⟩
    · rw [if_neg hm]
      exact ⟨rfl, rfl, rfl⟩

/-- The two values of `DiffLogLike` compared by the sign test in the state
`exampleNewtonState`: `a = 1` at `(x, t)` and `b = -1` at `(u, newT)`. -/
theorem exampleNewtonState_signs :
    DiffLogLike (exampleMLEGlobals ℝ).g_obsProbs (exampleNewtonState ℝ).x
      (exampleNewtonState ℝ).isLog (exampleNewtonState ℝ).t = 1 ∧
    DiffLogLike (exampleMLEGlobals ℝ).g_obsProbs (exampleNewtonState ℝ).u
      (exampleNewtonState ℝ).isLog
      ((exampleNewtonState ℝ).q.GetRow (exampleNewtonState ℝ).q.NumRows
        (exampleNewtonState ℝ).t) = -1 := by
  constructor <;>
    simp [DiffLogLike, forLoop, forLoopAux, exampleMLEGlobals, exampleNewtonState, constVector,
      GMatrix.GetRow]

/-- C28: the secant step. For every state in which the accepted-step part of an iteration
(`TracePathAccept`, entered by `TracePathBody` after every accepted corrector run) leaves
Newton-on-tangent mode on, and whose step is above `c_hmin` as at every accepted step, the
step becomes `h_new = h * (-b / (b - a))` with `a = DiffLogLike(x, t)` and
`b = DiffLogLike(u, t_u)`; whenever `a * b < 0` this gives `|h_new| < |h|`,
`h_new * h < 0` (opposite sign), and `h_new` is the root of the secant line
`tau ↦ b + tau * (b - a) / h`, which takes the value `a` at `tau = -h` and `b` at `tau = 0`. -/
theorem secant_step (cfg : Globals ℝ) (g : Game ℝ) (s : TraceState ℝ) (decel : ℝ)
    (hn : (TracePathAccept Real.sqrt Real.exp Real.log cfg g s decel).newton = true)
    (hh : c_hmin < |s.h|) :
    (TracePathAccept Real.sqrt Real.exp Real.log cfg g s decel).h =
      s.h * (-DiffLogLike cfg.g_obsProbs s.u s.isLog (s.q.GetRow s.q.NumRows s.t) /
        (DiffLogLike cfg.g_obsProbs s.u s.isLog (s.q.GetRow s.q.NumRows s.t) -
          DiffLogLike cfg.g_obsProbs s.x s.isLog s.t)) ∧
    (DiffLogLike cfg.g_obsProbs s.x s.isLog s.t *
        DiffLogLike cfg.g_obsProbs s.u s.isLog (s.q.GetRow s.q.NumRows s.t) < 0 →
      |(TracePathAccept Real.sqrt Real.exp Real.log cfg g s decel).h| < |s.h| ∧
      (TracePathAccept Real.sqrt Real.exp Real.log cfg g s decel).h * s.h < 0 ∧
      DiffLogLike cfg.g_obsProbs s.u s.isLog (s.q.GetRow s.q.NumRows s.t) +
        (TracePathAccept Real.sqrt Real.exp Real.log cfg g s decel).h *
          ((DiffLogLike cfg.g_obsProbs s.u s.isLog (s.q.GetRow s.q.NumRows s.t) -
            DiffLogLike cfg.g_obsProbs s.x s.isLog s.t) / s.h) = 0 ∧
      DiffLogLike cfg.g_obsProbs s.u s.isLog (s.q.GetRow s.q.NumRows s.t) +
        -s.h * ((DiffLogLike cfg.g_obsProbs s.u s.isLog (s.q.GetRow s.q.NumRows s.t) -
            DiffLogLike cfg.g_obsProbs s.x s.isLog s.t) / s.h) =
        DiffLogLike cfg.g_obsProbs s.x s.isLog s.t) := by
  have hf := (TracePathAccept_fields Real.sqrt Real.exp Real.log cfg g s decel).2.1
  rw [if_pos hn] at hf
  have h0 : s.h ≠ 0 := by
    intro e
    rw [e, abs_zero] at hh
    unfold c_hmin at hh
    norm_num at hh
  refine ⟨hf, fun hab => ?_⟩
  rw [hf]
  exact secant_arith s.h _ _ h0 hab

/-- Witness for C28: the state `exampleNewtonState` (Newton mode, `h = 1/100`, `a = 1`,
`b = -1`) with maximum-likelihood search on; the new step is shorter and of opposite sign. -/
theorem secant_step_witness :
    |(TracePathAccept Real.sqrt Real.exp Real.log (exampleMLEGlobals ℝ) (trivialGame ℝ)
      (exampleNewtonState ℝ) 1).h| < |(exampleNewtonState ℝ).h| ∧
    (TracePathAccept Real.sqrt Real.exp Real.log (exampleMLEGlobals ℝ) (trivialGame ℝ)
      (exampleNewtonState ℝ) 1).h * (exampleNewtonState ℝ).h < 0 := by
  have H := (secant_step (exampleMLEGlobals ℝ) (trivialGame ℝ) (exampleNewtonState ℝ) 1
    (by
      rw [(TracePathAccept_fields Real.sqrt Real.exp Real.log _ _ _ _).1]
      split_ifs <;> rfl)
    (by
      show c_hmin < |(1 / 100 : ℝ)|
      unfold c_hmin
      rw [abs_of_pos (by norm_num)]
      norm_num)).2
    (by rw [exampleNewtonState_signs.1, exampleNewtonState_signs.2]; norm_num)
  exact ⟨H.1, H.2.1⟩

/-- C29 (divergence from the code): the saved copy is not written only on entry to Newton
mode. (1) A pop, taken by `TracePathBody` when `|h| <= c_hmin` in Newton mode, restores
`x`, `h`, `isLog` from `pushX`, `pushH`, `pushLog`, clears the mode flag and sets `restarting`.
(2) But every accepted step with maximum-likelihood search on, `restarting` off and
`DiffLogLike(x, t) * DiffLogLike(u, newT) < 0` overwrites `pushX`, `pushH`, `pushLog` with the
current `x`, `h`, `isLog`, also when the mode flag is already on. (3) In the state
`exampleNewtonState`, which is in Newton mode with saved copy `pushX[1] = 7`, `pushH = 3/100`,
the accepted-step part overwrites the saved copy with `x[1] = 1`, `h = 1/100`, and a pop after
it restores these values, not the ones saved before. -/
theorem push_overwrites_saved_state :
    (∀ (cfg : Globals ℝ) (g : Game ℝ) (cfuel : Nat) (s : TraceState ℝ),
      |s.h| ≤ c_hmin → s.newton = true →
      TracePathBody Real.sqrt Real.exp Real.log cfg g cfuel s =
        some (TracePathPop Real.sqrt Real.exp Real.log g s, Flow.next) ∧
      (TracePathPop Real.sqrt Real.exp Real.log g s).x = s.pushX ∧
      (TracePathPop Real.sqrt Real.exp Real.log g s).h = s.pushH ∧
      (TracePathPop Real.sqrt Real.exp Real.log g s).isLog = s.pushLog ∧
      (TracePathPop Real.sqrt Real.exp Real.log g s).newton = false ∧
      (TracePathPop Real.sqrt Real.exp Real.log g s).restarting = true) ∧
    (∀ (cfg : Globals ℝ) (g : Game ℝ) (s : TraceState ℝ) (decel : ℝ),
      cfg.g_maxLike = true → s.restarting = false → s.newton = true →
      DiffLogLike cfg.g_obsProbs s.x s.isLog s.t *
        DiffLogLike cfg.g_obsProbs s.u s.isLog (s.q.GetRow s.q.NumRows s.t) < 0 →
      (TracePathAccept Real.sqrt Real.exp Real.log cfg g s decel).pushX = s.x ∧
      (TracePathAccept Real.sqrt Real.exp Real.log cfg g s decel).pushH = s.h ∧
      (TracePathAccept Real.sqrt Real.exp Real.log cfg g s decel).pushLog = s.isLog ∧
      (TracePathAccept Real.sqrt Real.exp Real.log cfg g s decel).newton = true) ∧
    ((exampleNewtonState ℝ).newton = true ∧
      (exampleNewtonState ℝ).pushX.entry 1 = 7 ∧ (exampleNewtonState ℝ).pushH = 3 / 100 ∧
      (exampleNewtonState ℝ).pushLog.entry 1 = true ∧
      (TracePathAccept Real.sqrt Real.exp Real.log (exampleMLEGlobals ℝ) (trivialGame ℝ)
        (exampleNewtonState ℝ) 1).newton = true ∧
      (TracePathPop Real.sqrt Real.exp Real.log (trivialGame ℝ)
        (TracePathAccept Real.sqrt Real.exp Real.log (exampleMLEGlobals ℝ) (trivialGame ℝ)
          (exampleNewtonState ℝ) 1)).x.entry 1 = 1 ∧
      (TracePathPop Real.sqrt Real.exp Real.log (trivialGame ℝ)
        (TracePathAccept Real.sqrt Real.exp Real.log (exampleMLEGlobals ℝ) (trivialGame ℝ)
          (exampleNewtonState ℝ) 1)).h = 1 / 100 ∧
      (TracePathPop Real.sqrt Real.exp Real.log (trivialGame ℝ)
        (TracePathAccept Real.sqrt Real.exp Real.log (exampleMLEGlobals ℝ) (trivialGame ℝ)
          (exampleNewtonState ℝ) 1)).isLog.entry 1 = false) := by
  have hex : (exampleMLEGlobals ℝ).g_maxLike = true ∧
      ¬ (exampleNewtonState ℝ).restarting = true ∧
      DiffLogLike (exampleMLEGlobals ℝ).g_obsProbs (exampleNewtonState ℝ).x
        (exampleNewtonState ℝ).isLog (exampleNewtonState ℝ).t *
      DiffLogLike (exampleMLEGlobals ℝ).g_obsProbs (exampleNewtonState ℝ).u
        (exampleNewtonState ℝ).isLog
        ((exampleNewtonState ℝ).q.GetRow (exampleNewtonState ℝ).q.NumRows
          (exampleNewtonState ℝ).t) < 0 := by
    refine ⟨rfl, Bool.false_ne_true, ?_⟩
    rw [exampleNewtonState_signs.1, exampleNewtonState_signs.2]
    norm_num
  refine ⟨?_, ?_, rfl, rfl, rfl, rfl, ?_, ?_, ?_, ?_⟩
  · intro cfg g cfuel s hh hn
    refine ⟨?_, rfl, rfl, rfl, rfl, rfl⟩
    unfold TracePathBody
    rw [if_pos hh, if_pos hn]
  · intro cfg g s decel hm hr _ hab
    have hcond : cfg.g_maxLike = true ∧ ¬ s.restarting = true ∧
        DiffLogLike cfg.g_obsProbs s.x s.isLog s.t *
          DiffLogLike cfg.g_obsProbs s.u s.isLog (s.q.GetRow s.q.NumRows s.t) < 0 :=
      ⟨hm, by rw [hr]; exact Bool.false_ne_true, hab⟩
    obtain ⟨p1, p2, p3⟩ := TracePathAccept_push Real.sqrt Real.exp Real.log cfg g s decel
    have p4 := (TracePathAccept_fields Real.sqrt Real.exp Real.log cfg g s decel).1
    rw [if_pos hcond] at p1 p2 p3 p4
    exact ⟨p1, p2, p3, p4⟩
  · rw [(TracePathAccept_fields Real.sqrt Real.exp Real.log _ _ _ _).1, if_pos hex]
  · show (TracePathAccept Real.sqrt Real.exp Real.log (exampleMLEGlobals ℝ) (trivialGame ℝ)
      (exampleNewtonState ℝ) 1).pushX.entry 1 = 1
    rw [(TracePathAccept_push Real.sqrt Real.exp Real.log _ _ _ _).1, if_pos hex]
    rfl
  · show (TracePathAccept Real.sqrt Real.exp Real.log (exampleMLEGlobals ℝ) (trivialGame ℝ)
      (exampleNewtonState ℝ) 1).pushH = 1 / 100
    rw [(TracePathAccept_push Real.sqrt Real.exp Real.log _ _ _ _).2.1, if_pos hex]
    rfl
  · show (TracePathAccept Real.sqrt Real.exp Real.log (exampleMLEGlobals ℝ) (trivialGame ℝ)
      (exampleNewtonState ℝ) 1).pushLog.entry 1 = false
    rw [(TracePathAccept_push Real.sqrt Real.exp Real.log _ _ _ _).2.2, if_pos hex]
    rfl

/-! ## The coordinate-switching pass (C27) -/

/-- The coordinate-switching pass, coordinate by coordinate: a coordinate `k` in
`1 .. Length - 1` with `I[k] = false` and `x_k < c_logCutoff` becomes `(log x_k, true)`, one
with `I[k] = true` and `exp(x_k) > c_logCutoff` becomes `(exp x_k, false)`, and every other
coordinate is left as it is. -/
theorem SwitchCoordinates_spec {α : Type} [LinearOrderedField α] (exp log : α → α)
    (x : GVector α) (I : GVector Bool) (k : Nat) :
    (SwitchCoordinates exp log x I).1.entry k =
      (if 1 ≤ k ∧ k ≤ x.Length - 1 then
        (if ¬ I.entry k = true ∧ x.entry k < c_logCutoff then log (x.entry k)
         else if I.entry k = true ∧ exp (x.entry k) > c_logCutoff then exp (x.entry k)
         else x.entry k)
       else x.entry k) ∧
    (SwitchCoordinates exp log x I).2.1.entry k =
      (if 1 ≤ k ∧ k ≤ x.Length - 1 then
        (if ¬ I.entry k = true ∧ x.entry k < c_logCutoff then true
         else if I.entry k = true ∧ exp (x.entry k) > c_logCutoff then false
         else I.entry k)
       else I.entry k) := by
  obtain ⟨A, hA⟩ : ∃ A : Nat → α, A = fun k =>
      (if ¬ I.entry k = true ∧ x.entry k < c_logCutoff then log (x.entry k)
       else if I.entry k = true ∧ exp (x.entry k) > c_logCutoff then exp (x.entry k)
       else x.entry k) := ⟨_, rfl⟩
  obtain ⟨B, hB⟩ : ∃ B : Nat → Bool, B = fun k =>
      (if ¬ I.entry k = true ∧ x.entry k < c_logCutoff then true
       else if I.entry k = true ∧ exp (x.entry k) > c_logCutoff then false
       else I.entry k) := ⟨_, rfl⟩
  have key := forLoop_invariant
    (fun c (st : GVector α × GVector Bool × Bool) =>
      ∀ j, st.1.entry j = (if 1 ≤ j ∧ j < c then A j else x.entry j) ∧
        st.2.1.entry j = (if 1 ≤ j ∧ j < c then B j else I.entry j))
    1 (x.Length - 1) (fun i (st : GVector α × GVector Bool × Bool) =>
    if ¬ st.2.1.entry i ∧ st.1.entry i < c_logCutoff then
      ((SwitchToLog log st.1 st.2.1 i).1, (SwitchToLog log st.1 st.2.1 i).2, true)
    else if st.2.1.entry i ∧ exp (st.1.entry i) > c_logCutoff then
      ((SwitchToLinear exp st.1 st.2.1 i).1, (SwitchToLinear exp st.1 st.2.1 i).2, true)
    else st) (x, I, false) (by omega)
    (fun j => by
      have : ¬ (1 ≤ j ∧ j < 1) := by omega
      rw [if_neg this, if_neg this]
      exact ⟨rfl, rfl⟩)
    (by
      intro c st hc1 hc2 hst
      have hcc : ¬ (1 ≤ c ∧ c < c) := by omega
      have hx := (hst c).1
      have hI := (hst c).2
      rw [if_neg hcc] at hx hI
      intro j
      dsimp only
      rw [hx, hI]
      by_cases hj : j = c
      · subst hj
        have hin : 1 ≤ j ∧ j < j + 1 := by omega
        rw [if_pos hin, if_pos hin, hA, hB]
        dsimp only
        by_cases h1 : ¬ I.entry j = true ∧ x.entry j < c_logCutoff
        · rw [if_pos h1, if_pos h1, if_pos h1]
          simp only [SwitchToLog, GVector_set_entry, if_true, hx, and_self]
        · rw [if_neg h1, if_neg h1, if_neg h1]
          by_cases h2 : I.entry j = true ∧ exp (x.entry j) > c_logCutoff
          · rw [if_pos h2, if_pos h2, if_pos h2]
            simp only [SwitchToLinear, GVector_set_entry, if_true, hx, and_self]
          · rw [if_neg h2, if_neg h2, if_neg h2]
            exact ⟨hx, hI⟩
      · have hiff : (1 ≤ j ∧ j < c + 1) ↔ (1 ≤ j ∧ j < c) := by omega
        have hprev := hst j
        simp only [hiff]
        by_cases h1 : ¬ I.entry c = true ∧ x.entry c < c_logCutoff
        · rw [if_pos h1]
          simp only [SwitchToLog, GVector_set_entry, hj, if_false]
          exact hprev
        · rw [if_neg h1]
          by_cases h2 : I.entry c = true ∧ exp (x.entry c) > c_logCutoff
          · rw [if_pos h2]
            simp only [SwitchToLinear, GVector_set_entry, hj, if_false]
            exact hprev
          · rw [if_neg h2]
            exact hprev)
  have hk := key k
  have hiff : (1 ≤ k ∧ k < x.Length - 1 + 1) ↔ (1 ≤ k ∧ k ≤ x.Length - 1) := by omega
  simp only [hiff, hA, hB] at hk
  unfold SwitchCoordinates
  exact hk

/-- The coordinate-switching pass keeps the represented probability and the represented
log-probability of every coordinate whose represented probability is positive. -/
theorem SwitchCoordinates_rho (x : GVector ℝ) (I : GVector Bool) (k : Nat)
    (hpos : I.entry k = false → 0 < x.entry k) :
    rho Real.exp (SwitchCoordinates Real.exp Real.log x I).1
      (SwitchCoordinates Real.exp Real.log x I).2.1 k = rho Real.exp x I k ∧
    logRho Real.log (SwitchCoordinates Real.exp Real.log x I).1
      (SwitchCoordinates Real.exp Real.log x I).2.1 k = logRho Real.log x I k := by
  obtain ⟨e1, e2⟩ := SwitchCoordinates_spec Real.exp Real.log x I k
  unfold rho logRho
  rw [e1, e2]
  by_cases hin : 1 ≤ k ∧ k ≤ x.Length - 1
  · rw [if_pos hin, if_pos hin]
    by_cases h1 : ¬ I.entry k = true ∧ x.entry k < c_logCutoff
    · rw [if_pos h1, if_pos h1]
      have hI : I.entry k = false := by simpa using h1.1
      rw [hI]
      simp only [if_true, Bool.false_eq_true, if_false]
      exact ⟨Real.exp_log (hpos hI), trivial⟩
    · rw [if_neg h1, if_neg h1]
      by_cases h2 : I.entry k = true ∧ Real.exp (x.entry k) > c_logCutoff
      · rw [if_pos h2, if_pos h2, h2.1]
        simp only [if_true, Bool.false_eq_true, if_false]
        exact ⟨trivial, Real.log_exp _⟩
      · rw [if_neg h2, if_neg h2]
        exact ⟨rfl, rfl⟩
  · rw [if_neg hin, if_neg hin]
    exact ⟨rfl, rfl⟩

/-- C27: coordinate switching is a pure change of representation. For every state `(x, I)` in
which every linear-coded coordinate `1 .. Length - 1` is positive (the log-coded ones represent
`exp(x_k) > 0` anyway), the switching pass at the end of an accepted step leaves every
represented probability `rho(x, I, k)` and `lambda = x[Length]` unchanged, and `QreLHS` for
every game evaluated after the pass equals `QreLHS` evaluated before it; in particular this
holds for the point and policy that `TracePathAccept` commits from `(u, isLog)`. -/
theorem SwitchCoordinates_pure (x : GVector ℝ) (I : GVector Bool)
    (hpos : ∀ k, 1 ≤ k → k ≤ x.Length - 1 → I.entry k = false → 0 < x.entry k) :
    (∀ k, rho Real.exp (SwitchCoordinates Real.exp Real.log x I).1
      (SwitchCoordinates Real.exp Real.log x I).2.1 k = rho Real.exp x I k) ∧
    (SwitchCoordinates Real.exp Real.log x I).1.entry
      (SwitchCoordinates Real.exp Real.log x I).1.Length = x.entry x.Length ∧
    (∀ (g : Game ℝ) (y : GVector ℝ),
      QreLHS Real.exp Real.log g (SwitchCoordinates Real.exp Real.log x I).1
        (SwitchCoordinates Real.exp Real.log x I).2.1 y = QreLHS Real.exp Real.log g x I y) ∧
    (∀ (cfg : Globals ℝ) (g : Game ℝ) (s : TraceState ℝ) (decel : ℝ) (y : GVector ℝ),
      s.u = x → s.isLog = I →
      QreLHS Real.exp Real.log g (TracePathAccept Real.sqrt Real.exp Real.log cfg g s decel).x
        (TracePathAccept Real.sqrt Real.exp Real.log cfg g s decel).isLog y =
      QreLHS Real.exp Real.log g s.u s.isLog y) := by
  have hall : ∀ k, rho Real.exp (SwitchCoordinates Real.exp Real.log x I).1
      (SwitchCoordinates Real.exp Real.log x I).2.1 k = rho Real.exp x I k ∧
      logRho Real.log (SwitchCoordinates Real.exp Real.log x I).1
      (SwitchCoordinates Real.exp Real.log x I).2.1 k = logRho Real.log x I k := by
    intro k
    by_cases hin : 1 ≤ k ∧ k ≤ x.Length - 1
    · exact SwitchCoordinates_rho x I k (hpos k hin.1 hin.2)
    · obtain ⟨e1, e2⟩ := SwitchCoordinates_spec Real.exp Real.log x I k
      rw [if_neg hin] at e1 e2
      unfold rho logRho
      rw [e1, e2]
      exact ⟨rfl, rfl⟩
  obtain ⟨fL, fE⟩ := SwitchCoordinates_frame Real.exp Real.log x I
  have hlam : (SwitchCoordinates Real.exp Real.log x I).1.entry
      (SwitchCoordinates Real.exp Real.log x I).1.Length = x.entry x.Length := by
    rw [fL]
    exact fE x.Length (by omega)
  have hQ : ∀ (g : Game ℝ) (y : GVector ℝ),
      QreLHS Real.exp Real.log g (SwitchCoordinates Real.exp Real.log x I).1
        (SwitchCoordinates Real.exp Real.log x I).2.1 y = QreLHS Real.exp Real.log g x I y := by
    intro g y
    have hP : QreProfiles Real.exp Real.log g (SwitchCoordinates Real.exp Real.log x I).1
        (SwitchCoordinates Real.exp Real.log x I).2.1 = QreProfiles Real.exp Real.log g x I := by
      obtain ⟨a1, a2⟩ := QreProfiles_spec Real.exp Real.log g
        (SwitchCoordinates Real.exp Real.log x I).1 (SwitchCoordinates Real.exp Real.log x I).2.1
      obtain ⟨b1, b2⟩ := QreProfiles_spec Real.exp Real.log g x I
      apply Prod.ext
      · rw [a1, b1]
        funext k
        unfold profileOf
        rw [(hall k).1]
      · rw [a2, b2]
        funext k
        unfold logProfileOf
        rw [(hall k).2]
    unfold QreLHS
    rw [hP, hlam]
  refine ⟨fun k => (hall k).1, hlam, hQ, ?_⟩
  intro cfg g s decel y hu hI
  obtain ⟨t1, t2⟩ := TracePathAccept_x Real.sqrt Real.exp Real.log cfg g s decel
  rw [t1, t2, hu, hI]
  exact hQ g y

/-- Witness for C27: the point `x = (1/10000; 1/10000)` with the all-linear policy, whose
first coordinate is below the cutoff and is switched to the logarithmic representation. -/
theorem SwitchCoordinates_pure_witness :
    rho Real.exp (SwitchCoordinates Real.exp Real.log (constVector 2 (1 / 10000))
        linearPolicy).1
      (SwitchCoordinates Real.exp Real.log (constVector 2 (1 / 10000)) linearPolicy).2.1 1 =
      rho Real.exp (constVector 2 (1 / 10000)) linearPolicy 1 :=
  (SwitchCoordinates_pure (constVector 2 (1 / 10000)) linearPolicy
    (fun _ _ _ _ => by
      show (0 : ℝ) < 1 / 10000
      norm_num)).1 1

/-- After the coordinate-switching pass applied to a point of length `L + 1` whose linear-coded
coordinates are positive, the coordinate policy holds. -/
theorem SwitchCoordinates_policy (L : Nat) (x : GVector ℝ) (I : GVector Bool)
    (hL : x.Length = L + 1)
    (hpos : ∀ k, 1 ≤ k → k ≤ L → I.entry k = false → 0 < x.entry k) :
    PolicyOK Real.exp L (SwitchCoordinates Real.exp Real.log x I).1
      (SwitchCoordinates Real.exp Real.log x I).2.1 := by
  refine ⟨by rw [(SwitchCoordinates_frame Real.exp Real.log x I).1, hL], ?_⟩
  intro k hk1 hk2
  obtain ⟨e1, e2⟩ := SwitchCoordinates_spec Real.exp Real.log x I k
  have hin : 1 ≤ k ∧ k ≤ x.Length - 1 := by omega
  rw [if_pos hin] at e1 e2
  rw [e1, e2]
  by_cases h1 : ¬ I.entry k = true ∧ x.entry k < c_logCutoff
  · rw [if_pos h1, if_pos h1]
    have hI : I.entry k = false := by simpa using h1.1
    refine ⟨fun h => absurd h (by decide), fun _ => ?_⟩
    rw [Real.exp_log (hpos k hk1 hk2 hI)]
    exact le_of_lt h1.2
  · rw [if_neg h1, if_neg h1]
    by_cases h2 : I.entry k = true ∧ Real.exp (x.entry k) > c_logCutoff
    · rw [if_pos h2, if_pos h2]
      exact ⟨fun _ => le_of_lt h2.2, fun h => absurd h (by decide)⟩
    · rw [if_neg h2, if_neg h2]
      constructor
      · intro hI
        by_contra hlt
        exact h1 ⟨by rw [hI]; decide, not_le.mp hlt⟩
      · intro hI
        by_contra hgt
        exact h2 ⟨hI, not_le.mp hgt⟩

/-- The state set up by `TracePath` from a positive start profile satisfies the invariant. -/
theorem TracePathInit_policy (cfg : Globals ℝ) (g : Game ℝ) (p : Nat → ℝ) (lam0 omega : ℝ)
    (hp : ∀ k, 1 ≤ k → k ≤ g.MixedProfileLength → 0 < p k) :
    PolicyInv Real.exp g (TracePathInit Real.sqrt Real.exp Real.log cfg g p lam0 omega) := by
  obtain ⟨hxL, -, -, hI, hx, -⟩ :=
    TracePathInit_point Real.sqrt Real.exp Real.log cfg g p lam0 omega
  refine ⟨⟨hxL, fun k hk1 hk2 => ?_⟩, rfl, fun hn => absurd hn (by
    rw [(TracePathInit_factor Real.sqrt Real.exp Real.log cfg g p lam0 omega).2.2.2.2.2.2.1]
    decide)⟩
  rw [hI k hk1 hk2, hx k hk1 hk2]
  by_cases hc : p k < c_logCutoff
  · rw [if_pos hc]
    refine ⟨fun h => absurd hc (of_decide_eq_false h), fun _ => ?_⟩
    rw [Real.exp_log (hp k hk1 hk2)]
    exact le_of_lt hc
  · rw [if_neg hc]
    exact ⟨fun _ => not_lt.mp hc, fun h => absurd (of_decide_eq_true h) hc⟩

/-- The corrector loop keeps the length of `u`. -/
theorem Corrector_Length (cfg : Globals ℝ) (g : Game ℝ) (I : GVector Bool) (q b : GMatrix ℝ)
    (n : Nat) :
    ∀ (u y : GVector ℝ) (decel : ℝ) (iter : Nat) (disto : ℝ) (c : CorrectorResult ℝ),
      Corrector Real.sqrt Real.exp Real.log cfg g I q b n u y decel iter disto = some c →
      c.u.Length = u.Length := by
  induction n with
  | zero =>
    intro u y decel iter disto c h
    simp [Corrector] at h
  | succ n ih =>
    intro u y decel iter disto c h
    rw [Corrector_succ] at h
    split_ifs at h <;>
      first
      | (cases h; exact NewtonStep_Length _ _ _ _)
      | exact (ih _ _ _ _ _ _ h).trans (NewtonStep_Length _ _ _ _)

/-- The accepted-step part of an iteration leaves the buffer `u` as it is. -/
theorem TracePathAccept_u {α : Type} [LinearOrderedField α] (sqrt exp log : α → α)
    (cfg : Globals α) (g : Game α) (s : TraceState α) (decel : α) :
    (TracePathAccept sqrt exp log cfg g s decel).u = s.u := by
  unfold TracePathAccept
  dsimp only
  split_ifs <;> rfl

/-- One iteration of the main loop preserves the invariant, provided the corrected point of an
accepted step has positive linear-coded coordinates. -/
theorem TracePathBody_policy (cfg : Globals ℝ) (g : Game ℝ) (cfuel : Nat)
    (s s2 : TraceState ℝ) (f : Flow) (hinv : PolicyInv Real.exp g s)
    (hb : TracePathBody Real.sqrt Real.exp Real.log cfg g cfuel s = some (s2, f))
    (hpos : ∀ c, Corrector Real.sqrt Real.exp Real.log cfg g s.isLog
        (QRDecomp Real.sqrt (QreJacobian Real.exp Real.log g (Predictor s) s.isLog s.b) s.q).2
        (QRDecomp Real.sqrt (QreJacobian Real.exp Real.log g (Predictor s) s.isLog s.b) s.q).1
        cfuel (Predictor s) s.y (1 / cfg.g_maxDecel) 1 0 = some c → c.accept = true →
      ∀ k, 1 ≤ k → k ≤ g.MixedProfileLength → s.isLog.entry k = false → 0 < c.u.entry k) :
    PolicyInv Real.exp g s2 := by
  obtain ⟨hx, hu, hpush⟩ := hinv
  by_cases hh : |s.h| ≤ c_hmin
  · unfold TracePathBody at hb
    rw [if_pos hh] at hb
    by_cases hn : s.newton = true
    · rw [if_pos hn] at hb
      cases hb
      exact ⟨hpush hn, hu, fun h => absurd h (by
        show ¬ (false = true)
        decide)⟩
    · rw [if_neg hn] at hb
      cases hb
      exact ⟨hx, hu, hpush⟩
  · cases hc : Corrector Real.sqrt Real.exp Real.log cfg g s.isLog
        (QRDecomp Real.sqrt (QreJacobian Real.exp Real.log g (Predictor s) s.isLog s.b) s.q).2
        (QRDecomp Real.sqrt (QreJacobian Real.exp Real.log g (Predictor s) s.isLog s.b) s.q).1
        cfuel (Predictor s) s.y (1 / cfg.g_maxDecel) 1 0 with
    | none =>
      unfold TracePathBody at hb
      rw [if_neg hh] at hb
      simp only [hc] at hb
      cases hb
    | some c =>
      have hcu : c.u.Length = g.MixedProfileLength + 1 := by
        rw [Corrector_Length cfg g _ _ _ _ _ _ _ _ _ c hc, (Predictor_spec s).1, hu]
      cases hacc : c.accept with
      | false =>
        rw [TracePathBody_reject Real.sqrt Real.exp Real.log cfg g cfuel s c hh hc hacc] at hb
        by_cases h1 : |s.h / cfg.g_maxDecel| ≤ c_hmin
        · by_cases hn : s.newton = true
          · rw [if_pos h1, if_pos hn] at hb
            cases hb
            exact ⟨hpush hn, hcu, fun h => absurd h (by
              show ¬ (false = true)
              decide)⟩
          · rw [if_pos h1, if_neg hn] at hb
            cases hb
            exact ⟨hx, hcu, hpush⟩
        · rw [if_neg h1] at hb
          cases hb
          exact ⟨hx, hcu, hpush⟩
      | true =>
        rw [TracePathBody_accept Real.sqrt Real.exp Real.log cfg g cfuel s c hh hc hacc] at hb
        cases hb
        obtain ⟨t1, t2⟩ := TracePathAccept_x Real.sqrt Real.exp Real.log cfg g
          { s with
            u := c.u, y := c.y,
            b := (QRDecomp Real.sqrt (QreJacobian Real.exp Real.log g (Predictor s) s.isLog s.b)
              s.q).1,
            q := (QRDecomp Real.sqrt (QreJacobian Real.exp Real.log g (Predictor s) s.isLog s.b)
              s.q).2 } c.decel
        have t3 := TracePathAccept_u Real.sqrt Real.exp Real.log cfg g
          { s with
            u := c.u, y := c.y,
            b := (QRDecomp Real.sqrt (QreJacobian Real.exp Real.log g (Predictor s) s.isLog s.b)
              s.q).1,
            q := (QRDecomp Real.sqrt (QreJacobian Real.exp Real.log g (Predictor s) s.isLog s.b)
              s.q).2 } c.decel
        obtain ⟨p1, -, p3⟩ := TracePathAccept_push Real.sqrt Real.exp Real.log cfg g
          { s with
            u := c.u, y := c.y,
            b := (QRDecomp Real.sqrt (QreJacobian Real.exp Real.log g (Predictor s) s.isLog s.b)
              s.q).1,
            q := (QRDecomp Real.sqrt (QreJacobian Real.exp Real.log g (Predictor s) s.isLog s.b)
              s.q).2 } c.decel
        have p4 := (TracePathAccept_fields Real.sqrt Real.exp Real.log cfg g
          { s with
            u := c.u, y := c.y,
            b := (QRDecomp Real.sqrt (QreJacobian Real.exp Real.log g (Predictor s) s.isLog s.b)
              s.q).1,
            q := (QRDecomp Real.sqrt (QreJacobian Real.exp Real.log g (Predictor s) s.isLog s.b)
              s.q).2 } c.decel).1
        refine ⟨?_, ?_, ?_⟩
        · rw [t1, t2]
          exact SwitchCoordinates_policy g.MixedProfileLength c.u s.isLog hcu
            (hpos c hc hacc)
        · rw [t3]
          exact hcu
        · rw [p1, p3, p4]
          split_ifs
          · exact fun _ => hx
          · exact hpush

/-- The invariant holds at the start of every iteration of the main loop entered in a state
that satisfies it, provided the corrected point of every accepted step on the way has positive
linear-coded coordinates. -/
theorem TracePathAfter_policy (cfg : Globals ℝ) (g : Game ℝ) (maxLam : ℝ) (cfuel : Nat)
    (n : Nat) :
    ∀ (s0 s : TraceState ℝ), PolicyInv Real.exp g s0 →
      TracePathAfter Real.sqrt Real.exp Real.log cfg g maxLam cfuel n s0 = some s →
      (∀ m s1 c, m < n →
        TracePathAfter Real.sqrt Real.exp Real.log cfg g maxLam cfuel m s0 = some s1 →
        Corrector Real.sqrt Real.exp Real.log cfg g s1.isLog
          (QRDecomp Real.sqrt (QreJacobian Real.exp Real.log g (Predictor s1) s1.isLog s1.b)
            s1.q).2
          (QRDecomp Real.sqrt (QreJacobian Real.exp Real.log g (Predictor s1) s1.isLog s1.b)
            s1.q).1
          cfuel (Predictor s1) s1.y (1 / cfg.g_maxDecel) 1 0 = some c → c.accept = true →
        ∀ k, 1 ≤ k → k ≤ g.MixedProfileLength → s1.isLog.entry k = false →
          0 < c.u.entry k) →
      PolicyInv Real.exp g s := by
  induction n with
  | zero =>
    intro s0 s hinv h _
    simp only [TracePathAfter, Option.some.injEq] at h
    rw [← h]
    exact hinv
  | succ n ih =>
    intro s0 s hinv h hrun
    rw [TracePathAfter] at h
    by_cases hg : s0.x.entry s0.x.Length ≥ 0 ∧ s0.x.entry s0.x.Length < maxLam
    · rw [if_pos hg] at h
      cases hb : TracePathBody Real.sqrt Real.exp Real.log cfg g cfuel s0 with
      | none =>
        rw [hb] at h
        cases h
      | some r =>
        obtain ⟨s2, f⟩ := r
        cases f with
        | ret =>
          rw [hb] at h
          cases h
        | next =>
          rw [hb] at h
          have hinv2 := TracePathBody_policy cfg g cfuel s0 s2 Flow.next hinv hb
            (fun c hc hacc => hrun 0 s0 c (Nat.succ_pos n) rfl hc hacc)
          refine ih s2 s hinv2 h (fun m s1 c hm h1 hc hacc => ?_)
          refine hrun (m + 1) s1 c (Nat.succ_lt_succ hm) ?_ hc hacc
          rw [TracePathAfter, if_pos hg, hb]
          exact h1
    · rw [if_neg hg] at h
      cases h

/-- On the one-strategy game the corrected point of the first iteration has the coordinate 1. -/
theorem trivialGame_corrector_positive (cfg : Globals ℝ) (lam0 omega : ℝ)
    (c : CorrectorResult ℝ)
    (hc : Corrector Real.sqrt Real.exp Real.log cfg (trivialGame ℝ)
      (TracePathInit Real.sqrt Real.exp Real.log cfg (trivialGame ℝ)
        (trivialGame ℝ).centroid lam0 omega).isLog
      (QRDecomp Real.sqrt (QreJacobian Real.exp Real.log (trivialGame ℝ)
        (Predictor (TracePathInit Real.sqrt Real.exp Real.log cfg (trivialGame ℝ)
          (trivialGame ℝ).centroid lam0 omega))
        (TracePathInit Real.sqrt Real.exp Real.log cfg (trivialGame ℝ)
          (trivialGame ℝ).centroid lam0 omega).isLog
        (TracePathInit Real.sqrt Real.exp Real.log cfg (trivialGame ℝ)
          (trivialGame ℝ).centroid lam0 omega).b)
        (TracePathInit Real.sqrt Real.exp Real.log cfg (trivialGame ℝ)
          (trivialGame ℝ).centroid lam0 omega).q).2
      (QRDecomp Real.sqrt (QreJacobian Real.exp Real.log (trivialGame ℝ)
        (Predictor (TracePathInit Real.sqrt Real.exp Real.log cfg (trivialGame ℝ)
          (trivialGame ℝ).centroid lam0 omega))
        (TracePathInit Real.sqrt Real.exp Real.log cfg (trivialGame ℝ)
          (trivialGame ℝ).centroid lam0 omega).isLog
        (TracePathInit Real.sqrt Real.exp Real.log cfg (trivialGame ℝ)
          (trivialGame ℝ).centroid lam0 omega).b)
        (TracePathInit Real.sqrt Real.exp Real.log cfg (trivialGame ℝ)
          (trivialGame ℝ).centroid lam0 omega).q).1
      1
      (Predictor (TracePathInit Real.sqrt Real.exp Real.log cfg (trivialGame ℝ)
        (trivialGame ℝ).centroid lam0 omega))
      (TracePathInit Real.sqrt Real.exp Real.log cfg (trivialGame ℝ)
        (trivialGame ℝ).centroid lam0 omega).y
      (1 / cfg.g_maxDecel) 1 0 = some c) :
    0 < c.u.entry 1 := by
  rw [trivialGame_corrector cfg lam0 omega] at hc
  cases hc
  obtain ⟨hxL, hx1, -, -, ht1, -, -⟩ := trivialGame_init cfg lam0 omega
  show 0 < (Predictor _).entry 1
  rw [(Predictor_spec _).2 1, hxL, if_pos (by omega), hx1, ht1]
  norm_num

/-! ## The coordinate-policy invariant (C26) -/

/-- C26: the coordinate-policy invariant. For every game, settings and positive start
profile `p`, and every state `s` at the start of an iteration of the main loop of `TracePath`
(the state after `n` iterations: after initialisation, after an accepted step's switching
pass, after a rejected step, or after a pop of the saved MLE state), provided the corrected
point of every accepted step before it has positive linear-coded coordinates: `x` has length
`L + 1`, every coordinate `1 .. L` with `I[k] = false` has `x_k >= c_logCutoff = 0.001`, and
every coordinate with `I[k] = true` has `exp(x_k) <= 0.001`.  Moreover the switching pass
changes the coordinate `k` of any `(x, I)` only when `k` is in `1 .. Length - 1` and either
`I[k] = false` and `x_k < 0.001` (to `log x_k`, flag `true`) or `I[k] = true` and
`exp(x_k) > 0.001` (to `exp x_k`, flag `false`). -/
theorem coordinate_policy (cfg : Globals ℝ) (g : Game ℝ) (p : Nat → ℝ) (lam0 omega maxLam : ℝ)
    (cfuel n : Nat) (s : TraceState ℝ)
    (hp : ∀ k, 1 ≤ k → k ≤ g.MixedProfileLength → 0 < p k)
    (hs : TracePathAfter Real.sqrt Real.exp Real.log cfg g maxLam cfuel n
      (TracePathInit Real.sqrt Real.exp Real.log cfg g p lam0 omega) = some s)
    (hrun : ∀ m s1 c, m < n →
      TracePathAfter Real.sqrt Real.exp Real.log cfg g maxLam cfuel m
        (TracePathInit Real.sqrt Real.exp Real.log cfg g p lam0 omega) = some s1 →
      Corrector Real.sqrt Real.exp Real.log cfg g s1.isLog
        (QRDecomp Real.sqrt (QreJacobian Real.exp Real.log g (Predictor s1) s1.isLog s1.b)
          s1.q).2
        (QRDecomp Real.sqrt (QreJacobian Real.exp Real.log g (Predictor s1) s1.isLog s1.b)
          s1.q).1
        cfuel (Predictor s1) s1.y (1 / cfg.g_maxDecel) 1 0 = some c → c.accept = true →
      ∀ k, 1 ≤ k → k ≤ g.MixedProfileLength → s1.isLog.entry k = false → 0 < c.u.entry k) :
    (c_logCutoff : ℝ) = 1 / 1000 ∧
    s.x.Length = g.MixedProfileLength + 1 ∧
    (∀ k, 1 ≤ k → k ≤ g.MixedProfileLength →
      (s.isLog.entry k = false → c_logCutoff ≤ s.x.entry k) ∧
      (s.isLog.entry k = true → Real.exp (s.x.entry k) ≤ c_logCutoff)) ∧
    (∀ (x : GVector ℝ) (I : GVector Bool) (k : Nat),
      ((SwitchCoordinates Real.exp Real.log x I).1.entry k ≠ x.entry k ∨
        (SwitchCoordinates Real.exp Real.log x I).2.1.entry k ≠ I.entry k) →
      (1 ≤ k ∧ k ≤ x.Length - 1) ∧
      ((I.entry k = false ∧ x.entry k < c_logCutoff ∧
          (SwitchCoordinates Real.exp Real.log x I).1.entry k = Real.log (x.entry k) ∧
          (SwitchCoordinates Real.exp Real.log x I).2.1.entry k = true) ∨
        (I.entry k = true ∧ Real.exp (x.entry k) > c_logCutoff ∧
          (SwitchCoordinates Real.exp Real.log x I).1.entry k = Real.exp (x.entry k) ∧
          (SwitchCoordinates Real.exp Real.log x I).2.1.entry k = false))) := by
  obtain ⟨⟨h1, h2⟩, -, -⟩ := TracePathAfter_policy cfg g maxLam cfuel n _ s
    (TracePathInit_policy cfg g p lam0 omega hp) hs hrun
  refine ⟨rfl, h1, h2, ?_⟩
  intro x I k hne
  obtain ⟨e1, e2⟩ := SwitchCoordinates_spec Real.exp Real.log x I k
  by_cases hin : 1 ≤ k ∧ k ≤ x.Length - 1
  · rw [if_pos hin] at e1 e2
    refine ⟨hin, ?_⟩
    by_cases c1 : ¬ I.entry k = true ∧ x.entry k < c_logCutoff
    · rw [if_pos c1] at e1 e2
      exact Or.inl ⟨by simpa using c1.1, c1.2, e1, e2⟩
    · rw [if_neg c1] at e1 e2
      by_cases c2 : I.entry k = true ∧ Real.exp (x.entry k) > c_logCutoff
      · rw [if_pos c2] at e1 e2
        exact Or.inr ⟨c2.1, c2.2, e1, e2⟩
      · rw [if_neg c2] at e1 e2
        rcases hne with h | h
        · exact absurd e1 h
        · exact absurd e2 h
  · rw [if_neg hin] at e1 e2
    rcases hne with h | h
    · exact absurd e1 h
    · exact absurd e2 h

/-- Witness for C26: the state after the first iteration of the default run on the
one-strategy game from `lambda0 = 1/100` with `omega = -1` and `maxLambda = 2`. -/
theorem coordinate_policy_witness :
    ∃ s, TracePathAfter Real.sqrt Real.exp Real.log (mainInit : MainState ℝ).globals
        (trivialGame ℝ) 2 1 1
        (TracePathInit Real.sqrt Real.exp Real.log (mainInit : MainState ℝ).globals
          (trivialGame ℝ) (trivialGame ℝ).centroid (1 / 100) (-1)) = some s ∧
      (s.isLog.entry 1 = false → c_logCutoff ≤ s.x.entry 1) ∧
      (s.isLog.entry 1 = true → Real.exp (s.x.entry 1) ≤ c_logCutoff) := by
  obtain ⟨s2, hbody, -⟩ := trivialGame_first_step
  obtain ⟨hxL, -, hx2, -⟩ := trivialGame_init (mainInit : MainState ℝ).globals (1 / 100) (-1)
  have hL : (trivialGame ℝ).MixedProfileLength = 1 := by decide
  have hafter : TracePathAfter Real.sqrt Real.exp Real.log (mainInit : MainState ℝ).globals
      (trivialGame ℝ) 2 1 1
      (TracePathInit Real.sqrt Real.exp Real.log (mainInit : MainState ℝ).globals
        (trivialGame ℝ) (trivialGame ℝ).centroid (1 / 100) (-1)) = some s2 := by
    rw [TracePathAfter, hxL, hx2, if_pos (by norm_num), hbody]
    rfl
  refine ⟨s2, hafter, (coordinate_policy (mainInit : MainState ℝ).globals (trivialGame ℝ)
    (trivialGame ℝ).centroid (1 / 100) (-1) 2 1 1 s2 ?_ hafter ?_).2.2.1 1 (le_refl 1)
    (by rw [hL])⟩
  · intro k hk1 hk2
    rw [hL] at hk2
    obtain rfl : k = 1 := by omega
    rw [trivialGame_centroid]
    norm_num
  · intro m s1 c hm h1 hc _ k hk1 hk2 _
    rw [hL] at hk2
    obtain rfl : k = 1 := by omega
    obtain rfl : m = 0 := by omega
    simp only [TracePathAfter, Option.some.injEq] at h1
    subst h1
    exact trivialGame_corrector_positive _ _ _ c hc

/-- A corrector run from a point of zero residual evaluates `QreLHS` at that point only. -/
theorem CorrectorPoints_on_curve (g : Game ℝ) (I : GVector Bool) (q b : GMatrix ℝ)
    (n : Nat) (u y : GVector ℝ)
    (hres : ∀ k, 1 ≤ k → k ≤ b.NumColumns →
      (QreLHS Real.exp Real.log g u I y).entry k = 0) :
    CorrectorPoints Real.sqrt Real.exp Real.log g I q b (n + 1) u y 1 0 = [u] := by
  obtain ⟨-, h2, -⟩ := NewtonStep_zero q b u (QreLHS Real.exp Real.log g u I y) hres
  unfold CorrectorPoints
  simp only [h2]
  have e1 : ¬ ((0 : ℝ) ≥ c_maxDist) := by unfold c_maxDist; norm_num
  have e2 : ¬ (1 ≥ 2 ∧ (0 : ℝ) / (0 + c_tol * c_eta) > c_maxContr) := by omega
  have e4 : (0 : ℝ) ≤ c_tol := by unfold c_tol; norm_num
  simp only [e1, e2, e4, if_true, if_false]

/-! ## Termination of the corrector loop (C23) -/

/-- C23: the corrector loop terminates within 18 iterations on every run on which the program
computes real numbers.  For a maximum deceleration `D > 0`, a triangular factor `b` with
non-zero pivots (no division by zero in `NewtonStep`) and a run whose iterates have positive
linear-coded coordinates (no logarithm of a non-positive number in `QreLHS`): the quotients of
the substitution loop and the logarithms taken at every iterate are genuine
(`b(k,k) * delta_k = y_k - sum_{l<k} b(l,k) * delta_l`, `exp(log-probability) = probability`),
so every Newton distance is a non-negative real; the loop started as `TracePath` starts it
(`decel = 1/D`, `iter = 1`, `disto = 0`) exits, by acceptance or rejection, no later than its
18th iteration (`Corrector` with the bound 18 returns a result, whose `decel` is positive), and
a larger bound returns the same result.  Continuing requires `c_tol < d < c_maxDist` and, from
the second iteration, `d <= c_maxContr * (d_prev + c_tol * c_eta)`, hence
`d_n <= 0.6^(n-1) * 0.4 + 1.5e-5`, which is below `c_tol` at `n = 18`. -/
theorem Corrector_terminates (cfg : Globals ℝ) (g : Game ℝ) (I : GVector Bool)
    (q b : GMatrix ℝ) (u y : GVector ℝ)
    (hD : 0 < cfg.g_maxDecel)
    (hpiv : ∀ k, 1 ≤ k → k ≤ b.NumColumns → b.entry k k ≠ 0)
    (hpos : ∀ v ∈ CorrectorPoints Real.sqrt Real.exp Real.log g I q b 18 u y 1 0,
      ∀ k, 1 ≤ k → k ≤ g.MixedProfileLength → I.entry k = false → 0 < v.entry k) :
    (∀ (y0 : GVector ℝ) (k : Nat), 1 ≤ k → k ≤ b.NumColumns →
      b.entry k k * (NewtonSolve b y0).entry k =
        y0.entry k - ∑ l ∈ Finset.Icc 1 (k - 1), b.entry l k * (NewtonSolve b y0).entry l) ∧
    (∀ v ∈ CorrectorPoints Real.sqrt Real.exp Real.log g I q b 18 u y 1 0,
      ∀ k, 1 ≤ k → k ≤ g.MixedProfileLength →
        Real.exp (logRho Real.log v I k) = rho Real.exp v I k) ∧
    (∀ d ∈ CorrectorDists Real.sqrt Real.exp Real.log g I q b 18 u y 1 0, 0 ≤ d) ∧
    (∃ c, Corrector Real.sqrt Real.exp Real.log cfg g I q b 18 u y (1 / cfg.g_maxDecel) 1 0
        = some c ∧ 0 < c.decel) ∧
    (∀ fuel, 18 ≤ fuel →
      Corrector Real.sqrt Real.exp Real.log cfg g I q b fuel u y (1 / cfg.g_maxDecel) 1 0 =
        Corrector Real.sqrt Real.exp Real.log cfg g I q b 18 u y (1 / cfg.g_maxDecel) 1 0) := by
  refine ⟨?_, ?_, ?_, ?_, ?_⟩
  · intro y0 k hk1 hk2
    have hk := (NewtonSolve_spec b y0).2.1 k hk1 hk2
    rw [hk, mul_div_cancel₀ _ (hpiv k hk1 hk2)]
  · intro v hv k hk1 hk2
    unfold logRho rho
    cases hI : I.entry k with
    | true => simp
    | false =>
      simp only [Bool.false_eq_true, if_false]
      exact Real.exp_log (hpos v hv k hk1 hk2 hI)
  · have key : ∀ (n : Nat) (u y : GVector ℝ) (iter : Nat) (disto : ℝ),
        ∀ d ∈ CorrectorDists Real.sqrt Real.exp Real.log g I q b n u y iter disto, 0 ≤ d := by
      intro n
      induction n with
      | zero =>
        intro u y iter disto d hd
        simp [CorrectorDists] at hd
      | succ n ih =>
        intro u y iter disto d hd
        have hnn : 0 ≤ (NewtonStep Real.sqrt q b u (QreLHS Real.exp Real.log g u I y)).2.2 := by
          rw [(NewtonStep_spec q b u _).2.2]
          exact Real.sqrt_nonneg _
        rw [CorrectorDists_succ] at hd
        split_ifs at hd <;>
          first
          | (rw [List.mem_singleton] at hd; rw [hd]; exact hnn)
          | (rcases List.mem_cons.mp hd with h | h
             · rw [h]; exact hnn
             · exact ih _ _ _ _ d h)
    exact key 18 u y 1 0
  · obtain ⟨c, hc⟩ := Corrector_terminates_first cfg g I q b 18 (le_refl 18) u y
      (1 / cfg.g_maxDecel) 0
    refine ⟨c, hc, lt_of_lt_of_le (by positivity) (Corrector_decel_ge Real.sqrt Real.exp
      Real.log cfg g I q b 18 u y (1 / cfg.g_maxDecel) 1 0 c hc)⟩
  · intro fuel hf
    obtain ⟨c, hc⟩ := Corrector_terminates_first cfg g I q b 18 (le_refl 18) u y
      (1 / cfg.g_maxDecel) 0
    rw [hc]
    exact Corrector_mono Real.sqrt Real.exp Real.log cfg g I q b 18 u y (1 / cfg.g_maxDecel)
      1 0 c fuel hc hf

/-- On the one-strategy game every point at which the corrector run of the first iteration
evaluates `QreLHS` has a positive coordinate. -/
theorem trivialGame_points_positive (cfg : Globals ℝ) (lam0 omega : ℝ) (n : Nat)
    (v : GVector ℝ)
    (hv : v ∈ CorrectorPoints Real.sqrt Real.exp Real.log (trivialGame ℝ)
      (TracePathInit Real.sqrt Real.exp Real.log cfg (trivialGame ℝ)
        (trivialGame ℝ).centroid lam0 omega).isLog
      (QRDecomp Real.sqrt (QreJacobian Real.exp Real.log (trivialGame ℝ)
        (Predictor (TracePathInit Real.sqrt Real.exp Real.log cfg (trivialGame ℝ)
          (trivialGame ℝ).centroid lam0 omega))
        (TracePathInit Real.sqrt Real.exp Real.log cfg (trivialGame ℝ)
          (trivialGame ℝ).centroid lam0 omega).isLog
        (TracePathInit Real.sqrt Real.exp Real.log cfg (trivialGame ℝ)
          (trivialGame ℝ).centroid lam0 omega).b)
        (TracePathInit Real.sqrt Real.exp Real.log cfg (trivialGame ℝ)
          (trivialGame ℝ).centroid lam0 omega).q).2
      (QRDecomp Real.sqrt (QreJacobian Real.exp Real.log (trivialGame ℝ)
        (Predictor (TracePathInit Real.sqrt Real.exp Real.log cfg (trivialGame ℝ)
          (trivialGame ℝ).centroid lam0 omega))
        (TracePathInit Real.sqrt Real.exp Real.log cfg (trivialGame ℝ)
          (trivialGame ℝ).centroid lam0 omega).isLog
        (TracePathInit Real.sqrt Real.exp Real.log cfg (trivialGame ℝ)
          (trivialGame ℝ).centroid lam0 omega).b)
        (TracePathInit Real.sqrt Real.exp Real.log cfg (trivialGame ℝ)
          (trivialGame ℝ).centroid lam0 omega).q).1
      (n + 1)
      (Predictor (TracePathInit Real.sqrt Real.exp Real.log cfg (trivialGame ℝ)
        (trivialGame ℝ).centroid lam0 omega))
      (TracePathInit Real.sqrt Real.exp Real.log cfg (trivialGame ℝ)
        (trivialGame ℝ).centroid lam0 omega).y 1 0) :
    0 < v.entry 1 := by
  rw [CorrectorPoints_on_curve _ _ _ _ _ _ _ (by
    intro k hk1 hk2
    rw [(QRDecomp_dims _ _).2, (QreJacobian_dims _ _ _ _ _ _).2,
      (trivialGame_init cfg lam0 omega).2.2.2.2.2.2] at hk2
    exact trivialGame_residual cfg lam0 omega k hk1 hk2), List.mem_singleton] at hv
  obtain ⟨hxL, hx1, -, -, ht1, -, -⟩ := trivialGame_init cfg lam0 omega
  rw [hv, (Predictor_spec _).2 1, hxL, if_pos (by omega), hx1, ht1]
  norm_num

/-- Witness for C23: the corrector run of the first iteration of the default run on the
one-strategy game (`lambda0 = 0`, `omega = 1`), whose factor has the pivot 1 and whose only
iterate has the coordinate 1. -/
theorem Corrector_terminates_witness :
    ∃ c, Corrector Real.sqrt Real.exp Real.log (mainInit : MainState ℝ).globals (trivialGame ℝ)
      (TracePathInit Real.sqrt Real.exp Real.log (mainInit : MainState ℝ).globals
        (trivialGame ℝ) (trivialGame ℝ).centroid 0 1).isLog
      (QRDecomp Real.sqrt (QreJacobian Real.exp Real.log (trivialGame ℝ)
        (Predictor (TracePathInit Real.sqrt Real.exp Real.log (mainInit : MainState ℝ).globals
          (trivialGame ℝ) (trivialGame ℝ).centroid 0 1))
        (TracePathInit Real.sqrt Real.exp Real.log (mainInit : MainState ℝ).globals
          (trivialGame ℝ) (trivialGame ℝ).centroid 0 1).isLog
        (TracePathInit Real.sqrt Real.exp Real.log (mainInit : MainState ℝ).globals
          (trivialGame ℝ) (trivialGame ℝ).centroid 0 1).b)
        (TracePathInit Real.sqrt Real.exp Real.log (mainInit : MainState ℝ).globals
          (trivialGame ℝ) (trivialGame ℝ).centroid 0 1).q).2
      (QRDecomp Real.sqrt (QreJacobian Real.exp Real.log (trivialGame ℝ)
        (Predictor (TracePathInit Real.sqrt Real.exp Real.log (mainInit : MainState ℝ).globals
          (trivialGame ℝ) (trivialGame ℝ).centroid 0 1))
        (TracePathInit Real.sqrt Real.exp Real.log (mainInit : MainState ℝ).globals
          (trivialGame ℝ) (trivialGame ℝ).centroid 0 1).isLog
        (TracePathInit Real.sqrt Real.exp Real.log (mainInit : MainState ℝ).globals
          (trivialGame ℝ) (trivialGame ℝ).centroid 0 1).b)
        (TracePathInit Real.sqrt Real.exp Real.log (mainInit : MainState ℝ).globals
          (trivialGame ℝ) (trivialGame ℝ).centroid 0 1).q).1
      18
      (Predictor (TracePathInit Real.sqrt Real.exp Real.log (mainInit : MainState ℝ).globals
        (trivialGame ℝ) (trivialGame ℝ).centroid 0 1))
      (TracePathInit Real.sqrt Real.exp Real.log (mainInit : MainState ℝ).globals
        (trivialGame ℝ) (trivialGame ℝ).centroid 0 1).y
      (1 / (mainInit : MainState ℝ).globals.g_maxDecel) 1 0 = some c :=
  (Corrector_terminates (mainInit : MainState ℝ).globals (trivialGame ℝ) _ _ _ _ _
    (by
      show (0 : ℝ) < 11 / 10
      norm_num)
    (by
      intro k hk1 hk2
      rw [(QRDecomp_dims _ _).2, (QreJacobian_dims _ _ _ _ _ _).2,
        (trivialGame_init (mainInit : MainState ℝ).globals 0 1).2.2.2.2.2.2] at hk2
      exact trivialGame_pivot (mainInit : MainState ℝ).globals 0 1 k hk1 hk2)
    (by
      intro v hv k hk1 hk2 _
      have hL : (trivialGame ℝ).MixedProfileLength = 1 := by decide
      rw [hL] at hk2
      obtain rfl : k = 1 := by omega
      exact trivialGame_points_positive (mainInit : MainState ℝ).globals 0 1 17 v hv)).2.2.2.1.imp
    (fun _ h => h.1)

/-- An iteration of the main loop ends `TracePath` (the `return` of lines 435 and 497) only
with a step of size at most `c_hmin` outside Newton-on-tangent mode. -/
theorem TracePathBody_ret {α : Type} [LinearOrderedField α] (sqrt exp log : α → α)
    (cfg : Globals α) (g : Game α) (cfuel : Nat) (s s2 : TraceState α)
    (h : TracePathBody sqrt exp log cfg g cfuel s = some (s2, Flow.ret)) :
    |s2.h| ≤ c_hmin ∧ s2.newton = false := by
  unfold TracePathBody at h
  dsimp only at h
  by_cases h1 : |s.h| ≤ c_hmin
  · rw [if_pos h1] at h
    by_cases h2 : s.newton = true
    · rw [if_pos h2] at h
      cases h
    · rw [if_neg h2] at h
      cases h
      exact ⟨h1, by simpa using h2⟩
  · rw [if_neg h1] at h
    split at h
    · cases h
    · rename_i c hc
      by_cases h3 : ¬ c.accept = true
      · rw [if_pos h3] at h
        by_cases h4 : |s.h / cfg.g_maxDecel| ≤ c_hmin
        · rw [if_pos h4] at h
          by_cases h5 : s.newton = true
          · rw [if_pos h5] at h
            cases h
          · rw [if_neg h5] at h
            cases h
            exact ⟨h4, by simpa using h5⟩
        · rw [if_neg h4] at h
          cases h
      · rw [if_neg h3] at h
        cases h

/-- How the main loop is left: through its guard, with `lambda` outside `[0, maxLambda)`, or
through a `return`, with a step of size at most `c_hmin` outside Newton-on-tangent mode. -/
theorem TracePathLoop_exit {α : Type} [LinearOrderedField α] (sqrt exp log : α → α)
    (cfg : Globals α) (g : Game α) (p_maxLambda : α) (cfuel fuel : Nat) (s s1 : TraceState α)
    (f : Flow)
    (h : TracePathLoop sqrt exp log cfg g p_maxLambda cfuel fuel s = some (s1, f)) :
    (f = Flow.next → ¬ (s1.x.entry s1.x.Length ≥ 0 ∧ s1.x.entry s1.x.Length < p_maxLambda)) ∧
    (f = Flow.ret → |s1.h| ≤ c_hmin ∧ s1.newton = false) := by
  induction fuel generalizing s with
  | zero => simp [TracePathLoop] at h
  | succ n ih =>
    rw [TracePathLoop] at h
    by_cases hg : s.x.entry s.x.Length ≥ 0 ∧ s.x.entry s.x.Length < p_maxLambda
    · rw [if_pos hg] at h
      cases hb : TracePathBody sqrt exp log cfg g cfuel s with
      | none =>
        rw [hb] at h
        cases h
      | some r =>
        obtain ⟨s2, f2⟩ := r
        cases f2 with
        | ret =>
          rw [hb] at h
          cases h
          exact ⟨fun hf => Flow.noConfusion hf,
            fun _ => TracePathBody_ret sqrt exp log cfg g cfuel s s1 hb⟩
        | next =>
          rw [hb] at h
          exact ih s2 h
    · rw [if_neg hg] at h
      cases h
      exact ⟨fun _ => hg, fun hf => Flow.noConfusion hf⟩

/-- The first iteration on the one-strategy game, from `lambda0` with orientation `omega`:
the step is accepted and commits `lambda0 + h * omega`. -/
theorem trivialGame_step (cfg : Globals ℝ) (lam0 omega : ℝ)
    (hh : ¬ |cfg.g_hStart| ≤ c_hmin) :
    ∃ s2, TracePathBody Real.sqrt Real.exp Real.log cfg (trivialGame ℝ) 1
        (TracePathInit Real.sqrt Real.exp Real.log cfg (trivialGame ℝ)
          (trivialGame ℝ).centroid lam0 omega) = some (s2, Flow.next) ∧
      s2.x.Length = 2 ∧ s2.x.entry 2 = lam0 + cfg.g_hStart * omega := by
  obtain ⟨hxL, -, hx2, -, -, ht2, hbc⟩ := trivialGame_init cfg lam0 omega
  have hL : (trivialGame ℝ).MixedProfileLength = 1 := by decide
  obtain ⟨s2, h1, h2, h3⟩ := TracePathBody_on_curve_lambda cfg (trivialGame ℝ)
    (TracePathInit Real.sqrt Real.exp Real.log cfg (trivialGame ℝ)
      (trivialGame ℝ).centroid lam0 omega)
    (by rw [hxL, hL]) rfl (by rw [hbc, hL]) hh (trivialGame_residual cfg lam0 omega)
  refine ⟨s2, h1, by rw [h2, hL], ?_⟩
  rw [hL] at h3
  rw [h3, hx2, ht2]
  show lam0 + cfg.g_hStart * omega * 1 = _
  ring

/-! ## Terminal-only mode, amended (C16) -/

/-- C16 (amended): terminal-only mode. For every game and all settings with a maximum
deceleration `D > 0` (so that the initial deceleration `1/D` of every corrector run is a
positive real), a run of `TracePath` with full-graph output disabled (`-e`) that returns has
left its main loop in one of two ways: through the loop guard, with `lambda` outside
`[0, maxLambda)`, and then it has emitted exactly one record, the terminal one, whose first
field is the literal `NE`; or through the `return` of lines 435/497, with a step
`|h| <= c_hmin = 1e-5` outside Newton-on-tangent mode, and then it has emitted no record. -/
theorem TracePath_terminal_mode (cfg : Globals ℝ) (g : Game ℝ) (fuel cfuel : Nat)
    (p : Nat → ℝ) (lam0 maxLam omega : ℝ) (s : TraceState ℝ)
    (hf : cfg.g_fullGraph = false) (hD : 0 < cfg.g_maxDecel)
    (h : TracePath Real.sqrt Real.exp Real.log cfg g fuel cfuel p lam0 maxLam omega = some s) :
    0 < 1 / cfg.g_maxDecel ∧
    (∃ s1 f, TracePathLoop Real.sqrt Real.exp Real.log cfg g maxLam cfuel fuel
      (TracePathInit Real.sqrt Real.exp Real.log cfg g p lam0 omega) = some (s1, f)) ∧
    (∀ s1, TracePathLoop Real.sqrt Real.exp Real.log cfg g maxLam cfuel fuel
        (TracePathInit Real.sqrt Real.exp Real.log cfg g p lam0 omega) = some (s1, Flow.next) →
      ¬ (s1.x.entry s1.x.Length ≥ 0 ∧ s1.x.entry s1.x.Length < maxLam) ∧
      s.out = [PrintProfile Real.exp Real.log cfg g s1.x s1.isLog true] ∧
      ∃ fields, s.out = [Field.NE :: fields]) ∧
    (∀ s1, TracePathLoop Real.sqrt Real.exp Real.log cfg g maxLam cfuel fuel
        (TracePathInit Real.sqrt Real.exp Real.log cfg g p lam0 omega) = some (s1, Flow.ret) →
      |s1.h| ≤ c_hmin ∧ s1.newton = false ∧ s.out = []) := by
  have hinit := (TracePathInit_point Real.sqrt Real.exp Real.log cfg g p lam0 omega).2.2.2.2.2
  rw [if_neg (by simp [hf])] at hinit
  refine ⟨by positivity, ?_, ?_, ?_⟩
  · cases hl : TracePathLoop Real.sqrt Real.exp Real.log cfg g maxLam cfuel fuel
        (TracePathInit Real.sqrt Real.exp Real.log cfg g p lam0 omega) with
    | none =>
      unfold TracePath at h
      rw [hl] at h
      cases h
    | some r => exact ⟨r.1, r.2, rfl⟩
  · intro s1 hl
    obtain ⟨l, e, hl2⟩ := TracePathLoop_out Real.sqrt Real.exp Real.log cfg g maxLam cfuel fuel
      _ _ _ hl
    have hout : s1.out = [] := by rw [e, hinit, hl2 hf]; rfl
    unfold TracePath at h
    rw [hl] at h
    simp only [hf, Bool.false_eq_true, not_false_eq_true, if_true, Option.some.injEq] at h
    have hs : s.out = [PrintProfile Real.exp Real.log cfg g s1.x s1.isLog true] := by
      rw [← h]
      show s1.out ++ _ = _
      rw [hout]
      rfl
    refine ⟨(TracePathLoop_exit Real.sqrt Real.exp Real.log cfg g maxLam cfuel fuel _ _ _
      hl).1 rfl, hs, ?_⟩
    obtain ⟨rest, hr, -⟩ := PrintProfile_fields Real.exp Real.log cfg g s1.x s1.isLog true
    refine ⟨List.map (fun k => Field.num (rho Real.exp s1.x s1.isLog k))
      (List.range' 1 (s1.x.Length - 1)) ++ rest, ?_⟩
    rw [hs, hr]
    simp
  · intro s1 hl
    obtain ⟨l, e, hl2⟩ := TracePathLoop_out Real.sqrt Real.exp Real.log cfg g maxLam cfuel fuel
      _ _ _ hl
    have hout : s1.out = [] := by rw [e, hinit, hl2 hf]; rfl
    obtain ⟨e1, e2⟩ := (TracePathLoop_exit Real.sqrt Real.exp Real.log cfg g maxLam cfuel fuel
      _ _ _ hl).2 rfl
    unfold TracePath at h
    rw [hl] at h
    simp only [Option.some.injEq] at h
    rw [← h]
    exact ⟨e1, e2, hout⟩

/-- Witness for C16 (amended): the run `-e -m 0.01` of `main` on the one-strategy game. The
first step commits `lambda = 0.03 >= maxLambda`, the loop is left through its guard, and
exactly one record, beginning with `NE`, is written. -/
theorem TracePath_terminal_mode_witness :
    ∃ s fields, main Real.sqrt Real.exp Real.log (listStream ℝ) [Opt.e, Opt.m (1 / 100)]
        (some (trivialGame ℝ)) (fun _ => ([], false)) 2 1 = some ⟨0, false, some s⟩ ∧
      s.out = [Field.NE :: fields] := by
  have hh : ¬ |(3 / 100 : ℝ)| ≤ c_hmin := by
    unfold c_hmin
    rw [abs_of_pos (by norm_num)]
    norm_num
  obtain ⟨s2, hbody, hL2, hlam2⟩ :=
    trivialGame_step ⟨false, ⟨0, fun _ => 0⟩, 11 / 10, 3 / 100, false⟩ 0 1 hh
  obtain ⟨hxL, -, hx2, -⟩ :=
    trivialGame_init ⟨false, ⟨0, fun _ => 0⟩, 11 / 10, 3 / 100, false⟩ 0 1
  have hloop : TracePathLoop Real.sqrt Real.exp Real.log
      ⟨false, ⟨0, fun _ => 0⟩, 11 / 10, 3 / 100, false⟩ (trivialGame ℝ) (1 / 100) 1 2
      (TracePathInit Real.sqrt Real.exp Real.log
        ⟨false, ⟨0, fun _ => 0⟩, 11 / 10, 3 / 100, false⟩ (trivialGame ℝ)
        (trivialGame ℝ).centroid 0 1) = some (s2, Flow.next) := by
    rw [TracePathLoop, hxL, hx2, if_pos (by norm_num), hbody]
    simp only []
    rw [TracePathLoop, hL2, hlam2, if_neg (by norm_num)]
  cases hT : TracePath Real.sqrt Real.exp Real.log
      ⟨false, ⟨0, fun _ => 0⟩, 11 / 10, 3 / 100, false⟩ (trivialGame ℝ) 2 1
      (trivialGame ℝ).centroid 0 (1 / 100) 1 with
  | none =>
    unfold TracePath at hT
    rw [hloop] at hT
    simp at hT
  | some s =>
    obtain ⟨fields, hfields⟩ := ((TracePath_terminal_mode
      ⟨false, ⟨0, fun _ => 0⟩, 11 / 10, 3 / 100, false⟩ (trivialGame ℝ) 2 1
      (trivialGame ℝ).centroid 0 (1 / 100) 1 s rfl
      (by
        show (0 : ℝ) < 11 / 10
        norm_num) hT).2.2.1 s2 hloop).2.2
    refine ⟨s, fields, ?_, hfields⟩
    simp only [main, mainOptions, mainInit]
    simp only [show (("" : String) ≠ "") = False from by simp, if_false]
    rw [hT]

/-- A Newton step moves no entry of `u` by more than the distance it returns. -/
theorem NewtonStep_shift (q b : GMatrix ℝ) (u y : GVector ℝ) (k : Nat) :
    |(NewtonStep Real.sqrt q b u y).1.entry k - u.entry k| ≤ (NewtonStep Real.sqrt q b u y).2.2 := by
  obtain ⟨-, h2, h3⟩ := NewtonStep_spec q b u y
  rw [h2 k, h3]
  by_cases hk : 1 ≤ k ∧ k ≤ b.NumRows
  · rw [if_pos hk]
    have e : u.entry k - ∑ l ∈ Finset.Icc 1 b.NumColumns, q.entry l k * (NewtonSolve b y).entry l
        - u.entry k = -(∑ l ∈ Finset.Icc 1 b.NumColumns, q.entry l k * (NewtonSolve b y).entry l) := by
      ring
    rw [e, abs_neg]
    apply Real.abs_le_sqrt
    exact Finset.single_le_sum
      (f := fun k => (∑ l ∈ Finset.Icc 1 b.NumColumns, q.entry l k * (NewtonSolve b y).entry l) ^ 2)
      (fun i _ => sq_nonneg _) (Finset.mem_Icc.mpr hk)
  · rw [if_neg hk, sub_self, abs_zero]
    exact Real.sqrt_nonneg _

/-- A corrector run moves no entry of `u` by more than the sum of its Newton distances. -/
theorem Corrector_shift (cfg : Globals ℝ) (g : Game ℝ) (I : GVector Bool) (q b : GMatrix ℝ)
    (k : Nat) (n : Nat) :
    ∀ (u y : GVector ℝ) (decel : ℝ) (iter : Nat) (disto : ℝ) (c : CorrectorResult ℝ),
      Corrector Real.sqrt Real.exp Real.log cfg g I q b n u y decel iter disto = some c →
      |c.u.entry k - u.entry k| ≤
        (CorrectorDists Real.sqrt Real.exp Real.log g I q b n u y iter disto).sum := by
  induction n with
  | zero =>
    intro u y decel iter disto c h
    simp [Corrector] at h
  | succ n ih =>
    intro u y decel iter disto c h
    have hs := NewtonStep_shift q b u (QreLHS Real.exp Real.log g u I y) k
    rw [Corrector_succ] at h
    rw [CorrectorDists_succ]
    by_cases h1 : (NewtonStep Real.sqrt q b u (QreLHS Real.exp Real.log g u I y)).2.2 ≥ c_maxDist
    · rw [if_pos h1] at h ⊢
      cases h
      simpa using hs
    rw [if_neg h1] at h ⊢
    by_cases h2 : iter ≥ 2 ∧ (NewtonStep Real.sqrt q b u (QreLHS Real.exp Real.log g u I y)).2.2 /
        (disto + c_tol * c_eta) > c_maxContr
    · rw [if_pos h2] at h ⊢
      cases h
      simpa using hs
    rw [if_neg h2] at h ⊢
    by_cases h3 : (NewtonStep Real.sqrt q b u (QreLHS Real.exp Real.log g u I y)).2.2 ≤ c_tol
    · rw [if_pos h3] at h ⊢
      cases h
      simpa using hs
    rw [if_neg h3] at h ⊢
    have h4 := ih _ _ _ _ _ c h
    rw [List.sum_cons]
    have tri := abs_sub_le (c.u.entry k)
      ((NewtonStep Real.sqrt q b u (QreLHS Real.exp Real.log g u I y)).1.entry k) (u.entry k)
    linarith

/-- A corrector run from a point of zero residual has the single Newton distance 0. -/
theorem CorrectorDists_on_curve (g : Game ℝ) (I : GVector Bool) (q b : GMatrix ℝ)
    (n : Nat) (u y : GVector ℝ)
    (hres : ∀ k, 1 ≤ k → k ≤ b.NumColumns →
      (QreLHS Real.exp Real.log g u I y).entry k = 0) :
    CorrectorDists Real.sqrt Real.exp Real.log g I q b (n + 1) u y 1 0 = [0] := by
  obtain ⟨-, h2, -⟩ := NewtonStep_zero q b u (QreLHS Real.exp Real.log g u I y) hres
  unfold CorrectorDists
  simp only [h2]
  have e1 : ¬ ((0 : ℝ) ≥ c_maxDist) := by unfold c_maxDist; norm_num
  have e2 : ¬ (1 ≥ 2 ∧ (0 : ℝ) / (0 + c_tol * c_eta) > c_maxContr) := by omega
  have e4 : (0 : ℝ) ≤ c_tol := by unfold c_tol; norm_num
  simp only [e1, e2, e4, if_true, if_false]

/-- The first iteration on the one-strategy game with full-graph output and without MLE mode,
from the start values `lam0`, `omega`: the step is accepted, commits
`lam0 + h * omega`, and the records written so far are those of the start point and of the
committed point. -/
theorem trivialGame_step_records (cfg : Globals ℝ) (lam0 omega : ℝ)
    (hh : ¬ |cfg.g_hStart| ≤ c_hmin) (hfg : cfg.g_fullGraph = true)
    (hml : cfg.g_maxLike = false) :
    ∃ s2, TracePathBody Real.sqrt Real.exp Real.log cfg (trivialGame ℝ) 1
        (TracePathInit Real.sqrt Real.exp Real.log cfg (trivialGame ℝ)
          (trivialGame ℝ).centroid lam0 omega) = some (s2, Flow.next) ∧
      s2.x.Length = 2 ∧ s2.x.entry 2 = lam0 + cfg.g_hStart * omega ∧
      s2.out = [[Field.num lam0, Field.num 1],
        [Field.num (lam0 + cfg.g_hStart * omega), Field.num 1]] := by
  obtain ⟨hxL, hx1, hx2, hI1, ht1, ht2, hbc⟩ := trivialGame_init cfg lam0 omega
  obtain ⟨-, -, -, hu, hhs, hom, hnew, -⟩ := TracePathInit_factor Real.sqrt Real.exp Real.log
    cfg (trivialGame ℝ) (trivialGame ℝ).centroid lam0 omega
  have hout := (TracePathInit_point Real.sqrt Real.exp Real.log cfg
    (trivialGame ℝ) (trivialGame ℝ).centroid lam0 omega).2.2.2.2.2
  have hL : (trivialGame ℝ).MixedProfileLength = 1 := by decide
  obtain ⟨pL, pE⟩ := Predictor_spec
    (TracePathInit Real.sqrt Real.exp Real.log cfg (trivialGame ℝ)
      (trivialGame ℝ).centroid lam0 omega)
  have pu1 : (Predictor (TracePathInit Real.sqrt Real.exp Real.log cfg (trivialGame ℝ)
      (trivialGame ℝ).centroid lam0 omega)).entry 1 = 1 := by
    rw [pE 1, hxL, if_pos (by omega), hx1, ht1]
    ring
  have pu2 : (Predictor (TracePathInit Real.sqrt Real.exp Real.log cfg (trivialGame ℝ)
      (trivialGame ℝ).centroid lam0 omega)).entry 2 = lam0 + cfg.g_hStart * omega := by
    rw [pE 2, hxL, if_pos (by omega), hx2, ht2, hhs, hom]
    ring
  have puL : (Predictor (TracePathInit Real.sqrt Real.exp Real.log cfg (trivialGame ℝ)
      (trivialGame ℝ).centroid lam0 omega)).Length = 2 := by
    rw [pL, hu, hL]
  have hres : ∀ k, 1 ≤ k → k ≤ (QRDecomp Real.sqrt (QreJacobian Real.exp Real.log
      (trivialGame ℝ) (Predictor (TracePathInit Real.sqrt Real.exp Real.log cfg
        (trivialGame ℝ) (trivialGame ℝ).centroid lam0 omega))
      (TracePathInit Real.sqrt Real.exp Real.log cfg (trivialGame ℝ)
        (trivialGame ℝ).centroid lam0 omega).isLog
      (TracePathInit Real.sqrt Real.exp Real.log cfg (trivialGame ℝ)
        (trivialGame ℝ).centroid lam0 omega).b)
      (TracePathInit Real.sqrt Real.exp Real.log cfg (trivialGame ℝ)
        (trivialGame ℝ).centroid lam0 omega).q).1.NumColumns →
      (QreLHS Real.exp Real.log (trivialGame ℝ)
        (Predictor (TracePathInit Real.sqrt Real.exp Real.log cfg (trivialGame ℝ)
          (trivialGame ℝ).centroid lam0 omega))
        (TracePathInit Real.sqrt Real.exp Real.log cfg (trivialGame ℝ)
          (trivialGame ℝ).centroid lam0 omega).isLog
        (TracePathInit Real.sqrt Real.exp Real.log cfg (trivialGame ℝ)
          (trivialGame ℝ).centroid lam0 omega).y).entry k = 0 := by
    intro k hk1 hk2
    rw [(QRDecomp_dims _ _).2, (QreJacobian_dims _ _ _ _ _ _).2, hbc] at hk2
    exact trivialGame_residual cfg lam0 omega k hk1 (by rw [hL]; exact hk2)
  have hsw : SwitchCoordinates Real.exp Real.log
      (Predictor (TracePathInit Real.sqrt Real.exp Real.log cfg (trivialGame ℝ)
        (trivialGame ℝ).centroid lam0 omega))
      (TracePathInit Real.sqrt Real.exp Real.log cfg (trivialGame ℝ)
        (trivialGame ℝ).centroid lam0 omega).isLog =
      (Predictor (TracePathInit Real.sqrt Real.exp Real.log cfg (trivialGame ℝ)
        (trivialGame ℝ).centroid lam0 omega),
       (TracePathInit Real.sqrt Real.exp Real.log cfg (trivialGame ℝ)
        (trivialGame ℝ).centroid lam0 omega).isLog, false) := by
    apply SwitchCoordinates_none
    intro i hi1 hi2
    rw [puL] at hi2
    have hi : i = 1 := by omega
    subst hi
    rw [hI1, pu1]
    have hc : ¬ ((1 : ℝ) < c_logCutoff) := by unfold c_logCutoff; norm_num
    simp [hc]
  have hbody := TracePathBody_on_curve_plain cfg (trivialGame ℝ) 0
    _ (by rw [hhs]; exact hh) hres hnew (fun h => Bool.noConfusion (hml.symm.trans h)) hsw
  refine ⟨_, hbody, puL, pu2, ?_⟩
  dsimp only
  rw [if_pos hfg, hout, if_pos hfg, PrintProfile_plain _ _ _ _ _ _ hml,
    PrintProfile_plain _ _ _ _ _ _ hml, hxL, puL, hx2, pu2]
  have hr : List.range' 1 (2 - 1) = [1] := rfl
  rw [hr]
  simp only [List.map, rho, hI1, hx1, pu1, Bool.false_eq_true, if_false, List.singleton_append]

/-! ## Monotonicity of lambda (C19) -/

/-- C19 (counterexample): the run `-s -0.03` of `main` on the one-strategy game, in which
`TracePath` is called as always with `lambda0 = 0` and `omega = 1`. The first
predictor-corrector step is accepted and commits `lambda = -3/100 < 0 = lambda_old`; the main
loop is then left through its guard, `main` exits with code 0, and the emitted records are
`(0, 1)` and `(-3/100, 1)`: the committed and emitted `lambda` decreases along a run that
terminates through the loop guard. -/
theorem TracePath_lambda_decreases :
    ∃ s, main Real.sqrt Real.exp Real.log (listStream ℝ) [Opt.s (-3 / 100)]
        (some (trivialGame ℝ)) (fun _ => ([], false)) 2 1 = some ⟨0, false, some s⟩ ∧
      TracePathLoop Real.sqrt Real.exp Real.log
        ⟨false, ⟨0, fun _ => 0⟩, 11 / 10, -3 / 100, true⟩ (trivialGame ℝ) 1000000 1 2
        (TracePathInit Real.sqrt Real.exp Real.log
          ⟨false, ⟨0, fun _ => 0⟩, 11 / 10, -3 / 100, true⟩ (trivialGame ℝ)
          (trivialGame ℝ).centroid 0 1) = some (s, Flow.next) ∧
      s.x.entry s.x.Length = -3 / 100 ∧
      s.out = [[Field.num 0, Field.num 1], [Field.num (-3 / 100), Field.num 1]] := by
  have hh : ¬ |(-3 / 100 : ℝ)| ≤ c_hmin := by
    unfold c_hmin
    rw [abs_of_neg (by norm_num)]
    norm_num
  obtain ⟨s2, hbody, hL2, hlam2, hout2⟩ :=
    trivialGame_step_records ⟨false, ⟨0, fun _ => 0⟩, 11 / 10, -3 / 100, true⟩ 0 1 hh rfl rfl
  obtain ⟨hxL, -, hx2, -⟩ :=
    trivialGame_init ⟨false, ⟨0, fun _ => 0⟩, 11 / 10, -3 / 100, true⟩ 0 1
  have hlam : s2.x.entry 2 = -3 / 100 := by
    rw [hlam2]
    norm_num
  have hloop : TracePathLoop Real.sqrt Real.exp Real.log
      ⟨false, ⟨0, fun _ => 0⟩, 11 / 10, -3 / 100, true⟩ (trivialGame ℝ) 1000000 1 2
      (TracePathInit Real.sqrt Real.exp Real.log
        ⟨false, ⟨0, fun _ => 0⟩, 11 / 10, -3 / 100, true⟩ (trivialGame ℝ)
        (trivialGame ℝ).centroid 0 1) = some (s2, Flow.next) := by
    rw [TracePathLoop, hxL, hx2, if_pos (by norm_num), hbody]
    simp only []
    rw [TracePathLoop, hL2, hlam, if_neg (by norm_num)]
  refine ⟨s2, ?_, hloop, by rw [hL2, hlam], ?_⟩
  · simp only [main, mainOptions, mainInit]
    simp only [show (("" : String) ≠ "") = False from by simp, if_false]
    unfold TracePath
    rw [hloop]
    simp
  · rw [hout2]
    norm_num

/-- C19 (amended): `lambda` is not monotone; an accepted step commits the `lambda` entry of
the corrected point. For every game, all settings and every iteration of the main loop whose
step is above `c_hmin` and whose corrector run, with Newton distances `d_1, ..., d_n`, accepts
(`x` and the buffer `u` having the same length `L + 1 >= 1`): the iteration continues in a
state whose `lambda_new` is the last entry of the corrected point and differs from the
predictor's `lambda_old + h * omega * t[L+1]` by at most `d_1 + ... + d_n`; hence
`lambda_new < lambda_old` whenever `h * omega * t[L+1] < -(d_1 + ... + d_n)`, and
`lambda_new >= lambda_old` whenever `h * omega * t[L+1] >= d_1 + ... + d_n`.  Nothing keeps
`h * omega * t[L+1]` non-negative: the initial step may be negative, and a step that is in
Newton-on-tangent mode after the sign change `DiffLogLike(x, t) * DiffLogLike(u, t_u) < 0`
leaves a new step `h_new` with `h_new * h < 0`. -/
theorem TracePath_lambda_step (cfg : Globals ℝ) (g : Game ℝ) (cfuel : Nat)
    (s : TraceState ℝ) (c : CorrectorResult ℝ)
    (hxu : s.x.Length = s.u.Length) (hx1 : 1 ≤ s.x.Length) (hh : ¬ |s.h| ≤ c_hmin)
    (hc : Corrector Real.sqrt Real.exp Real.log cfg g s.isLog
      (QRDecomp Real.sqrt (QreJacobian Real.exp Real.log g (Predictor s) s.isLog s.b) s.q).2
      (QRDecomp Real.sqrt (QreJacobian Real.exp Real.log g (Predictor s) s.isLog s.b) s.q).1
      cfuel (Predictor s) s.y (1 / cfg.g_maxDecel) 1 0 = some c)
    (hacc : c.accept = true) :
    ∃ s2, TracePathBody Real.sqrt Real.exp Real.log cfg g cfuel s = some (s2, Flow.next) ∧
      s2.x.Length = s.x.Length ∧
      s2.x.entry s2.x.Length = c.u.entry s.x.Length ∧
      |s2.x.entry s2.x.Length -
          (s.x.entry s.x.Length + s.h * s.p_omega * s.t.entry s.x.Length)| ≤
        (CorrectorDists Real.sqrt Real.exp Real.log g s.isLog
          (QRDecomp Real.sqrt (QreJacobian Real.exp Real.log g (Predictor s) s.isLog s.b) s.q).2
          (QRDecomp Real.sqrt (QreJacobian Real.exp Real.log g (Predictor s) s.isLog s.b) s.q).1
          cfuel (Predictor s) s.y 1 0).sum ∧
      (s.h * s.p_omega * s.t.entry s.x.Length <
          -(CorrectorDists Real.sqrt Real.exp Real.log g s.isLog
            (QRDecomp Real.sqrt (QreJacobian Real.exp Real.log g (Predictor s) s.isLog s.b)
              s.q).2
            (QRDecomp Real.sqrt (QreJacobian Real.exp Real.log g (Predictor s) s.isLog s.b)
              s.q).1
            cfuel (Predictor s) s.y 1 0).sum →
        s2.x.entry s2.x.Length < s.x.entry s.x.Length) ∧
      ((CorrectorDists Real.sqrt Real.exp Real.log g s.isLog
            (QRDecomp Real.sqrt (QreJacobian Real.exp Real.log g (Predictor s) s.isLog s.b)
              s.q).2
            (QRDecomp Real.sqrt (QreJacobian Real.exp Real.log g (Predictor s) s.isLog s.b)
              s.q).1
            cfuel (Predictor s) s.y 1 0).sum ≤ s.h * s.p_omega * s.t.entry s.x.Length →
        s.x.entry s.x.Length ≤ s2.x.entry s2.x.Length) ∧
      (s2.newton = true →
        DiffLogLike cfg.g_obsProbs s.x s.isLog s.t *
          DiffLogLike cfg.g_obsProbs c.u s.isLog
            ((QRDecomp Real.sqrt (QreJacobian Real.exp Real.log g (Predictor s) s.isLog s.b)
              s.q).2.GetRow
              (QRDecomp Real.sqrt (QreJacobian Real.exp Real.log g (Predictor s) s.isLog s.b)
                s.q).2.NumRows s.t) < 0 →
        s2.h * s.h < 0) := by
  have hcu : c.u.Length = s.x.Length := by
    rw [Corrector_Length cfg g _ _ _ _ _ _ _ _ _ c hc, (Predictor_spec s).1, hxu]
  obtain ⟨t1, -⟩ := TracePathAccept_x Real.sqrt Real.exp Real.log cfg g
    { s with
      u := c.u, y := c.y,
      b := (QRDecomp Real.sqrt (QreJacobian Real.exp Real.log g (Predictor s) s.isLog s.b)
        s.q).1,
      q := (QRDecomp Real.sqrt (QreJacobian Real.exp Real.log g (Predictor s) s.isLog s.b)
        s.q).2 } c.decel
  obtain ⟨fL, fE⟩ := SwitchCoordinates_frame Real.exp Real.log c.u s.isLog
  have hL2 : (TracePathAccept Real.sqrt Real.exp Real.log cfg g
      { s with
        u := c.u, y := c.y,
        b := (QRDecomp Real.sqrt (QreJacobian Real.exp Real.log g (Predictor s) s.isLog s.b)
          s.q).1,
        q := (QRDecomp Real.sqrt (QreJacobian Real.exp Real.log g (Predictor s) s.isLog s.b)
          s.q).2 } c.decel).x.Length = s.x.Length := by
    rw [t1]
    show (SwitchCoordinates Real.exp Real.log c.u s.isLog).1.Length = _
    rw [fL, hcu]
  have hlam : (TracePathAccept Real.sqrt Real.exp Real.log cfg g
      { s with
        u := c.u, y := c.y,
        b := (QRDecomp Real.sqrt (QreJacobian Real.exp Real.log g (Predictor s) s.isLog s.b)
          s.q).1,
        q := (QRDecomp Real.sqrt (QreJacobian Real.exp Real.log g (Predictor s) s.isLog s.b)
          s.q).2 } c.decel).x.entry
      (TracePathAccept Real.sqrt Real.exp Real.log cfg g
      { s with
        u := c.u, y := c.y,
        b := (QRDecomp Real.sqrt (QreJacobian Real.exp Real.log g (Predictor s) s.isLog s.b)
          s.q).1,
        q := (QRDecomp Real.sqrt (QreJacobian Real.exp Real.log g (Predictor s) s.isLog s.b)
          s.q).2 } c.decel).x.Length = c.u.entry s.x.Length := by
    rw [hL2, t1]
    show (SwitchCoordinates Real.exp Real.log c.u s.isLog).1.entry s.x.Length = _
    exact fE s.x.Length (by rw [hcu]; omega)
  have hpred : (Predictor s).entry s.x.Length =
      s.x.entry s.x.Length + s.h * s.p_omega * s.t.entry s.x.Length := by
    rw [(Predictor_spec s).2 s.x.Length, if_pos ⟨hx1, le_refl _⟩]
  have hshift := Corrector_shift cfg g _ _ _ s.x.Length _ _ _ _ _ _ c hc
  rw [hpred] at hshift
  have hfld := (TracePathAccept_fields Real.sqrt Real.exp Real.log cfg g
    { s with
      u := c.u, y := c.y,
      b := (QRDecomp Real.sqrt (QreJacobian Real.exp Real.log g (Predictor s) s.isLog s.b)
        s.q).1,
      q := (QRDecomp Real.sqrt (QreJacobian Real.exp Real.log g (Predictor s) s.isLog s.b)
        s.q).2 } c.decel).2.1
  have h0 : s.h ≠ 0 := by
    intro e
    apply hh
    rw [e, abs_zero]
    unfold c_hmin
    norm_num
  refine ⟨_, TracePathBody_accept Real.sqrt Real.exp Real.log cfg g cfuel s c hh hc hacc,
    hL2, hlam, ?_, ?_, ?_, ?_⟩
  · rw [hlam]
    exact hshift
  · intro hlt
    rw [hlam]
    have := (abs_le.mp hshift).2
    linarith
  · intro hge
    rw [hlam]
    have := (abs_le.mp hshift).1
    linarith
  · intro hn hab
    rw [if_pos hn] at hfld
    rw [hfld]
    exact (secant_arith s.h _ _ h0 hab).2.1

/-- Witness for C19 (amended): the first iteration of the run `-s -0.03` on the one-strategy
game from `lambda0 = 0` with `omega = 1`, which commits a `lambda` below `lambda_old`. -/
theorem TracePath_lambda_step_witness :
    ∃ s2, TracePathBody Real.sqrt Real.exp Real.log
        ⟨false, ⟨0, fun _ => 0⟩, 11 / 10, -3 / 100, true⟩ (trivialGame ℝ) 1
        (TracePathInit Real.sqrt Real.exp Real.log
          ⟨false, ⟨0, fun _ => 0⟩, 11 / 10, -3 / 100, true⟩ (trivialGame ℝ)
          (trivialGame ℝ).centroid 0 1) = some (s2, Flow.next) ∧
      s2.x.entry s2.x.Length <
        (TracePathInit Real.sqrt Real.exp Real.log
          ⟨false, ⟨0, fun _ => 0⟩, 11 / 10, -3 / 100, true⟩ (trivialGame ℝ)
          (trivialGame ℝ).centroid 0 1).x.entry
          (TracePathInit Real.sqrt Real.exp Real.log
            ⟨false, ⟨0, fun _ => 0⟩, 11 / 10, -3 / 100, true⟩ (trivialGame ℝ)
            (trivialGame ℝ).centroid 0 1).x.Length := by
  obtain ⟨hxL, -, -, -, -, ht2, hbc⟩ :=
    trivialGame_init ⟨false, ⟨0, fun _ => 0⟩, 11 / 10, -3 / 100, true⟩ 0 1
  have hres : ∀ k, 1 ≤ k → k ≤ (QRDecomp Real.sqrt (QreJacobian Real.exp Real.log
      (trivialGame ℝ) (Predictor (TracePathInit Real.sqrt Real.exp Real.log
        ⟨false, ⟨0, fun _ => 0⟩, 11 / 10, -3 / 100, true⟩
        (trivialGame ℝ) (trivialGame ℝ).centroid 0 1))
      (TracePathInit Real.sqrt Real.exp Real.log
        ⟨false, ⟨0, fun _ => 0⟩, 11 / 10, -3 / 100, true⟩ (trivialGame ℝ)
        (trivialGame ℝ).centroid 0 1).isLog
      (TracePathInit Real.sqrt Real.exp Real.log
        ⟨false, ⟨0, fun _ => 0⟩, 11 / 10, -3 / 100, true⟩ (trivialGame ℝ)
        (trivialGame ℝ).centroid 0 1).b)
      (TracePathInit Real.sqrt Real.exp Real.log
        ⟨false, ⟨0, fun _ => 0⟩, 11 / 10, -3 / 100, true⟩ (trivialGame ℝ)
        (trivialGame ℝ).centroid 0 1).q).1.NumColumns →
      (QreLHS Real.exp Real.log (trivialGame ℝ)
        (Predictor (TracePathInit Real.sqrt Real.exp Real.log
          ⟨false, ⟨0, fun _ => 0⟩, 11 / 10, -3 / 100, true⟩ (trivialGame ℝ)
          (trivialGame ℝ).centroid 0 1))
        (TracePathInit Real.sqrt Real.exp Real.log
          ⟨false, ⟨0, fun _ => 0⟩, 11 / 10, -3 / 100, true⟩ (trivialGame ℝ)
          (trivialGame ℝ).centroid 0 1).isLog
        (TracePathInit Real.sqrt Real.exp Real.log
          ⟨false, ⟨0, fun _ => 0⟩, 11 / 10, -3 / 100, true⟩ (trivialGame ℝ)
          (trivialGame ℝ).centroid 0 1).y).entry k = 0 := by
    intro k hk1 hk2
    rw [(QRDecomp_dims _ _).2, (QreJacobian_dims _ _ _ _ _ _).2, hbc] at hk2
    exact trivialGame_residual _ 0 1 k hk1 hk2
  obtain ⟨s2, hb, -, -, -, hdec, -, -⟩ := TracePath_lambda_step
    ⟨false, ⟨0, fun _ => 0⟩, 11 / 10, -3 / 100, true⟩ (trivialGame ℝ) 1
    (TracePathInit Real.sqrt Real.exp Real.log
      ⟨false, ⟨0, fun _ => 0⟩, 11 / 10, -3 / 100, true⟩ (trivialGame ℝ)
      (trivialGame ℝ).centroid 0 1) _
    (by rw [hxL]; rfl) (by rw [hxL]; norm_num)
    (by
      show ¬ |(-3 / 100 : ℝ)| ≤ c_hmin
      unfold c_hmin
      rw [abs_of_neg (by norm_num)]
      norm_num)
    (trivialGame_corrector ⟨false, ⟨0, fun _ => 0⟩, 11 / 10, -3 / 100, true⟩ 0 1) rfl
  refine ⟨s2, hb, hdec ?_⟩
  rw [CorrectorDists_on_curve _ _ _ _ 0 _ _ hres, hxL, ht2]
  show (-3 / 100 : ℝ) * 1 * 1 < -([0] : List ℝ).sum
  norm_num

end Gambit
